import Mathlib

/-!
# xpjson: a Lean model of `xpjson.hpp`

The narrow (`char`) instantiation of the library is modelled.

* A text unit is a byte, kept as a `Nat` in `0..255`; a `tstring` is a list of
  bytes.  `char` is taken to be signed, as on x86-64: a byte `≥ 0x80` is a
  negative `char`.
* A buffer handed to `read` is the `data()` of a `std::string`: the C library
  functions that scan past the given length meet a NUL there, which the model
  renders as the end of the list.
* C++ exceptions are the `Except.error` results; behaviour that C++ leaves
  undefined (a call through a garbage member pointer, a container access
  through the wrong union member) is the outcome `Error.Undefined`.
* The bit-fields `_sso`, `_dma`, `_e` of a string are kept as the logical
  fields `Storage` and `e`.  The anonymous union lays the 4-bit `_sso_len`
  over `_dma` (bit 0) and `_e` (bit 1): of an inline string the field `e` of
  the model is not read, and where the code reads `_e` after a write to
  `_sso_len` (`read_string`, the const `s()`) the model takes the bit of the
  length (`sso_e`).  The width of `_sso_len` is modelled: `length()` of an
  inline string is what the signed 4-bit field holds.
* The units behind the content of an inline (`_sso_s`) or borrowed (`_d`)
  string are not part of the model: a C library function that scans past the
  content there has the outcome `Error.NotModelled`.
* A `double` is kept as the decimal text it was converted from; floating-point
  arithmetic is not modelled.  The conversion of such a text to the nearest
  `double` and from there to `int64_t` is exact arithmetic on rationals.
* Of the wide (`wchar_t`) instantiation, `encode`, `decode` and the comparison
  of strings are modelled, for the claims on them.
* Containers are lists without a bound on their length: the limits of
  allocation are not modelled.
-/

namespace JSON

/-- A narrow string: the bytes of a `std::string`. -/
abbrev tstring := List Nat

/-- The exceptions of the library, with the two outcomes that are not exceptions. -/
inductive Error where
  /-- `JSON_PARSE_CHECK` failed at offset `pos`. -/
  | ParseError (pos : Nat)
  /-- `JSON_DECODE_CHECK` or `hex_to_int` failed. -/
  | DecodeError
  /-- The C++ behaviour is undefined at this point. -/
  | Undefined
  /-- Model only: the iteration budget of a loop ran out. -/
  | Fuel
  /-- `JSON_CHECK_TYPE` failed. -/
  | TypeError
  /-- The check of `internal_type_casting` failed ("Type-casting error"). -/
  | TypeCastError
  /-- The `std::length_error` of the C++ library. -/
  | LengthError
  /-- Model only: the outcome of a C library function is left out of the model,
  for the form of its input or for the memory it scans. -/
  | NotModelled
  /-- The `std::underflow_error` of `operator[]` ("Array index underflow"). -/
  | UnderflowError
  deriving DecidableEq

namespace detail

/-- Source: `int_to_hex`, `n["0123456789abcdef"]`. -/
def int_to_hex (n : Nat) : Nat :=
  [0x30, 0x31, 0x32, 0x33, 0x34, 0x35, 0x36, 0x37, 0x38, 0x39,
   0x61, 0x62, 0x63, 0x64, 0x65, 0x66].getD n 0

/-- Source: `to_hex`. -/
def to_hex (ch : Nat) (out : tstring) : tstring :=
  out ++ [int_to_hex ((ch >>> 4) &&& 0xF), int_to_hex (ch &&& 0xF)]

/-- Source: `encode_unicode<1, char>`. -/
def encode_unicode (ch : Nat) (out : tstring) : tstring :=
  to_hex ch (out ++ [0x5c, 0x75, 0x30, 0x30])

/-- Source: `encode(const char*, size_t, string&)`; the `switch` of one unit. -/
def encode_unit (c : Nat) (out : tstring) : tstring :=
  if c = 0x22 then out ++ [0x5c, 0x22]
  else if c = 0x5c then out ++ [0x5c, 0x5c]
  else if c = 0x2f then out ++ [0x5c, 0x2f]
  else if c = 0x08 then out ++ [0x5c, 0x62]
  else if c = 0x0c then out ++ [0x5c, 0x66]
  else if c = 0x0a then out ++ [0x5c, 0x6e]
  else if c = 0x0d then out ++ [0x5c, 0x72]
  else if c = 0x09 then out ++ [0x5c, 0x74]
  else if c ∈ [0, 1, 2, 3, 4, 5, 6, 7, 11, 14, 15, 16, 17, 18, 19] then encode_unicode c out
  else out ++ [c]

/-- Source: `encode(const char*, size_t, string&)`. -/
def encode : List Nat → tstring → tstring
  | [], out => out
  | c :: rest, out => encode rest (encode_unit c out)

/-- Source: `hex_to_int`. -/
def hex_to_int (ch : Nat) : Except Error Nat :=
  if 0x30 ≤ ch ∧ ch ≤ 0x39 then .ok (ch - 0x30)
  else if 0x61 ≤ ch ∧ ch ≤ 0x66 then .ok (ch - 0x61 + 10)
  else if 0x41 ≤ ch ∧ ch ≤ 0x46 then .ok (ch - 0x41 + 10)
  else .error .DecodeError

/-- Source: `hex_to_ushort`; `inp` is the buffer from `in` on, its length is `len`. -/
def hex_to_ushort (inp : List Nat) : Except Error Nat :=
  match inp with
  | c0 :: c1 :: c2 :: c3 :: _ =>
    match hex_to_int c0, hex_to_int c1, hex_to_int c2, hex_to_int c3 with
    | .ok h0, .ok h1, .ok h2, .ok h3 =>
      let highByte := ((h0 <<< 4) ||| h1) % 256
      let lowByte := ((h2 <<< 4) ||| h3) % 256
      .ok (((highByte <<< 8) ||| lowByte) % 65536)
    | _, _, _, _ => .error .DecodeError
  | _ => .error .DecodeError

/-- Source: `decode_unicode_append<char>`; `ui` is an `unsigned int`. -/
def decode_unicode_append (ui : Nat) (out : tstring) : tstring :=
  if ui ≤ 0x7F then
    out ++ [ui &&& 0x7F]
  else if ui ≥ 0x80 ∧ ui ≤ 0x7FF then
    out ++ [((ui >>> 6) &&& 0x1F) ||| 0xC0, (ui &&& 0x3F) ||| 0x80]
  else if ui ≥ 0x800 ∧ ui ≤ 0xFFFF then
    out ++ [((ui >>> 12) &&& 0x0F) ||| 0xE0, ((ui >>> 6) &&& 0x3F) ||| 0x80,
            (ui &&& 0x3F) ||| 0x80]
  else if ui ≥ 0x10000 ∧ ui ≤ 0x1FFFFF then
    out ++ [((ui >>> 18) &&& 0x07) ||| 0xF0, ((ui >>> 12) &&& 0x3F) ||| 0x80,
            ((ui >>> 6) &&& 0x3F) ||| 0x80, (ui &&& 0x3F) ||| 0x80]
  else if ui ≥ 0x200000 ∧ ui ≤ 0x3FFFFFF then
    out ++ [((ui >>> 24) &&& 0x03) ||| 0xF8, ((ui >>> 18) &&& 0x3F) ||| 0x80,
            ((ui >>> 12) &&& 0x3F) ||| 0x80, ((ui >>> 6) &&& 0x3F) ||| 0x80,
            (ui &&& 0x3F) ||| 0x80]
  else if ui ≥ 0x4000000 ∧ ui ≤ 0x7FFFFFFF then
    out ++ [((ui >>> 30) &&& 0x01) ||| 0xFC, ((ui >>> 24) &&& 0x3F) ||| 0x80,
            ((ui >>> 18) &&& 0x3F) ||| 0x80, ((ui >>> 12) &&& 0x3F) ||| 0x80,
            ((ui >>> 6) &&& 0x3F) ||| 0x80, (ui &&& 0x3F) ||| 0x80]
  else out

/-- Source: `decode_unicode`; `inp` is the buffer from `in` on.  The result is
the returned count (4 or 10) and the new `out`. -/
def decode_unicode (inp : List Nat) (out : tstring) : Except Error (Nat × tstring) :=
  match hex_to_ushort inp with
  | .error e => .error e
  | .ok ui =>
    if ui ≥ 0xD800 ∧ ui < 0xDC00 then
      if inp.length ≥ 6 ∧ inp.getD 4 0 = 0x5c ∧ inp.getD 5 0 = 0x75 then
        match hex_to_ushort (inp.drop 6) with
        | .error e => .error e
        | .ok lo =>
          .ok (10, decode_unicode_append
                (((((ui &&& 0x3FF) <<< 10) % 2 ^ 32) + ((lo &&& 0x3FF) + 0x10000)) % 2 ^ 32) out)
      else .error .DecodeError
    else .ok (4, decode_unicode_append ui out)

/-- Source: the `for` loop of `decode`.  `rest` is the buffer from `in + pos`
on, so the loop ends when `rest` is empty; `pos` is kept for the error
message.  Every iteration consumes a unit, so a budget of `len` is enough. -/
def decodeLoop : Nat → Nat → List Nat → tstring → Except Error tstring
  | 0, _, rest, out =>
    match rest with
    | [] => .ok out
    | _ :: _ => .error .Fuel
  | fuel + 1, pos, rest, out =>
    match rest with
    | [] => .ok out
    | c :: rest =>
      if c = 0x5c then
        match rest with
        | [] => .error (.ParseError pos)
        | d :: rest2 =>
          if d = 0x22 then decodeLoop fuel (pos + 2) rest2 (out ++ [0x22])
          else if d = 0x5c then decodeLoop fuel (pos + 2) rest2 (out ++ [0x5c])
          else if d = 0x2f then decodeLoop fuel (pos + 2) rest2 (out ++ [0x2f])
          else if d = 0x62 then decodeLoop fuel (pos + 2) rest2 (out ++ [0x08])
          else if d = 0x66 then decodeLoop fuel (pos + 2) rest2 (out ++ [0x0c])
          else if d = 0x6e then decodeLoop fuel (pos + 2) rest2 (out ++ [0x0a])
          else if d = 0x72 then decodeLoop fuel (pos + 2) rest2 (out ++ [0x0d])
          else if d = 0x74 then decodeLoop fuel (pos + 2) rest2 (out ++ [0x09])
          else if d = 0x75 then
            match decode_unicode rest2 out with
            | .error e => .error e
            | .ok (n, out2) => decodeLoop fuel (pos + 1 + n + 1) (rest2.drop n) out2
          else .error (.ParseError (pos + 1))
      else decodeLoop fuel (pos + 1) rest (out ++ [c])

/-- Source: `decode`. -/
def decode (inp : List Nat) (out : tstring) : Except Error tstring :=
  decodeLoop inp.length 0 inp out

/-- Source: `check_need_conv<char>`, `ch == '\\' || ch < 0x20` on a signed
`char`: a byte from `0x80` on is a negative `char`. -/
def check_need_conv (ch : Nat) : Bool :=
  ch == 0x5c || ch < 0x20 || ch ≥ 0x80

end detail

/-- Source: `enum Type` (`Type` is reserved in Lean). -/
inductive ValueType where
  | NIL | BOOLEAN | INTEGER | FLOAT | STRING | OBJECT | ARRAY
  deriving DecidableEq

/-- The three storage strategies of a string: `_sso` set; `_sso` clear and
`_dma` set; both clear (the `tstring` behind `_s` is owned). -/
inductive Storage where
  | sso | dma | owned
  deriving DecidableEq

/-- A `double`, kept as the decimal text that `strtod` converted. -/
structure Dbl where
  text : List Nat
  deriving DecidableEq

/-- Source: `ValueT<char>`.  An object is the `std::map` in iteration order,
an array the `std::deque` in index order. -/
inductive Value where
  | NIL
  | BOOLEAN (b : Bool)
  | INTEGER (i : Int)
  | FLOAT (f : Dbl)
  | STRING (st : Storage) (e : Bool) (s : tstring)
  | OBJECT (o : List (tstring × Value))
  | ARRAY (a : List Value)

/-- Source: `ValueT::type`. -/
def Value.type : Value → ValueType
  | .NIL => .NIL
  | .BOOLEAN _ => .BOOLEAN
  | .INTEGER _ => .INTEGER
  | .FLOAT _ => .FLOAT
  | .STRING _ _ _ => .STRING
  | .OBJECT _ => .OBJECT
  | .ARRAY _ => .ARRAY

/-- Source: `std::string::operator<`, the order of the keys of `ObjectT`:
unit by unit as unsigned bytes, a proper prefix first. -/
def key_lt : tstring → tstring → Bool
  | [], [] => false
  | [], _ :: _ => true
  | _ :: _, [] => false
  | a :: as, b :: bs => decide (a < b) || (a == b && key_lt as bs)

/-- Source: `std::map::find` on an `ObjectT`. -/
def map_find : List (tstring × Value) → tstring → Option Value
  | [], _ => none
  | (k, v) :: tl, key => if k = key then some v else map_find tl key

/-- The `std::map` with `key` bound to `v`: the entry of `key` is overwritten
when there is one, and otherwise a new entry is put at its place in key order. -/
def map_set : List (tstring × Value) → tstring → Value → List (tstring × Value)
  | [], key, v => [(key, v)]
  | (k, w) :: tl, key, v =>
    if k = key then (k, v) :: tl
    else if key_lt key k then (key, v) :: (k, w) :: tl
    else (k, w) :: map_set tl key v

/-- Source: the escape modes `AUTO_DETECT`, `DONT_ESCAPE`, `NEED_ESCAPE`. -/
def AUTO_DETECT : Int := -1

/-- Source: `DONT_ESCAPE`. -/
def DONT_ESCAPE : Int := 0

/-- Source: `NEED_ESCAPE`. -/
def NEED_ESCAPE : Int := 1

/-- Source: the `AUTO_DETECT` scan of `ValueT::assign`; the final value of
`escape`. -/
def auto_detect : List Nat → Int
  | [] => 0
  | c :: rest => if detail.check_need_conv c then 1 else auto_detect rest

/-- Source: `ValueT::assign(const char_t*, size_t, int, bool)`; the String the
Value holds afterwards. -/
def assign (s : tstring) (escape : Int) (dma : Bool) : Value :=
  let escape := if escape = AUTO_DETECT then auto_detect s else escape
  if escape ≠ 0 then .STRING .owned true s
  else if dma ∧ s.length ≤ 4294967295 then .STRING .dma false s
  else if s.length ≤ 15 then .STRING .sso false s
  else .STRING .owned false s

/-- Source: `to_string<int64_t, char>`, `snprintf` with `%lld`. -/
def to_string_int64 (i : Int) (out : tstring) : tstring :=
  match i with
  | .ofNat n => out ++ (Nat.toDigits 10 n).map Char.toNat
  | .negSucc n => out ++ 0x2d :: (Nat.toDigits 10 (n + 1)).map Char.toNat

/-- The closing step of `WriterT::write`: the last unit becomes `close` unless
it is `open`, in which case `close` is appended. -/
def close_container (opn cls : Nat) (out : tstring) : tstring :=
  if out.getLast? ≠ some opn then out.dropLast ++ [cls] else out ++ [cls]

/-- Source: `int _sso_len : 4` and the assignment `_sso_len = l`: the value the
signed 4-bit field holds afterwards, `l` reduced modulo 16 into `-8..7`. -/
def sso_len (l : Nat) : Int :=
  ((l + 8) % 16 : Nat) - 8

/-- Source: the anonymous union of `ValueT`, `struct { mutable bool _dma : 1;
bool _e : 1; char : 2; }` over `int _sso_len : 4`: what `_e` reads after
`_sso_len = l`, bit 1 of the field. -/
def sso_e (l : Nat) : Bool :=
  (l / 2) % 2 == 1

/-- The conversion of an `int` to `uint64_t`. -/
def to_uint64 (i : Int) : Nat :=
  (i % 2 ^ 64).toNat

/-- Source: `ValueT::length` on a String: `_sso_len`, `_dma_len` (an `unsigned
int`, set by `_dma_len = l`) or `_s->length()`.  `assign` is what sets the two
fields, from the length of the content. -/
def string_length : Storage → tstring → Nat
  | .sso, s => to_uint64 (sso_len s.length)
  | .dma, s => s.length % 2 ^ 32
  | .owned, s => s.length

/-- Source: `ValueT::length`. -/
def Value.length : Value → Except Error Nat
  | .STRING st _ s => .ok (string_length st s)
  | _ => .error .TypeError

/-- Source: `ValueT::c_str`; the result is the content stored at the pointer
that is returned: `_sso_s`, `_d` or `_s->c_str()`. -/
def Value.c_str : Value → Except Error tstring
  | .STRING _ _ s => .ok s
  | _ => .error .TypeError

/-- Modelled from the C++ standard library: `out.append(p, n)` of a
`std::string`, and likewise the constructor `tstring(p, n)`, where `content` is
what is stored at `p`.  A length that would pass `max_size()` (which is below
`2 ^ 63`) throws `std::length_error`; reading past the content is undefined. -/
def string_append (out content : tstring) (n : Nat) : Except Error tstring :=
  if n ≤ content.length then .ok (out ++ content.take n)
  else if out.length + n < 2 ^ 63 then .error .Undefined
  else .error .LengthError

mutual
/-- Source: `ValueT::write`.  `fmt` stands for `to_string<double, char>`
(`snprintf` with `%.16g`), which is not modelled. -/
def Value.write (fmt : Dbl → tstring) : Value → tstring → Except Error tstring
  | .NIL, out => .ok (out ++ [0x6e, 0x75, 0x6c, 0x6c])
  | .INTEGER i, out => .ok (to_string_int64 i out)
  | .FLOAT f, out => .ok (out ++ fmt f)
  | .OBJECT o, out =>
    match write_members fmt o (out ++ [0x7b]) with
    | .error err => .error err
    | .ok out2 => .ok (close_container 0x7b 0x7d out2)
  | .ARRAY a, out =>
    match write_elems fmt a (out ++ [0x5b]) with
    | .error err => .error err
    | .ok out2 => .ok (close_container 0x5b 0x5d out2)
  | .BOOLEAN b, out =>
    .ok (out ++ (if b then [0x74, 0x72, 0x75, 0x65] else [0x66, 0x61, 0x6c, 0x73, 0x65]))
  | .STRING st e s, out =>
    if st = .owned ∧ e = true then .ok (detail.encode s (out ++ [0x22]) ++ [0x22])
    else
      match string_append (out ++ [0x22]) s (string_length st s) with
      | .error err => .error err
      | .ok out2 => .ok (out2 ++ [0x22])
/-- Source: the `for` loop of `WriterT::write(const ObjectT&)`. -/
def write_members (fmt : Dbl → tstring) :
    List (tstring × Value) → tstring → Except Error tstring
  | [], out => .ok out
  | (k, v) :: tl, out =>
    match v.write fmt ((detail.encode k (out ++ [0x22])) ++ [0x22, 0x3a]) with
    | .error err => .error err
    | .ok out2 => write_members fmt tl (out2 ++ [0x2c])
/-- Source: the `for` loop of `WriterT::write(const ArrayT&)`. -/
def write_elems (fmt : Dbl → tstring) : List Value → tstring → Except Error tstring
  | [], out => .ok out
  | v :: tl, out =>
    match v.write fmt out with
    | .error err => .error err
    | .ok out2 => write_elems fmt tl (out2 ++ [0x2c])
end

/-- Source: `case_white_space`: space, LF, CR, tab. -/
def white_space (c : Nat) : Bool :=
  c == 0x20 || c == 0x0a || c == 0x0d || c == 0x09

/-- Source: `case_number_1_9`. -/
def number_1_9 (c : Nat) : Bool :=
  decide (0x31 ≤ c) && decide (c ≤ 0x39)

/-- Source: `case_number_0_9`; also `isdigit`. -/
def number_0_9 (c : Nat) : Bool :=
  c == 0x30 || number_1_9 c

/-- Source: `case_number_ending`: white space, `,`, `]`, `}`. -/
def number_ending (c : Nat) : Bool :=
  white_space c || c == 0x2c || c == 0x5d || c == 0x7d

/-- The C library `isspace` in the C locale. -/
def isspace (c : Nat) : Bool :=
  c == 0x20 || (decide (0x09 ≤ c) && decide (c ≤ 0x0d))

/-- The value of a run of decimal digits, most significant first. -/
def digits_value (ds : List Nat) : Nat :=
  ds.foldl (fun acc d => 10 * acc + (d - 0x30)) 0

/-- The length of the optional sign `+`/`-` at the head of a text. -/
def sign_length : List Nat → Nat
  | c :: _ => if c = 0x2d ∨ c = 0x2b then 1 else 0
  | [] => 0

/-- Modelled from the C standard: `strtoll(in, &end, 10)` (`detail::ttoi64`),
which is not part of the repository.  White space is skipped, then an optional
sign and the longest run of digits are converted; the value is clamped to the
`long long` range.  The result is the value and `end - in`, which is 0 when
there is no digit. -/
def ttoi64 (inp : List Nat) : Int × Nat :=
  let ws := (inp.takeWhile isspace).length
  let s1 := inp.drop ws
  let sg := sign_length s1
  let ds := (s1.drop sg).takeWhile number_0_9
  if ds.length = 0 then (0, 0)
  else
    let v : Int := if s1.head? = some 0x2d then -(digits_value ds : Int) else (digits_value ds : Int)
    (max (-(2 : Int) ^ 63) (min v ((2 : Int) ^ 63 - 1)), ws + sg + ds.length)

/-- The length of the exponent part `e`/`E`, optional sign, digits at the
head of a text; 0 when no digit follows. -/
def exponent_length : List Nat → Nat
  | c :: rest =>
    if c = 0x65 ∨ c = 0x45 then
      let sg := sign_length rest
      let ds := (rest.drop sg).takeWhile number_0_9
      if ds.length = 0 then 0 else 1 + sg + ds.length
    else 0
  | [] => 0

/-- The length of the fraction part `.`, digits at the head of a text, `d1`
being the number of digits before it; 0 when there is no digit on either side. -/
def fraction_length (d1 : Nat) : List Nat → Nat
  | c :: rest =>
    if c = 0x2e then
      if d1 = 0 ∧ (rest.takeWhile number_0_9).length = 0 then 0
      else 1 + (rest.takeWhile number_0_9).length
    else 0
  | [] => 0

/-- Modelled from the C standard: `strtod(in, &end)` (`detail::ttod`) in the C
locale, decimal form: white space, an optional sign, digits with an optional
`.` and further digits (one digit at least), and an exponent part when it is
complete.  The hexadecimal, infinity and NaN forms begin with `0x`, `i` or `n`
after the sign; `read_number` never passes such a text.  The result is the
converted text as the `double` and `end - in`. -/
def ttod (inp : List Nat) : Dbl × Nat :=
  let ws := (inp.takeWhile isspace).length
  let s1 := inp.drop ws
  let sg := sign_length s1
  let s2 := s1.drop sg
  let d1 := (s2.takeWhile number_0_9).length
  let s3 := s2.drop d1
  let fr := fraction_length d1 s3
  if d1 = 0 ∧ fr = 0 then (⟨[]⟩, 0)
  else
    let ex := exponent_length (s3.drop fr)
    (⟨s1.take (sg + d1 + fr + ex)⟩, ws + sg + d1 + fr + ex)

/-- Source: the states of `read_number`. -/
inductive NumState where
  | NONE | SIGN | ZERO | DIGIT | POINT | DIGIT_FRAC | EXP | EXP_SIGN | DIGIT_EXP
  deriving DecidableEq

/-- Source: `read_number` from `GOTO_END` on.  `inp` is the whole buffer of the
call, `pos` the offset reached. -/
def read_number_end (inp : List Nat) (state : NumState) (start pos : Nat) :
    Except Error (Nat × Value) :=
  match state with
  | .ZERO | .DIGIT =>
    if start + (ttoi64 (inp.drop start)).2 = pos then .ok (pos, .INTEGER (ttoi64 (inp.drop start)).1)
    else .error (.ParseError pos)
  | .DIGIT_FRAC | .DIGIT_EXP =>
    if start + (ttod (inp.drop start)).2 = pos then .ok (pos, .FLOAT (ttod (inp.drop start)).1)
    else .error (.ParseError pos)
  | _ => .error (.ParseError pos)

/-- Source: the `while` loop of `read_number`; `rest` is the buffer from
`in + pos` on. -/
def read_number_loop (inp : List Nat) : NumState → Nat → Nat → List Nat → Except Error (Nat × Value)
  | state, start, pos, [] => read_number_end inp state start pos
  | .NONE, start, pos, c :: rest =>
    if c = 0x2d then read_number_loop inp .SIGN pos (pos + 1) rest
    else if c = 0x30 then read_number_loop inp .ZERO pos (pos + 1) rest
    else if number_1_9 c then read_number_loop inp .DIGIT pos (pos + 1) rest
    else if white_space c then read_number_loop inp .NONE start (pos + 1) rest
    else .error (.ParseError pos)
  | .SIGN, start, pos, c :: rest =>
    if c = 0x30 then read_number_loop inp .ZERO start (pos + 1) rest
    else if number_1_9 c then read_number_loop inp .DIGIT start (pos + 1) rest
    else .error (.ParseError pos)
  | .ZERO, start, pos, c :: rest =>
    if c = 0x30 then .error (.ParseError pos)
    else if c = 0x2e then read_number_loop inp .POINT start (pos + 1) rest
    else if number_ending c then read_number_end inp .ZERO start pos
    else .error (.ParseError pos)
  | .DIGIT, start, pos, c :: rest =>
    if number_0_9 c then read_number_loop inp .DIGIT start (pos + 1) rest
    else if c = 0x2e then read_number_loop inp .POINT start (pos + 1) rest
    else if number_ending c then read_number_end inp .DIGIT start pos
    else .error (.ParseError pos)
  | .POINT, start, pos, c :: rest =>
    if number_0_9 c then read_number_loop inp .DIGIT_FRAC start (pos + 1) rest
    else .error (.ParseError pos)
  | .DIGIT_FRAC, start, pos, c :: rest =>
    if number_0_9 c then read_number_loop inp .DIGIT_FRAC start (pos + 1) rest
    else if c = 0x65 ∨ c = 0x45 then read_number_loop inp .EXP start (pos + 1) rest
    else if number_ending c then read_number_end inp .DIGIT_FRAC start pos
    else read_number_loop inp .DIGIT_FRAC start (pos + 1) rest
  | .EXP, start, pos, c :: rest =>
    if number_0_9 c then read_number_loop inp .DIGIT_EXP start (pos + 1) rest
    else if c = 0x2b ∨ c = 0x2d then read_number_loop inp .EXP_SIGN start (pos + 1) rest
    else .error (.ParseError pos)
  | .EXP_SIGN, start, pos, c :: rest =>
    if number_0_9 c then read_number_loop inp .DIGIT_EXP start (pos + 1) rest
    else .error (.ParseError pos)
  | .DIGIT_EXP, start, pos, c :: rest =>
    if number_0_9 c then read_number_loop inp .DIGIT_EXP start (pos + 1) rest
    else if number_ending c then read_number_end inp .DIGIT_EXP start pos
    else read_number_loop inp .DIGIT_EXP start (pos + 1) rest

/-- Source: `ValueT::read_number`; the result is the returned offset and the
Value the slot holds afterwards. -/
def read_number (inp : List Nat) (_dma : Bool) : Except Error (Nat × Value) :=
  read_number_loop inp .NONE 0 0 inp

/-- Source: the `while` loop of `read_nil`; `rest` is the buffer from
`in + pos` on, so `len - pos` is its length. -/
def read_nil_loop : Nat → List Nat → Except Error (Nat × Value)
  | pos, [] => .error (.ParseError pos)
  | pos, c :: rest =>
    if c = 0x6e then
      if (c :: rest).length ≥ 4 then
        if (c :: rest).take 4 = [0x6e, 0x75, 0x6c, 0x6c] then .ok (pos + 4, .NIL)
        else read_nil_loop (pos + 1) rest
      else .error (.ParseError pos)
    else if white_space c then read_nil_loop (pos + 1) rest
    else .error (.ParseError pos)

/-- Source: `ValueT::read_nil`. -/
def read_nil (inp : List Nat) (_dma : Bool) : Except Error (Nat × Value) :=
  read_nil_loop 0 inp

/-- Source: the `while` loop of `read_boolean`. -/
def read_boolean_loop : Nat → List Nat → Except Error (Nat × Value)
  | pos, [] => .error (.ParseError pos)
  | pos, c :: rest =>
    if c = 0x74 then
      if (c :: rest).length ≥ 4 then
        if (c :: rest).take 4 = [0x74, 0x72, 0x75, 0x65] then .ok (pos + 4, .BOOLEAN true)
        else read_boolean_loop (pos + 1) rest
      else .error (.ParseError pos)
    else if c = 0x66 then
      if (c :: rest).length ≥ 5 then
        if (c :: rest).take 5 = [0x66, 0x61, 0x6c, 0x73, 0x65] then .ok (pos + 5, .BOOLEAN false)
        else read_boolean_loop (pos + 1) rest
      else .error (.ParseError pos)
    else if white_space c then read_boolean_loop (pos + 1) rest
    else .error (.ParseError pos)

/-- Source: `ValueT::read_boolean`. -/
def read_boolean (inp : List Nat) (_dma : Bool) : Except Error (Nat × Value) :=
  read_boolean_loop 0 inp

/-- Source: the `while` loop of `read_string`.  `normal` tells the state
`NORMAL` from `NONE`, `e` is `_e`, `rest` is the buffer from `in + pos` on.
`held` tells whether the Value the function runs on holds a String at the call.
At the closing quote of a text with `_e` set the code calls `clear(STRING)`:
on a Value of another type that is `_sso = true; _sso_len = 0`, and the write
to `_sso_len` clears `_e`, which lies in the same bits, so the decoded String
is owned with `_e` cleared; on a Value that holds a String `clear` leaves the
bits alone and `_e` stays set. -/
def read_string_loop (held : Bool) (inp : List Nat) (dma : Bool) :
    Bool → Nat → Bool → Nat → List Nat → Except Error (Nat × Value)
  | _, _, _, pos, [] => .error (.ParseError pos)
  | false, start, e, pos, c :: rest =>
    if c = 0x22 then read_string_loop held inp dma true (pos + 1) e (pos + 1) rest
    else if white_space c then read_string_loop held inp dma false start e (pos + 1) rest
    else .error (.ParseError pos)
  | true, start, e, pos, c :: rest =>
    if c = 0x22 then
      if e then
        match detail.decode ((inp.drop start).take (pos - start)) [] with
        | .error err => .error err
        | .ok s => .ok (pos + 1, .STRING .owned held s)
      else .ok (pos + 1, assign ((inp.drop start).take (pos - start)) DONT_ESCAPE dma)
    else
      let e2 := if !e then detail.check_need_conv c else e
      if e2 ∧ c = 0x5c then
        match rest with
        | [] => .error (.ParseError (pos + 2))
        | _ :: rest2 => read_string_loop held inp dma true start e2 (pos + 2) rest2
      else read_string_loop held inp dma true start e2 (pos + 1) rest

/-- Source: `ValueT::read_string`, called on a Value that holds a String
(`held`) or a Value of another type. -/
def read_string (held : Bool) (inp : List Nat) (dma : Bool) : Except Error (Nat × Value) :=
  read_string_loop held inp dma false 0 false 0 inp

/-- Source: the parse states of `read`. -/
inductive PState where
  | NONE | OBJECT_LBRACE | OBJECT_PAIR_KEY_QUOTE | OBJECT_PAIR_KEY | OBJECT_PAIR_COLON
  | OBJECT_PAIR_VALUE | OBJECT_COMMA | ARRAY_LBRACKET | ARRAY_ELEM | ARRAY_COMMA
  deriving DecidableEq

/-- Where the Value an entry of `pv` points to lives: it is `*this`, the member
`key` of the object pointed to by the entry below, or the last element of the
array pointed to by the entry below. -/
inductive Slot where
  | root
  | member (key : tstring)
  | back
  deriving DecidableEq

/-- An entry of the stack `pv` of `read`: a pointer to a Value, kept as the
place it points to and the Value now stored there.  Only `pv.back()` is read or
written while it is on the stack, so the copy of it inside the entry below is
brought up to date when the entry is popped (`plug`). -/
structure Frame where
  slot : Slot
  val : Value

/-- The effect, seen from the entry below, of the writes made through a popped
pointer. -/
def plug (child parent : Frame) : Frame :=
  match child.slot, parent.val with
  | .member k, .OBJECT o => { parent with val := .OBJECT (map_set o k child.val) }
  | .back, .ARRAY a => { parent with val := .ARRAY (a.dropLast ++ [child.val]) }
  | _, _ => parent

/-- The local variables of `read`.  `u` is the word shared by `u.start` and
`u.fp`; the head of `pv` is `pv.back()`. -/
structure ReadState where
  state : PState
  pos : Nat
  u : Nat
  pv : List Frame

/-- What one iteration of the `while` loop of `read` does: go on (`pos` already
incremented), return, or throw. -/
inductive Step where
  | next (st : ReadState)
  | ret (r : Nat) (v : Value)
  | throw (e : Error)

/-- Source: `ValueT(Type)` for the two container types. -/
def empty_container : ValueType → Value
  | .OBJECT => .OBJECT []
  | _ => .ARRAY []

/-- Source: `OBJECT_ARRAY_PARSE_END(type)`, with the `++pos` that ends the
iteration. -/
def parse_end (type : ValueType) (st : ReadState) : Step :=
  match st.pv with
  | [] => .throw .Undefined
  | top :: below =>
    if top.val.type ≠ type then .throw (.ParseError st.pos)
    else
      match below with
      | [] => .ret (st.pos + 1) top.val
      | parent :: below2 =>
        let parent2 := plug top parent
        let state2 :=
          if parent2.val.type = .OBJECT then PState.OBJECT_PAIR_VALUE
          else if parent2.val.type = .ARRAY then PState.ARRAY_ELEM
          else st.state
        .next { st with state := state2, pos := st.pos + 1, pv := parent2 :: below2 }

/-- Source: `PUSH_VALUE_TO_STACK(type)` after `state = new_state`, with the
`++pos` that ends the iteration.  Reaching `_a` of a Value that is neither Nil
nor an Array is undefined. -/
def push_value (type : ValueType) (new_state : PState) (st : ReadState) : Step :=
  match st.pv with
  | [] => .throw .Undefined
  | top :: below =>
    match top.val with
    | .NIL =>
      .next { st with state := new_state, pos := st.pos + 1,
                      pv := { top with val := empty_container type } :: below }
    | .ARRAY a =>
      .next { st with state := new_state, pos := st.pos + 1,
                      pv := ⟨.back, empty_container type⟩ ::
                            { top with val := .ARRAY (a ++ [empty_container type]) } :: below }
    | _ => .throw .Undefined

/-- Source: `pv.push_back(&(*pv.back()->_o)[key])` after
`state = OBJECT_PAIR_KEY`: `operator[]` of the map finds the member `key` or
inserts a Nil one.  `pos` is the offset of the closing quote, `u` the new value
of `u.start`.  Reaching `_o` of a Value that is not an Object is undefined. -/
def push_key (key : tstring) (pos u : Nat) (st : ReadState) : Step :=
  match st.pv with
  | [] => .throw .Undefined
  | top :: below =>
    match top.val with
    | .OBJECT o =>
      let child := (map_find o key).getD .NIL
      .next { state := .OBJECT_PAIR_KEY, pos := pos + 1, u := u,
              pv := ⟨.member key, child⟩ :: { top with val := .OBJECT (map_set o key child) } :: below }
    | _ => .throw .Undefined

/-- Source: the `while(++pos < len)` loop of the state `OBJECT_PAIR_KEY_QUOTE`:
the first offset `p` at which `in[p]` is a quote and `in[p - 1]` is not a
backslash.  `prev` is `in[p - 1]`, `rest` the buffer from `in + p` on. -/
def find_key_end : Nat → List Nat → Nat → Option Nat
  | _, [], _ => none
  | prev, c :: rest, p =>
    if c = 0x22 ∧ prev ≠ 0x5c then some p else find_key_end c rest (p + 1)

/-- Source: `if(pv.back()->_type == ARRAY)` in the `if(u.fp)` block of `read`:
"If top elem is array, push a elem." -/
def push_scalar_slot : List Frame → List Frame
  | [] => []
  | top :: below =>
    match top.val with
    | .ARRAY a => ⟨.back, .NIL⟩ :: { top with val := .ARRAY (a ++ [.NIL]) } :: below
    | _ => top :: below

/-- Source: `pv.back()->_type == STRING` at the call `(pv.back()->*u.fp)(...)`
of `read`, after the push of an element for an array: whether the Value the
sub-parser runs on holds a String.  A new element and a new member are Nil; the
slot of a repeated key holds the value read for the key before. -/
def slot_holds_string (pv : List Frame) : Bool :=
  match push_scalar_slot pv with
  | slot :: _ => decide (slot.val.type = .STRING)
  | [] => false

/-- Source: the `if(u.fp)` block of `read` with `u.fp` set to the sub-parser
`fp`, and the `++pos` that ends the iteration.  The sub-parser runs on the slot
`pv.back()`; each of them overwrites what the slot held (`read_string` keeps
the bit `_e` of a String held there, see `read_string_loop`). -/
def read_scalar (fp : List Nat → Bool → Except Error (Nat × Value)) (inp : List Nat) (dma : Bool)
    (st : ReadState) : Step :=
  match st.pv with
  | [] => .throw .Undefined
  | _ :: _ =>
    match fp (inp.drop st.pos) dma with
    | .error e => .throw e
    | .ok (n, v) =>
      match push_scalar_slot st.pv with
      | slot :: parent :: below2 =>
        if (plug { slot with val := v } parent).val.type = .OBJECT then
          .next { state := .OBJECT_PAIR_VALUE, pos := st.pos + n - 1 + 1, u := 0,
                  pv := plug { slot with val := v } parent :: below2 }
        else if (plug { slot with val := v } parent).val.type = .ARRAY then
          .next { state := .ARRAY_ELEM, pos := st.pos + n - 1 + 1, u := 0,
                  pv := plug { slot with val := v } parent :: below2 }
        else .throw (.ParseError (st.pos + n - 1))
      | _ => .throw (.ParseError (st.pos + n - 1))

/-- Source: `if(u.fp)` when the `switch` of the value position did not set
`u.fp`: the word still holds what `u.start` left there, and a non-zero word is
a garbage member pointer that is called. -/
def check_fp (st : ReadState) (r : Step) : Step :=
  match r with
  | .next st2 => if st.u ≠ 0 then .throw .Undefined else .next st2
  | r => r

/-- Source: the states `OBJECT_PAIR_COLON`, `ARRAY_LBRACKET`, `ARRAY_COMMA` of
`read`, on the unit `c = in[pos]`. -/
def step_value (inp : List Nat) (dma : Bool) (st : ReadState) (c : Nat) : Step :=
  if c = 0x22 then read_scalar (read_string (slot_holds_string st.pv)) inp dma st
  else if c = 0x2d ∨ number_0_9 c then read_scalar read_number inp dma st
  else if c = 0x74 ∨ c = 0x66 then read_scalar read_boolean inp dma st
  else if c = 0x6e then read_scalar read_nil inp dma st
  else if c = 0x7b then check_fp st (push_value .OBJECT .OBJECT_LBRACE st)
  else if c = 0x5b then check_fp st (push_value .ARRAY .ARRAY_LBRACKET st)
  else if c = 0x5d then
    if st.state = .ARRAY_LBRACKET then check_fp st (parse_end .ARRAY st)
    else .throw (.ParseError st.pos)
  else if white_space c then check_fp st (.next { st with pos := st.pos + 1 })
  else .throw (.ParseError st.pos)

/-- Source: the body of the `while` loop of `read` (trailing-comma option off),
on the unit `c = in[pos]`. -/
def step (inp : List Nat) (dma : Bool) (st : ReadState) (c : Nat) : Step :=
  match st.state with
  | .NONE =>
    -- `pv` holds `this` alone in this state, which is never entered again
    if c = 0x7b then
      .next { st with state := .OBJECT_LBRACE, pos := st.pos + 1, pv := [⟨.root, .OBJECT []⟩] }
    else if c = 0x5b then
      .next { st with state := .ARRAY_LBRACKET, pos := st.pos + 1, pv := [⟨.root, .ARRAY []⟩] }
    else if white_space c then .next { st with pos := st.pos + 1 }
    else .throw (.ParseError st.pos)
  | .OBJECT_LBRACE | .OBJECT_COMMA =>
    if c = 0x22 then
      .next { st with state := .OBJECT_PAIR_KEY_QUOTE, pos := st.pos + 1, u := st.pos + 1 }
    else if c = 0x7d then
      if st.state = .OBJECT_LBRACE then parse_end .OBJECT st else .throw (.ParseError st.pos)
    else if white_space c then .next { st with pos := st.pos + 1 }
    else .throw (.ParseError st.pos)
  | .OBJECT_PAIR_KEY_QUOTE =>
    if c = 0x5c then
      match find_key_end 0x5c (inp.drop (st.pos + 1)) (st.pos + 1) with
      | none => .throw (.ParseError inp.length)
      | some p =>
        match detail.decode ((inp.drop st.u).take (p - st.u)) [] with
        | .error e => .throw e
        | .ok key => push_key key p st.u st
    else if c = 0x22 then push_key ((inp.drop st.u).take (st.pos - st.u)) st.pos 0 st
    else .next { st with pos := st.pos + 1 }
  | .OBJECT_PAIR_KEY =>
    if c = 0x3a then .next { st with state := .OBJECT_PAIR_COLON, pos := st.pos + 1 }
    else if white_space c then .next { st with pos := st.pos + 1 }
    else .throw (.ParseError st.pos)
  | .OBJECT_PAIR_COLON | .ARRAY_LBRACKET | .ARRAY_COMMA => step_value inp dma st c
  | .OBJECT_PAIR_VALUE =>
    if c = 0x7d then parse_end .OBJECT st
    else if c = 0x2c then .next { st with state := .OBJECT_COMMA, pos := st.pos + 1 }
    else if white_space c then .next { st with pos := st.pos + 1 }
    else .throw (.ParseError st.pos)
  | .ARRAY_ELEM =>
    if c = 0x5d then parse_end .ARRAY st
    else if c = 0x2c then .next { st with state := .ARRAY_COMMA, pos := st.pos + 1 }
    else if white_space c then .next { st with pos := st.pos + 1 }
    else .throw (.ParseError st.pos)

/-- Source: the `while(pos < len)` loop of `read` and the `JSON_PARSE_CHECK(false)`
after it.  Every iteration advances `pos`, so a budget of `len + 1` tests of the
loop condition is enough. -/
def read_loop (inp : List Nat) (dma : Bool) : Nat → ReadState → Except Error (Nat × Value)
  | 0, _ => .error .Fuel
  | fuel + 1, st =>
    match inp.drop st.pos with
    | [] => .error (.ParseError st.pos)
    | c :: _ =>
      match step inp dma st c with
      | .next st2 => read_loop inp dma fuel st2
      | .ret r v => .ok (r, v)
      | .throw e => .error e

/-- Source: `ValueT::read(const char_t*, size_t, bool)`; the result is the
returned offset and the Value `*this` holds afterwards.  `clear(OBJECT)` or
`clear(ARRAY)` empties `*this` before anything else is written to it, so what it
held before the call does not matter. -/
def read (inp : List Nat) (dma : Bool) : Except Error (Nat × Value) :=
  read_loop inp dma (inp.length + 1) ⟨.NONE, 0, 0, [⟨.root, .NIL⟩]⟩

/-- A text has no bare slash when every `/` in it comes right after a
backslash; `prev` is the unit before the text. -/
def bare_slash_free : Nat → List Nat → Bool
  | _, [] => true
  | prev, c :: rest => (c != 0x2f || prev == 0x5c) && bare_slash_free c rest

/-- The keys of a member list ascend strictly, the first one being above `lo`. -/
def keys_ascending_from (lo : tstring) : List (tstring × Value) → Bool
  | [] => true
  | (k, _) :: tl => key_lt lo k && keys_ascending_from k tl

/-- The keys of a member list ascend strictly in the order of `key_lt`. -/
def keys_ascending : List (tstring × Value) → Bool
  | [] => true
  | (k, _) :: tl => keys_ascending_from k tl

mutual
/-- Every object of the tree holds its members in strictly ascending key order. -/
def Value.sorted : Value → Bool
  | .OBJECT o => keys_ascending o && members_sorted o
  | .ARRAY a => elems_sorted a
  | _ => true
/-- Every member value is `sorted`. -/
def members_sorted : List (tstring × Value) → Bool
  | [] => true
  | (_, v) :: tl => v.sorted && members_sorted tl
/-- Every element is `sorted`. -/
def elems_sorted : List Value → Bool
  | [] => true
  | v :: tl => v.sorted && elems_sorted tl
end

/-- Every Value on the stack of `read` has its objects in key order. -/
def pv_sorted (pv : List Frame) : Prop := ∀ f ∈ pv, f.val.sorted = true

/-- What an iteration of `read` on the unit `c` guarantees when it starts from a
stack of sorted Values: it moves on, or it returns at a closing bracket. -/
def step_post (st : ReadState) (c : Nat) : Step → Prop
  | .next st2 => pv_sorted st2.pv ∧ st.pos < st2.pos
  | .ret r v => v.sorted = true ∧ r = st.pos + 1 ∧ (c = 0x7d ∨ c = 0x5d)
  | .throw _ => True

/-- The iteration ended, without throwing, inside the first `m` units. -/
def step_within (m : Nat) : Step → Prop
  | .next st2 => st2.pos < m
  | .ret r _ => r ≤ m
  | .throw _ => False

/-! ## Definitions for the claims on escapes, strings, numbers and the loop of `read` -/

/-- A hexadecimal digit: `0`-`9`, `a`-`f` or `A`-`F`. -/
def is_hex (c : Nat) : Bool :=
  (decide (0x30 ≤ c) && decide (c ≤ 0x39)) || (decide (0x61 ≤ c) && decide (c ≤ 0x66))
    || (decide (0x41 ≤ c) && decide (c ≤ 0x46))

/-- The value of a hexadecimal digit, upper and lower case alike. -/
def hex_value (c : Nat) : Nat :=
  if c ≤ 0x39 then c - 0x30 else if 0x61 ≤ c then c - 0x61 + 10 else c - 0x41 + 10

/-- The value of four hexadecimal digits, most significant first. -/
def hex4_value (a b c d : Nat) : Nat :=
  hex_value a * 4096 + hex_value b * 256 + hex_value c * 16 + hex_value d

/-- The text begins with `\u` and four hexadecimal digits. -/
def is_u_escape : List Nat → Bool
  | e :: u :: a :: b :: c :: d :: _ =>
    e == 0x5c && u == 0x75 && is_hex a && is_hex b && is_hex c && is_hex d
  | _ => false

/-- The offset of the first `"` of a text that is not escaped: a backslash
takes the unit after it with it. -/
def closing_quote : List Nat → Option Nat
  | [] => none
  | c :: rest =>
    if c = 0x22 then some 0
    else if c = 0x5c then
      match rest with
      | [] => none
      | _ :: rest2 => (closing_quote rest2).map (· + 2)
    else (closing_quote rest).map (· + 1)

/-- The integer part of a JSON number: `0` alone, or a digit from 1 to 9 and
then any digits. -/
def is_int_part : List Nat → Bool
  | [] => false
  | d :: ds => (d == 0x30 && ds.isEmpty) || (number_1_9 d && ds.all number_0_9)

/-- The optional sign of a JSON number: nothing or `-`. -/
def is_sign (sg : List Nat) : Bool :=
  sg == [] || sg == [0x2d]

/-- No digit follows an exponent marker: the text after it is empty, starts
with a unit that is neither a digit nor a sign, or starts with a sign that no
digit follows. -/
def exponent_digits_missing : List Nat → Bool
  | [] => true
  | c :: rest =>
    if number_0_9 c then false
    else if c = 0x2b ∨ c = 0x2d then
      match rest with
      | [] => true
      | d :: _ => !number_0_9 d
    else true

/-- The state `read_number` is in after the integer part `ip`. -/
def int_part_state (ip : List Nat) : NumState :=
  if ip = [0x30] then .ZERO else .DIGIT

/-- The states of `read_number` that lie after the `.` of the number. -/
def seen_fraction : NumState → Bool
  | .POINT | .DIGIT_FRAC | .EXP | .EXP_SIGN | .DIGIT_EXP => true
  | _ => false

/-- A unit is none of `.`, `e`, `E`. -/
def no_mark (c : Nat) : Bool :=
  c != 0x2e && c != 0x65 && c != 0x45

/-- The type of `*this`, which the bottom entry of `pv` points to. -/
def root_type (pv : List Frame) : Option ValueType :=
  pv.getLast?.map (fun f => f.val.type)

/-- What an iteration of `read` outside the state `NONE` guarantees: `*this`
keeps its type `T`, the state `NONE` is not entered, and what is returned has
the type `T`. -/
def step_keeps_root (T : ValueType) : Step → Prop
  | .next st2 => st2.state ≠ .NONE ∧ root_type st2.pv = some T
  | .ret _ v => v.type = T
  | .throw _ => True

/-- The first `n` iterations of the `while` loop of `read` from the state `st`:
the state reached, if none of them returned, threw or found the input at its
end. -/
def read_run (inp : List Nat) (dma : Bool) : Nat → ReadState → Option ReadState
  | 0, st => some st
  | n + 1, st =>
    match inp.drop st.pos with
    | [] => none
    | c :: _ =>
      match step inp dma st c with
      | .next st2 => read_run inp dma n st2
      | _ => none

/-- The states of `read` in which `u.start` is in use: inside a key, and from
there to the value of the member. -/
def key_state : PState → Bool
  | .OBJECT_PAIR_KEY_QUOTE | .OBJECT_PAIR_KEY | .OBJECT_PAIR_COLON => true
  | _ => false

/-- What an iteration of `read` guarantees about the word `u`: it is 0 outside
the states of `key_state`. -/
def step_u_clear : Step → Prop
  | .next st2 => key_state st2.state = false → st2.u = 0
  | _ => True

/-- Source: `bufSize` of `detail::internal_to_string`. -/
def bufSize : Nat := 25

/-- Source: the check of `detail::internal_to_string` on the value `ret` that
`snprintf` returns, the length of the formatted text:
`if(ret == bufSize || ret < 0)` throws "Format error.". -/
def format_error (ret : Int) : Bool :=
  ret == (bufSize : Int) || decide (ret < 0)

/-- The text of an array of Integers from the end of an element on: `]`, or
`,`, the next element and what follows it. -/
def ints_rest : List Int → tstring
  | [] => [0x5d]
  | i :: is => 0x2c :: (to_string_int64 i [] ++ ints_rest is)

/-! ## Accessors, cast operators and `operator==` -/

/-- The `double` 0 that `_f = 0` stores, as the text `0`. -/
def Dbl.zero : Dbl := ⟨[0x30]⟩

/-- Source: `bool& ValueT::b()`; the result is the payload behind the reference
and the Value afterwards. -/
def Value.b : Value → Except Error (Bool × Value)
  | .NIL => .ok (false, .BOOLEAN false)
  | .BOOLEAN x => .ok (x, .BOOLEAN x)
  | _ => .error .TypeError

/-- Source: `int64_t& ValueT::i()`. -/
def Value.i : Value → Except Error (Int × Value)
  | .NIL => .ok (0, .INTEGER 0)
  | .INTEGER x => .ok (x, .INTEGER x)
  | _ => .error .TypeError

/-- Source: `double& ValueT::f()`. -/
def Value.f : Value → Except Error (Dbl × Value)
  | .NIL => .ok (Dbl.zero, .FLOAT Dbl.zero)
  | .FLOAT x => .ok (x, .FLOAT x)
  | _ => .error .TypeError

/-- Source: `tstring& ValueT::s()`.  An inline or borrowed string is first
copied into an owned one by `new tstring(c_str(), length())`; `_e` is set. -/
def Value.s : Value → Except Error (tstring × Value)
  | .NIL => .ok ([], .STRING .owned true [])
  | .STRING .owned _ s => .ok (s, .STRING .owned true s)
  | .STRING st _ s =>
    match string_append [] s (string_length st s) with
    | .error err => .error err
    | .ok s2 => .ok (s2, .STRING .owned true s2)
  | _ => .error .TypeError

/-- Source: `ObjectT<char_t>& ValueT::o()`. -/
def Value.o : Value → Except Error (List (tstring × Value) × Value)
  | .NIL => .ok ([], .OBJECT [])
  | .OBJECT x => .ok (x, .OBJECT x)
  | _ => .error .TypeError

/-- Source: `ArrayT<char_t>& ValueT::a()`. -/
def Value.a : Value → Except Error (List Value × Value)
  | .NIL => .ok ([], .ARRAY [])
  | .ARRAY x => .ok (x, .ARRAY x)
  | _ => .error .TypeError

/-- Source: `bool ValueT::b() const`. -/
def Value.b_const : Value → Except Error Bool
  | .BOOLEAN x => .ok x
  | _ => .error .TypeError

/-- Source: `int64_t ValueT::i() const`. -/
def Value.i_const : Value → Except Error Int
  | .INTEGER x => .ok x
  | _ => .error .TypeError

/-- Source: `long double ValueT::f() const`. -/
def Value.f_const : Value → Except Error Dbl
  | .FLOAT x => .ok x
  | _ => .error .TypeError

/-- Source: `const tstring& ValueT::s() const`.  The fields `_s`, `_sso`, `_dma`
are `mutable`: an inline or borrowed string is copied into an owned one, so the
result is the payload and the Value afterwards.  The code does not write `_e`:
after `_sso = _dma = false` on an inline string it is bit 1 of `_sso_len`
(`sso_e`); of a borrowed string it is the bit that was stored. -/
def Value.s_const : Value → Except Error (tstring × Value)
  | .STRING .owned e s => .ok (s, .STRING .owned e s)
  | .STRING .sso _ s =>
    match string_append [] s (string_length .sso s) with
    | .error err => .error err
    | .ok s2 => .ok (s2, .STRING .owned (sso_e s.length) s2)
  | .STRING .dma e s =>
    match string_append [] s (string_length .dma s) with
    | .error err => .error err
    | .ok s2 => .ok (s2, .STRING .owned e s2)
  | _ => .error .TypeError

/-- Source: `const ObjectT<char_t>& ValueT::o() const`. -/
def Value.o_const : Value → Except Error (List (tstring × Value))
  | .OBJECT x => .ok x
  | _ => .error .TypeError

/-- Source: `const ArrayT<char_t>& ValueT::a() const`. -/
def Value.a_const : Value → Except Error (List Value)
  | .ARRAY x => .ok x
  | _ => .error .TypeError

/-- Source: `ValueT::operator bool() const`. -/
def Value.cast_bool : Value → Except Error Bool
  | .BOOLEAN x => .ok x
  | _ => .error .TypeError

/-- Source: `ValueT::operator int64_t() const` (`JSON_INTEGER_OPERATOR`). -/
def Value.cast_int64 : Value → Except Error Int
  | .INTEGER x => .ok x
  | _ => .error .TypeError

/-- Source: `ValueT::operator double() const` (`JSON_FLOAT_OPERATOR`). -/
def Value.cast_double : Value → Except Error Dbl
  | .FLOAT x => .ok x
  | _ => .error .TypeError

/-- Source: `ValueT::operator tstring() const`, `return *_s;`.  The pointer `_s`
is a member of the union that an inline string keeps its units in and a
borrowed string its pointer `_d`: for those, `*_s` is read through the wrong
member. -/
def Value.cast_tstring : Value → Except Error tstring
  | .STRING .owned _ s => .ok s
  | .STRING _ _ _ => .error .Undefined
  | _ => .error .TypeError

/-- Source: `ValueT::operator ObjectT<char_t>() const`. -/
def Value.cast_object : Value → Except Error (List (tstring × Value))
  | .OBJECT x => .ok x
  | _ => .error .TypeError

/-- Source: `ValueT::operator ArrayT<char_t>() const`. -/
def Value.cast_array : Value → Except Error (List Value)
  | .ARRAY x => .ok x
  | _ => .error .TypeError

/-- Modelled from the C standard: `memcmp(p, q, n) == 0`, where `a` and `b` are
what is stored at `p` and `q`; comparing past either of them is undefined. -/
def memcmp_eq (a b : List Nat) (n : Nat) : Except Error Bool :=
  if n ≤ a.length ∧ n ≤ b.length then .ok (decide (a.take n = b.take n))
  else .error .Undefined

/-- Source: the case `STRING` of `operator==(const ValueT&, const ValueT&)`:
`lhs.length() == rhs.length() && !memcmp(lhs.c_str(), rhs.c_str(), lhs.length())`. -/
def string_eq (st1 : Storage) (s1 : tstring) (st2 : Storage) (s2 : tstring) :
    Except Error Bool :=
  if string_length st1 s1 = string_length st2 s2 then memcmp_eq s1 s2 (string_length st1 s1)
  else .ok false

mutual
/-- Source: `operator==(const ValueT&, const ValueT&)`.  `close` stands for the
comparison `fabs(lhs.f() - rhs.f()) < JSON_EPSILON` of two doubles, which is not
modelled. -/
def Value.eq (close : Dbl → Dbl → Bool) : Value → Value → Except Error Bool
  | .NIL, .NIL => .ok true
  | .BOOLEAN x, .BOOLEAN y => .ok (x == y)
  | .INTEGER x, .INTEGER y => .ok (x == y)
  | .FLOAT x, .FLOAT y => .ok (close x y)
  | .STRING st1 _ s1, .STRING st2 _ s2 => string_eq st1 s1 st2 s2
  | .OBJECT x, .OBJECT y => if x.length ≠ y.length then .ok false else members_eq close x y
  | .ARRAY x, .ARRAY y => if x.length ≠ y.length then .ok false else elems_eq close x y
  | _, _ => .ok false
/-- Source: the loop of `operator==(const ObjectT&, const ObjectT&)`, entered
with two maps of the same size. -/
def members_eq (close : Dbl → Dbl → Bool) :
    List (tstring × Value) → List (tstring × Value) → Except Error Bool
  | [], _ => .ok true
  | _ :: _, [] => .error .Undefined
  | (k1, v1) :: t1, (k2, v2) :: t2 =>
    if k1 ≠ k2 then .ok false
    else
      match v1.eq close v2 with
      | .error err => .error err
      | .ok false => .ok false
      | .ok true => members_eq close t1 t2
/-- Source: the loop of `operator==(const ArrayT&, const ArrayT&)`, entered with
two arrays of the same size. -/
def elems_eq (close : Dbl → Dbl → Bool) : List Value → List Value → Except Error Bool
  | [], _ => .ok true
  | _ :: _, [] => .error .Undefined
  | v1 :: t1, v2 :: t2 =>
    match v1.eq close v2 with
    | .error err => .error err
    | .ok false => .ok false
    | .ok true => elems_eq close t1 t2
end

/-- Source: `operator!=(const ValueT&, const ValueT&)`, `!operator==(lhs, rhs)`. -/
def Value.ne (close : Dbl → Dbl → Bool) (lhs rhs : Value) : Except Error Bool :=
  (lhs.eq close rhs).map (fun r => !r)

/-- The bytes of a wide unit of `w` bytes, least significant first. -/
def unit_bytes (w : Nat) (u : Nat) : List Nat :=
  (List.range w).map (fun k => (u >>> (8 * k)) % 256)

/-- The bytes of a wide string whose units have `w` bytes each. -/
def wide_bytes (w : Nat) (s : List Nat) : List Nat :=
  s.flatMap (unit_bytes w)

/-- Source: the case `STRING` of `operator==(const ValueT&, const ValueT&)` in
the instantiation for `wchar_t` of `w` bytes, on two Strings whose `length()` is
the number of their units: `memcmp` is given `lhs.length()`, a count of units,
as its count of bytes. -/
def wstring_eq (w : Nat) (lhs rhs : List Nat) : Except Error Bool :=
  if lhs.length = rhs.length then memcmp_eq (wide_bytes w lhs) (wide_bytes w rhs) lhs.length
  else .ok false

/-! ## The `double` of a decimal text and its conversion to `int64_t` -/

/-- The quotient `num / den` rounded to the nearest integer, a tie going to the
even one. -/
def round_half_even (num den : Nat) : Nat :=
  if 2 * (num % den) < den then num / den
  else if den < 2 * (num % den) then num / den + 1
  else if (num / den) % 2 = 0 then num / den
  else num / den + 1

/-- The number of binary digits of `n`, less one: the `k` with
`2 ^ k ≤ n < 2 ^ (k + 1)` for `n` above 0. -/
def nat_log2 (n : Nat) : Nat :=
  (Nat.toDigits 2 n).length - 1

/-- The `k` with `2 ^ k ≤ num / den < 2 ^ (k + 1)`, for `num` and `den` above 0. -/
def ratio_log2 (num den : Nat) : Int :=
  let k : Int := (nat_log2 num : Int) - (nat_log2 den : Int)
  if k ≥ 0 then (if num < den * 2 ^ k.toNat then k - 1 else k)
  else (if num * 2 ^ (-k).toNat < den then k - 1 else k)

/-- Modelled from the C standard (IEC 60559 `double`): the `double` nearest to
`num / den`, a tie going to the even significand, as the pair `(m, e)` of the
value `m * 2 ^ e` with `m ≤ 2 ^ 53` and `e ≥ -1074`; `none` is infinity. -/
def round_to_double (num den : Nat) : Option (Nat × Int) :=
  if num = 0 then some (0, 0)
  else
    let e : Int := max (ratio_log2 num den - 52) (-1074)
    let m : Nat :=
      if e ≥ 0 then round_half_even num (den * 2 ^ e.toNat)
      else round_half_even (num * 2 ^ (-e).toNat) den
    if e > 971 ∨ (e = 971 ∧ m = 2 ^ 53) then none else some (m, e)

/-- The digits before the `.` of the text of a `double`, after its sign. -/
def Dbl.int_digits (d : Dbl) : List Nat :=
  (d.text.drop (sign_length d.text)).takeWhile number_0_9

/-- The text of a `double` after its sign and the digits before the `.`. -/
def Dbl.after_int (d : Dbl) : List Nat :=
  (d.text.drop (sign_length d.text)).drop d.int_digits.length

/-- The digits after the `.` of the text of a `double`. -/
def Dbl.frac_digits (d : Dbl) : List Nat :=
  match d.after_int with
  | c :: rest => if c = 0x2e then rest.takeWhile number_0_9 else []
  | [] => []

/-- The exponent part of the text of a `double`, as a number. -/
def Dbl.exponent (d : Dbl) : Int :=
  let t := match d.after_int with
    | c :: rest => if c = 0x2e then rest.drop d.frac_digits.length else c :: rest
    | [] => []
  match t with
  | c :: rest =>
    if c = 0x65 ∨ c = 0x45 then
      let v : Int := digits_value ((rest.drop (sign_length rest)).takeWhile number_0_9)
      if rest.head? = some 0x2d then -v else v
    else 0
  | [] => 0

/-- Modelled from the C standard: the magnitude of the `double` that `strtod`
gives for the text, the nearest one to its decimal value
`digits * 10 ^ (exponent - number of fraction digits)`. -/
def Dbl.magnitude (d : Dbl) : Option (Nat × Int) :=
  let m := digits_value (d.int_digits ++ d.frac_digits)
  let e10 : Int := d.exponent - (d.frac_digits.length : Int)
  if e10 ≥ 0 then round_to_double (m * 10 ^ e10.toNat) 1
  else round_to_double m (10 ^ (-e10).toNat)

/-- Modelled from the C++ standard: the conversion `int64_t(d)` of a `double`,
which drops the fraction; it is undefined when the result is not an `int64_t`. -/
def Dbl.to_int64 (d : Dbl) : Except Error Int :=
  match d.magnitude with
  | none => .error .Undefined
  | some (m, e) =>
    let t : Nat := if e ≥ 0 then m * 2 ^ e.toNat else m / 2 ^ (-e).toNat
    if d.text.head? = some 0x2d then
      (if t ≤ 2 ^ 63 then .ok (-(t : Int)) else .error .Undefined)
    else
      (if t < 2 ^ 63 then .ok (t : Int) else .error .Undefined)

/-! ## Elastic type casting: `get` -/

/-- The text starts, after white space and a sign, one of the forms of `strtod`
that `ttod` does not model: infinity, NaN (a first letter `i`, `I`, `n`, `N`) or
a hexadecimal number (`0x`, `0X`). -/
def strtod_other_form (s : tstring) : Bool :=
  let s1 := s.drop (s.takeWhile isspace).length
  match s1.drop (sign_length s1) with
  | c :: rest =>
    c == 0x69 || c == 0x49 || c == 0x6e || c == 0x4e
      || (c == 0x30 && (rest.head? == some 0x78 || rest.head? == some 0x58))
  | [] => false

/-- Source: `detail::internal_type_casting` to an arithmetic type, here
`int64_t`.  `strtod` scans from `c_str()` until a unit ends the number.  Behind
the content of an owned string that is the NUL of `std::string`.  The array
`_sso_s` of an inline string and the buffer `_d` of a borrowed one are not
NUL-terminated: there the scan goes on into units that are not part of the
Value, and the outcome is `Error.NotModelled`.  The forms of
`strtod_other_form` are left out of the model. -/
def internal_type_casting_int64 (v : Value) (value : Int) : Except Error Int :=
  match v with
  | .NIL => .ok value
  | .BOOLEAN b => .ok (if b then 1 else 0)
  | .INTEGER i => .ok i
  | .FLOAT f => f.to_int64
  | .STRING st _ s =>
    match (if string_length st s = 4 then memcmp_eq s [0x74, 0x72, 0x75, 0x65] 4
           else .ok false) with
    | .error err => .error err
    | .ok true => .ok 1
    | .ok false =>
      match (if string_length st s = 5 then memcmp_eq s [0x66, 0x61, 0x6c, 0x73, 0x65] 5
             else .ok false) with
      | .error err => .error err
      | .ok true => .ok 0
      | .ok false =>
        if st ≠ .owned then .error .NotModelled
        else if strtod_other_form s then .error .NotModelled
        else if (ttod s).2 = string_length st s then (ttod s).1.to_int64
        else .error .TypeCastError
  | _ => .error .TypeCastError

/-- Source: `detail::internal_type_casting` to `tstring`.  `fmt` stands for
`to_string<double, char>`. -/
def internal_type_casting_tstring (fmt : Dbl → tstring) (v : Value) (value : tstring) :
    Except Error tstring :=
  match v with
  | .NIL => .ok value
  | .BOOLEAN b => .ok (if b then [0x74, 0x72, 0x75, 0x65] else [0x66, 0x61, 0x6c, 0x73, 0x65])
  | .INTEGER i => .ok (to_string_int64 i [])
  | .FLOAT f => .ok (fmt f)
  | .STRING st _ s => string_append [] s (string_length st s)
  | _ => .error .TypeCastError

/-- Source: `ValueT::get<T>(const T&) const` for `T = int64_t`. -/
def Value.get_int64 (v : Value) (default_value : Int) : Except Error Int :=
  internal_type_casting_int64 v default_value

/-- Source: `ValueT::get<T>(const T&) const` for `T = tstring`. -/
def Value.get_tstring (fmt : Dbl → tstring) (v : Value) (default_value : tstring) :
    Except Error tstring :=
  internal_type_casting_tstring fmt v default_value

/-- Source: `ValueT::get<T>(const tstring&, const T&) const` for `T = int64_t`.
The method is `const` and calls `find`: the Value is not written to. -/
def Value.get_key_int64 (v : Value) (key : tstring) (default_value : Int) : Except Error Int :=
  match v with
  | .OBJECT o =>
    match map_find o key with
    | some m => internal_type_casting_int64 m default_value
    | none => .ok default_value
  | _ => .error .TypeError

/-- Source: `ValueT::get<T>(const tstring&, const T&) const` for `T = tstring`. -/
def Value.get_key_tstring (fmt : Dbl → tstring) (v : Value) (key : tstring)
    (default_value : tstring) : Except Error tstring :=
  match v with
  | .OBJECT o =>
    match map_find o key with
    | some m => internal_type_casting_tstring fmt m default_value
    | none => .ok default_value
  | _ => .error .TypeError

/-! ## Definitions for the claims on the loop of `read`, on the shape of written text and on UTF-8 -/

/-- What an iteration of `read` throws is an error of the program, not the end
of the budget of a loop of the model. -/
def step_total : Step → Prop
  | .throw e => e ≠ .Fuel
  | _ => True

/-- The Array nested `n + 1` levels deep whose innermost Array is empty. -/
def nested_array : Nat → Value
  | 0 => .ARRAY []
  | n + 1 => .ARRAY [nested_array n]

/-- The text of `n` opening brackets followed by `n` closing brackets. -/
def brackets (n : Nat) : List Nat :=
  List.replicate n 0x5b ++ List.replicate n 0x5d

/-- The stack `pv` of `read` inside `m + 1` open arrays of which the innermost
holds `v` and each other one holds the one element that is being read. -/
def bracket_stack : Nat → Value → List Frame
  | 0, v => [⟨.root, v⟩]
  | m + 1, v => ⟨.back, v⟩ :: bracket_stack m (.ARRAY [.ARRAY []])

/-- The state `read` starts its loop in. -/
def read_init : ReadState := ⟨.NONE, 0, 0, [⟨.root, .NIL⟩]⟩

/-- No unit of the text is white space. -/
def no_white_space (t : tstring) : Bool :=
  t.all (fun c => !white_space c)

mutual
/-- No key of the Value, no content of a String of it and no text of a Float of
it holds white space. -/
def Value.packed (fmt : Dbl → tstring) : Value → Bool
  | .FLOAT f => no_white_space (fmt f)
  | .STRING _ _ s => no_white_space s
  | .OBJECT o => members_packed fmt o
  | .ARRAY a => elems_packed fmt a
  | _ => true
/-- Every key and member value is `packed`. -/
def members_packed (fmt : Dbl → tstring) : List (tstring × Value) → Bool
  | [] => true
  | (k, v) :: tl => no_white_space k && v.packed fmt && members_packed fmt tl
/-- Every element is `packed`. -/
def elems_packed (fmt : Dbl → tstring) : List Value → Bool
  | [] => true
  | v :: tl => v.packed fmt && elems_packed fmt tl
end

/-- The first byte of a sequence of `n` bytes carries the length marker:
`0xxxxxxx`, `110xxxxx`, `1110xxxx`, `11110xxx`, `111110xx` or `1111110x`. -/
def is_utf8_lead (n b : Nat) : Bool :=
  match n with
  | 1 => decide (b < 0x80)
  | 2 => decide (0xC0 ≤ b) && decide (b < 0xE0)
  | 3 => decide (0xE0 ≤ b) && decide (b < 0xF0)
  | 4 => decide (0xF0 ≤ b) && decide (b < 0xF8)
  | 5 => decide (0xF8 ≤ b) && decide (b < 0xFC)
  | 6 => decide (0xFC ≤ b) && decide (b < 0xFE)
  | _ => false

/-- A byte of the form `10xxxxxx`. -/
def is_utf8_trail (b : Nat) : Bool :=
  decide (0x80 ≤ b) && decide (b < 0xC0)

/-- The marker of the first byte of a sequence of `n` bytes. -/
def utf8_marker (n : Nat) : Nat :=
  [0, 0, 0xC0, 0xE0, 0xF0, 0xF8, 0xFC].getD n 0

/-- The payload bits of a sequence of bytes put one after the other: those of
the first byte below its marker, then six of each further byte. -/
def utf8_value : List Nat → Nat
  | [] => 0
  | b0 :: rest => rest.foldl (fun acc b => acc * 64 + (b - 0x80)) (b0 - utf8_marker (rest.length + 1))

/-- The standard UTF-8 encoding of a code point up to U+10FFFF, by division
where the source shifts and masks. -/
def utf8 (c : Nat) : List Nat :=
  if c < 0x80 then [c]
  else if c < 0x800 then [0xC0 + c / 64, 0x80 + c % 64]
  else if c < 0x10000 then [0xE0 + c / 4096, 0x80 + c / 64 % 64, 0x80 + c % 64]
  else [0xF0 + c / 262144, 0x80 + c / 4096 % 64, 0x80 + c / 64 % 64, 0x80 + c % 64]

/-! ## The wide width

The template instances at `wchar_t`, for a `wchar_t` of 32 bits that is signed,
as with GCC on Linux; a unit is kept as its 32-bit pattern. -/

namespace detail

/-- Source: `encode_unicode<2, wchar_t>`. -/
def encode_unicode2_w (ch : Nat) (out : tstring) : tstring :=
  to_hex (ch &&& 0xFF) (to_hex ((ch >>> 8) &&& 0xFF) (out ++ [0x5c, 0x75]))

/-- Source: `encode_unicode<4, wchar_t>`; `encode` calls it with `ch >= 0` only. -/
def encode_unicode4_w (ch : Nat) (out : tstring) : tstring :=
  if ch > 0xFFFF then
    encode_unicode2_w ((0xDC00 ||| ((ch - 0x10000) &&& 0x03FF)) % 65536)
      (encode_unicode2_w ((0xD800 ||| ((ch - 0x10000) >>> 10)) % 65536) out)
  else encode_unicode2_w (ch % 65536) out

/-- Source: `encode(const wchar_t*, size_t, wstring&)`; the body of the loop for
one unit.  `*in > 0x7F` compares a signed unit. -/
def encode_unit_w (c : Nat) (out : tstring) : tstring :=
  if 0x7F < c ∧ c < 2 ^ 31 then encode_unicode4_w c out
  else if c = 0x22 then out ++ [0x5c, 0x22]
  else if c = 0x5c then out ++ [0x5c, 0x5c]
  else if c = 0x2f then out ++ [0x5c, 0x2f]
  else if c = 0x08 then out ++ [0x5c, 0x62]
  else if c = 0x0c then out ++ [0x5c, 0x66]
  else if c = 0x0a then out ++ [0x5c, 0x6e]
  else if c = 0x0d then out ++ [0x5c, 0x72]
  else if c = 0x09 then out ++ [0x5c, 0x74]
  else if c ∈ [0, 1, 2, 3, 4, 5, 6, 7, 11, 14, 15, 16, 17, 18, 19] then encode_unicode4_w c out
  else out ++ [c]

/-- Source: `encode(const wchar_t*, size_t, wstring&)`. -/
def encode_w : List Nat → tstring → tstring
  | [], out => out
  | c :: rest, out => encode_w rest (encode_unit_w c out)

/-- Source: `decode_unicode_append<wchar_t>`, `out += ui`. -/
def decode_unicode_append_w (ui : Nat) (out : tstring) : tstring :=
  out ++ [ui]

/-- Source: `decode_unicode` at `wchar_t`. -/
def decode_unicode_w (inp : List Nat) (out : tstring) : Except Error (Nat × tstring) :=
  match hex_to_ushort inp with
  | .error e => .error e
  | .ok ui =>
    if ui ≥ 0xD800 ∧ ui < 0xDC00 then
      if inp.length ≥ 6 ∧ inp.getD 4 0 = 0x5c ∧ inp.getD 5 0 = 0x75 then
        match hex_to_ushort (inp.drop 6) with
        | .error e => .error e
        | .ok lo =>
          .ok (10, decode_unicode_append_w
                (((((ui &&& 0x3FF) <<< 10) % 2 ^ 32) + ((lo &&& 0x3FF) + 0x10000)) % 2 ^ 32) out)
      else .error .DecodeError
    else .ok (4, decode_unicode_append_w ui out)

/-- Source: the `for` loop of `decode` at `wchar_t`, as `decodeLoop` is at `char`. -/
def decodeLoop_w : Nat → Nat → List Nat → tstring → Except Error tstring
  | 0, _, rest, out =>
    match rest with
    | [] => .ok out
    | _ :: _ => .error .Fuel
  | fuel + 1, pos, rest, out =>
    match rest with
    | [] => .ok out
    | c :: rest =>
      if c = 0x5c then
        match rest with
        | [] => .error (.ParseError pos)
        | d :: rest2 =>
          if d = 0x22 then decodeLoop_w fuel (pos + 2) rest2 (out ++ [0x22])
          else if d = 0x5c then decodeLoop_w fuel (pos + 2) rest2 (out ++ [0x5c])
          else if d = 0x2f then decodeLoop_w fuel (pos + 2) rest2 (out ++ [0x2f])
          else if d = 0x62 then decodeLoop_w fuel (pos + 2) rest2 (out ++ [0x08])
          else if d = 0x66 then decodeLoop_w fuel (pos + 2) rest2 (out ++ [0x0c])
          else if d = 0x6e then decodeLoop_w fuel (pos + 2) rest2 (out ++ [0x0a])
          else if d = 0x72 then decodeLoop_w fuel (pos + 2) rest2 (out ++ [0x0d])
          else if d = 0x74 then decodeLoop_w fuel (pos + 2) rest2 (out ++ [0x09])
          else if d = 0x75 then
            match decode_unicode_w rest2 out with
            | .error e => .error e
            | .ok (n, out2) => decodeLoop_w fuel (pos + 1 + n + 1) (rest2.drop n) out2
          else .error (.ParseError (pos + 1))
      else decodeLoop_w fuel (pos + 1) rest (out ++ [c])

/-- Source: `decode` at `wchar_t`. -/
def decode_w (inp : List Nat) (out : tstring) : Except Error tstring :=
  decodeLoop_w inp.length 0 inp out

end detail

/-- The lowercase hexadecimal digit of a value below 16. -/
def hex_digit_lower (d : Nat) : Nat :=
  if d < 10 then 0x30 + d else 0x61 + (d - 10)

/-- The four lowercase hexadecimal digits of a value below 65536, most
significant first. -/
def hex4_lower (x : Nat) : List Nat :=
  [hex_digit_lower (x / 4096 % 16), hex_digit_lower (x / 256 % 16),
   hex_digit_lower (x / 16 % 16), hex_digit_lower (x % 16)]

/-! ## Definitions for the claims on the index operator and on equality and text -/

/-- Source: `ValueT::operator[](T pos)` for `T = int`.  The result is the
outcome, the element behind the returned reference or the exception, and the
Value afterwards.  `pos + 1` is computed in `int`, where `INT_MAX + 1` is
undefined.  The limits of allocation are not modelled. -/
def Value.index (v : Value) (pos : Int) : Except Error Value × Value :=
  -- `if(_type == NIL) {_type = ARRAY; _a = new ArrayT<char_t>;}`
  let v1 : Value := match v with
    | .NIL => .ARRAY []
    | w => w
  if pos < 0 then (.error .UnderflowError, v1)
  else
    match v1 with
    | .ARRAY a =>
      if a.length ≤ pos.toNat then
        if pos + 1 < 2 ^ 31 then
          let a2 : List Value := a ++ List.replicate (pos.toNat + 1 - a.length) Value.NIL
          (.ok (a2.getD pos.toNat Value.NIL), .ARRAY a2)
        else (.error .Undefined, v1)
      else (.ok (a.getD pos.toNat Value.NIL), v1)
    | _ => (.error .TypeError, v1)

mutual
/-- No Float is in the tree of the Value. -/
def Value.float_free : Value → Bool
  | .FLOAT _ => false
  | .OBJECT o => members_float_free o
  | .ARRAY a => elems_float_free a
  | _ => true
/-- Every member value is `float_free`. -/
def members_float_free : List (tstring × Value) → Bool
  | [] => true
  | (_, v) :: tl => v.float_free && members_float_free tl
/-- Every element is `float_free`. -/
def elems_float_free : List Value → Bool
  | [] => true
  | v :: tl => v.float_free && elems_float_free tl
end

/-- The test `!_sso && !_dma && _e` of `ValueT::write`: the content of the
String is passed through `encode`. -/
def string_encoded (st : Storage) (e : Bool) : Bool :=
  decide (st = .owned ∧ e = true)

mutual
/-- The Strings at the same places of the two trees agree on `string_encoded`. -/
def Value.same_mode : Value → Value → Bool
  | .STRING st1 e1 _, .STRING st2 e2 _ => string_encoded st1 e1 == string_encoded st2 e2
  | .OBJECT x, .OBJECT y => members_same_mode x y
  | .ARRAY x, .ARRAY y => elems_same_mode x y
  | _, _ => true
/-- The member values agree pairwise on `same_mode`. -/
def members_same_mode : List (tstring × Value) → List (tstring × Value) → Bool
  | (_, v1) :: t1, (_, v2) :: t2 => v1.same_mode v2 && members_same_mode t1 t2
  | _, _ => true
/-- The elements agree pairwise on `same_mode`. -/
def elems_same_mode : List Value → List Value → Bool
  | v1 :: t1, v2 :: t2 => v1.same_mode v2 && elems_same_mode t1 t2
  | _, _ => true
end

/-! ## Key order -/

theorem key_lt_total : ∀ (a b : tstring), a ≠ b → key_lt b a = false → key_lt a b = true
  | [], [], h, _ => absurd rfl h
  | [], _ :: _, _, _ => rfl
  | _ :: _, [], _, h => by simp [key_lt] at h
  | a :: as, b :: bs, h, h2 => by
    simp only [key_lt, Bool.or_eq_false_iff, decide_eq_false_iff_not, Bool.and_eq_false_iff,
      beq_eq_false_iff_ne] at h2
    simp only [key_lt, Bool.or_eq_true, decide_eq_true_eq, Bool.and_eq_true, beq_iff_eq]
    by_cases hab : a = b
    · subst hab
      right
      refine ⟨rfl, key_lt_total as bs (fun e => h (by rw [e])) ?_⟩
      rcases h2.2 with h3 | h3
      · exact absurd rfl h3
      · exact h3
    · left; omega

theorem keys_ascending_from_map_set (o : List (tstring × Value)) :
    ∀ (lo key : tstring) (v : Value), keys_ascending_from lo o = true → key_lt lo key = true →
      keys_ascending_from lo (map_set o key v) = true := by
  induction o with
  | nil => intro lo key v _ h; simp [map_set, keys_ascending_from, h]
  | cons kw tl ih =>
    obtain ⟨k, w⟩ := kw
    intro lo key v h hlo
    simp only [keys_ascending_from, Bool.and_eq_true] at h
    simp only [map_set]
    split_ifs with h1 h2
    · simp [keys_ascending_from, h.1, h.2]
    · simp [keys_ascending_from, h.1, h.2, hlo, h2]
    · simp only [keys_ascending_from, Bool.and_eq_true]
      exact ⟨h.1, ih k key v h.2 (key_lt_total k key h1 (by simpa using h2))⟩

theorem keys_ascending_map_set (o : List (tstring × Value)) (key : tstring) (v : Value)
    (h : keys_ascending o = true) : keys_ascending (map_set o key v) = true := by
  cases o with
  | nil => simp [map_set, keys_ascending, keys_ascending_from]
  | cons kw tl =>
    obtain ⟨k, w⟩ := kw
    simp only [keys_ascending] at h
    simp only [map_set]
    split_ifs with h1 h2
    · simpa [keys_ascending] using h
    · simp [keys_ascending, keys_ascending_from, h, h2]
    · simp only [keys_ascending]
      exact keys_ascending_from_map_set tl k key v h (key_lt_total k key h1 (by simpa using h2))

theorem members_sorted_map_set (o : List (tstring × Value)) (key : tstring) (v : Value)
    (h : members_sorted o = true) (hv : v.sorted = true) :
    members_sorted (map_set o key v) = true := by
  induction o with
  | nil => simp [map_set, members_sorted, hv]
  | cons kw tl ih =>
    obtain ⟨k, w⟩ := kw
    simp only [members_sorted, Bool.and_eq_true] at h
    simp only [map_set]
    split_ifs with h1 h2
    · simp [members_sorted, hv, h.2]
    · simp [members_sorted, hv, h.1, h.2]
    · simp [members_sorted, h.1, ih h.2]

theorem sorted_map_find (o : List (tstring × Value)) (key : tstring)
    (h : members_sorted o = true) : ((map_find o key).getD .NIL).sorted = true := by
  induction o with
  | nil => simp [map_find, Value.sorted]
  | cons kw tl ih =>
    obtain ⟨k, w⟩ := kw
    simp only [members_sorted, Bool.and_eq_true] at h
    simp only [map_find]
    split_ifs with h1
    · simpa using h.1
    · exact ih h.2

theorem elems_sorted_append (a b : List Value) :
    elems_sorted (a ++ b) = (elems_sorted a && elems_sorted b) := by
  induction a with
  | nil => simp [elems_sorted]
  | cons v tl ih => simp [elems_sorted, ih, Bool.and_assoc]

theorem elems_sorted_dropLast (a : List Value) (h : elems_sorted a = true) :
    elems_sorted a.dropLast = true := by
  induction a with
  | nil => simp [elems_sorted]
  | cons v tl ih =>
    cases tl with
    | nil => simp [elems_sorted]
    | cons w tl2 =>
      simp only [elems_sorted, Bool.and_eq_true] at h
      simp only [List.dropLast_cons₂, elems_sorted, Bool.and_eq_true]
      exact ⟨h.1, ih (by simp [elems_sorted, h.2])⟩

theorem sorted_assign (s : tstring) (escape : Int) (dma : Bool) :
    (assign s escape dma).sorted = true := by
  unfold assign
  simp only []
  split_ifs <;> rfl

theorem read_nil_loop_post (rest : List Nat) :
    ∀ (pos n : Nat) (v : Value), read_nil_loop pos rest = .ok (n, v) →
      pos + 4 ≤ n ∧ v.sorted = true := by
  induction rest with
  | nil => intro pos n v h; simp [read_nil_loop] at h
  | cons c rest ih =>
    intro pos n v h
    simp only [read_nil_loop] at h
    split_ifs at h with h1 h2 h3 h4
    · simp only [Except.ok.injEq, Prod.mk.injEq] at h
      obtain ⟨rfl, rfl⟩ := h
      exact ⟨by omega, rfl⟩
    · have := ih _ _ _ h; exact ⟨by omega, this.2⟩
    · have := ih _ _ _ h; exact ⟨by omega, this.2⟩

theorem read_boolean_loop_post (rest : List Nat) :
    ∀ (pos n : Nat) (v : Value), read_boolean_loop pos rest = .ok (n, v) →
      pos + 4 ≤ n ∧ v.sorted = true := by
  induction rest with
  | nil => intro pos n v h; simp [read_boolean_loop] at h
  | cons c rest ih =>
    intro pos n v h
    simp only [read_boolean_loop] at h
    split_ifs at h
    · simp only [Except.ok.injEq, Prod.mk.injEq] at h
      obtain ⟨rfl, rfl⟩ := h
      exact ⟨by omega, rfl⟩
    · have := ih _ _ _ h; exact ⟨by omega, this.2⟩
    · simp only [Except.ok.injEq, Prod.mk.injEq] at h
      obtain ⟨rfl, rfl⟩ := h
      exact ⟨by omega, rfl⟩
    · have := ih _ _ _ h; exact ⟨by omega, this.2⟩
    · have := ih _ _ _ h; exact ⟨by omega, this.2⟩

theorem read_string_loop_post {held : Bool} (inp : List Nat) (dma : Bool) :
    ∀ (m : Nat) (rest : List Nat), rest.length ≤ m →
    ∀ (normal : Bool) (start : Nat) (e : Bool) (pos n : Nat) (v : Value),
      read_string_loop held inp dma normal start e pos rest = .ok (n, v) →
      pos < n ∧ v.sorted = true := by
  intro m
  induction m with
  | zero =>
    intro rest hl normal start e pos n v h
    have : rest = [] := List.length_eq_zero.mp (by omega)
    subst this
    simp [read_string_loop] at h
  | succ m ih =>
    intro rest hl normal start e pos n v h
    cases rest with
    | nil => simp [read_string_loop] at h
    | cons c rest =>
      simp only [List.length_cons] at hl
      cases normal with
      | false =>
        simp only [read_string_loop] at h
        split_ifs at h
        · have := ih rest (by omega) _ _ _ _ _ _ h; exact ⟨by omega, this.2⟩
        · have := ih rest (by omega) _ _ _ _ _ _ h; exact ⟨by omega, this.2⟩
      | true =>
        simp only [read_string_loop] at h
        split_ifs at h
        all_goals first
          | (have hih := ih rest (by omega) _ _ _ _ _ _ h; exact ⟨by omega, hih.2⟩)
          | (simp only [Except.ok.injEq, Prod.mk.injEq] at h
             obtain ⟨rfl, rfl⟩ := h
             exact ⟨by omega, sorted_assign _ _ _⟩)
          | (rcases rest with _ | ⟨d, rest2⟩
             · simp at h
             · simp only [List.length_cons] at hl
               have := ih rest2 (by omega) _ _ _ _ _ _ h; exact ⟨by omega, this.2⟩)
          | (split at h
             · simp at h
             · simp only [Except.ok.injEq, Prod.mk.injEq] at h
               obtain ⟨rfl, rfl⟩ := h
               exact ⟨by omega, rfl⟩)

theorem read_number_end_post (inp : List Nat) (state : NumState) (start pos n : Nat) (v : Value)
    (h : read_number_end inp state start pos = .ok (n, v)) :
    n = pos ∧ state ≠ .NONE ∧ v.sorted = true := by
  cases state <;> simp only [read_number_end] at h <;>
    first
    | (exact absurd h (by simp))
    | (split_ifs at h
       simp only [Except.ok.injEq, Prod.mk.injEq] at h
       obtain ⟨rfl, rfl⟩ := h
       exact ⟨rfl, by simp, rfl⟩)

theorem read_number_loop_post (inp : List Nat) (rest : List Nat) :
    ∀ (state : NumState) (start pos n : Nat) (v : Value),
      read_number_loop inp state start pos rest = .ok (n, v) →
      pos ≤ n ∧ (state = .NONE → pos < n) ∧ v.sorted = true := by
  induction rest with
  | nil =>
    intro state start pos n v h
    simp only [read_number_loop] at h
    obtain ⟨h1, h2, h3⟩ := read_number_end_post _ _ _ _ _ _ h
    exact ⟨by omega, fun e => absurd e h2, h3⟩
  | cons c rest ih =>
    intro state start pos n v h
    cases state <;> simp only [read_number_loop] at h <;> split_ifs at h <;>
      first
      | (obtain ⟨h1, h2, h3⟩ := read_number_end_post _ _ _ _ _ _ h
         exact ⟨by omega, by simp, h3⟩)
      | (have hih := ih _ _ _ _ _ h
         exact ⟨by omega, fun _ => by omega, hih.2.2⟩)

/-! ## One iteration of `read` -/

theorem sorted_plug (child parent : Frame) (hc : child.val.sorted = true)
    (hp : parent.val.sorted = true) : (plug child parent).val.sorted = true := by
  unfold plug
  split
  · rename_i k o h1 h2
    rw [h2] at hp
    simp only [Value.sorted, Bool.and_eq_true] at hp ⊢
    exact ⟨keys_ascending_map_set o k _ hp.1, members_sorted_map_set o k _ hp.2 hc⟩
  · rename_i a h1 h2
    rw [h2] at hp
    simp only [Value.sorted] at hp ⊢
    rw [elems_sorted_append]
    simp [elems_sorted_dropLast a hp, elems_sorted, hc]
  · exact hp

theorem sorted_empty_container (t : ValueType) : (empty_container t).sorted = true := by
  cases t <;> rfl

theorem parse_end_post (t : ValueType) (st : ReadState) (c : Nat) (hs : pv_sorted st.pv)
    (hc : c = 0x7d ∨ c = 0x5d) : step_post st c (parse_end t st) := by
  unfold parse_end
  split
  · trivial
  · rename_i top below hpv
    rw [hpv] at hs
    split_ifs
    · trivial
    · split
      · exact ⟨hs top (by simp), rfl, hc⟩
      · rename_i parent below2
        refine ⟨?_, by simp⟩
        intro f hf
        simp only [List.mem_cons] at hf
        rcases hf with rfl | hf
        · exact sorted_plug _ _ (hs top (by simp)) (hs parent (by simp))
        · exact hs f (by simp [hf])

theorem push_value_post (t : ValueType) (ns : PState) (st : ReadState) (c : Nat)
    (hs : pv_sorted st.pv) : step_post st c (push_value t ns st) := by
  unfold push_value
  split
  · trivial
  · rename_i top below hpv
    rw [hpv] at hs
    split
    · refine ⟨?_, by simp⟩
      intro f hf
      simp only [List.mem_cons] at hf
      rcases hf with rfl | hf
      · exact sorted_empty_container t
      · exact hs f (by simp [hf])
    · rename_i a ha
      refine ⟨?_, by simp⟩
      have htop := hs top (by simp)
      rw [ha] at htop
      simp only [Value.sorted] at htop
      intro f hf
      simp only [List.mem_cons] at hf
      rcases hf with rfl | rfl | hf
      · exact sorted_empty_container t
      · simp [Value.sorted, elems_sorted_append, htop, elems_sorted, sorted_empty_container]
      · exact hs f (by simp [hf])
    · trivial

theorem push_key_post (key : tstring) (p u : Nat) (st : ReadState) (c : Nat)
    (hs : pv_sorted st.pv) (hp : st.pos ≤ p) : step_post st c (push_key key p u st) := by
  unfold push_key
  split
  · trivial
  · rename_i top below hpv
    rw [hpv] at hs
    split
    · rename_i o ho
      have htop := hs top (by simp)
      rw [ho] at htop
      simp only [Value.sorted, Bool.and_eq_true] at htop
      refine ⟨?_, by simp; omega⟩
      intro f hf
      simp only [List.mem_cons] at hf
      rcases hf with rfl | rfl | hf
      · exact sorted_map_find o key htop.2
      · simp only [Value.sorted, Bool.and_eq_true]
        exact ⟨keys_ascending_map_set o key _ htop.1,
          members_sorted_map_set o key _ htop.2 (sorted_map_find o key htop.2)⟩
      · exact hs f (by simp [hf])
    · trivial

theorem pv_sorted_push_scalar_slot (pv : List Frame) (hs : pv_sorted pv) :
    pv_sorted (push_scalar_slot pv) := by
  unfold push_scalar_slot
  split
  · exact hs
  · rename_i top below
    split
    · rename_i a ha
      have htop := hs top (by simp)
      rw [ha] at htop
      simp only [Value.sorted] at htop
      intro f hf
      simp only [List.mem_cons] at hf
      rcases hf with rfl | rfl | hf
      · rfl
      · simp [Value.sorted, elems_sorted_append, htop, elems_sorted]
      · exact hs f (by simp [hf])
    · exact hs

theorem read_scalar_post (fp : List Nat → Bool → Except Error (Nat × Value)) (inp : List Nat)
    (dma : Bool) (st : ReadState) (c : Nat) (hs : pv_sorted st.pv)
    (hfp : ∀ i n v, fp i dma = .ok (n, v) → 0 < n ∧ v.sorted = true) :
    step_post st c (read_scalar fp inp dma st) := by
  unfold read_scalar
  split
  · trivial
  · split
    · trivial
    · rename_i n v hfpv
      obtain ⟨hn, hv⟩ := hfp _ _ _ hfpv
      have hpv1 := pv_sorted_push_scalar_slot st.pv hs
      split
      · rename_i slot parent below2 heq
        rw [heq] at hpv1
        have hpl : (plug { slot with val := v } parent).val.sorted = true :=
          sorted_plug _ _ hv (hpv1 parent (by simp))
        have hrest : pv_sorted (plug { slot with val := v } parent :: below2) := by
          intro f hf
          simp only [List.mem_cons] at hf
          rcases hf with rfl | hf
          · exact hpl
          · exact hpv1 f (by simp [hf])
        split_ifs
        · exact ⟨hrest, by simp; omega⟩
        · exact ⟨hrest, by simp; omega⟩
        · trivial
      · trivial

theorem check_fp_post (st : ReadState) (c : Nat) (r : Step) (h : step_post st c r) :
    step_post st c (check_fp st r) := by
  unfold check_fp
  split
  · split_ifs
    · trivial
    · exact h
  · exact h

theorem find_key_end_ge (rest : List Nat) :
    ∀ (prev p0 p : Nat), find_key_end prev rest p0 = some p → p0 ≤ p := by
  induction rest with
  | nil => intro prev p0 p h; simp [find_key_end] at h
  | cons c rest ih =>
    intro prev p0 p h
    simp only [find_key_end] at h
    split_ifs at h
    · simp at h; omega
    · have := ih _ _ _ h; omega

theorem read_string_post {held : Bool} (i : List Nat) (dma : Bool) (n : Nat) (v : Value)
    (h : read_string held i dma = .ok (n, v)) : 0 < n ∧ v.sorted = true := by
  have := read_string_loop_post i dma _ i (le_refl _) _ _ _ _ _ _ h
  exact ⟨by omega, this.2⟩

theorem read_number_post (i : List Nat) (dma : Bool) (n : Nat) (v : Value)
    (h : read_number i dma = .ok (n, v)) : 0 < n ∧ v.sorted = true := by
  have := read_number_loop_post i i _ _ _ _ _ h
  exact ⟨this.2.1 rfl, this.2.2⟩

theorem read_boolean_post (i : List Nat) (dma : Bool) (n : Nat) (v : Value)
    (h : read_boolean i dma = .ok (n, v)) : 0 < n ∧ v.sorted = true := by
  have := read_boolean_loop_post i _ _ _ h
  exact ⟨by omega, this.2⟩

theorem read_nil_post (i : List Nat) (dma : Bool) (n : Nat) (v : Value)
    (h : read_nil i dma = .ok (n, v)) : 0 < n ∧ v.sorted = true := by
  have := read_nil_loop_post i _ _ _ h
  exact ⟨by omega, this.2⟩

theorem step_value_post (inp : List Nat) (dma : Bool) (st : ReadState) (c : Nat)
    (hs : pv_sorted st.pv) : step_post st c (step_value inp dma st c) := by
  unfold step_value
  split_ifs with h1 h2 h3 h4 h5 h6 h7 h8 h9
  · exact read_scalar_post _ _ _ _ _ hs (fun i n v => read_string_post i dma n v)
  · exact read_scalar_post _ _ _ _ _ hs (fun i n v => read_number_post i dma n v)
  · exact read_scalar_post _ _ _ _ _ hs (fun i n v => read_boolean_post i dma n v)
  · exact read_scalar_post _ _ _ _ _ hs (fun i n v => read_nil_post i dma n v)
  · exact check_fp_post _ _ _ (push_value_post _ _ _ _ hs)
  · exact check_fp_post _ _ _ (push_value_post _ _ _ _ hs)
  · exact check_fp_post _ _ _ (parse_end_post _ _ _ hs (Or.inr h7))
  · trivial
  · exact check_fp_post _ _ _ ⟨hs, by simp⟩
  · trivial

theorem step_post_step (inp : List Nat) (dma : Bool) (st : ReadState) (c : Nat)
    (hs : pv_sorted st.pv) : step_post st c (step inp dma st c) := by
  have hroot : ∀ v : Value, v.sorted = true → pv_sorted [⟨.root, v⟩] := by
    intro v hv f hf
    simp only [List.mem_singleton] at hf
    subst hf
    exact hv
  unfold step
  split
  case h_4 =>
    split_ifs with h1 h2
    · split
      · trivial
      · rename_i p hp
        split
        · trivial
        · exact push_key_post _ _ _ _ _ hs (by have := find_key_end_ge _ _ _ _ hp; omega)
    · exact push_key_post _ _ _ _ _ hs (le_refl _)
    · exact ⟨hs, by simp⟩
  all_goals first
    | exact step_value_post inp dma st c hs
    | (split_ifs with h1 h2
       all_goals first
         | trivial
         | exact ⟨hs, by simp⟩
         | exact ⟨hroot _ rfl, by simp⟩
         | exact parse_end_post _ _ _ hs (Or.inl h1)
         | exact parse_end_post _ _ _ hs (Or.inr h1)
         | exact parse_end_post _ _ _ hs (Or.inl h2))

theorem read_loop_post (inp : List Nat) (dma : Bool) (fuel : Nat) :
    ∀ (st : ReadState) (r : Nat) (v : Value), pv_sorted st.pv →
      read_loop inp dma fuel st = .ok (r, v) →
      v.sorted = true ∧ st.pos < r ∧ r ≤ inp.length ∧
        (inp.getD (r - 1) 0 = 0x7d ∨ inp.getD (r - 1) 0 = 0x5d) := by
  induction fuel with
  | zero => intro st r v _ h; simp [read_loop] at h
  | succ fuel ih =>
    intro st r v hs h
    simp only [read_loop] at h
    split at h
    · simp at h
    · rename_i c tl hd
      have hpost := step_post_step inp dma st c hs
      have hlen : st.pos < inp.length := by
        by_contra hh
        rw [List.drop_eq_nil_of_le (by omega)] at hd
        simp at hd
      have hc : inp.getD st.pos 0 = c := by
        have := congrArg List.head? hd
        simp only [List.head?_drop, List.head?_cons] at this
        rw [List.getD_eq_getElem?_getD, this]
        rfl
      split at h
      · rename_i st2 hst
        rw [hst] at hpost
        obtain ⟨h1, h2, h3, h4⟩ := ih st2 r v hpost.1 h
        exact ⟨h1, by have := hpost.2; omega, h3, h4⟩
      · rename_i r2 v2 hst
        rw [hst] at hpost
        simp only [Except.ok.injEq, Prod.mk.injEq] at h
        obtain ⟨rfl, rfl⟩ := h
        obtain ⟨h1, h2, h3⟩ := hpost
        subst h2
        refine ⟨h1, by omega, by omega, ?_⟩
        rw [Nat.add_sub_cancel, hc]
        exact h3
      · simp at h

/-! ## Locality of the sub-parsers -/

theorem slice_append (q x : List Nat) (start pos : Nat) (h : pos ≤ q.length) :
    ((q ++ x).drop start).take (pos - start) = (q.drop start).take (pos - start) := by
  by_cases hs : start ≤ q.length
  · rw [List.drop_append_of_le_length hs, List.take_append_of_le_length]
    simp only [List.length_drop]
    omega
  · have : pos - start = 0 := by omega
    rw [this]
    simp

theorem read_nil_loop_local (x y : List Nat) (p : List Nat) :
    ∀ (pos n : Nat) (v : Value), read_nil_loop pos (p ++ x) = .ok (n, v) → n ≤ pos + p.length →
      read_nil_loop pos (p ++ y) = .ok (n, v) := by
  induction p with
  | nil =>
    intro pos n v h hn
    have := read_nil_loop_post _ _ _ _ h
    simp at hn; omega
  | cons c p ih =>
    intro pos n v h hn
    rw [List.cons_append] at h ⊢
    rw [read_nil_loop] at h ⊢
    simp only [List.length_cons] at hn
    by_cases h1 : c = 0x6e
    · rw [if_pos h1] at h ⊢
      by_cases h2 : (c :: (p ++ x)).length ≥ 4
      · rw [if_pos h2] at h
        by_cases h3 : (c :: (p ++ x)).take 4 = [0x6e, 0x75, 0x6c, 0x6c]
        · rw [if_pos h3] at h
          simp only [Except.ok.injEq, Prod.mk.injEq] at h
          have hp : 3 ≤ p.length := by omega
          have e1 : (c :: (p ++ y)).take 4 = (c :: (p ++ x)).take 4 := by
            simp only [List.take_succ_cons, List.take_append_of_le_length hp]
          rw [if_pos (by simp only [List.length_cons, List.length_append]; omega), e1, if_pos h3]
          simp only [Except.ok.injEq, Prod.mk.injEq]
          exact h
        · rw [if_neg h3] at h
          have hpost := read_nil_loop_post _ _ _ _ h
          have hp : 3 ≤ p.length := by omega
          have e1 : (c :: (p ++ y)).take 4 = (c :: (p ++ x)).take 4 := by
            simp only [List.take_succ_cons, List.take_append_of_le_length hp]
          rw [if_pos (by simp only [List.length_cons, List.length_append]; omega), e1, if_neg h3]
          exact ih _ _ _ h (by omega)
      · rw [if_neg h2] at h
        simp at h
    · rw [if_neg h1] at h ⊢
      split_ifs at h ⊢
      exact ih _ _ _ h (by omega)

theorem read_boolean_loop_local (x y : List Nat) (p : List Nat) :
    ∀ (pos n : Nat) (v : Value), read_boolean_loop pos (p ++ x) = .ok (n, v) →
      n ≤ pos + p.length → read_boolean_loop pos (p ++ y) = .ok (n, v) := by
  induction p with
  | nil =>
    intro pos n v h hn
    have := read_boolean_loop_post _ _ _ _ h
    simp at hn; omega
  | cons c p ih =>
    intro pos n v h hn
    rw [List.cons_append] at h ⊢
    rw [read_boolean_loop] at h ⊢
    simp only [List.length_cons] at hn
    by_cases h1 : c = 0x74
    · rw [if_pos h1] at h ⊢
      by_cases h2 : (c :: (p ++ x)).length ≥ 4
      · rw [if_pos h2] at h
        by_cases h3 : (c :: (p ++ x)).take 4 = [0x74, 0x72, 0x75, 0x65]
        · rw [if_pos h3] at h
          simp only [Except.ok.injEq, Prod.mk.injEq] at h
          have hp : 3 ≤ p.length := by omega
          have e1 : (c :: (p ++ y)).take 4 = (c :: (p ++ x)).take 4 := by
            simp only [List.take_succ_cons, List.take_append_of_le_length hp]
          rw [if_pos (by simp only [List.length_cons, List.length_append]; omega), e1, if_pos h3]
          simp only [Except.ok.injEq, Prod.mk.injEq]
          exact h
        · rw [if_neg h3] at h
          have hpost := read_boolean_loop_post _ _ _ _ h
          have hp : 3 ≤ p.length := by omega
          have e1 : (c :: (p ++ y)).take 4 = (c :: (p ++ x)).take 4 := by
            simp only [List.take_succ_cons, List.take_append_of_le_length hp]
          rw [if_pos (by simp only [List.length_cons, List.length_append]; omega), e1, if_neg h3]
          exact ih _ _ _ h (by omega)
      · rw [if_neg h2] at h
        simp at h
    · rw [if_neg h1] at h ⊢
      by_cases h1' : c = 0x66
      · rw [if_pos h1'] at h ⊢
        by_cases h2 : (c :: (p ++ x)).length ≥ 5
        · rw [if_pos h2] at h
          by_cases h3 : (c :: (p ++ x)).take 5 = [0x66, 0x61, 0x6c, 0x73, 0x65]
          · rw [if_pos h3] at h
            simp only [Except.ok.injEq, Prod.mk.injEq] at h
            have hp : 4 ≤ p.length := by omega
            have e1 : (c :: (p ++ y)).take 5 = (c :: (p ++ x)).take 5 := by
              simp only [List.take_succ_cons, List.take_append_of_le_length hp]
            rw [if_pos (by simp only [List.length_cons, List.length_append]; omega), e1, if_pos h3]
            simp only [Except.ok.injEq, Prod.mk.injEq]
            exact h
          · rw [if_neg h3] at h
            have hpost := read_boolean_loop_post _ _ _ _ h
            have hp : 4 ≤ p.length := by omega
            have e1 : (c :: (p ++ y)).take 5 = (c :: (p ++ x)).take 5 := by
              simp only [List.take_succ_cons, List.take_append_of_le_length hp]
            rw [if_pos (by simp only [List.length_cons, List.length_append]; omega), e1, if_neg h3]
            exact ih _ _ _ h (by omega)
        · rw [if_neg h2] at h
          simp at h
      · rw [if_neg h1'] at h ⊢
        split_ifs at h ⊢
        exact ih _ _ _ h (by omega)

theorem find_key_end_local (x y : List Nat) (p : List Nat) :
    ∀ (prev p0 r : Nat), find_key_end prev (p ++ x) p0 = some r → r < p0 + p.length →
      find_key_end prev (p ++ y) p0 = some r := by
  induction p with
  | nil =>
    intro prev p0 r h hr
    have := find_key_end_ge _ _ _ _ h
    simp at hr; omega
  | cons c p ih =>
    intro prev p0 r h hr
    simp only [List.cons_append, find_key_end] at h ⊢
    simp only [List.length_cons] at hr
    split_ifs at h ⊢
    · exact h
    · exact ih _ _ _ h (by omega)

theorem read_string_loop_local {held : Bool} (q x y : List Nat) (dma : Bool) :
    ∀ (m : Nat) (p : List Nat), p.length ≤ m →
    ∀ (normal : Bool) (start : Nat) (e : Bool) (pos n : Nat) (v : Value),
      pos + p.length = q.length →
      read_string_loop held (q ++ x) dma normal start e pos (p ++ x) = .ok (n, v) → n ≤ q.length →
      read_string_loop held (q ++ y) dma normal start e pos (p ++ y) = .ok (n, v) := by
  intro m
  induction m with
  | zero =>
    intro p hl normal start e pos n v hq h hn
    have : p = [] := List.length_eq_zero.mp (by omega)
    subst this
    have := read_string_loop_post _ _ _ _ (le_refl _) _ _ _ _ _ _ h
    simp at hq; omega
  | succ m ih =>
    intro p hl normal start e pos n v hq h hn
    cases p with
    | nil =>
      have := read_string_loop_post _ _ _ _ (le_refl _) _ _ _ _ _ _ h
      simp at hq; omega
    | cons c p =>
      simp only [List.length_cons] at hl hq
      simp only [List.cons_append] at h ⊢
      cases normal with
      | false =>
        simp only [read_string_loop] at h ⊢
        split_ifs at h ⊢
        · exact ih p (by omega) _ _ _ _ _ _ (by omega) h hn
        · exact ih p (by omega) _ _ _ _ _ _ (by omega) h hn
      | true =>
        simp only [read_string_loop] at h ⊢
        rw [slice_append q x start pos (by omega)] at h
        rw [slice_append q y start pos (by omega)]
        split_ifs at h ⊢
        all_goals first
          | exact h
          | exact ih p (by omega) _ _ _ _ _ _ (by omega) h hn
          | (rcases p with _ | ⟨d, p2⟩
             · exfalso
               simp only [List.nil_append] at h
               rcases x with _ | ⟨d, x2⟩
               · simp at h
               · simp only [] at h
                 have := read_string_loop_post _ _ _ _ (le_refl _) _ _ _ _ _ _ h
                 simp at hq; omega
             · simp only [List.length_cons] at hl hq
               simp only [List.cons_append] at h ⊢
               exact ih p2 (by omega) _ _ _ _ _ _ (by omega) h hn)

theorem takeWhile_append_local (f : Nat → Bool) (x y : List Nat) (t : List Nat) :
    ((t ++ x).takeWhile f).length < t.length →
      (t ++ y).takeWhile f = (t ++ x).takeWhile f := by
  induction t with
  | nil => intro h; simp at h
  | cons c t ih =>
    intro h
    simp only [List.cons_append, List.takeWhile_cons] at h ⊢
    split_ifs at h ⊢ with hc
    · simp only [List.length_cons, Nat.add_lt_add_iff_right] at h
      rw [ih h]
    · rfl

theorem sign_length_append (t x : List Nat) (h : 0 < t.length) :
    sign_length (t ++ x) = sign_length t := by
  cases t with
  | nil => simp at h
  | cons c t => rfl

theorem sign_length_le_one (t : List Nat) : sign_length t ≤ 1 := by
  cases t with
  | nil => simp [sign_length]
  | cons c t => simp only [sign_length]; split_ifs <;> omega

theorem head?_append_of_pos (t x : List Nat) (h : 0 < t.length) :
    (t ++ x).head? = t.head? := by
  cases t with
  | nil => simp at h
  | cons c t => rfl

theorem ttoi64_snd (inp : List Nat) :
    (ttoi64 inp).2 =
      if (((inp.drop (inp.takeWhile isspace).length).drop
            (sign_length (inp.drop (inp.takeWhile isspace).length))).takeWhile number_0_9).length = 0
      then 0
      else (inp.takeWhile isspace).length + sign_length (inp.drop (inp.takeWhile isspace).length)
        + (((inp.drop (inp.takeWhile isspace).length).drop
            (sign_length (inp.drop (inp.takeWhile isspace).length))).takeWhile number_0_9).length := by
  unfold ttoi64
  simp only []
  split_ifs <;> rfl

/-- The model of `strtoll` reads nothing past the unit that ends the digits. -/
theorem ttoi64_local (t x y : List Nat) (k : Nat) (hk : (ttoi64 (t ++ x)).2 = k)
    (hpos : 0 < k) (hlt : k < t.length) : ttoi64 (t ++ y) = ttoi64 (t ++ x) := by
  rw [ttoi64_snd] at hk
  split_ifs at hk with h0
  · omega
  · have hws : ((t ++ x).takeWhile isspace).length < t.length := by omega
    have e1 : (t ++ y).takeWhile isspace = (t ++ x).takeWhile isspace :=
      takeWhile_append_local _ _ _ _ hws
    generalize hW : ((t ++ x).takeWhile isspace).length = W at *
    have e2 : ∀ z : List Nat, (t ++ z).drop W = t.drop W ++ z :=
      fun z => List.drop_append_of_le_length (by omega)
    have hl1 : 0 < (t.drop W).length := by simp only [List.length_drop]; omega
    have e3 : ∀ z : List Nat, sign_length (t.drop W ++ z) = sign_length (t.drop W) :=
      fun z => sign_length_append _ _ hl1
    have hsg := sign_length_le_one (t.drop W)
    rw [e2 x, e3 x] at hk h0
    generalize hG : sign_length (t.drop W) = G at *
    have e4 : ∀ z : List Nat, (t.drop W ++ z).drop G = (t.drop W).drop G ++ z :=
      fun z => List.drop_append_of_le_length (by omega)
    rw [e4 x] at hk h0
    have hds : ((((t.drop W).drop G) ++ x).takeWhile number_0_9).length
        < ((t.drop W).drop G).length := by
      simp only [List.length_drop]; omega
    have e5 := takeWhile_append_local number_0_9 x y _ hds
    have e6 : ∀ z : List Nat, (t.drop W ++ z).head? = (t.drop W).head? :=
      fun z => head?_append_of_pos _ z hl1
    unfold ttoi64
    simp only [e1, hW, e2, e3, e4, e5, e6]

theorem fraction_length_local (d1 : Nat) (t x y : List Nat)
    (hj : d1 = 0 → 0 < fraction_length d1 (t ++ x))
    (hlt : fraction_length d1 (t ++ x) < t.length) :
    fraction_length d1 (t ++ y) = fraction_length d1 (t ++ x) := by
  cases t with
  | nil => simp at hlt
  | cons c t =>
    rw [List.cons_append] at hj hlt ⊢
    rw [List.cons_append]
    simp only [fraction_length] at hj hlt ⊢
    by_cases hc : c = 0x2e
    · simp only [if_pos hc] at hj hlt ⊢
      by_cases h0 : d1 = 0 ∧ ((t ++ x).takeWhile number_0_9).length = 0
      · rw [if_pos h0] at hj
        exact absurd (hj h0.1) (by omega)
      · rw [if_neg h0] at hlt
        simp only [List.length_cons] at hlt
        have e := takeWhile_append_local number_0_9 x y t (by omega)
        rw [e]
    · simp only [if_neg hc]

theorem exponent_length_local (t x y : List Nat)
    (hlt : exponent_length (t ++ x) < t.length)
    (hterm : number_ending (t.getD (exponent_length (t ++ x)) 0) = true) :
    exponent_length (t ++ y) = exponent_length (t ++ x) := by
  cases t with
  | nil => simp at hlt
  | cons c t =>
    rw [List.cons_append] at hlt hterm ⊢
    rw [List.cons_append]
    simp only [exponent_length] at hlt hterm ⊢
    by_cases hc : c = 0x65 ∨ c = 0x45
    · simp only [if_pos hc] at hlt hterm ⊢
      by_cases h0 : (((t ++ x).drop (sign_length (t ++ x))).takeWhile number_0_9).length = 0
      · rw [if_pos h0] at hterm
        simp only [List.getD_cons_zero] at hterm
        rcases hc with rfl | rfl <;> simp [number_ending, white_space] at hterm
      · rw [if_neg h0] at hlt
        simp only [List.length_cons] at hlt
        have hl : 0 < t.length := by omega
        have e3 : ∀ z : List Nat, sign_length (t ++ z) = sign_length t :=
          fun z => sign_length_append _ _ hl
        have hsg := sign_length_le_one t
        rw [e3 x] at hlt h0
        have e4 : ∀ z : List Nat, (t ++ z).drop (sign_length t) = t.drop (sign_length t) ++ z :=
          fun z => List.drop_append_of_le_length (by omega)
        rw [e4 x] at hlt h0
        have e5 := takeWhile_append_local number_0_9 x y (t.drop (sign_length t))
          (by simp only [List.length_drop]; omega)
        simp only [e3, e4, e5]
    · simp only [if_neg hc]

theorem ttod_snd (inp : List Nat) :
    (ttod inp).2 =
      if (((inp.drop (inp.takeWhile isspace).length).drop
            (sign_length (inp.drop (inp.takeWhile isspace).length))).takeWhile number_0_9).length = 0
          ∧ fraction_length
            (((inp.drop (inp.takeWhile isspace).length).drop
              (sign_length (inp.drop (inp.takeWhile isspace).length))).takeWhile number_0_9).length
            (((inp.drop (inp.takeWhile isspace).length).drop
              (sign_length (inp.drop (inp.takeWhile isspace).length))).drop
              (((inp.drop (inp.takeWhile isspace).length).drop
                (sign_length (inp.drop (inp.takeWhile isspace).length))).takeWhile
                  number_0_9).length) = 0
      then 0
      else (inp.takeWhile isspace).length + sign_length (inp.drop (inp.takeWhile isspace).length)
        + (((inp.drop (inp.takeWhile isspace).length).drop
            (sign_length (inp.drop (inp.takeWhile isspace).length))).takeWhile number_0_9).length
        + fraction_length
            (((inp.drop (inp.takeWhile isspace).length).drop
              (sign_length (inp.drop (inp.takeWhile isspace).length))).takeWhile number_0_9).length
            (((inp.drop (inp.takeWhile isspace).length).drop
              (sign_length (inp.drop (inp.takeWhile isspace).length))).drop
              (((inp.drop (inp.takeWhile isspace).length).drop
                (sign_length (inp.drop (inp.takeWhile isspace).length))).takeWhile
                  number_0_9).length)
        + exponent_length
            ((((inp.drop (inp.takeWhile isspace).length).drop
              (sign_length (inp.drop (inp.takeWhile isspace).length))).drop
              (((inp.drop (inp.takeWhile isspace).length).drop
                (sign_length (inp.drop (inp.takeWhile isspace).length))).takeWhile
                  number_0_9).length).drop
              (fraction_length
                (((inp.drop (inp.takeWhile isspace).length).drop
                  (sign_length (inp.drop (inp.takeWhile isspace).length))).takeWhile
                    number_0_9).length
                (((inp.drop (inp.takeWhile isspace).length).drop
                  (sign_length (inp.drop (inp.takeWhile isspace).length))).drop
                  (((inp.drop (inp.takeWhile isspace).length).drop
                    (sign_length (inp.drop (inp.takeWhile isspace).length))).takeWhile
                      number_0_9).length))) := by
  unfold ttod
  simp only []
  split_ifs <;> rfl

/-- The model of `strtod` reads nothing past a number ending that stops it. -/
theorem ttod_local (t x y : List Nat) (k : Nat) (hk : (ttod (t ++ x)).2 = k)
    (hpos : 0 < k) (hlt : k < t.length) (hterm : number_ending (t.getD k 0) = true) :
    ttod (t ++ y) = ttod (t ++ x) := by
  rw [ttod_snd] at hk
  split_ifs at hk with h0
  · omega
  · have hws : ((t ++ x).takeWhile isspace).length < t.length := by omega
    have e1 : (t ++ y).takeWhile isspace = (t ++ x).takeWhile isspace :=
      takeWhile_append_local _ _ _ _ hws
    generalize hW : ((t ++ x).takeWhile isspace).length = W at *
    have e2 : ∀ z : List Nat, (t ++ z).drop W = t.drop W ++ z :=
      fun z => List.drop_append_of_le_length (by omega)
    have hl1 : 0 < (t.drop W).length := by simp only [List.length_drop]; omega
    have e3 : ∀ z : List Nat, sign_length (t.drop W ++ z) = sign_length (t.drop W) :=
      fun z => sign_length_append _ _ hl1
    have hsg := sign_length_le_one (t.drop W)
    rw [e2 x, e3 x] at hk h0
    generalize hG : sign_length (t.drop W) = G at *
    have e4 : ∀ z : List Nat, (t.drop W ++ z).drop G = (t.drop W).drop G ++ z :=
      fun z => List.drop_append_of_le_length (by omega)
    rw [e4 x] at hk h0
    have hds : ((((t.drop W).drop G) ++ x).takeWhile number_0_9).length
        < ((t.drop W).drop G).length := by
      simp only [List.length_drop]; omega
    have e5 := takeWhile_append_local number_0_9 x y _ hds
    generalize hD : ((((t.drop W).drop G) ++ x).takeWhile number_0_9).length = D at *
    have e6 : ∀ z : List Nat, ((t.drop W).drop G ++ z).drop D = ((t.drop W).drop G).drop D ++ z :=
      fun z => List.drop_append_of_le_length (by omega)
    rw [e6 x] at hk h0
    have e7 := fraction_length_local D (((t.drop W).drop G).drop D) x y
      (by intro hd; by_contra hh; exact h0 ⟨hd, by omega⟩)
      (by simp only [List.length_drop] at hds ⊢; omega)
    generalize hF : fraction_length D (((t.drop W).drop G).drop D ++ x) = F at *
    have e8 : ∀ z : List Nat, (((t.drop W).drop G).drop D ++ z).drop F
        = (((t.drop W).drop G).drop D).drop F ++ z :=
      fun z => List.drop_append_of_le_length (by simp only [List.length_drop] at hds ⊢; omega)
    rw [e8 x] at hk
    have e9 := exponent_length_local ((((t.drop W).drop G).drop D).drop F) x y
      (by simp only [List.length_drop] at hds ⊢; omega)
      (by
        rw [List.getD_eq_getElem?_getD] at hterm ⊢
        simp only [List.getElem?_drop]
        have : W + (G + (D + (F + exponent_length ((((t.drop W).drop G).drop D).drop F ++ x)))) = k := by
          omega
        rw [this]
        exact hterm)
    generalize hE : exponent_length ((((t.drop W).drop G).drop D).drop F ++ x) = E at *
    have e10 : ∀ z : List Nat, (t.drop W ++ z).take (G + D + F + E) = (t.drop W).take (G + D + F + E) :=
      fun z => List.take_append_of_le_length (by simp only [List.length_drop]; omega)
    have e11 : (((t.drop W).drop G ++ y).takeWhile number_0_9).length = D := by rw [e5, hD]
    unfold ttod
    simp only [e1, hW, e2, e3, e4, e11, hD, e6, e7, hF, e8, e9, hE, e10]

theorem read_number_end_local (q x y : List Nat) (state : NumState) (start pos n : Nat)
    (v : Value) (h : read_number_end (q ++ x) state start pos = .ok (n, v))
    (hsp : start < pos) (hlt : pos < q.length)
    (hterm : number_ending (q.getD pos 0) = true) :
    read_number_end (q ++ y) state start pos = .ok (n, v) := by
  have e2 : ∀ z : List Nat, (q ++ z).drop start = q.drop start ++ z :=
    fun z => List.drop_append_of_le_length (by omega)
  cases state <;> simp only [read_number_end] at h ⊢ <;>
    first
    | exact h
    | (rw [e2 x] at h
       rw [e2 y]
       split_ifs at h with hk
       have e := ttoi64_local (q.drop start) x y (pos - start) (by omega) (by omega)
         (by simp only [List.length_drop]; omega)
       rw [e, if_pos hk]
       exact h)
    | (rw [e2 x] at h
       rw [e2 y]
       split_ifs at h with hk
       have e := ttod_local (q.drop start) x y (pos - start) (by omega) (by omega)
         (by simp only [List.length_drop]; omega)
         (by
           rw [List.getD_eq_getElem?_getD] at hterm ⊢
           rw [List.getElem?_drop]
           have : start + (pos - start) = pos := by omega
           rw [this]
           exact hterm)
       rw [e, if_pos hk]
       exact h)

theorem drop_cons_facts (q : List Nat) (pos c : Nat) (p : List Nat) (h : q.drop pos = c :: p) :
    q.drop (pos + 1) = p ∧ q.getD pos 0 = c ∧ pos < q.length := by
  have hlt : pos < q.length := by
    by_contra hh
    rw [List.drop_eq_nil_of_le (by omega)] at h
    simp at h
  refine ⟨?_, ?_, hlt⟩
  · have := congrArg List.tail h
    simpa using this
  · have := congrArg List.head? h
    simp only [List.head?_drop, List.head?_cons] at this
    rw [List.getD_eq_getElem?_getD, this]
    rfl

set_option maxHeartbeats 1000000 in
theorem read_number_loop_local (q x y : List Nat) (p : List Nat) :
    ∀ (state : NumState) (start pos n : Nat) (v : Value), q.drop pos = p →
      (state ≠ .NONE → start < pos) →
      read_number_loop (q ++ x) state start pos (p ++ x) = .ok (n, v) → n < q.length →
      read_number_loop (q ++ y) state start pos (p ++ y) = .ok (n, v) := by
  induction p with
  | nil =>
    intro state start pos n v hq hst h hn
    have := read_number_loop_post _ _ _ _ _ _ _ h
    have hl := congrArg List.length hq
    simp only [List.length_drop, List.length_nil] at hl
    omega
  | cons c p ih =>
    intro state start pos n v hq hst h hn
    obtain ⟨hq2, hc, hlt⟩ := drop_cons_facts q pos c p hq
    rw [List.cons_append] at h ⊢
    cases state <;> simp only [read_number_loop] at h ⊢ <;> split_ifs at h ⊢ <;>
      first
      | exact absurd h (by simp)
      | exact read_number_end_local q x y _ _ _ _ _ h (hst (by simp)) hlt (by rw [hc]; assumption)
      | (refine ih _ _ _ _ _ hq2 ?_ h hn
         intro hne
         first
           | exact absurd rfl hne
           | omega
           | (have hlt2 := hst (by simp); omega))

theorem read_number_local (q x y : List Nat) (dma : Bool) (n : Nat) (v : Value)
    (h : read_number (q ++ x) dma = .ok (n, v)) (hn : n < q.length) :
    read_number (q ++ y) dma = .ok (n, v) :=
  read_number_loop_local q x y q _ _ _ _ _ (by simp) (by simp) h hn

theorem read_string_local {held : Bool} (q x y : List Nat) (dma : Bool) (n : Nat) (v : Value)
    (h : read_string held (q ++ x) dma = .ok (n, v)) (hn : n < q.length) :
    read_string held (q ++ y) dma = .ok (n, v) :=
  read_string_loop_local q x y dma _ q (le_refl _) _ _ _ _ _ _ (by simp) h (by omega)

theorem read_nil_local (q x y : List Nat) (dma : Bool) (n : Nat) (v : Value)
    (h : read_nil (q ++ x) dma = .ok (n, v)) (hn : n < q.length) :
    read_nil (q ++ y) dma = .ok (n, v) :=
  read_nil_loop_local x y q _ _ _ h (by omega)

theorem read_boolean_local (q x y : List Nat) (dma : Bool) (n : Nat) (v : Value)
    (h : read_boolean (q ++ x) dma = .ok (n, v)) (hn : n < q.length) :
    read_boolean (q ++ y) dma = .ok (n, v) :=
  read_boolean_loop_local x y q _ _ _ h (by omega)

/-! ## Locality of `read` -/

theorem push_key_within (key : tstring) (p u : Nat) (st : ReadState) (m : Nat)
    (h : step_within m (push_key key p u st)) : p + 1 < m := by
  unfold push_key at h
  split at h
  · exact False.elim h
  · split at h
    · exact h
    · exact False.elim h

theorem read_scalar_local (fp : List Nat → Bool → Except Error (Nat × Value))
    (P x y : List Nat) (dma : Bool) (st : ReadState)
    (hfp : ∀ q n v, fp (q ++ x) dma = .ok (n, v) → n < q.length → fp (q ++ y) dma = .ok (n, v))
    (hpos : ∀ i n v, fp i dma = .ok (n, v) → 0 < n)
    (hst : st.pos ≤ P.length)
    (hw : step_within P.length (read_scalar fp (P ++ x) dma st)) :
    read_scalar fp (P ++ y) dma st = read_scalar fp (P ++ x) dma st := by
  have e2 : ∀ z : List Nat, (P ++ z).drop st.pos = P.drop st.pos ++ z :=
    fun z => List.drop_append_of_le_length hst
  unfold read_scalar at hw ⊢
  cases hpv : st.pv with
  | nil => simp only [hpv]
  | cons top below =>
    simp only [hpv, e2] at hw ⊢
    cases hf : fp (P.drop st.pos ++ x) dma with
    | error e =>
      rw [hf] at hw
      exact False.elim hw
    | ok nv =>
      obtain ⟨n, v⟩ := nv
      rw [hf] at hw
      have h0 := hpos _ _ _ hf
      have hn : n < (P.drop st.pos).length := by
        simp only [List.length_drop]
        simp only [] at hw
        split at hw
        · split_ifs at hw
          · simp only [step_within] at hw; omega
          · simp only [step_within] at hw; omega
          · exact False.elim hw
        · exact False.elim hw
      rw [hfp _ _ _ hf hn]

theorem step_value_local (P x y : List Nat) (dma : Bool) (st : ReadState) (c : Nat)
    (hst : st.pos ≤ P.length)
    (hw : step_within P.length (step_value (P ++ x) dma st c)) :
    step_value (P ++ y) dma st c = step_value (P ++ x) dma st c := by
  have l1 := read_scalar_local (read_string (slot_holds_string st.pv)) P x y dma st
    (fun q n v => read_string_local q x y dma n v)
    (fun i n v h => (read_string_post i dma n v h).1) hst
  have l2 := read_scalar_local read_number P x y dma st
    (fun q n v => read_number_local q x y dma n v)
    (fun i n v h => (read_number_post i dma n v h).1) hst
  have l3 := read_scalar_local read_boolean P x y dma st
    (fun q n v => read_boolean_local q x y dma n v)
    (fun i n v h => (read_boolean_post i dma n v h).1) hst
  have l4 := read_scalar_local read_nil P x y dma st
    (fun q n v => read_nil_local q x y dma n v)
    (fun i n v h => (read_nil_post i dma n v h).1) hst
  unfold step_value at hw ⊢
  by_cases h1 : c = 0x22
  · simp only [if_pos h1] at hw ⊢; exact l1 hw
  simp only [if_neg h1] at hw ⊢
  by_cases h2 : c = 0x2d ∨ number_0_9 c = true
  · simp only [if_pos h2] at hw ⊢; exact l2 hw
  simp only [if_neg h2] at hw ⊢
  by_cases h3 : c = 0x74 ∨ c = 0x66
  · simp only [if_pos h3] at hw ⊢; exact l3 hw
  simp only [if_neg h3] at hw ⊢
  by_cases h4 : c = 0x6e
  · simp only [if_pos h4] at hw ⊢; exact l4 hw
  simp only [if_neg h4]

theorem step_local (P x y : List Nat) (dma : Bool) (st : ReadState) (c : Nat)
    (hst : st.pos < P.length)
    (hw : step_within P.length (step (P ++ x) dma st c)) :
    step (P ++ y) dma st c = step (P ++ x) dma st c := by
  unfold step at hw ⊢
  cases hstate : st.state <;> simp only [hstate] at hw ⊢
  case OBJECT_PAIR_KEY_QUOTE =>
    have e2 : ∀ z : List Nat, (P ++ z).drop (st.pos + 1) = P.drop (st.pos + 1) ++ z :=
      fun z => List.drop_append_of_le_length (by omega)
    simp only [e2] at hw ⊢
    split_ifs at hw ⊢ with h1 h2
    · cases hk : find_key_end 0x5c (P.drop (st.pos + 1) ++ x) (st.pos + 1) with
      | none => rw [hk] at hw; exact False.elim hw
      | some p =>
        rw [hk] at hw
        simp only [] at hw ⊢
        have hp : p + 1 < P.length := by
          split at hw
          · exact False.elim hw
          · exact push_key_within _ _ _ _ _ hw
        have hk2 := find_key_end_local x y (P.drop (st.pos + 1)) _ _ _ hk
          (by simp only [List.length_drop]; omega)
        rw [hk2]
        simp only [List.length_append, slice_append P x st.u p (by omega),
          slice_append P y st.u p (by omega)]
    · rw [slice_append P x st.u st.pos (by omega), slice_append P y st.u st.pos (by omega)]
    · rfl
  case OBJECT_PAIR_COLON => exact step_value_local P x y dma st c (by omega) hw
  case ARRAY_LBRACKET => exact step_value_local P x y dma st c (by omega) hw
  case ARRAY_COMMA => exact step_value_local P x y dma st c (by omega) hw

theorem read_loop_local (P x y : List Nat) (dma : Bool) (fuel : Nat) :
    ∀ (st : ReadState) (r : Nat) (v : Value) (fuel2 : Nat), pv_sorted st.pv →
      read_loop (P ++ x) dma fuel st = .ok (r, v) → r ≤ P.length → r ≤ st.pos + fuel2 →
      read_loop (P ++ y) dma fuel2 st = .ok (r, v) := by
  induction fuel with
  | zero => intro st r v fuel2 _ h; simp [read_loop] at h
  | succ fuel ih =>
    intro st r v fuel2 hs h hr hf
    have hpost := read_loop_post _ _ _ _ _ _ hs h
    obtain ⟨f2, rfl⟩ : ∃ f2, fuel2 = f2 + 1 := ⟨fuel2 - 1, by omega⟩
    have e2 : ∀ z : List Nat, (P ++ z).drop st.pos = P.drop st.pos ++ z :=
      fun z => List.drop_append_of_le_length (by omega)
    simp only [read_loop, e2] at h ⊢
    cases hd : P.drop st.pos with
    | nil =>
      have := congrArg List.length hd
      simp only [List.length_drop, List.length_nil] at this
      omega
    | cons c p =>
      rw [hd] at h
      simp only [List.cons_append] at h ⊢
      have hsp := step_post_step (P ++ x) dma st c hs
      cases hstep : step (P ++ x) dma st c with
      | next st2 =>
        rw [hstep] at h hsp
        simp only [] at h
        have hpost2 := read_loop_post _ _ _ _ _ _ hsp.1 h
        have hloc := step_local P x y dma st c (by omega)
          (by rw [hstep]; simp only [step_within]; omega)
        rw [hloc, hstep]
        simp only []
        exact ih st2 r v f2 hsp.1 h hr (by have := hsp.2; omega)
      | ret r2 v2 =>
        rw [hstep] at h
        simp only [Except.ok.injEq, Prod.mk.injEq] at h
        obtain ⟨rfl, rfl⟩ := h
        have hloc := step_local P x y dma st c (by omega)
          (by rw [hstep]; simp only [step_within]; omega)
        rw [hloc, hstep]
      | throw e =>
        rw [hstep] at h
        simp at h

theorem pv_sorted_init : pv_sorted [⟨.root, .NIL⟩] := by
  intro f hf
  simp only [List.mem_singleton] at hf
  subst hf
  rfl

/-! ## The escape codec -/
namespace detail
theorem encode_unit_append (c : Nat) (out : tstring) :
    encode_unit c out = out ++ encode_unit c [] := by
  unfold encode_unit
  repeat' split
  all_goals simp only [encode_unicode, to_hex, List.nil_append, List.append_assoc]

theorem encode_append (s : List Nat) (out : tstring) :
    encode s out = out ++ encode s [] := by
  induction s generalizing out with
  | nil => simp [encode]
  | cons c s ih =>
    simp only [encode]
    rw [ih (encode_unit c out), ih (encode_unit c []), encode_unit_append c out, List.append_assoc]

theorem encode_cons (c : Nat) (s : List Nat) :
    encode (c :: s) [] = encode_unit c [] ++ encode s [] := by
  simp only [encode]
  rw [encode_append]

theorem encode_unit_control :
    ∀ c ∈ [0, 1, 2, 3, 4, 5, 6, 7, 11, 14, 15, 16, 17, 18, 19],
      encode_unit c [] = [0x5c, 0x75, 0x30, 0x30, int_to_hex ((c >>> 4) &&& 0xF), int_to_hex (c &&& 0xF)]
      ∧ int_to_hex ((c >>> 4) &&& 0xF) ≠ 0x2f ∧ int_to_hex (c &&& 0xF) ≠ 0x2f := by
  decide

/-- The escape `encode` writes for a unit contains no bare slash, and hands
over a last unit after which the rest decides. -/
theorem bare_slash_free_encode_unit (c prev : Nat) (tail : List Nat)
    (h : ∀ q, bare_slash_free q tail = true) :
    bare_slash_free prev (encode_unit c [] ++ tail) = true := by
  by_cases h1 : c = 0x22
  · subst h1; simp [encode_unit, bare_slash_free, h]
  by_cases h2 : c = 0x5c
  · subst h2; simp [encode_unit, bare_slash_free, h]
  by_cases h3 : c = 0x2f
  · subst h3; simp [encode_unit, bare_slash_free, h]
  by_cases h4 : c = 0x08
  · subst h4; simp [encode_unit, bare_slash_free, h]
  by_cases h5 : c = 0x0c
  · subst h5; simp [encode_unit, bare_slash_free, h]
  by_cases h6 : c = 0x0a
  · subst h6; simp [encode_unit, bare_slash_free, h]
  by_cases h7 : c = 0x0d
  · subst h7; simp [encode_unit, bare_slash_free, h]
  by_cases h8 : c = 0x09
  · subst h8; simp [encode_unit, bare_slash_free, h]
  by_cases h9 : c ∈ [0, 1, 2, 3, 4, 5, 6, 7, 11, 14, 15, 16, 17, 18, 19]
  · obtain ⟨hu, ha, hb⟩ := encode_unit_control c h9
    rw [hu]
    simp [bare_slash_free, h, ha, hb]
  · have hu : encode_unit c [] = [c] := by
      unfold encode_unit
      rw [if_neg h1, if_neg h2, if_neg h3, if_neg h4, if_neg h5, if_neg h6, if_neg h7, if_neg h8,
        if_neg h9]
      rfl
    rw [hu]
    simp [bare_slash_free, h, h3]

theorem bare_slash_free_encode (s : List Nat) (prev : Nat) (tail : List Nat)
    (h : ∀ q, bare_slash_free q tail = true) :
    bare_slash_free prev (encode s [] ++ tail) = true := by
  induction s generalizing prev with
  | nil => simpa [encode] using h prev
  | cons c s ih =>
    rw [encode_cons, List.append_assoc]
    exact bare_slash_free_encode_unit c prev _ (fun q => ih q)

end detail

namespace detail

/-- One escape of `encode` is undone by one iteration of `decode`. -/
theorem decodeLoop_encode_unit (c : Nat) (rest : List Nat) (fuel pos : Nat) (out : tstring) :
    ∃ pos2, decodeLoop (fuel + 1) pos (encode_unit c [] ++ rest) out
      = decodeLoop fuel pos2 rest (out ++ [c]) := by
  by_cases h1 : c = 0x22
  · subst h1; exact ⟨pos + 2, rfl⟩
  by_cases h2 : c = 0x5c
  · subst h2; exact ⟨pos + 2, rfl⟩
  by_cases h3 : c = 0x2f
  · subst h3; exact ⟨pos + 2, rfl⟩
  by_cases h4 : c = 0x08
  · subst h4; exact ⟨pos + 2, rfl⟩
  by_cases h5 : c = 0x0c
  · subst h5; exact ⟨pos + 2, rfl⟩
  by_cases h6 : c = 0x0a
  · subst h6; exact ⟨pos + 2, rfl⟩
  by_cases h7 : c = 0x0d
  · subst h7; exact ⟨pos + 2, rfl⟩
  by_cases h8 : c = 0x09
  · subst h8; exact ⟨pos + 2, rfl⟩
  by_cases h9 : c ∈ [0, 1, 2, 3, 4, 5, 6, 7, 11, 14, 15, 16, 17, 18, 19]
  · refine ⟨pos + 1 + 4 + 1, ?_⟩
    simp only [List.mem_cons, List.mem_singleton, List.not_mem_nil, or_false] at h9
    rcases h9 with h | h | h | h | h | h | h | h | h | h | h | h | h | h | h <;> subst h <;> rfl
  · refine ⟨pos + 1, ?_⟩
    have hu : encode_unit c [] = [c] := by
      unfold encode_unit
      rw [if_neg h1, if_neg h2, if_neg h3, if_neg h4, if_neg h5, if_neg h6, if_neg h7, if_neg h8,
        if_neg h9]
      rfl
    rw [hu]
    simp only [List.singleton_append, decodeLoop, if_neg h2]

theorem length_encode_unit_pos (c : Nat) : 1 ≤ (encode_unit c []).length := by
  unfold encode_unit
  repeat' split
  all_goals simp [encode_unicode, to_hex]

theorem decodeLoop_encode (s : List Nat) :
    ∀ (fuel pos : Nat) (out : tstring), (encode s []).length ≤ fuel →
      decodeLoop fuel pos (encode s []) out = .ok (out ++ s) := by
  induction s with
  | nil => intro fuel pos out _; cases fuel <;> simp [encode, decodeLoop]
  | cons c s ih =>
    intro fuel pos out hf
    rw [encode_cons] at hf ⊢
    have h1 := length_encode_unit_pos c
    rw [List.length_append] at hf
    obtain ⟨f, rfl⟩ : ∃ f, fuel = f + 1 := ⟨fuel - 1, by omega⟩
    obtain ⟨pos2, h2⟩ := decodeLoop_encode_unit c (encode s []) f pos out
    rw [h2, ih f pos2 (out ++ [c]) (by omega)]
    simp

end detail

/-! ## Hexadecimal escapes and the locality of `decode` -/

namespace detail

theorem hex_to_int_of_is_hex (c : Nat) (h : is_hex c = true) :
    hex_to_int c = .ok (hex_value c) ∧ hex_value c < 16 := by
  unfold is_hex at h
  simp only [Bool.or_eq_true, Bool.and_eq_true, decide_eq_true_eq] at h
  unfold hex_to_int hex_value
  split_ifs <;> first | exact ⟨rfl, by omega⟩ | omega

theorem hex_to_int_of_not_hex (c : Nat) (h : is_hex c = false) :
    hex_to_int c = .error .DecodeError := by
  unfold is_hex at h
  simp only [Bool.or_eq_false_iff, Bool.and_eq_false_iff, decide_eq_false_iff_not] at h
  unfold hex_to_int
  split_ifs <;> first | rfl | omega

theorem byte_of_nibbles (h0 h1 : Nat) (a0 : h0 < 16) (a1 : h1 < 16) :
    ((h0 <<< 4) ||| h1) % 256 = h0 * 16 + h1 := by
  have e := Nat.mul_add_lt_is_or (i := 4) (b := h1) (by omega) h0
  rw [Nat.shiftLeft_eq, Nat.mul_comm, ← e]
  omega

theorem ushort_of_bytes (hb lb : Nat) (a0 : hb < 256) (a1 : lb < 256) :
    ((hb <<< 8) ||| lb) % 65536 = hb * 256 + lb := by
  have e := Nat.mul_add_lt_is_or (i := 8) (b := lb) (by omega) hb
  rw [Nat.shiftLeft_eq, Nat.mul_comm, ← e]
  omega

set_option maxRecDepth 10000 in
theorem hex_to_ushort_of_hex (a b c d : Nat) (rest : List Nat) (ha : is_hex a = true)
    (hb : is_hex b = true) (hc : is_hex c = true) (hd : is_hex d = true) :
    hex_to_ushort (a :: b :: c :: d :: rest) = .ok (hex4_value a b c d) := by
  obtain ⟨ea, la⟩ := hex_to_int_of_is_hex a ha
  obtain ⟨eb, lb⟩ := hex_to_int_of_is_hex b hb
  obtain ⟨ec, lc⟩ := hex_to_int_of_is_hex c hc
  obtain ⟨ed, ld⟩ := hex_to_int_of_is_hex d hd
  have e1 := byte_of_nibbles _ _ la lb
  have e2 := byte_of_nibbles _ _ lc ld
  have e3 := ushort_of_bytes (hex_value a * 16 + hex_value b) (hex_value c * 16 + hex_value d)
    (by omega) (by omega)
  unfold hex_to_ushort
  simp only [ea, eb, ec, ed]
  simp only [e1, e2, e3]
  unfold hex4_value
  congr 1
  omega

theorem hex_to_ushort_of_not_hex (a b c d : Nat) (rest : List Nat)
    (h : (is_hex a && is_hex b && is_hex c && is_hex d) = false) :
    hex_to_ushort (a :: b :: c :: d :: rest) = .error .DecodeError := by
  simp only [hex_to_ushort]
  cases ha : is_hex a
  · rw [hex_to_int_of_not_hex a ha]
  · cases hb : is_hex b
    · rw [hex_to_int_of_not_hex b hb]
      split <;> simp_all
    · cases hc : is_hex c
      · rw [hex_to_int_of_not_hex c hc]
        split <;> simp_all
      · cases hd : is_hex d
        · rw [hex_to_int_of_not_hex d hd]
          split <;> simp_all
        · simp [ha, hb, hc, hd] at h

theorem hex_to_ushort_short (l : List Nat) (h : l.length < 4) :
    hex_to_ushort l = .error .DecodeError := by
  match l, h with
  | [], _ => rfl
  | [_], _ => rfl
  | [_, _], _ => rfl
  | [_, _, _], _ => rfl
  | _ :: _ :: _ :: _ :: _, h => (simp only [List.length_cons] at h; omega)

theorem hex4_value_lt (a b c d : Nat) (ha : is_hex a = true)
    (hb : is_hex b = true) (hc : is_hex c = true) (hd : is_hex d = true) :
    hex4_value a b c d < 65536 := by
  have la := (hex_to_int_of_is_hex a ha).2
  have lb := (hex_to_int_of_is_hex b hb).2
  have lc := (hex_to_int_of_is_hex c hc).2
  have ld := (hex_to_int_of_is_hex d hd).2
  unfold hex4_value
  omega

theorem hex_to_ushort_append (l x : List Nat) (v : Nat) (h : hex_to_ushort l = .ok v) :
    hex_to_ushort (l ++ x) = .ok v := by
  match l, h with
  | [], h => simp [hex_to_ushort] at h
  | [_], h => simp [hex_to_ushort] at h
  | [_, _], h => simp [hex_to_ushort] at h
  | [_, _, _], h => simp [hex_to_ushort] at h
  | a :: b :: c :: d :: t, h =>
    simp only [List.cons_append]
    simpa [hex_to_ushort] using h

theorem hex_to_ushort_length (l : List Nat) (v : Nat) (h : hex_to_ushort l = .ok v) :
    4 ≤ l.length := by
  by_contra hh
  rw [hex_to_ushort_short l (by omega)] at h
  simp at h

theorem decode_unicode_length (l : List Nat) (out : tstring) (n : Nat) (o : tstring)
    (h : decode_unicode l out = .ok (n, o)) : 4 ≤ n ∧ n ≤ l.length := by
  unfold decode_unicode at h
  split at h
  · simp at h
  · rename_i ui hu
    have h4 := hex_to_ushort_length l ui hu
    split_ifs at h with h1 h2
    · split at h
      · simp at h
      · rename_i lo hlo
        have h5 := hex_to_ushort_length _ lo hlo
        simp only [List.length_drop] at h5
        simp only [Except.ok.injEq, Prod.mk.injEq] at h
        omega
    · simp only [Except.ok.injEq, Prod.mk.injEq] at h
      omega

theorem decode_unicode_local (l x : List Nat) (out : tstring) (r : Nat × tstring)
    (h : decode_unicode l out = .ok r) : decode_unicode (l ++ x) out = .ok r := by
  unfold decode_unicode at h ⊢
  split at h
  · simp at h
  · rename_i ui hu
    rw [hex_to_ushort_append l x ui hu]
    simp only []
    split_ifs at h with h1 h2
    · split at h
      · simp at h
      · rename_i lo hlo
        have h5 := hex_to_ushort_length _ lo hlo
        simp only [List.length_drop] at h5
        have e1 : (l ++ x).drop 6 = l.drop 6 ++ x := List.drop_append_of_le_length (by omega)
        have e2 : (l ++ x).getD 4 0 = l.getD 4 0 := by
          simp only [List.getD_eq_getElem?_getD]
          rw [List.getElem?_append_left (by omega)]
        have e3 : (l ++ x).getD 5 0 = l.getD 5 0 := by
          simp only [List.getD_eq_getElem?_getD]
          rw [List.getElem?_append_left (by omega)]
        rw [if_pos h1, if_pos (by rw [e2, e3]; exact ⟨by simp only [List.length_append]; omega, h2.2⟩),
          e1, hex_to_ushort_append _ x lo hlo]
        exact h
    · rw [if_neg h1]
      exact h

/-- What `decode` has done with a text is what it does with that text at the head of
a longer one; `n` is the number of iterations. -/
theorem decodeLoop_append (fuel : Nat) :
    ∀ (pos : Nat) (p : List Nat) (out s : tstring), decodeLoop fuel pos p out = .ok s →
      ∃ n, n ≤ p.length ∧ ∀ (f : Nat) (x : List Nat),
        decodeLoop (n + f) pos (p ++ x) out = decodeLoop f (pos + p.length) x s := by
  induction fuel with
  | zero =>
    intro pos p out s h
    cases p with
    | nil =>
      simp only [decodeLoop, Except.ok.injEq] at h
      subst h
      exact ⟨0, le_refl _, fun f x => by simp⟩
    | cons c rest => simp [decodeLoop] at h
  | succ fuel ih =>
    intro pos p out s h
    cases p with
    | nil =>
      simp only [decodeLoop, Except.ok.injEq] at h
      subst h
      exact ⟨0, le_refl _, fun f x => by simp⟩
    | cons c rest =>
      simp only [decodeLoop] at h
      by_cases hc : c = 0x5c
      · rw [if_pos hc] at h
        cases rest with
        | nil => simp at h
        | cons d rest2 =>
          simp only [] at h
          by_cases hu : d = 0x75
          · have h' : (match decode_unicode rest2 out with
                | .error e => Except.error e
                | .ok (n, out2) => decodeLoop fuel (pos + 1 + n + 1) (rest2.drop n) out2) = .ok s := by
              subst hu
              simpa using h
            cases hdu : decode_unicode rest2 out with
            | error e => rw [hdu] at h'; simp at h'
            | ok r =>
              obtain ⟨k, out2⟩ := r
              rw [hdu] at h'
              simp only [] at h'
              obtain ⟨h4, hk⟩ := decode_unicode_length _ _ _ _ hdu
              obtain ⟨n, hn, hf⟩ := ih _ _ _ _ h'
              simp only [List.length_drop] at hn
              refine ⟨n + 1, by simp only [List.length_cons]; omega, ?_⟩
              intro f x
              have e1 : n + 1 + f = (n + f) + 1 := by omega
              rw [e1, List.cons_append, List.cons_append, decodeLoop]
              subst hc hu
              have hdu2 := decode_unicode_local rest2 x out _ hdu
              have e2 : (rest2 ++ x).drop k = rest2.drop k ++ x :=
                List.drop_append_of_le_length hk
              have e3 : pos + 1 + k + 1 + (rest2.drop k).length = pos + (rest2.length + 1 + 1) := by
                simp only [List.length_drop]
                omega
              simp [hdu2, e2, hf f x]
              congr 1
              omega
          · -- a two-unit escape
            have key : ∀ y : Nat, decodeLoop fuel (pos + 2) rest2 (out ++ [y]) = .ok s →
                (∀ (f : Nat) (x : List Nat),
                  decodeLoop (f + 1) pos (c :: d :: (rest2 ++ x)) out
                    = decodeLoop f (pos + 2) (rest2 ++ x) (out ++ [y])) →
                ∃ n, n ≤ (c :: d :: rest2).length ∧ ∀ (f : Nat) (x : List Nat),
                  decodeLoop (n + f) pos ((c :: d :: rest2) ++ x) out
                    = decodeLoop f (pos + (c :: d :: rest2).length) x s := by
              intro y hy hstep
              obtain ⟨n, hn, hf⟩ := ih _ _ _ _ hy
              refine ⟨n + 1, by simp only [List.length_cons]; omega, ?_⟩
              intro f x
              have e1 : n + 1 + f = (n + f) + 1 := by omega
              rw [e1, List.cons_append, List.cons_append, hstep, hf f x]
              congr 1
              simp only [List.length_cons]
              omega
            split_ifs at h with h1 h2 h3 h4 h5 h6 h7 h8
            all_goals first
              | exact absurd h (by simp)
              | (refine key _ h ?_
                 intro f x
                 rw [decodeLoop]
                 simp only [if_pos hc]
                 subst_vars
                 rfl)
      · rw [if_neg hc] at h
        obtain ⟨n, hn, hf⟩ := ih _ _ _ _ h
        refine ⟨n + 1, by simp only [List.length_cons]; omega, ?_⟩
        intro f x
        have e1 : n + 1 + f = (n + f) + 1 := by omega
        rw [e1, List.cons_append]
        simp only [decodeLoop, if_neg hc]
        rw [hf f x]
        congr 1
        simp only [List.length_cons]
        omega

end detail

namespace detail

set_option maxHeartbeats 4000000 in
theorem decodeLoop_ok_mono (f : Nat) :
    ∀ (pos : Nat) (l : List Nat) (out r : tstring), decodeLoop f pos l out = .ok r →
      ∀ (f2 pos2 : Nat), f ≤ f2 → decodeLoop f2 pos2 l out = .ok r := by
  induction f with
  | zero =>
    intro pos l out r h f2 pos2 _
    cases l with
    | nil => cases f2 <;> simpa [decodeLoop] using h
    | cons c rest => simp [decodeLoop] at h
  | succ f ih =>
    intro pos l out r h f2 pos2 hf
    obtain ⟨g, rfl⟩ : ∃ g, f2 = g + 1 := ⟨f2 - 1, by omega⟩
    cases l with
    | nil => simpa [decodeLoop] using h
    | cons c rest =>
      simp only [decodeLoop] at h ⊢
      by_cases hc : c = 0x5c
      · rw [if_pos hc] at h ⊢
        cases rest with
        | nil => simp at h
        | cons d rest2 =>
          simp only [] at h ⊢
          split_ifs at h ⊢
          all_goals first
            | exact absurd h (by simp)
            | exact ih _ _ _ _ h _ _ (by omega)
            | (split at h
               · exact absurd h (by simp)
               · exact ih _ _ _ _ h _ _ (by omega))
      · rw [if_neg hc] at h ⊢
        exact ih _ _ _ _ h _ _ (by omega)

/-- After a text that `decode` accepts, `decode` goes on with what follows. -/
theorem decode_after (pre : List Nat) (s : tstring) (h : decode pre [] = .ok s) (x : List Nat) :
    ∃ f, x.length ≤ f ∧ decode (pre ++ x) [] = decodeLoop f pre.length x s := by
  unfold decode at h
  obtain ⟨n, hn, hf⟩ := decodeLoop_append _ _ _ _ _ h
  refine ⟨pre.length - n + x.length, by omega, ?_⟩
  unfold decode
  have e : (pre ++ x).length = n + (pre.length - n + x.length) := by
    simp only [List.length_append]; omega
  rw [e, hf]
  simp

theorem decodeLoop_of_decode (rest : List Nat) (out r : tstring) (h : decode rest out = .ok r)
    (f pos : Nat) (hf : rest.length ≤ f) : decodeLoop f pos rest out = .ok r :=
  decodeLoop_ok_mono _ _ _ _ _ h _ _ hf

end detail

namespace detail

theorem decode_unicode_of_hex (a b c d : Nat) (rest : List Nat) (out : tstring)
    (hx : (is_hex a && is_hex b && is_hex c && is_hex d) = true)
    (hs : ¬(0xD800 ≤ hex4_value a b c d ∧ hex4_value a b c d < 0xDC00)) :
    decode_unicode (a :: b :: c :: d :: rest) out
      = .ok (4, decode_unicode_append (hex4_value a b c d) out) := by
  simp only [Bool.and_eq_true] at hx
  unfold decode_unicode
  rw [hex_to_ushort_of_hex a b c d rest hx.1.1.1 hx.1.1.2 hx.1.2 hx.2]
  simp only [ge_iff_le, if_neg hs]

theorem decode_unicode_high_alone (a b c d : Nat) (rest : List Nat) (out : tstring)
    (hx : (is_hex a && is_hex b && is_hex c && is_hex d) = true)
    (hs : 0xD800 ≤ hex4_value a b c d ∧ hex4_value a b c d < 0xDC00)
    (hr : is_u_escape rest = false) :
    decode_unicode (a :: b :: c :: d :: rest) out = .error .DecodeError := by
  simp only [Bool.and_eq_true] at hx
  unfold decode_unicode
  rw [hex_to_ushort_of_hex a b c d rest hx.1.1.1 hx.1.1.2 hx.1.2 hx.2]
  simp only [ge_iff_le, if_pos hs]
  match rest, hr with
  | [], _ => simp
  | [_], _ => simp
  | [e, u], _ => simp [hex_to_ushort]
  | [e, u, _], _ => simp [hex_to_ushort]
  | [e, u, _, _], _ => simp [hex_to_ushort]
  | [e, u, _, _, _], _ => simp [hex_to_ushort]
  | e :: u :: a2 :: b2 :: c2 :: d2 :: rest2, hr =>
    simp only [is_u_escape, Bool.and_eq_false_iff, beq_eq_false_iff_ne, ne_eq] at hr
    by_cases h1 : e = 0x5c ∧ u = 0x75
    · have h2 : (is_hex a2 && is_hex b2 && is_hex c2 && is_hex d2) = false := by
        rcases hr with ((((hr | hr) | hr) | hr) | hr) | hr
        · exact absurd h1.1 hr
        · exact absurd h1.2 hr
        all_goals simp [hr]
      simp [h1.1, h1.2, hex_to_ushort_of_not_hex a2 b2 c2 d2 rest2 h2]
    · have : ¬((a :: b :: c :: d :: e :: u :: a2 :: b2 :: c2 :: d2 :: rest2).length ≥ 6
          ∧ (a :: b :: c :: d :: e :: u :: a2 :: b2 :: c2 :: d2 :: rest2).getD 4 0 = 0x5c
          ∧ (a :: b :: c :: d :: e :: u :: a2 :: b2 :: c2 :: d2 :: rest2).getD 5 0 = 0x75) := by
        intro hh
        exact h1 ⟨by simpa using hh.2.1, by simpa using hh.2.2⟩
      rw [if_neg this]

theorem decode_unicode_pair (a b c d a2 b2 c2 d2 : Nat) (rest : List Nat) (out : tstring)
    (hx : (is_hex a && is_hex b && is_hex c && is_hex d) = true)
    (hs : 0xD800 ≤ hex4_value a b c d ∧ hex4_value a b c d < 0xDC00)
    (hx2 : (is_hex a2 && is_hex b2 && is_hex c2 && is_hex d2) = true) :
    decode_unicode (a :: b :: c :: d :: 0x5c :: 0x75 :: a2 :: b2 :: c2 :: d2 :: rest) out
      = .ok (10, decode_unicode_append
          (((hex4_value a b c d &&& 0x3FF) <<< 10) + (hex4_value a2 b2 c2 d2 &&& 0x3FF)
            + 0x10000) out) := by
  simp only [Bool.and_eq_true] at hx hx2
  unfold decode_unicode
  rw [hex_to_ushort_of_hex a b c d _ hx.1.1.1 hx.1.1.2 hx.1.2 hx.2]
  simp only [ge_iff_le, if_pos hs]
  have e1 : (a :: b :: c :: d :: 0x5c :: 0x75 :: a2 :: b2 :: c2 :: d2 :: rest).drop 6
      = a2 :: b2 :: c2 :: d2 :: rest := rfl
  rw [e1, hex_to_ushort_of_hex a2 b2 c2 d2 _ hx2.1.1.1 hx2.1.1.2 hx2.1.2 hx2.2]
  have l1 : hex4_value a b c d &&& 0x3FF ≤ 0x3FF := Nat.and_le_right
  have l2 : hex4_value a2 b2 c2 d2 &&& 0x3FF ≤ 0x3FF := Nat.and_le_right
  have e2 : (hex4_value a b c d &&& 0x3FF) <<< 10 = (hex4_value a b c d &&& 0x3FF) * 1024 := by
    rw [Nat.shiftLeft_eq]
  simp only [List.length_cons, List.getD_cons_succ, List.getD_cons_zero, e2]
  rw [if_pos ⟨by omega, trivial, trivial⟩]
  have e3 : ((hex4_value a b c d &&& 0x3FF) * 1024 % 2 ^ 32
      + ((hex4_value a2 b2 c2 d2 &&& 0x3FF) + 65536)) % 2 ^ 32
      = (hex4_value a b c d &&& 0x3FF) * 1024 + (hex4_value a2 b2 c2 d2 &&& 0x3FF) + 65536 := by
    omega
  rw [e3]

end detail

namespace detail

theorem decodeLoop_u_error (f pos : Nat) (rest : List Nat) (out : tstring) (e : Error)
    (h : decode_unicode rest out = .error e) :
    decodeLoop (f + 1) pos (0x5c :: 0x75 :: rest) out = .error e := by
  simp [decodeLoop, h]

theorem decodeLoop_u_ok (f pos : Nat) (rest : List Nat) (out : tstring) (n : Nat)
    (out2 : tstring) (h : decode_unicode rest out = .ok (n, out2)) :
    decodeLoop (f + 1) pos (0x5c :: 0x75 :: rest) out
      = decodeLoop f (pos + 1 + n + 1) (rest.drop n) out2 := by
  simp [decodeLoop, h]

end detail

/-! ## `read_string` -/

theorem closing_quote_quote (rest : List Nat) : closing_quote (0x22 :: rest) = some 0 := by
  cases rest <;> simp [closing_quote]

theorem closing_quote_backslash (d : Nat) (rest : List Nat) :
    closing_quote (0x5c :: d :: rest) = (closing_quote rest).map (· + 2) := by
  simp [closing_quote]

theorem closing_quote_other (c : Nat) (rest : List Nat) (h1 : c ≠ 0x22) (h2 : c ≠ 0x5c) :
    closing_quote (c :: rest) = (closing_quote rest).map (· + 1) := by
  cases rest <;> simp [closing_quote, h1, h2]

namespace detail

theorem decodeLoop_plain (l : List Nat) :
    ∀ (f pos : Nat) (out : tstring), (∀ c ∈ l, c ≠ 0x5c) → l.length ≤ f →
      decodeLoop f pos l out = .ok (out ++ l) := by
  induction l with
  | nil => intro f pos out _ _; cases f <;> simp [decodeLoop]
  | cons c l ih =>
    intro f pos out h hf
    obtain ⟨g, rfl⟩ : ∃ g, f = g + 1 := ⟨f - 1, by simp only [List.length_cons] at hf; omega⟩
    simp only [decodeLoop, if_neg (h c (by simp))]
    rw [ih g _ _ (fun x hx => h x (by simp [hx])) (by simp only [List.length_cons] at hf; omega)]
    simp

theorem decode_plain (l : List Nat) (h : ∀ c ∈ l, c ≠ 0x5c) : decode l [] = .ok l := by
  unfold decode
  rw [decodeLoop_plain l _ _ _ h (le_refl _)]
  simp

end detail

theorem no_conv_no_backslash (l : List Nat) (h : ∀ c ∈ l, detail.check_need_conv c = false) :
    ∀ c ∈ l, c ≠ 0x5c := by
  intro c hc e
  have := h c hc
  subst e
  simp [detail.check_need_conv] at this

theorem assign_dont_escape (s : tstring) (dma : Bool) :
    ∃ st, assign s DONT_ESCAPE dma = .STRING st false s := by
  have h0 : (if DONT_ESCAPE = AUTO_DETECT then auto_detect s else DONT_ESCAPE) = 0 := rfl
  unfold assign
  simp only [h0, ne_eq, not_true_eq_false, if_false]
  split_ifs <;> exact ⟨_, rfl⟩

/-- The state `NORMAL` of `read_string`: the scan ends at the first quote that is
not escaped, and the content is `decode` of what lies before it. -/
theorem read_string_loop_normal {held : Bool} (inp : List Nat) (dma : Bool) (start : Nat) :
    ∀ (m : Nat) (rest : List Nat), rest.length ≤ m →
    ∀ (scanned : List Nat) (e : Bool) (pos : Nat), inp.drop start = scanned ++ rest →
      pos = start + scanned.length →
      (e = false → ∀ c ∈ scanned, detail.check_need_conv c = false) →
      (closing_quote rest = none →
        ∃ p, read_string_loop held inp dma true start e pos rest = .error (.ParseError p))
      ∧ (∀ q, closing_quote rest = some q →
          (∀ s, detail.decode (scanned ++ rest.take q) [] = .ok s →
            ∃ st e2, read_string_loop held inp dma true start e pos rest
              = .ok (pos + q + 1, .STRING st e2 s))
          ∧ (∀ er, detail.decode (scanned ++ rest.take q) [] = .error er →
            read_string_loop held inp dma true start e pos rest = .error er)) := by
  intro m
  induction m with
  | zero =>
    intro rest hl scanned e pos _ _ _
    have : rest = [] := List.length_eq_zero.mp (by omega)
    subst this
    exact ⟨fun _ => ⟨pos, by simp [read_string_loop]⟩, fun q hq => by simp [closing_quote] at hq⟩
  | succ m ih =>
    intro rest hl scanned e pos hin hpos hinv
    cases rest with
    | nil =>
      exact ⟨fun _ => ⟨pos, by simp [read_string_loop]⟩, fun q hq => by simp [closing_quote] at hq⟩
    | cons c rest =>
      simp only [List.length_cons] at hl
      have hslice : (inp.drop start).take (pos - start) = scanned := by
        rw [hin, hpos, Nat.add_sub_cancel_left, List.take_left']
        rfl
      by_cases hc : c = 0x22
      · -- the closing quote
        constructor
        · intro hq; rw [hc, closing_quote_quote] at hq; simp at hq
        · intro q hq
          rw [hc, closing_quote_quote] at hq
          simp only [Option.some.injEq] at hq
          subst hq
          simp only [List.take_zero, List.append_nil, Nat.add_zero]
          simp only [read_string_loop, if_pos hc, hslice]
          cases e with
          | true =>
            simp only [if_true]
            constructor
            · intro s hs
              rw [hs]
              exact ⟨_, _, rfl⟩
            · intro er her
              rw [her]
          | false =>
            have hd := detail.decode_plain scanned (no_conv_no_backslash _ (hinv rfl))
            obtain ⟨st, hst⟩ := assign_dont_escape scanned dma
            simp only [Bool.false_eq_true, if_false, hst]
            constructor
            · intro s hs
              rw [hd] at hs
              simp only [Except.ok.injEq] at hs
              subst hs
              exact ⟨_, _, rfl⟩
            · intro er her
              rw [hd] at her
              simp at her
      · by_cases hb : c = 0x5c
        · -- a backslash takes the next unit with it
          have he2 : (if (!e) = true then detail.check_need_conv c else e) = true := by
            subst hb
            cases e <;> simp [detail.check_need_conv]
          cases rest with
          | nil =>
            constructor
            · intro _
              refine ⟨pos + 2, ?_⟩
              simp only [read_string_loop, if_neg hc, he2]
              simp [hb]
            · intro q hq
              rw [hb] at hq
              simp [closing_quote] at hq
          | cons d rest2 =>
            simp only [List.length_cons] at hl
            have hloop : read_string_loop held inp dma true start e pos (c :: d :: rest2)
                = read_string_loop held inp dma true start true (pos + 2) rest2 := by
              simp only [read_string_loop, if_neg hc, he2]
              simp [hb]
            have hih := ih rest2 (by omega) (scanned ++ [c, d]) true (pos + 2)
              (by rw [hin]; simp) (by simp only [List.length_append, List.length_cons, List.length_nil]; omega) (by simp)
            rw [hloop]
            constructor
            · intro hq
              have : closing_quote rest2 = none := by
                rw [hb, closing_quote_backslash] at hq
                simpa using hq
              exact hih.1 this
            · intro q hq
              rw [hb, closing_quote_backslash] at hq
              cases hq2 : closing_quote rest2 with
              | none => rw [hq2] at hq; simp at hq
              | some q2 =>
                rw [hq2] at hq
                simp only [Option.map_some', Option.some.injEq] at hq
                subst hq
                have e1 : scanned ++ (c :: d :: rest2).take (q2 + 2)
                    = (scanned ++ [c, d]) ++ rest2.take q2 := by simp
                have e2 : pos + (q2 + 2) + 1 = pos + 2 + q2 + 1 := by omega
                rw [e1, e2]
                exact hih.2 q2 hq2
        · -- any other unit
          have hloop : read_string_loop held inp dma true start e pos (c :: rest)
              = read_string_loop held inp dma true start
                  (if (!e) = true then detail.check_need_conv c else e) (pos + 1) rest := by
            simp only [read_string_loop, if_neg hc]
            simp [hb]
          have hih := ih rest (by omega) (scanned ++ [c])
            (if (!e) = true then detail.check_need_conv c else e) (pos + 1)
            (by rw [hin]; simp) (by simp only [List.length_append, List.length_cons, List.length_nil]; omega)
            (by
              intro he x hx
              cases e with
              | true => simp at he
              | false =>
                simp only [Bool.not_false, if_true] at he
                simp only [List.mem_append, List.mem_singleton] at hx
                rcases hx with hx | rfl
                · exact hinv rfl x hx
                · exact he)
          rw [hloop]
          constructor
          · intro hq
            have : closing_quote rest = none := by
              rw [closing_quote_other c rest hc hb] at hq
              simpa using hq
            exact hih.1 this
          · intro q hq
            rw [closing_quote_other c rest hc hb] at hq
            cases hq2 : closing_quote rest with
            | none => rw [hq2] at hq; simp at hq
            | some q2 =>
              rw [hq2] at hq
              simp only [Option.map_some', Option.some.injEq] at hq
              subst hq
              have e1 : scanned ++ (c :: rest).take (q2 + 1)
                  = (scanned ++ [c]) ++ rest.take q2 := by simp
              have e2 : pos + (q2 + 1) + 1 = pos + 1 + q2 + 1 := by omega
              rw [e1, e2]
              exact hih.2 q2 hq2

/-- The state `NONE` of `read_string` skips white space. -/
theorem read_string_loop_ws {held : Bool} (inp : List Nat) (dma : Bool) (ws : List Nat)
    (hws : ∀ c ∈ ws, white_space c = true) :
    ∀ (pos : Nat) (rest : List Nat),
      read_string_loop held inp dma false 0 false pos (ws ++ rest)
        = read_string_loop held inp dma false 0 false (pos + ws.length) rest := by
  induction ws with
  | nil => intro pos rest; rfl
  | cons c ws ih =>
    intro pos rest
    have hc := hws c (by simp)
    have hcq : c ≠ 0x22 := by
      intro e; subst e; simp [white_space] at hc
    rw [List.cons_append]
    simp only [read_string_loop, if_neg hcq, hc, if_true]
    rw [ih (fun x hx => hws x (by simp [hx]))]
    congr 1
    simp only [List.length_cons]
    omega

theorem closing_quote_no_quote :
    ∀ (m : Nat) (b : List Nat), b.length ≤ m → (∀ c ∈ b, c ≠ 0x22) → closing_quote b = none := by
  intro m
  induction m with
  | zero =>
    intro b hl _
    have : b = [] := List.length_eq_zero.mp (by omega)
    subst this
    rfl
  | succ m ih =>
    intro b hl h
    cases b with
    | nil => rfl
    | cons c rest =>
      simp only [List.length_cons] at hl
      have hc : c ≠ 0x22 := h c (by simp)
      by_cases hb : c = 0x5c
      · cases rest with
        | nil => subst hb; rfl
        | cons d rest2 =>
          simp only [List.length_cons] at hl
          rw [hb, closing_quote_backslash, ih rest2 (by omega) (fun x hx => h x (by simp [hx]))]
          rfl
      · rw [closing_quote_other c rest hc hb, ih rest (by omega) (fun x hx => h x (by simp [hx]))]
        rfl

theorem closing_quote_at :
    ∀ (m : Nat) (b : List Nat) (q : Nat), b.length ≤ m → closing_quote b = some q →
      b.getD q 0 = 0x22 := by
  intro m
  induction m with
  | zero =>
    intro b q hl hq
    have : b = [] := List.length_eq_zero.mp (by omega)
    subst this
    simp [closing_quote] at hq
  | succ m ih =>
    intro b q hl hq
    cases b with
    | nil => simp [closing_quote] at hq
    | cons c rest =>
      simp only [List.length_cons] at hl
      by_cases hc : c = 0x22
      · rw [hc, closing_quote_quote] at hq
        simp only [Option.some.injEq] at hq
        subst hq
        simp [hc]
      · by_cases hb : c = 0x5c
        · cases rest with
          | nil => rw [hb] at hq; simp [closing_quote] at hq
          | cons d rest2 =>
            simp only [List.length_cons] at hl
            rw [hb, closing_quote_backslash] at hq
            cases hq2 : closing_quote rest2 with
            | none => rw [hq2] at hq; simp at hq
            | some q2 =>
              rw [hq2] at hq
              simp only [Option.map_some', Option.some.injEq] at hq
              subst hq
              have := ih rest2 q2 (by omega) hq2
              simpa using this
        · rw [closing_quote_other c rest hc hb] at hq
          cases hq2 : closing_quote rest with
          | none => rw [hq2] at hq; simp at hq
          | some q2 =>
            rw [hq2] at hq
            simp only [Option.map_some', Option.some.injEq] at hq
            subst hq
            have := ih rest q2 (by omega) hq2
            simpa using this

/-! ## `read_number` -/

theorem read_number_loop_digits (inp : List Nat) (ds : List Nat)
    (h : ∀ d ∈ ds, number_0_9 d = true) :
    ∀ (start pos : Nat) (rest : List Nat),
      read_number_loop inp .DIGIT start pos (ds ++ rest)
        = read_number_loop inp .DIGIT start (pos + ds.length) rest := by
  induction ds with
  | nil => intro start pos rest; rfl
  | cons d ds ih =>
    intro start pos rest
    rw [List.cons_append]
    simp only [read_number_loop, h d (by simp), if_true]
    rw [ih (fun x hx => h x (by simp [hx]))]
    congr 1
    simp only [List.length_cons]
    omega

theorem read_number_loop_frac (inp : List Nat) (ds : List Nat)
    (h : ∀ d ∈ ds, number_0_9 d = true) :
    ∀ (start pos : Nat) (rest : List Nat),
      read_number_loop inp .DIGIT_FRAC start pos (ds ++ rest)
        = read_number_loop inp .DIGIT_FRAC start (pos + ds.length) rest := by
  induction ds with
  | nil => intro start pos rest; rfl
  | cons d ds ih =>
    intro start pos rest
    rw [List.cons_append]
    simp only [read_number_loop, h d (by simp), if_true]
    rw [ih (fun x hx => h x (by simp [hx]))]
    congr 1
    simp only [List.length_cons]
    omega

theorem number_1_9_ne (d : Nat) (h : number_1_9 d = true) :
    d ≠ 0x2d ∧ d ≠ 0x30 ∧ number_0_9 d = true := by
  simp only [number_1_9, Bool.and_eq_true, decide_eq_true_eq] at h
  refine ⟨by omega, by omega, ?_⟩
  simp [number_0_9, number_1_9, h.1, h.2]

theorem is_int_part_cases (ip : List Nat) (h : is_int_part ip = true) :
    ip = [0x30] ∨ ∃ d ds, ip = d :: ds ∧ number_1_9 d = true ∧ (∀ x ∈ ds, number_0_9 x = true) := by
  cases ip with
  | nil => simp [is_int_part] at h
  | cons d ds =>
    simp only [is_int_part, Bool.or_eq_true, Bool.and_eq_true, beq_iff_eq, List.isEmpty_iff,
      List.all_eq_true] at h
    rcases h with ⟨h1, h2⟩ | ⟨h1, h2⟩
    · left; rw [h1, h2]
    · right; exact ⟨d, ds, rfl, h1, h2⟩

/-- After the integer part, `read_number` is in the state `ZERO` or `DIGIT`. -/
theorem read_number_loop_int_part (inp : List Nat) (ip : List Nat) (h : is_int_part ip = true)
    (st : NumState) (hst : st = .NONE ∨ st = .SIGN) (start pos : Nat) (rest : List Nat) :
    read_number_loop inp st start pos (ip ++ rest)
      = read_number_loop inp (int_part_state ip) (if st = .NONE then pos else start)
          (pos + ip.length) rest := by
  rcases is_int_part_cases ip h with rfl | ⟨d, ds, rfl, hd, hds⟩
  · rcases hst with rfl | rfl <;> simp [read_number_loop, int_part_state]
  · obtain ⟨h1, h2, h3⟩ := number_1_9_ne d hd
    have hs : int_part_state (d :: ds) = .DIGIT := by
      unfold int_part_state
      rw [if_neg]
      intro e
      simp only [List.cons.injEq] at e
      exact h2 e.1
    rw [hs, List.cons_append]
    rcases hst with rfl | rfl
    · simp only [read_number_loop, if_neg h1, if_neg h2, hd, if_true]
      rw [read_number_loop_digits inp ds hds]
      congr 1
      simp only [List.length_cons]
      omega
    · simp only [read_number_loop, if_neg h2, hd, if_true]
      rw [read_number_loop_digits inp ds hds]
      simp only [List.length_cons, reduceCtorEq, if_false]
      congr 1
      omega

/-- After the optional sign and the integer part, `read_number` is in the
state `ZERO` or `DIGIT` with `start` at the first unit. -/
theorem read_number_loop_sign_int (inp sg ip : List Nat) (hsg : is_sign sg = true)
    (h : is_int_part ip = true) (start pos : Nat) (rest : List Nat) :
    read_number_loop inp .NONE start pos (sg ++ ip ++ rest)
      = read_number_loop inp (int_part_state ip) pos (pos + sg.length + ip.length) rest := by
  simp only [is_sign, Bool.or_eq_true, beq_iff_eq] at hsg
  rcases hsg with rfl | rfl
  · rw [List.nil_append, read_number_loop_int_part inp ip h .NONE (Or.inl rfl)]
    simp
  · have : [0x2d] ++ ip ++ rest = 0x2d :: (ip ++ rest) := by simp
    rw [this]
    simp only [read_number_loop, if_true]
    rw [read_number_loop_int_part inp ip h .SIGN (Or.inr rfl)]
    simp only [reduceCtorEq, if_false, List.length_singleton]

theorem takeWhile_digits (ds tail : List Nat) (hd : ∀ d ∈ ds, number_0_9 d = true)
    (ht : ∀ c ∈ tail.head?, number_0_9 c = false) :
    (ds ++ tail).takeWhile number_0_9 = ds := by
  rw [List.takeWhile_append_of_pos hd]
  cases tail with
  | nil => simp
  | cons c tl =>
    have := ht c (by simp)
    simp [List.takeWhile, this]

theorem number_0_9_range (d : Nat) (h : number_0_9 d = true) : 0x30 ≤ d ∧ d ≤ 0x39 := by
  simp only [number_0_9, number_1_9, Bool.or_eq_true, beq_iff_eq, Bool.and_eq_true,
    decide_eq_true_eq] at h
  omega

theorem isspace_digit (d : Nat) (h : number_0_9 d = true) : isspace d = false := by
  have := number_0_9_range d h
  simp only [isspace, Bool.or_eq_false_iff, beq_eq_false_iff_ne, ne_eq, Bool.and_eq_false_imp,
    decide_eq_true_eq, decide_eq_false_iff_not]
  omega

/-- The model of `strtoll` on a run of digits that no digit follows. -/
theorem ttoi64_digits (d : Nat) (ds tail : List Nat) (hd : ∀ x ∈ d :: ds, number_0_9 x = true)
    (ht : ∀ c ∈ tail.head?, number_0_9 c = false) :
    ttoi64 (d :: ds ++ tail)
      = (max (-(2 : Int) ^ 63) (min (digits_value (d :: ds) : Int) ((2 : Int) ^ 63 - 1)),
          (d :: ds).length) := by
  have h0 := hd d (by simp)
  have hr := number_0_9_range d h0
  have hsp : (d :: ds ++ tail).takeWhile isspace = [] := by
    simp [List.takeWhile, isspace_digit d h0]
  have hsg : sign_length (d :: ds ++ tail) = 0 := by
    simp only [List.cons_append, sign_length]
    rw [if_neg]
    omega
  have hh : (d :: ds ++ tail).head? ≠ some 0x2d := by
    simp only [List.cons_append, List.head?_cons, ne_eq, Option.some.injEq]
    omega
  unfold ttoi64
  simp only [hsp, List.length_nil, List.drop_zero, hsg, takeWhile_digits (d :: ds) tail hd ht]
  simp only [List.length_cons, Nat.add_one_ne_zero, if_false, if_neg hh, Nat.zero_add]

/-- The model of `strtoll` on `-` and a run of digits that no digit follows. -/
theorem ttoi64_neg_digits (d : Nat) (ds tail : List Nat)
    (hd : ∀ x ∈ d :: ds, number_0_9 x = true)
    (ht : ∀ c ∈ tail.head?, number_0_9 c = false) :
    ttoi64 (0x2d :: (d :: ds ++ tail))
      = (max (-(2 : Int) ^ 63) (min (-(digits_value (d :: ds) : Int)) ((2 : Int) ^ 63 - 1)),
          1 + (d :: ds).length) := by
  have hsp : (0x2d :: (d :: ds ++ tail)).takeWhile isspace = [] := by
    simp [List.takeWhile, isspace]
  have hsg : sign_length (0x2d :: (d :: ds ++ tail)) = 1 := by
    simp [sign_length]
  unfold ttoi64
  simp only [hsp, List.length_nil, List.drop_zero, hsg, List.drop_succ_cons,
    takeWhile_digits (d :: ds) tail hd ht]
  simp only [List.length_cons, Nat.add_one_ne_zero, if_false, List.head?_cons, if_true,
    Nat.zero_add]

theorem is_int_part_digits (ip : List Nat) (h : is_int_part ip = true) :
    ∃ d ds, ip = d :: ds ∧ ∀ x ∈ d :: ds, number_0_9 x = true := by
  rcases is_int_part_cases ip h with rfl | ⟨d, ds, rfl, hd, hds⟩
  · exact ⟨0x30, [], rfl, by decide⟩
  · refine ⟨d, ds, rfl, ?_⟩
    intro x hx
    simp only [List.mem_cons] at hx
    rcases hx with rfl | hx
    · exact (number_1_9_ne _ hd).2.2
    · exact hds x hx

theorem number_ending_not_digit (c : Nat) (h : number_ending c = true) :
    number_0_9 c = false ∧ c ≠ 0x30 ∧ c ≠ 0x2e := by
  simp only [number_ending, white_space, Bool.or_eq_true, beq_iff_eq] at h
  refine ⟨?_, by omega, by omega⟩
  simp only [number_0_9, number_1_9, Bool.or_eq_false_iff, beq_eq_false_iff_ne, ne_eq,
    Bool.and_eq_false_imp, decide_eq_true_eq, decide_eq_false_iff_not]
  omega

theorem int_state_cases (ip : List Nat) :
    int_part_state ip = .ZERO ∨ int_part_state ip = .DIGIT := by
  unfold int_part_state
  split_ifs
  · left; rfl
  · right; rfl

/-- An optional sign and an integer part, at the end of the input or before a
terminator, is read as an Integer: the clamped value of the digits, at the
offset of the terminator. -/
theorem read_number_integer (sg ip tail : List Nat) (dma : Bool) (hsg : is_sign sg = true)
    (h : is_int_part ip = true) (ht : ∀ c ∈ tail.head?, number_ending c = true) :
    read_number (sg ++ ip ++ tail) dma
      = .ok (sg.length + ip.length,
          .INTEGER (max (-(2 : Int) ^ 63)
            (min (if sg = [0x2d] then -(digits_value ip : Int) else (digits_value ip : Int))
              ((2 : Int) ^ 63 - 1)))) := by
  unfold read_number
  rw [read_number_loop_sign_int _ sg ip hsg h, Nat.zero_add]
  have hend : read_number_loop (sg ++ ip ++ tail) (int_part_state ip) 0 (sg.length + ip.length) tail
      = read_number_end (sg ++ ip ++ tail) (int_part_state ip) 0 (sg.length + ip.length) := by
    cases tail with
    | nil => simp [read_number_loop]
    | cons c rest =>
      have hc := ht c (by simp)
      obtain ⟨h1, h2, h3⟩ := number_ending_not_digit c hc
      rcases int_state_cases ip with hs | hs <;> rw [hs] <;>
        simp [read_number_loop, h1, h2, h3, hc]
  rw [hend]
  obtain ⟨d, ds, rfl, hds⟩ := is_int_part_digits ip h
  have ht2 : ∀ c ∈ tail.head?, number_0_9 c = false :=
    fun c hc => (number_ending_not_digit c (ht c hc)).1
  simp only [is_sign, Bool.or_eq_true, beq_iff_eq] at hsg
  have hval : ttoi64 ((sg ++ d :: ds ++ tail).drop 0)
      = (max (-(2 : Int) ^ 63)
            (min (if sg = [0x2d] then -(digits_value (d :: ds) : Int)
                  else (digits_value (d :: ds) : Int))
              ((2 : Int) ^ 63 - 1)), sg.length + (d :: ds).length) := by
    rcases hsg with rfl | rfl
    · rw [List.drop_zero, List.nil_append, ttoi64_digits d ds tail hds ht2]
      simp
    · have : [0x2d] ++ d :: ds ++ tail = 0x2d :: (d :: ds ++ tail) := by simp
      rw [List.drop_zero, this, ttoi64_neg_digits d ds tail hds ht2]
      simp
  rcases int_state_cases (d :: ds) with hs | hs <;> rw [hs] <;>
    simp only [read_number_end, hval, Nat.zero_add, if_true]

theorem read_number_end_tag (inp : List Nat) (st : NumState) (start pos n : Nat) (v : Value)
    (h : read_number_end inp st start pos = .ok (n, v)) :
    n = pos ∧ ((seen_fraction st = false ∧ ∃ i, v = .INTEGER i)
      ∨ (seen_fraction st = true ∧ ∃ f, v = .FLOAT f)) := by
  cases st <;> simp only [read_number_end] at h <;> first
    | (exact absurd h (by simp))
    | (split_ifs at h
       simp only [Except.ok.injEq, Prod.mk.injEq] at h
       exact ⟨h.1.symm, Or.inl ⟨rfl, _, h.2.symm⟩⟩)
    | (split_ifs at h
       simp only [Except.ok.injEq, Prod.mk.injEq] at h
       exact ⟨h.1.symm, Or.inr ⟨rfl, _, h.2.symm⟩⟩)

theorem no_mark_digit (c : Nat) (h : number_0_9 c = true) : no_mark c = true := by
  have := number_0_9_range c h
  simp only [no_mark, Bool.and_eq_true, bne_iff_ne, ne_eq]
  omega

theorem no_mark_ws (c : Nat) (h : white_space c = true) : no_mark c = true := by
  simp only [white_space, Bool.or_eq_true, beq_iff_eq] at h
  simp only [no_mark, Bool.and_eq_true, bne_iff_ne, ne_eq]
  omega

/-- The tag `read_number` gives and the offset it returns: the invariant of
its loop is that no `.`, `e`, `E` was consumed in the states before the `.`, and
that a `.` was consumed in the states after it. -/
theorem read_number_loop_tag (inp : List Nat) :
    ∀ (rest : List Nat) (st : NumState) (start : Nat) (pre : List Nat) (n : Nat) (v : Value),
      inp = pre ++ rest →
      (seen_fraction st = false → ∀ x ∈ pre, no_mark x = true) →
      (seen_fraction st = true → 0x2e ∈ pre) →
      read_number_loop inp st start pre.length rest = .ok (n, v) →
      n ≤ inp.length ∧ (n < inp.length → number_ending (inp.getD n 0) = true)
      ∧ (((∃ i, v = .INTEGER i) ∧ ∀ x ∈ inp.take n, no_mark x = true)
          ∨ ((∃ f, v = .FLOAT f) ∧ 0x2e ∈ inp.take n)) := by
  intro rest
  induction rest with
  | nil =>
    intro st start pre n v hin hA hB h
    simp only [read_number_loop] at h
    obtain ⟨hn, ht⟩ := read_number_end_tag inp st start pre.length n v h
    rw [List.append_nil] at hin
    subst hin
    subst hn
    refine ⟨le_refl _, fun hlt => absurd hlt (lt_irrefl _), ?_⟩
    rw [List.take_length]
    rcases ht with ⟨hs, hi⟩ | ⟨hs, hf⟩
    · exact Or.inl ⟨hi, hA hs⟩
    · exact Or.inr ⟨hf, hB hs⟩
  | cons c rest ih =>
    intro st start pre n v hin hA hB h
    have hin2 : inp = (pre ++ [c]) ++ rest := by simp [hin]
    have hl : pre.length + 1 = (pre ++ [c]).length := by simp
    have hrec : ∀ (st2 : NumState) (start2 : Nat),
        (seen_fraction st2 = false → ∀ x ∈ pre ++ [c], no_mark x = true) →
        (seen_fraction st2 = true → 0x2e ∈ pre ++ [c]) →
        read_number_loop inp st2 start2 (pre.length + 1) rest = .ok (n, v) →
        n ≤ inp.length ∧ (n < inp.length → number_ending (inp.getD n 0) = true)
        ∧ (((∃ i, v = .INTEGER i) ∧ ∀ x ∈ inp.take n, no_mark x = true)
            ∨ ((∃ f, v = .FLOAT f) ∧ 0x2e ∈ inp.take n)) := by
      intro st2 start2 a b h2
      rw [hl] at h2
      exact ih st2 start2 (pre ++ [c]) n v hin2 a b h2
    have hend : number_ending c = true →
        read_number_end inp st start pre.length = .ok (n, v) →
        n ≤ inp.length ∧ (n < inp.length → number_ending (inp.getD n 0) = true)
        ∧ (((∃ i, v = .INTEGER i) ∧ ∀ x ∈ inp.take n, no_mark x = true)
            ∨ ((∃ f, v = .FLOAT f) ∧ 0x2e ∈ inp.take n)) := by
      intro hc h2
      obtain ⟨hn, ht⟩ := read_number_end_tag inp st start pre.length n v h2
      subst hn
      have htake : inp.take pre.length = pre := by
        rw [hin, List.take_left']
        rfl
      have hget : inp.getD pre.length 0 = c := by
        rw [hin, List.getD_eq_getElem?_getD, List.getElem?_append_right (le_refl _)]
        simp
      refine ⟨by rw [hin]; simp, fun _ => by rw [hget]; exact hc, ?_⟩
      rw [htake]
      rcases ht with ⟨hs, hi⟩ | ⟨hs, hf⟩
      · exact Or.inl ⟨hi, hA hs⟩
      · exact Or.inr ⟨hf, hB hs⟩
    have hA2 : seen_fraction st = false → no_mark c = true →
        ∀ x ∈ pre ++ [c], no_mark x = true := by
      intro hs hc x hx
      simp only [List.mem_append, List.mem_singleton] at hx
      rcases hx with hx | rfl
      · exact hA hs x hx
      · exact hc
    have hB1 : c = 0x2e → 0x2e ∈ pre ++ [c] := by
      intro e; simp [e]
    have hB2 : seen_fraction st = true → 0x2e ∈ pre ++ [c] := by
      intro hs; simp [hB hs]
    cases st with
    | NONE =>
      simp only [read_number_loop] at h
      split_ifs at h with h1 h2 h3 h4
      · exact hrec .SIGN _ (fun _ => hA2 rfl (by rw [h1]; rfl)) (fun e => by simp [seen_fraction] at e) h
      · exact hrec .ZERO _ (fun _ => hA2 rfl (by rw [h2]; rfl)) (fun e => by simp [seen_fraction] at e) h
      · exact hrec .DIGIT _ (fun _ => hA2 rfl (no_mark_digit c (number_1_9_ne c h3).2.2))
          (fun e => by simp [seen_fraction] at e) h
      · exact hrec .NONE _ (fun _ => hA2 rfl (no_mark_ws c h4))
          (fun e => by simp [seen_fraction] at e) h
    | SIGN =>
      simp only [read_number_loop] at h
      split_ifs at h with h2 h3
      · exact hrec .ZERO _ (fun _ => hA2 rfl (by rw [h2]; rfl)) (fun e => by simp [seen_fraction] at e) h
      · exact hrec .DIGIT _ (fun _ => hA2 rfl (no_mark_digit c (number_1_9_ne c h3).2.2))
          (fun e => by simp [seen_fraction] at e) h
    | ZERO =>
      simp only [read_number_loop] at h
      split_ifs at h with h1 h2 h3
      · exact hrec .POINT _ (fun e => by simp [seen_fraction] at e) (fun _ => hB1 h2) h
      · exact hend h3 h
    | DIGIT =>
      simp only [read_number_loop] at h
      split_ifs at h with h1 h2 h3
      · exact hrec .DIGIT _ (fun _ => hA2 rfl (no_mark_digit c h1))
          (fun e => by simp [seen_fraction] at e) h
      · exact hrec .POINT _ (fun e => by simp [seen_fraction] at e) (fun _ => hB1 h2) h
      · exact hend h3 h
    | POINT =>
      simp only [read_number_loop] at h
      split_ifs at h with h1
      · exact hrec .DIGIT_FRAC _ (fun e => by simp [seen_fraction] at e) (fun _ => hB2 rfl) h
    | DIGIT_FRAC =>
      simp only [read_number_loop] at h
      split_ifs at h with h1 h2 h3
      · exact hrec .DIGIT_FRAC _ (fun e => by simp [seen_fraction] at e) (fun _ => hB2 rfl) h
      · exact hrec .EXP _ (fun e => by simp [seen_fraction] at e) (fun _ => hB2 rfl) h
      · exact hend h3 h
      · exact hrec .DIGIT_FRAC _ (fun e => by simp [seen_fraction] at e) (fun _ => hB2 rfl) h
    | EXP =>
      simp only [read_number_loop] at h
      split_ifs at h with h1 h2
      · exact hrec .DIGIT_EXP _ (fun e => by simp [seen_fraction] at e) (fun _ => hB2 rfl) h
      · exact hrec .EXP_SIGN _ (fun e => by simp [seen_fraction] at e) (fun _ => hB2 rfl) h
    | EXP_SIGN =>
      simp only [read_number_loop] at h
      split_ifs at h with h1
      · exact hrec .DIGIT_EXP _ (fun e => by simp [seen_fraction] at e) (fun _ => hB2 rfl) h
    | DIGIT_EXP =>
      simp only [read_number_loop] at h
      split_ifs at h with h1 h2
      · exact hrec .DIGIT_EXP _ (fun e => by simp [seen_fraction] at e) (fun _ => hB2 rfl) h
      · exact hend h2 h
      · exact hrec .DIGIT_EXP _ (fun e => by simp [seen_fraction] at e) (fun _ => hB2 rfl) h

/-! ## The type of the root -/

theorem plug_type (child parent : Frame) : (plug child parent).val.type = parent.val.type := by
  unfold plug
  split <;> simp_all [Value.type]

theorem root_type_cons_cons (a b : Frame) (l : List Frame) :
    root_type (a :: b :: l) = root_type (b :: l) := by
  simp [root_type, List.getLast?_cons_cons]

theorem root_type_congr (a b : Frame) (l : List Frame) (h : a.val.type = b.val.type) :
    root_type (a :: l) = root_type (b :: l) := by
  cases l with
  | nil => simp [root_type, h]
  | cons c l => rw [root_type_cons_cons, root_type_cons_cons]

theorem parse_end_root (t : ValueType) (st : ReadState) (T : ValueType)
    (hn : st.state ≠ .NONE) (hr : root_type st.pv = some T) :
    step_keeps_root T (parse_end t st) := by
  unfold parse_end
  cases hpv : st.pv with
  | nil => trivial
  | cons top below =>
    rw [hpv] at hr
    by_cases ht : top.val.type ≠ t
    · simp only [if_pos ht]
      trivial
    · simp only [if_neg ht]
      cases below with
      | nil =>
        simp only [step_keeps_root]
        simpa [root_type] using hr
      | cons parent below2 =>
        simp only [step_keeps_root]
        refine ⟨?_, ?_⟩
        · split_ifs <;> simp [hn]
        · rw [root_type_cons_cons] at hr
          rw [root_type_congr _ parent below2 (plug_type top parent)]
          exact hr

theorem push_value_root (t : ValueType) (ns : PState) (st : ReadState) (T : ValueType)
    (hns : ns ≠ .NONE) (hr : root_type st.pv = some T) (hT : T = .OBJECT ∨ T = .ARRAY) :
    step_keeps_root T (push_value t ns st) := by
  unfold push_value
  cases hpv : st.pv with
  | nil => trivial
  | cons top below =>
    rw [hpv] at hr
    cases hv : top.val with
    | NIL =>
      simp only [hv, step_keeps_root]
      refine ⟨hns, ?_⟩
      cases below with
      | nil =>
        simp only [root_type, List.getLast?_singleton, Option.map_some', hv, Value.type,
          Option.some.injEq] at hr
        subst hr
        rcases hT with h | h <;> cases h
      | cons b below2 =>
        rw [root_type_cons_cons] at hr ⊢
        exact hr
    | ARRAY a =>
      simp only [hv, step_keeps_root]
      refine ⟨hns, ?_⟩
      rw [root_type_cons_cons, root_type_congr _ top below (by simp [hv, Value.type])]
      exact hr
    | _ => simp only [hv]; trivial

theorem push_key_root (key : tstring) (p u : Nat) (st : ReadState) (T : ValueType)
    (hr : root_type st.pv = some T) :
    step_keeps_root T (push_key key p u st) := by
  unfold push_key
  cases hpv : st.pv with
  | nil => trivial
  | cons top below =>
    rw [hpv] at hr
    cases hv : top.val with
    | OBJECT o =>
      simp only [hv, step_keeps_root]
      refine ⟨by simp, ?_⟩
      rw [root_type_cons_cons, root_type_congr _ top below (by simp [hv, Value.type])]
      exact hr
    | _ => simp only [hv]; trivial

theorem push_scalar_slot_root (pv : List Frame) :
    root_type (push_scalar_slot pv) = root_type pv := by
  cases pv with
  | nil => rfl
  | cons top below =>
    unfold push_scalar_slot
    cases hv : top.val with
    | ARRAY a =>
      simp only [hv]
      rw [root_type_cons_cons, root_type_congr _ top below (by simp [hv, Value.type])]
    | _ => simp [hv]

theorem read_scalar_root (fp : List Nat → Bool → Except Error (Nat × Value)) (inp : List Nat)
    (dma : Bool) (st : ReadState) (T : ValueType) (hr : root_type st.pv = some T) :
    step_keeps_root T (read_scalar fp inp dma st) := by
  have hps := push_scalar_slot_root st.pv
  rw [hr] at hps
  unfold read_scalar
  cases hpv : st.pv with
  | nil => trivial
  | cons top below =>
    simp only
    cases hfp : fp (inp.drop st.pos) dma with
    | error e => trivial
    | ok nv =>
      obtain ⟨n, v⟩ := nv
      simp only
      rw [← hpv]
      cases hp : push_scalar_slot st.pv with
      | nil => trivial
      | cons slot rest =>
        cases rest with
        | nil => trivial
        | cons parent below2 =>
          rw [hp, root_type_cons_cons] at hps
          have hroot : root_type (plug { slot with val := v } parent :: below2) = some T := by
            rw [root_type_congr _ parent below2 (plug_type _ parent)]
            exact hps
          simp only
          split_ifs
          · exact ⟨by simp, hroot⟩
          · exact ⟨by simp, hroot⟩
          · trivial

theorem check_fp_root (st : ReadState) (r : Step) (T : ValueType) (h : step_keeps_root T r) :
    step_keeps_root T (check_fp st r) := by
  cases r with
  | next s =>
    unfold check_fp
    simp only
    split_ifs
    · trivial
    · exact h
  | ret q v => exact h
  | throw e => exact h

theorem step_value_root (inp : List Nat) (dma : Bool) (st : ReadState) (c : Nat) (T : ValueType)
    (hn : st.state ≠ .NONE) (hr : root_type st.pv = some T) (hT : T = .OBJECT ∨ T = .ARRAY) :
    step_keeps_root T (step_value inp dma st c) := by
  unfold step_value
  split_ifs
  · exact read_scalar_root (read_string _) inp dma st T hr
  · exact read_scalar_root read_number inp dma st T hr
  · exact read_scalar_root read_boolean inp dma st T hr
  · exact read_scalar_root read_nil inp dma st T hr
  · exact check_fp_root st _ T (push_value_root _ _ st T (by simp) hr hT)
  · exact check_fp_root st _ T (push_value_root _ _ st T (by simp) hr hT)
  · exact check_fp_root st _ T (parse_end_root _ st T hn hr)
  · trivial
  · exact check_fp_root st _ T ⟨hn, hr⟩
  · trivial

/-- Outside the state `NONE`, an iteration of `read` leaves the type of `*this`
as it is, and what is returned is `*this`. -/
theorem step_root (inp : List Nat) (dma : Bool) (st : ReadState) (c : Nat) (T : ValueType)
    (hn : st.state ≠ .NONE) (hr : root_type st.pv = some T) (hT : T = .OBJECT ∨ T = .ARRAY) :
    step_keeps_root T (step inp dma st c) := by
  have hvalue := step_value_root inp dma st c T hn hr hT
  have hend : ∀ t, step_keeps_root T (parse_end t st) := fun t => parse_end_root t st T hn hr
  have hkey : ∀ key p u, step_keeps_root T (push_key key p u st) :=
    fun key p u => push_key_root key p u st T hr
  unfold step
  cases hstate : st.state with
  | NONE => exact absurd hstate hn
  | OBJECT_PAIR_KEY_QUOTE =>
    simp only
    split_ifs
    · split
      · trivial
      · split
        · trivial
        · exact hkey _ _ _
    · exact hkey _ _ _
    · exact ⟨by simp, hr⟩
  | OBJECT_PAIR_COLON => exact hvalue
  | ARRAY_LBRACKET => exact hvalue
  | ARRAY_COMMA => exact hvalue
  | _ =>
    simp only
    split_ifs <;> first
      | trivial
      | exact hend _
      | exact ⟨by simp, hr⟩

theorem read_loop_root (inp : List Nat) (dma : Bool) (T : ValueType)
    (hT : T = .OBJECT ∨ T = .ARRAY) (fuel : Nat) :
    ∀ (st : ReadState) (r : Nat) (v : Value), st.state ≠ .NONE → root_type st.pv = some T →
      read_loop inp dma fuel st = .ok (r, v) → v.type = T := by
  induction fuel with
  | zero => intro st r v _ _ h; simp [read_loop] at h
  | succ fuel ih =>
    intro st r v hn hr h
    simp only [read_loop] at h
    cases hd : inp.drop st.pos with
    | nil => rw [hd] at h; simp at h
    | cons c tl =>
      rw [hd] at h
      simp only at h
      have hstep := step_root inp dma st c T hn hr hT
      cases hs : step inp dma st c with
      | next st2 =>
        rw [hs] at h hstep
        exact ih st2 r v hstep.1 hstep.2 h
      | ret q w =>
        rw [hs] at h hstep
        simp only [Except.ok.injEq, Prod.mk.injEq] at h
        rw [← h.2]
        exact hstep
      | throw e =>
        rw [hs] at h
        simp at h

theorem white_space_ne_bracket (c : Nat) (h : white_space c = true) :
    c ≠ 0x7b ∧ c ≠ 0x5b ∧ c ≠ 0x5d ∧ c ≠ 0x7d ∧ c ≠ 0x22 ∧ c ≠ 0x2c ∧ c ≠ 0x3a := by
  simp only [white_space, Bool.or_eq_true, beq_iff_eq] at h
  omega

/-- In the state `NONE`, `read` fails with a parse error unless the first unit
that is not white space is `{` or `[`. -/
theorem read_loop_none_error (inp : List Nat) (dma : Bool) (fuel : Nat) :
    ∀ (st : ReadState), st.state = .NONE → inp.length - st.pos < fuel →
      ((inp.drop st.pos).dropWhile white_space).head? ≠ some 0x7b →
      ((inp.drop st.pos).dropWhile white_space).head? ≠ some 0x5b →
      ∃ p, read_loop inp dma fuel st = .error (.ParseError p) := by
  induction fuel with
  | zero => intro st _ hf; omega
  | succ fuel ih =>
    intro st hs hf h1 h2
    simp only [read_loop]
    cases hd : inp.drop st.pos with
    | nil => exact ⟨st.pos, rfl⟩
    | cons c tl =>
      obtain ⟨hdrop, _, hlt⟩ := drop_cons_facts inp st.pos c tl hd
      rw [hd] at h1 h2
      simp only [step, hs]
      by_cases hw : white_space c = true
      · obtain ⟨n1, n2, _⟩ := white_space_ne_bracket c hw
        simp only [if_neg n1, if_neg n2, hw, if_true]
        have hdw : (c :: tl).dropWhile white_space = tl.dropWhile white_space := by
          simp [List.dropWhile, hw]
        rw [hdw] at h1 h2
        exact ih ⟨.NONE, st.pos + 1, st.u, st.pv⟩ rfl (by simp only; omega)
          (by simp only; rw [hdrop]; exact h1) (by simp only; rw [hdrop]; exact h2)
      · have hdw : (c :: tl).dropWhile white_space = c :: tl := by
          simp [List.dropWhile, hw]
        rw [hdw] at h1 h2
        simp only [List.head?_cons, ne_eq, Option.some.injEq] at h1 h2
        simp only [if_neg h1, if_neg h2, hw, Bool.false_eq_true, if_false]
        exact ⟨st.pos, rfl⟩

/-- When `read` succeeds from the state `NONE`, the first unit that is not
white space gives the type of `*this`. -/
theorem read_loop_none_type (inp : List Nat) (dma : Bool) (fuel : Nat) :
    ∀ (st : ReadState) (r : Nat) (v : Value), st.state = .NONE →
      read_loop inp dma fuel st = .ok (r, v) →
      (((inp.drop st.pos).dropWhile white_space).head? = some 0x7b → v.type = .OBJECT)
      ∧ (((inp.drop st.pos).dropWhile white_space).head? = some 0x5b → v.type = .ARRAY) := by
  induction fuel with
  | zero => intro st r v _ h; simp [read_loop] at h
  | succ fuel ih =>
    intro st r v hs h
    simp only [read_loop] at h
    cases hd : inp.drop st.pos with
    | nil => rw [hd] at h; simp at h
    | cons c tl =>
      obtain ⟨hdrop, _, hlt⟩ := drop_cons_facts inp st.pos c tl hd
      rw [hd] at h
      simp only [step, hs] at h
      by_cases hw : white_space c = true
      · obtain ⟨n1, n2, _⟩ := white_space_ne_bracket c hw
        simp only [if_neg n1, if_neg n2, hw, if_true] at h
        have hdw : (c :: tl).dropWhile white_space = tl.dropWhile white_space := by
          simp [List.dropWhile, hw]
        rw [hdw]
        have := ih ⟨.NONE, st.pos + 1, st.u, st.pv⟩ r v rfl h
        simp only [hdrop] at this
        exact this
      · have hdw : (c :: tl).dropWhile white_space = c :: tl := by
          simp [List.dropWhile, hw]
        rw [hdw]
        simp only [List.head?_cons, Option.some.injEq]
        by_cases h1 : c = 0x7b
        · simp only [if_pos h1] at h
          have := read_loop_root inp dma .OBJECT (Or.inl rfl) fuel
            ⟨.OBJECT_LBRACE, st.pos + 1, st.u, [⟨.root, .OBJECT []⟩]⟩ r v (by simp) rfl h
          exact ⟨fun _ => this, fun e => by omega⟩
        · simp only [if_neg h1] at h
          by_cases h2 : c = 0x5b
          · simp only [if_pos h2] at h
            have := read_loop_root inp dma .ARRAY (Or.inr rfl) fuel
              ⟨.ARRAY_LBRACKET, st.pos + 1, st.u, [⟨.root, .ARRAY []⟩]⟩ r v (by simp) rfl h
            exact ⟨fun e => absurd e h1, fun _ => this⟩
          · exact ⟨fun e => absurd e h1, fun e => absurd e h2⟩

/-! ## The states after a comma -/

theorem parse_end_u (t : ValueType) (st : ReadState) (hu : st.u = 0) :
    step_u_clear (parse_end t st) := by
  unfold parse_end
  cases hpv : st.pv with
  | nil => trivial
  | cons top below =>
    simp only
    split_ifs
    · trivial
    · cases below with
      | nil => trivial
      | cons parent below2 => exact fun _ => hu

theorem push_value_u (t : ValueType) (ns : PState) (st : ReadState) (hu : st.u = 0) :
    step_u_clear (push_value t ns st) := by
  unfold push_value
  cases hpv : st.pv with
  | nil => trivial
  | cons top below =>
    cases hv : top.val <;> simp only [hv] <;> first | trivial | exact fun _ => hu

theorem push_key_u (key : tstring) (p u : Nat) (st : ReadState) :
    step_u_clear (push_key key p u st) := by
  unfold push_key
  cases hpv : st.pv with
  | nil => trivial
  | cons top below =>
    cases hv : top.val <;> simp only [hv] <;> first | trivial | (intro h; simp [key_state] at h)

theorem read_scalar_u (fp : List Nat → Bool → Except Error (Nat × Value)) (inp : List Nat)
    (dma : Bool) (st : ReadState) : step_u_clear (read_scalar fp inp dma st) := by
  unfold read_scalar
  cases hpv : st.pv with
  | nil => trivial
  | cons top below =>
    simp only
    cases hfp : fp (inp.drop st.pos) dma with
    | error e => trivial
    | ok nv =>
      obtain ⟨n, v⟩ := nv
      simp only
      split
      · split_ifs
        · exact fun _ => rfl
        · exact fun _ => rfl
        · trivial
      · trivial

theorem check_fp_u (st : ReadState) (r : Step) (h : st.u = 0 → step_u_clear r) :
    step_u_clear (check_fp st r) := by
  cases r with
  | next s =>
    unfold check_fp
    simp only
    split_ifs with hu
    · trivial
    · exact h (by omega)
  | ret q v => trivial
  | throw e => trivial

theorem step_value_u (inp : List Nat) (dma : Bool) (st : ReadState) (c : Nat) :
    step_u_clear (step_value inp dma st c) := by
  unfold step_value
  split_ifs
  · exact read_scalar_u (read_string _) inp dma st
  · exact read_scalar_u read_number inp dma st
  · exact read_scalar_u read_boolean inp dma st
  · exact read_scalar_u read_nil inp dma st
  · exact check_fp_u st _ (fun hu => push_value_u _ _ st hu)
  · exact check_fp_u st _ (fun hu => push_value_u _ _ st hu)
  · exact check_fp_u st _ (fun hu => parse_end_u _ st hu)
  · trivial
  · exact check_fp_u st _ (fun hu _ => hu)
  · trivial

/-- The word `u` is 0 whenever `read` is outside a key and the way from there
to the value. -/
theorem step_u (inp : List Nat) (dma : Bool) (st : ReadState) (c : Nat)
    (hu : key_state st.state = false → st.u = 0) : step_u_clear (step inp dma st c) := by
  have hvalue := step_value_u inp dma st c
  unfold step
  cases hstate : st.state with
  | OBJECT_PAIR_KEY_QUOTE =>
    simp only
    split_ifs
    · split
      · trivial
      · split
        · trivial
        · exact push_key_u _ _ _ st
    · exact push_key_u _ _ _ st
    · intro h; simp [key_state] at h
  | OBJECT_PAIR_KEY =>
    simp only
    split_ifs <;> first | trivial | (intro h; simp [key_state] at h)
  | OBJECT_PAIR_COLON => exact hvalue
  | ARRAY_LBRACKET => exact hvalue
  | ARRAY_COMMA => exact hvalue
  | _ =>
    have hu0 : st.u = 0 := hu (by rw [hstate]; rfl)
    simp only
    split_ifs <;> first
      | trivial
      | exact parse_end_u _ st hu0
      | exact fun _ => hu0
      | (intro h; simp [key_state] at h)

theorem read_run_facts (inp : List Nat) (dma : Bool) (n : Nat) :
    ∀ (st0 st : ReadState), read_run inp dma n st0 = some st → pv_sorted st0.pv →
      (key_state st0.state = false → st0.u = 0) →
      st0.pos + n ≤ st.pos ∧ (key_state st.state = false → st.u = 0)
      ∧ ∀ fuel, n ≤ fuel → read_loop inp dma fuel st0 = read_loop inp dma (fuel - n) st := by
  induction n with
  | zero =>
    intro st0 st h hs hu
    simp only [read_run, Option.some.injEq] at h
    subst h
    exact ⟨le_refl _, hu, fun fuel _ => rfl⟩
  | succ n ih =>
    intro st0 st h hs hu
    simp only [read_run] at h
    cases hd : inp.drop st0.pos with
    | nil => rw [hd] at h; simp at h
    | cons c tl =>
      rw [hd] at h
      simp only at h
      have hpost := step_post_step inp dma st0 c hs
      have hu2 := step_u inp dma st0 c hu
      cases hstep : step inp dma st0 c with
      | next st2 =>
        rw [hstep] at h hpost hu2
        simp only at h
        obtain ⟨h1, h2, h3⟩ := ih st2 st h hpost.1 hu2
        have hlt := hpost.2
        refine ⟨by omega, h2, ?_⟩
        intro fuel hf
        obtain ⟨g, rfl⟩ : ∃ g, fuel = g + 1 := ⟨fuel - 1, by omega⟩
        simp only [read_loop, hd, hstep]
        rw [h3 g (by omega)]
        congr 1
        omega
      | ret q w => rw [hstep] at h; simp at h
      | throw e => rw [hstep] at h; simp at h

/-- In the state `ARRAY_COMMA` or `OBJECT_COMMA`, white space and then the
bracket that would close the container make `read` fail at the bracket. -/
theorem read_loop_comma_close (inp : List Nat) (dma : Bool) (cl : Nat) (rest : List Nat)
    (ws : List Nat) (hws : ∀ c ∈ ws, white_space c = true) :
    ∀ (st : ReadState) (fuel : Nat),
      (st.state = .ARRAY_COMMA ∧ cl = 0x5d ∨ st.state = .OBJECT_COMMA ∧ cl = 0x7d) →
      st.u = 0 → inp.drop st.pos = ws ++ cl :: rest → ws.length < fuel →
      read_loop inp dma fuel st = .error (.ParseError (st.pos + ws.length)) := by
  induction ws with
  | nil =>
    intro st fuel hst hu hd hf
    obtain ⟨g, rfl⟩ : ∃ g, fuel = g + 1 := ⟨fuel - 1, by simp only [List.length_nil] at hf; omega⟩
    rw [List.nil_append] at hd
    simp only [read_loop, hd]
    rcases hst with ⟨hs, rfl⟩ | ⟨hs, rfl⟩
    · simp [step, hs, step_value, number_0_9, number_1_9]
    · simp [step, hs]
  | cons c ws ih =>
    intro st fuel hst hu hd hf
    simp only [List.length_cons] at hf
    obtain ⟨g, rfl⟩ : ∃ g, fuel = g + 1 := ⟨fuel - 1, by omega⟩
    rw [List.cons_append] at hd
    obtain ⟨hdrop, _, _⟩ := drop_cons_facts inp st.pos c _ hd
    have hc := hws c (by simp)
    obtain ⟨n1, n2, n3, n4, n5, n6, n7⟩ := white_space_ne_bracket c hc
    have hnd : number_0_9 c = false := by
      simp only [white_space, Bool.or_eq_true, beq_iff_eq] at hc
      simp only [number_0_9, number_1_9, Bool.or_eq_false_iff, beq_eq_false_iff_ne, ne_eq,
        Bool.and_eq_false_imp, decide_eq_true_eq, decide_eq_false_iff_not]
      omega
    have hc2 : c ≠ 0x2d ∧ c ≠ 0x74 ∧ c ≠ 0x66 ∧ c ≠ 0x6e := by
      simp only [white_space, Bool.or_eq_true, beq_iff_eq] at hc
      omega
    have hstep : step inp dma st c = .next { st with pos := st.pos + 1 } := by
      rcases hst with ⟨hs, _⟩ | ⟨hs, _⟩
      · simp [step, hs, step_value, hnd, hc2, n1, n2, n3, n5, hc, check_fp, hu]
      · simp [step, hs, n5, n4, hc]
    simp only [read_loop, hd, hstep]
    have := ih (fun x hx => hws x (by simp [hx])) { st with pos := st.pos + 1 } g hst hu hdrop
      (by omega)
    rw [this]
    simp only [List.length_cons]
    congr 2
    omega

/-! ## Integers -/

theorem digitChar_toNat : ∀ k, k < 10 → (Nat.digitChar k).toNat = 0x30 + k := by
  decide

theorem digits_value_snoc (l : List Nat) (d : Nat) :
    digits_value (l ++ [d]) = 10 * digits_value l + (d - 0x30) := by
  simp [digits_value, List.foldl_append]

theorem is_int_part_snoc (l : List Nat) (d : Nat) (hl : is_int_part l = true)
    (hv : digits_value l ≠ 0) (hd : number_0_9 d = true) : is_int_part (l ++ [d]) = true := by
  rcases is_int_part_cases l hl with rfl | ⟨d0, ds, rfl, h0, hds⟩
  · exact absurd rfl hv
  · simp only [List.cons_append, is_int_part, h0, List.all_append, List.all_cons, hd,
      List.all_nil, Bool.and_true, Bool.true_and, Bool.or_eq_true, Bool.and_eq_true]
    right
    rw [List.all_eq_true]
    exact hds

/-- The decimal digits of `Nat.toDigits`: an integer part whose value is the
number. -/
theorem toDigitsCore_spec (fuel : Nat) :
    ∀ (n : Nat) (ds : List Char), n < fuel →
      ∃ l : List Nat, (Nat.toDigitsCore 10 fuel n ds).map Char.toNat = l ++ ds.map Char.toNat
        ∧ (∀ x ∈ l, number_0_9 x = true) ∧ digits_value l = n ∧ is_int_part l = true := by
  induction fuel with
  | zero => intro n ds h; omega
  | succ fuel ih =>
    intro n ds h
    have hd := digitChar_toNat (n % 10) (Nat.mod_lt _ (by decide))
    have hdig : number_0_9 (0x30 + n % 10) = true := by
      have : n % 10 < 10 := Nat.mod_lt _ (by decide)
      simp only [number_0_9, number_1_9, Bool.or_eq_true, beq_iff_eq, Bool.and_eq_true,
        decide_eq_true_eq]
      omega
    simp only [Nat.toDigitsCore]
    by_cases h0 : n / 10 = 0
    · simp only [h0, if_true, List.map_cons, hd]
      have hn : n % 10 = n := by omega
      refine ⟨[0x30 + n % 10], rfl, ?_, ?_, ?_⟩
      · intro x hx
        simp only [List.mem_singleton] at hx
        rw [hx]
        exact hdig
      · simp [digits_value, hn]
      · simp only [is_int_part, List.isEmpty_nil, Bool.and_true, List.all_nil, Bool.or_eq_true,
          beq_iff_eq, number_1_9, Bool.and_eq_true, decide_eq_true_eq]
        omega
    · simp only [h0, if_false]
      obtain ⟨l, hl, hall, hval, hip⟩ := ih (n / 10) (Nat.digitChar (n % 10) :: ds) (by omega)
      refine ⟨l ++ [0x30 + n % 10], ?_, ?_, ?_, ?_⟩
      · rw [hl, List.map_cons, hd]
        simp
      · intro x hx
        simp only [List.mem_append, List.mem_singleton] at hx
        rcases hx with hx | rfl
        · exact hall x hx
        · exact hdig
      · rw [digits_value_snoc, hval]
        omega
      · exact is_int_part_snoc l _ hip (by rw [hval]; exact h0) hdig

theorem toDigits_spec (n : Nat) :
    is_int_part ((Nat.toDigits 10 n).map Char.toNat) = true
    ∧ digits_value ((Nat.toDigits 10 n).map Char.toNat) = n := by
  obtain ⟨l, hl, _, hval, hip⟩ := toDigitsCore_spec (n + 1) n [] (by omega)
  simp only [List.map_nil, List.append_nil] at hl
  unfold Nat.toDigits
  rw [hl]
  exact ⟨hip, hval⟩

theorem toDigits_length (n : Nat) (h : n < 10 ^ 19) :
    ((Nat.toDigits 10 n).map Char.toNat).length ≤ 19 := by
  rw [List.length_map]
  exact Nat.toDigitsCore_length 10 (by decide) (n + 1) n 19 h (by decide)

theorem to_string_int64_append (i : Int) (out : tstring) :
    to_string_int64 i out = out ++ to_string_int64 i [] := by
  cases i <;> simp [to_string_int64]

/-- The text `to_string_int64` gives: `-` exactly for a negative number, then
the integer part whose value is the absolute value. -/
theorem to_string_int64_spec (i : Int) :
    ∃ sg ip, to_string_int64 i [] = sg ++ ip ∧ sg = (if i < 0 then [0x2d] else [])
      ∧ is_int_part ip = true ∧ digits_value ip = i.natAbs := by
  cases i with
  | ofNat n =>
    refine ⟨[], (Nat.toDigits 10 n).map Char.toNat, by simp [to_string_int64], ?_,
      (toDigits_spec n).1, ?_⟩
    · rw [if_neg]
      exact Int.not_lt.mpr (Int.ofNat_nonneg n)
    · rw [(toDigits_spec n).2]
      rfl
  | negSucc n =>
    refine ⟨[0x2d], (Nat.toDigits 10 (n + 1)).map Char.toNat, by simp [to_string_int64], ?_,
      (toDigits_spec (n + 1)).1, ?_⟩
    · rw [if_pos (Int.negSucc_lt_zero n)]
    · rw [(toDigits_spec (n + 1)).2]
      rfl

theorem clamp_int64 (i : Int) (hlo : -(2 : Int) ^ 63 ≤ i) (hhi : i < (2 : Int) ^ 63) :
    max (-(2 : Int) ^ 63) (min i ((2 : Int) ^ 63 - 1)) = i := by
  rw [min_eq_left (by omega), max_eq_right hlo]

/-- The text of an Integer of the 64-bit range, at the end of the input or
before a terminator, is read back as that Integer. -/
theorem read_number_to_string (i : Int) (hlo : -(2 : Int) ^ 63 ≤ i) (hhi : i < (2 : Int) ^ 63)
    (tail : List Nat) (ht : ∀ c ∈ tail.head?, number_ending c = true) (dma : Bool) :
    read_number (to_string_int64 i [] ++ tail) dma
      = .ok ((to_string_int64 i []).length, .INTEGER i) := by
  obtain ⟨sg, ip, htext, hsg, hip, hval⟩ := to_string_int64_spec i
  have hsign : is_sign sg = true := by
    rw [hsg]
    split_ifs <;> rfl
  rw [htext, read_number_integer sg ip tail dma hsign hip ht, List.length_append]
  have hv : (if sg = [0x2d] then -(digits_value ip : Int) else (digits_value ip : Int)) = i := by
    rw [hval, hsg]
    by_cases hneg : i < 0
    · simp only [if_pos hneg, if_true]
      omega
    · simp only [if_neg hneg]
      rw [if_neg (by simp)]
      omega
  rw [hv, clamp_int64 i hlo hhi]

theorem to_string_int64_length (i : Int) (hlo : -(2 : Int) ^ 63 ≤ i) (hhi : i < (2 : Int) ^ 63) :
    1 ≤ (to_string_int64 i []).length ∧ (to_string_int64 i []).length ≤ 20 := by
  cases i with
  | ofNat n =>
    have hn : n < 10 ^ 19 := by
      have : (n : Int) < (2 : Int) ^ 63 := hhi
      omega
    have h1 := toDigits_length n hn
    have h2 := (toDigits_spec n).1
    simp only [to_string_int64, List.nil_append]
    refine ⟨?_, by omega⟩
    cases hl : (Nat.toDigits 10 n).map Char.toNat with
    | nil => rw [hl] at h2; simp [is_int_part] at h2
    | cons a b => simp
  | negSucc n =>
    have hn : n + 1 < 10 ^ 19 := by
      have : -(2 : Int) ^ 63 ≤ Int.negSucc n := hlo
      rw [Int.negSucc_eq] at this
      omega
    have h1 := toDigits_length (n + 1) hn
    simp only [to_string_int64, List.nil_append, List.length_cons]
    omega

theorem ints_rest_head (is : List Int) :
    ∃ c tl, ints_rest is = c :: tl ∧ number_ending c = true := by
  cases is with
  | nil => exact ⟨0x5d, [], rfl, by decide⟩
  | cons i is => exact ⟨0x2c, _, rfl, by decide⟩

theorem to_string_int64_head (i : Int) :
    ∃ c tl, to_string_int64 i [] = c :: tl ∧ (c = 0x2d ∨ number_0_9 c = true) := by
  obtain ⟨sg, ip, htext, hsg, hip, _⟩ := to_string_int64_spec i
  obtain ⟨d, ds, hd, hds⟩ := is_int_part_digits ip hip
  rw [htext, hsg, hd]
  split_ifs
  · exact ⟨0x2d, _, rfl, Or.inl rfl⟩
  · exact ⟨d, ds, rfl, Or.inr (hds d (by simp))⟩

/-- The iteration of `read` at the first unit of an Integer in an array. -/
theorem step_array_integer (inp : List Nat) (dma : Bool) (st : ReadState) (acc : List Value)
    (i : Int) (hlo : -(2 : Int) ^ 63 ≤ i) (hhi : i < (2 : Int) ^ 63) (tail : List Nat)
    (hst : st.state = .ARRAY_LBRACKET ∨ st.state = .ARRAY_COMMA)
    (hpv : st.pv = [⟨.root, .ARRAY acc⟩])
    (hd : inp.drop st.pos = to_string_int64 i [] ++ tail)
    (ht : ∀ c ∈ tail.head?, number_ending c = true) :
    ∃ c tl, inp.drop st.pos = c :: tl
      ∧ step inp dma st c = .next ⟨.ARRAY_ELEM, st.pos + (to_string_int64 i []).length, 0,
          [⟨.root, .ARRAY (acc ++ [.INTEGER i])⟩]⟩ := by
  obtain ⟨c, tl, hc, hcd⟩ := to_string_int64_head i
  have hlen := (to_string_int64_length i hlo hhi).1
  have hnum := read_number_to_string i hlo hhi tail ht dma
  rw [← hd] at hnum
  refine ⟨c, tl ++ tail, by rw [hd, hc]; rfl, ?_⟩
  have hq : c ≠ 0x22 := by
    rcases hcd with h | h
    · omega
    · have := number_0_9_range c h
      omega
  have hsv : step inp dma st c = step_value inp dma st c := by
    rcases hst with hs | hs <;> simp [step, hs]
  rw [hsv]
  unfold step_value
  rw [if_neg hq, if_pos hcd]
  unfold read_scalar
  rw [hpv]
  simp only [hnum, push_scalar_slot, plug, Value.type]
  simp only [reduceCtorEq, if_false, if_true, List.dropLast_concat]
  congr 1
  have : st.pos + (to_string_int64 i []).length - 1 + 1 = st.pos + (to_string_int64 i []).length := by
    omega
  rw [this]

/-- From the end of an element on, `read` takes the rest of an array of
Integers and returns behind its `]`. -/
theorem read_loop_ints_rest (inp : List Nat) (dma : Bool) (is : List Int)
    (hr : ∀ i ∈ is, -(2 : Int) ^ 63 ≤ i ∧ i < (2 : Int) ^ 63) :
    ∀ (pos : Nat) (acc : List Value) (fuel : Nat),
      inp.drop pos = ints_rest is → (ints_rest is).length ≤ fuel →
      read_loop inp dma fuel ⟨.ARRAY_ELEM, pos, 0, [⟨.root, .ARRAY acc⟩]⟩
        = .ok (pos + (ints_rest is).length, .ARRAY (acc ++ is.map .INTEGER)) := by
  induction is with
  | nil =>
    intro pos acc fuel hd hf
    simp only [ints_rest, List.length_singleton] at hd hf ⊢
    obtain ⟨g, rfl⟩ : ∃ g, fuel = g + 1 := ⟨fuel - 1, by omega⟩
    simp [read_loop, hd, step, parse_end, Value.type]
  | cons i is ih =>
    intro pos acc fuel hd hf
    obtain ⟨hlo, hhi⟩ := hr i (by simp)
    have hlen := (to_string_int64_length i hlo hhi).1
    simp only [ints_rest, List.length_cons, List.length_append] at hd hf ⊢
    obtain ⟨g, rfl⟩ : ∃ g, fuel = g + 2 := ⟨fuel - 2, by omega⟩
    obtain ⟨hdrop, _, _⟩ := drop_cons_facts inp pos _ _ hd
    obtain ⟨c0, tl0, htail, hend⟩ := ints_rest_head is
    obtain ⟨c, tl, hc, hstep⟩ := step_array_integer inp dma
      ⟨.ARRAY_COMMA, pos + 1, 0, [⟨.root, .ARRAY acc⟩]⟩ acc i hlo hhi (ints_rest is)
      (Or.inr rfl) rfl hdrop (by rw [htail]; intro x hx; simp at hx; rw [← hx]; exact hend)
    have hcomma : step inp dma ⟨.ARRAY_ELEM, pos, 0, [⟨.root, .ARRAY acc⟩]⟩ 0x2c
        = .next ⟨.ARRAY_COMMA, pos + 1, 0, [⟨.root, .ARRAY acc⟩]⟩ := by
      simp [step]
    have hdrop2 : inp.drop (pos + 1 + (to_string_int64 i []).length) = ints_rest is := by
      rw [← List.drop_drop, hdrop, List.drop_left']
      rfl
    simp only at hc hstep
    rw [read_loop]
    simp only [hd, hcomma]
    rw [read_loop]
    simp only [hc, hstep]
    rw [ih (fun x hx => hr x (by simp [hx])) _ _ g hdrop2 (by omega)]
    simp only [List.map_cons, List.append_assoc, List.singleton_append]
    congr 2
    omega

theorem write_elems_ints (fmt : Dbl → tstring) (is : List Int) :
    ∀ (out : tstring) (i : Int), ∃ out2,
      write_elems fmt (is.map .INTEGER) (out ++ to_string_int64 i [] ++ [0x2c]) = .ok out2
      ∧ close_container 0x5b 0x5d out2 = out ++ to_string_int64 i [] ++ ints_rest is := by
  induction is with
  | nil =>
    intro out i
    refine ⟨_, rfl, ?_⟩
    simp [close_container, ints_rest, List.getLast?_append, List.dropLast_append]
  | cons j is ih =>
    intro out i
    obtain ⟨out2, h1, h2⟩ := ih (out ++ to_string_int64 i [] ++ [0x2c]) j
    refine ⟨out2, ?_, ?_⟩
    · simp only [List.map_cons, write_elems, Value.write]
      rw [to_string_int64_append j]
      exact h1
    · rw [h2]
      simp [ints_rest]

theorem write_ints (fmt : Dbl → tstring) (i : Int) (is : List Int) :
    (Value.ARRAY ((i :: is).map .INTEGER)).write fmt []
      = .ok (0x5b :: (to_string_int64 i [] ++ ints_rest is)) := by
  obtain ⟨out2, h1, h2⟩ := write_elems_ints fmt is [0x5b] i
  simp only [List.map_cons, Value.write, write_elems, List.nil_append]
  rw [to_string_int64_append i, h1]
  simp only
  rw [h2]
  rfl

/-- An array of Integers of the 64-bit range is written and read back. -/
theorem read_write_ints (fmt : Dbl → tstring) (dma : Bool) (is : List Int)
    (hr : ∀ i ∈ is, -(2 : Int) ^ 63 ≤ i ∧ i < (2 : Int) ^ 63) :
    ∃ text, (Value.ARRAY (is.map .INTEGER)).write fmt [] = .ok text
      ∧ read text dma = .ok (text.length, .ARRAY (is.map .INTEGER)) := by
  cases is with
  | nil => exact ⟨[0x5b, 0x5d], rfl, rfl⟩
  | cons i is =>
    obtain ⟨hlo, hhi⟩ := hr i (by simp)
    have hlen := (to_string_int64_length i hlo hhi).1
    refine ⟨_, write_ints fmt i is, ?_⟩
    obtain ⟨c0, tl0, htail, hend⟩ := ints_rest_head is
    have hstart : step (0x5b :: (to_string_int64 i [] ++ ints_rest is)) dma
        ⟨.NONE, 0, 0, [⟨.root, .NIL⟩]⟩ 0x5b
        = .next ⟨.ARRAY_LBRACKET, 1, 0, [⟨.root, .ARRAY []⟩]⟩ := by
      simp [step]
    obtain ⟨c, tl, hc, hstep⟩ := step_array_integer
      (0x5b :: (to_string_int64 i [] ++ ints_rest is)) dma
      ⟨.ARRAY_LBRACKET, 1, 0, [⟨.root, .ARRAY []⟩]⟩ [] i hlo hhi (ints_rest is)
      (Or.inl rfl) rfl rfl (by rw [htail]; intro x hx; simp at hx; rw [← hx]; exact hend)
    simp only at hc hstep
    unfold read
    simp only [List.length_cons, List.length_append]
    rw [read_loop]
    simp only [List.drop_zero, hstart]
    obtain ⟨g, hg⟩ : ∃ g, (to_string_int64 i []).length + (ints_rest is).length + 1
        = g + 1 := ⟨_, rfl⟩
    rw [hg, read_loop]
    simp only [hc, hstep]
    have hdrop2 : (0x5b :: (to_string_int64 i [] ++ ints_rest is)).drop
        (1 + (to_string_int64 i []).length) = ints_rest is := by
      rw [Nat.add_comm, List.drop_succ_cons, List.drop_left']
      rfl
    rw [read_loop_ints_rest _ dma is (fun x hx => hr x (by simp [hx])) _ _ g hdrop2 (by omega)]
    simp only [List.nil_append, List.map_cons, List.singleton_append]
    congr 2
    omega

theorem read_number_loop_point (inp ip : List Nat) (start pos : Nat) (rest : List Nat) :
    read_number_loop inp (int_part_state ip) start pos (0x2e :: rest)
      = read_number_loop inp .POINT start (pos + 1) rest := by
  rcases int_state_cases ip with hs | hs <;> rw [hs] <;>
    simp [read_number_loop, number_0_9, number_1_9]

theorem read_number_loop_point_error (inp : List Nat) (start pos : Nat) (rest : List Nat)
    (hr : ∀ d ∈ rest.head?, number_0_9 d = false) :
    read_number_loop inp .POINT start pos rest = .error (.ParseError pos) := by
  cases rest with
  | nil => rfl
  | cons d rest =>
    have hd := hr d (by simp)
    simp only [read_number_loop, hd, Bool.false_eq_true, if_false]

theorem read_number_loop_exp_error (inp : List Nat) (start pos : Nat) (rest : List Nat)
    (hmiss : exponent_digits_missing rest = true) :
    ∃ p, read_number_loop inp .EXP start pos rest = .error (.ParseError p) := by
  cases rest with
  | nil => exact ⟨pos, rfl⟩
  | cons c rest =>
    simp only [exponent_digits_missing] at hmiss
    by_cases hc : number_0_9 c = true
    · simp [hc] at hmiss
    · simp only [hc, Bool.false_eq_true, if_false] at hmiss
      by_cases hs : c = 0x2b ∨ c = 0x2d
      · simp only [if_pos hs] at hmiss
        cases rest with
        | nil =>
          refine ⟨pos + 1, ?_⟩
          simp only [read_number_loop, hc, if_false, if_pos hs]
          rfl
        | cons d rest =>
          simp only [Bool.not_eq_true'] at hmiss
          refine ⟨pos + 1, ?_⟩
          simp only [read_number_loop, hc, if_false, if_pos hs, hmiss, Bool.false_eq_true]
      · refine ⟨pos, ?_⟩
        simp only [read_number_loop, hc, if_false, if_neg hs, Bool.false_eq_true]

theorem read_number_loop_int_exp (inp ip : List Nat) (start pos e : Nat) (rest : List Nat)
    (he : e = 0x65 ∨ e = 0x45) :
    read_number_loop inp (int_part_state ip) start pos (e :: rest) = .error (.ParseError pos) := by
  have h1 : number_0_9 e = false := by rcases he with rfl | rfl <;> decide
  have h2 : number_ending e = false := by rcases he with rfl | rfl <;> decide
  have h3 : e ≠ 0x30 ∧ e ≠ 0x2e := by rcases he with rfl | rfl <;> decide
  rcases int_state_cases ip with hs | hs <;> rw [hs] <;>
    simp only [read_number_loop, h1, h2, if_neg h3.1, if_neg h3.2, Bool.false_eq_true, if_false]

/-! ## The `double` of a run of digits -/

theorem string_append_ok (out s : tstring) (n : Nat) (r : tstring)
    (h : string_append out s n = .ok r) :
    n ≤ s.length ∧ r = out ++ s.take n ∧ ∀ out1, string_append out1 s n = .ok (out1 ++ s.take n) := by
  unfold string_append at h
  by_cases hn : n ≤ s.length
  · simp only [if_pos hn, Except.ok.injEq] at h
    exact ⟨hn, h.symm, fun out1 => by simp only [string_append, if_pos hn]⟩
  · simp only [if_neg hn] at h
    split_ifs at h

theorem close_container_body (opn cls : Nat) (out body : tstring) (hne : opn ≠ 0x2c) :
    (body = [] → close_container opn cls (out ++ [opn] ++ body) = out ++ [opn, cls])
    ∧ (body ≠ [] → body.getLast? = some 0x2c →
        close_container opn cls (out ++ [opn] ++ body) = out ++ [opn] ++ body.dropLast ++ [cls]) := by
  constructor
  · intro hb
    subst hb
    simp [close_container]
  · intro hb hl
    have h1 : (out ++ [opn] ++ body).getLast? = some 0x2c := by
      rw [List.getLast?_append, hl]
      rfl
    have h2 : (out ++ [opn] ++ body).dropLast = out ++ [opn] ++ body.dropLast := by
      rw [List.dropLast_append_of_ne_nil _ hb]
    unfold close_container
    rw [h1, h2, if_pos]
    intro hc
    simp only [Option.some.injEq] at hc
    exact hne hc.symm

/-- The text of a container from the text its loop appended: the closing
bracket takes the place of the last `,`. -/
theorem close_container_text (opn cls : Nat) (out body : tstring) (hne : opn ≠ 0x2c)
    (hl : body ≠ [] → body.getLast? = some 0x2c) :
    close_container opn cls (out ++ [opn] ++ body) = out ++ ([opn] ++ body.dropLast ++ [cls]) := by
  by_cases hb : body = []
  · rw [(close_container_body opn cls out body hne).1 hb, hb]
    simp
  · rw [(close_container_body opn cls out body hne).2 hb (hl hb)]
    simp

mutual
/-- What `write` appends does not depend on what `out` holds. -/
theorem write_local (fmt : Dbl → tstring) : ∀ (v : Value) (out0 r : tstring),
    v.write fmt out0 = .ok r →
    ∃ t, r = out0 ++ t ∧ ∀ out1, v.write fmt out1 = .ok (out1 ++ t)
  | .NIL, out0, r, h => by
    simp only [Value.write, Except.ok.injEq] at h
    exact ⟨_, h.symm, fun out1 => rfl⟩
  | .BOOLEAN b, out0, r, h => by
    simp only [Value.write, Except.ok.injEq] at h
    exact ⟨_, h.symm, fun out1 => rfl⟩
  | .INTEGER i, out0, r, h => by
    simp only [Value.write, Except.ok.injEq] at h
    rw [to_string_int64_append] at h
    refine ⟨_, h.symm, fun out1 => ?_⟩
    simp only [Value.write]
    rw [to_string_int64_append]
  | .FLOAT f, out0, r, h => by
    simp only [Value.write, Except.ok.injEq] at h
    exact ⟨_, h.symm, fun out1 => rfl⟩
  | .STRING st e s, out0, r, h => by
    simp only [Value.write] at h
    by_cases he : st = .owned ∧ e = true
    · simp only [if_pos he, Except.ok.injEq] at h
      refine ⟨[0x22] ++ detail.encode s [] ++ [0x22], ?_, fun out1 => ?_⟩
      · rw [← h, detail.encode_append]
        simp
      · simp only [Value.write, if_pos he]
        rw [detail.encode_append]
        simp
    · simp only [if_neg he] at h
      cases hs : string_append (out0 ++ [0x22]) s (string_length st s) with
      | error err => rw [hs] at h; simp at h
      | ok out2 =>
        rw [hs] at h
        simp only [Except.ok.injEq] at h
        obtain ⟨_, h2, hall⟩ := string_append_ok _ _ _ _ hs
        refine ⟨[0x22] ++ s.take (string_length st s) ++ [0x22], ?_, fun out1 => ?_⟩
        · rw [← h, h2]
          simp
        · simp only [Value.write, if_neg he, hall]
          simp
  | .OBJECT o, out0, r, h => by
    simp only [Value.write] at h
    cases hm : write_members fmt o (out0 ++ [0x7b]) with
    | error err => rw [hm] at h; simp at h
    | ok out2 =>
      rw [hm] at h
      simp only [Except.ok.injEq] at h
      obtain ⟨body, hb, hlast, hall⟩ := write_members_local fmt o (out0 ++ [0x7b]) out2 hm
      subst hb
      refine ⟨[0x7b] ++ body.dropLast ++ [0x7d], ?_, fun out1 => ?_⟩
      · rw [← h, close_container_text 0x7b 0x7d out0 body (by decide) hlast]
      · simp only [Value.write, hall (out1 ++ [0x7b])]
        rw [close_container_text 0x7b 0x7d out1 body (by decide) hlast]
  | .ARRAY a, out0, r, h => by
    simp only [Value.write] at h
    cases hm : write_elems fmt a (out0 ++ [0x5b]) with
    | error err => rw [hm] at h; simp at h
    | ok out2 =>
      rw [hm] at h
      simp only [Except.ok.injEq] at h
      obtain ⟨body, hb, hlast, hall⟩ := write_elems_local fmt a (out0 ++ [0x5b]) out2 hm
      subst hb
      refine ⟨[0x5b] ++ body.dropLast ++ [0x5d], ?_, fun out1 => ?_⟩
      · rw [← h, close_container_text 0x5b 0x5d out0 body (by decide) hlast]
      · simp only [Value.write, hall (out1 ++ [0x5b])]
        rw [close_container_text 0x5b 0x5d out1 body (by decide) hlast]
/-- What the loop over the members appends does not depend on what `out` holds,
and ends in a `,` unless there is no member. -/
theorem write_members_local (fmt : Dbl → tstring) : ∀ (o : List (tstring × Value))
    (out0 r : tstring), write_members fmt o out0 = .ok r →
    ∃ body, r = out0 ++ body ∧ (body ≠ [] → body.getLast? = some 0x2c)
      ∧ ∀ out1, write_members fmt o out1 = .ok (out1 ++ body)
  | [], out0, r, h => by
    simp only [write_members, Except.ok.injEq] at h
    exact ⟨[], by simp [h], by simp, fun out1 => by simp [write_members]⟩
  | (k, v) :: tl, out0, r, h => by
    simp only [write_members] at h
    cases hv : v.write fmt (detail.encode k (out0 ++ [0x22]) ++ [0x22, 0x3a]) with
    | error err => rw [hv] at h; simp at h
    | ok out2 =>
      rw [hv] at h
      simp only at h
      obtain ⟨t, ht, hall⟩ := write_local fmt v _ out2 hv
      obtain ⟨body, hb, hlast, hall2⟩ := write_members_local fmt tl (out2 ++ [0x2c]) r h
      refine ⟨[0x22] ++ detail.encode k [] ++ [0x22, 0x3a] ++ t ++ [0x2c] ++ body, ?_, ?_, ?_⟩
      · rw [hb, ht, detail.encode_append]
        simp
      · intro _
        by_cases hbe : body = []
        · subst hbe
          rw [List.append_nil, List.getLast?_concat]
        · rw [List.getLast?_append, hlast hbe]
          rfl
      · intro out1
        simp only [write_members, hall, hall2]
        rw [detail.encode_append]
        simp
/-- What the loop over the elements appends does not depend on what `out`
holds, and ends in a `,` unless there is no element. -/
theorem write_elems_local (fmt : Dbl → tstring) : ∀ (a : List Value)
    (out0 r : tstring), write_elems fmt a out0 = .ok r →
    ∃ body, r = out0 ++ body ∧ (body ≠ [] → body.getLast? = some 0x2c)
      ∧ ∀ out1, write_elems fmt a out1 = .ok (out1 ++ body)
  | [], out0, r, h => by
    simp only [write_elems, Except.ok.injEq] at h
    exact ⟨[], by simp [h], by simp, fun out1 => by simp [write_elems]⟩
  | v :: tl, out0, r, h => by
    simp only [write_elems] at h
    cases hv : v.write fmt out0 with
    | error err => rw [hv] at h; simp at h
    | ok out2 =>
      rw [hv] at h
      simp only at h
      obtain ⟨t, ht, hall⟩ := write_local fmt v _ out2 hv
      obtain ⟨body, hb, hlast, hall2⟩ := write_elems_local fmt tl (out2 ++ [0x2c]) r h
      refine ⟨t ++ [0x2c] ++ body, ?_, ?_, ?_⟩
      · rw [hb, ht]
        simp
      · intro _
        by_cases hbe : body = []
        · subst hbe
          rw [List.append_nil, List.getLast?_concat]
        · rw [List.getLast?_append, hlast hbe]
          rfl
      · intro out1
        simp only [write_elems, hall, hall2]
        simp
end

/-- A value that is written to an empty `out` is written so to any `out`. -/
theorem write_append (fmt : Dbl → tstring) (v : Value) (t : tstring)
    (h : v.write fmt [] = .ok t) (out : tstring) : v.write fmt out = .ok (out ++ t) := by
  obtain ⟨t2, h2, hall⟩ := write_local fmt v [] t h
  rw [List.nil_append] at h2
  rw [hall out, h2]

theorem dropLast_join_sep (c : Nat) (es : List (List Nat)) (hne : es ≠ []) :
    ((es.map (fun x => x ++ [c])).flatten).dropLast = List.intercalate [c] es := by
  induction es with
  | nil => exact absurd rfl hne
  | cons e tl ih =>
    cases tl with
    | nil => simp [List.intercalate]
    | cons e2 tl2 =>
      have ih2 := ih (by simp)
      have hne2 : ((e2 :: tl2).map (fun x => x ++ [c])).flatten ≠ [] := by
        simp
      rw [List.map_cons, List.flatten_cons, List.dropLast_append_of_ne_nil _ hne2, ih2]
      simp [List.intercalate, List.intersperse]

/-- The loop over the members appends every entry followed by a `,`. -/
theorem write_members_texts (fmt : Dbl → tstring) :
    ∀ (o : List (tstring × Value)) (texts : List tstring) (out : tstring),
      List.Forall₂ (fun kv t => kv.2.write fmt [] = .ok t) o texts →
      write_members fmt o out = .ok (out ++ ((List.zipWith
        (fun kv t => [0x22] ++ detail.encode kv.1 [] ++ [0x22, 0x3a] ++ t) o texts).map
          (fun x => x ++ [0x2c])).flatten)
  | [], texts, out, h => by
    cases h
    simp [write_members]
  | (k, v) :: tl, texts, out, h => by
    cases h with
    | cons h1 h2 =>
      simp only [write_members, write_append fmt v _ h1]
      rw [write_members_texts fmt tl _ _ h2, detail.encode_append]
      simp

/-- The loop over the elements appends every element followed by a `,`. -/
theorem write_elems_texts (fmt : Dbl → tstring) :
    ∀ (a : List Value) (texts : List tstring) (out : tstring),
      List.Forall₂ (fun v t => v.write fmt [] = .ok t) a texts →
      write_elems fmt a out = .ok (out ++ (texts.map (fun x => x ++ [0x2c])).flatten)
  | [], texts, out, h => by
    cases h
    simp [write_elems]
  | v :: tl, texts, out, h => by
    cases h with
    | cons h1 h2 =>
      simp only [write_elems, write_append fmt v _ h1]
      rw [write_elems_texts fmt tl _ _ h2]
      simp

theorem getLast?_join_sep (c : Nat) (es : List (List Nat)) (hne : es ≠ []) :
    ((es.map (fun x => x ++ [c])).flatten).getLast? = some c := by
  induction es with
  | nil => exact absurd rfl hne
  | cons e tl ih =>
    cases tl with
    | nil => simp [List.getLast?_concat]
    | cons e2 tl2 =>
      have ih2 := ih (by simp)
      rw [List.map_cons, List.flatten_cons, List.getLast?_append, ih2]
      rfl

/-! ## Termination of `read` and nested arrays -/

theorem hex_to_int_total (c : Nat) : detail.hex_to_int c ≠ .error .Fuel := by
  unfold detail.hex_to_int
  split_ifs <;> simp

theorem hex_to_ushort_total (inp : List Nat) : detail.hex_to_ushort inp ≠ .error .Fuel := by
  unfold detail.hex_to_ushort
  split
  · split <;> simp
  · simp

theorem decode_unicode_total (inp : List Nat) (out : tstring) :
    detail.decode_unicode inp out ≠ .error .Fuel := by
  unfold detail.decode_unicode
  split
  · rename_i e he
    intro h
    simp only [Except.error.injEq] at h
    subst h
    exact hex_to_ushort_total _ he
  · split_ifs
    · split
      · rename_i e he
        intro h
        simp only [Except.error.injEq] at h
        subst h
        exact hex_to_ushort_total _ he
      · simp
    · simp
    · simp

theorem decode_unicode_count (inp : List Nat) (out out2 : tstring) (n : Nat)
    (h : detail.decode_unicode inp out = .ok (n, out2)) : 0 < n := by
  unfold detail.decode_unicode at h
  split at h
  · simp at h
  · split_ifs at h
    · split at h
      · simp at h
      · simp only [Except.ok.injEq, Prod.mk.injEq] at h
        omega
    · simp only [Except.ok.injEq, Prod.mk.injEq] at h
      omega

theorem decodeLoop_total (fuel : Nat) : ∀ (pos : Nat) (rest : List Nat) (out : tstring),
    rest.length ≤ fuel → detail.decodeLoop fuel pos rest out ≠ .error .Fuel := by
  induction fuel with
  | zero =>
    intro pos rest out h
    cases rest with
    | nil => simp [detail.decodeLoop]
    | cons c tl => simp at h
  | succ fuel ih =>
    intro pos rest out h
    cases rest with
    | nil => simp [detail.decodeLoop]
    | cons c rest =>
      simp only [List.length_cons] at h
      have h1 : rest.length ≤ fuel := by omega
      simp only [detail.decodeLoop]
      by_cases hc : c = 0x5c
      · rw [if_pos hc]
        cases rest with
        | nil => simp
        | cons d rest2 =>
          simp only [List.length_cons] at h1
          have h2 : rest2.length ≤ fuel := by omega
          simp only
          split_ifs
          · exact ih _ rest2 _ h2
          · exact ih _ rest2 _ h2
          · exact ih _ rest2 _ h2
          · exact ih _ rest2 _ h2
          · exact ih _ rest2 _ h2
          · exact ih _ rest2 _ h2
          · exact ih _ rest2 _ h2
          · exact ih _ rest2 _ h2
          · cases hu : detail.decode_unicode rest2 out with
            | error e =>
              simp only [ne_eq, Except.error.injEq]
              intro he
              subst he
              exact decode_unicode_total _ _ hu
            | ok r =>
              obtain ⟨n, out2⟩ := r
              simp only
              exact ih _ (rest2.drop n) _ (by simp only [List.length_drop]; omega)
          · simp
      · rw [if_neg hc]
        exact ih _ rest _ h1

theorem decode_total (inp : List Nat) (out : tstring) : detail.decode inp out ≠ .error .Fuel :=
  decodeLoop_total _ _ _ _ (le_refl _)

theorem read_string_loop_total {held : Bool} (inp : List Nat) (dma : Bool) (n : Nat) :
    ∀ (rest : List Nat), rest.length ≤ n → ∀ (normal : Bool) (start : Nat) (e : Bool) (pos : Nat),
      read_string_loop held inp dma normal start e pos rest ≠ .error .Fuel := by
  induction n with
  | zero =>
    intro rest h normal start e pos
    cases rest with
    | nil => simp [read_string_loop]
    | cons c tl => simp at h
  | succ n ih =>
    intro rest h normal start e pos
    cases rest with
    | nil => simp [read_string_loop]
    | cons c rest =>
      simp only [List.length_cons] at h
      cases normal with
      | false =>
        simp only [read_string_loop]
        split_ifs
        · exact ih _ (by omega) _ _ _ _
        · exact ih _ (by omega) _ _ _ _
        · simp
      | true =>
        have h1 : rest.length ≤ n := by omega
        simp only [read_string_loop]
        split_ifs
        all_goals first
          | exact ih rest h1 _ _ _ _
          | (simp; done)
          | (split
             · rename_i err herr
               simp only [ne_eq, Except.error.injEq]
               intro he
               subst he
               exact decode_total _ _ herr
             · simp)
          | (cases rest with
             | nil => simp
             | cons d rest2 =>
               simp only [List.length_cons] at h1
               exact ih rest2 (by omega) _ _ _ _)

theorem read_string_total {held : Bool} (inp : List Nat) (dma : Bool) : read_string held inp dma ≠ .error .Fuel :=
  read_string_loop_total inp dma _ _ (le_refl _) _ _ _ _

theorem read_number_end_total (inp : List Nat) (state : NumState) (start pos : Nat) :
    read_number_end inp state start pos ≠ .error .Fuel := by
  unfold read_number_end
  split <;> (try split_ifs) <;> simp

theorem read_number_loop_total (inp : List Nat) : ∀ (rest : List Nat) (state : NumState)
    (start pos : Nat), read_number_loop inp state start pos rest ≠ .error .Fuel := by
  intro rest
  induction rest with
  | nil =>
    intro state start pos
    cases state <;> simp only [read_number_loop] <;> exact read_number_end_total _ _ _ _
  | cons c rest ih =>
    intro state start pos
    cases state <;> simp only [read_number_loop] <;> split_ifs <;>
      first
        | exact ih _ _ _
        | exact read_number_end_total _ _ _ _
        | simp

theorem read_number_total (inp : List Nat) (dma : Bool) : read_number inp dma ≠ .error .Fuel :=
  read_number_loop_total inp _ _ _ _

theorem read_nil_loop_total : ∀ (rest : List Nat) (pos : Nat),
    read_nil_loop pos rest ≠ .error .Fuel := by
  intro rest
  induction rest with
  | nil => intro pos; simp [read_nil_loop]
  | cons c rest ih =>
    intro pos
    simp only [read_nil_loop]
    split_ifs <;> first | exact ih _ | simp

theorem read_nil_total (inp : List Nat) (dma : Bool) : read_nil inp dma ≠ .error .Fuel :=
  read_nil_loop_total _ _

theorem read_boolean_loop_total : ∀ (rest : List Nat) (pos : Nat),
    read_boolean_loop pos rest ≠ .error .Fuel := by
  intro rest
  induction rest with
  | nil => intro pos; simp [read_boolean_loop]
  | cons c rest ih =>
    intro pos
    simp only [read_boolean_loop]
    split_ifs <;> first | exact ih _ | simp

theorem read_boolean_total (inp : List Nat) (dma : Bool) : read_boolean inp dma ≠ .error .Fuel :=
  read_boolean_loop_total _ _

theorem read_scalar_total (fp : List Nat → Bool → Except Error (Nat × Value)) (inp : List Nat)
    (dma : Bool) (st : ReadState) (hfp : ∀ i, fp i dma ≠ .error .Fuel) :
    step_total (read_scalar fp inp dma st) := by
  unfold read_scalar
  split
  · simp [step_total]
  · split
    · rename_i e he
      intro h
      subst h
      exact hfp _ he
    · split
      · split_ifs <;> simp [step_total]
      · simp [step_total]

theorem parse_end_total (T : ValueType) (st : ReadState) : step_total (parse_end T st) := by
  unfold parse_end
  split
  · simp [step_total]
  · split_ifs
    · simp [step_total]
    · split <;> simp [step_total]

theorem push_value_total (T : ValueType) (s : PState) (st : ReadState) :
    step_total (push_value T s st) := by
  unfold push_value
  split
  · simp [step_total]
  · split <;> simp [step_total]

theorem push_key_total (key : tstring) (pos u : Nat) (st : ReadState) :
    step_total (push_key key pos u st) := by
  unfold push_key
  split
  · simp [step_total]
  · split <;> simp [step_total]

theorem check_fp_total (st : ReadState) (r : Step) (h : step_total r) :
    step_total (check_fp st r) := by
  unfold check_fp
  split
  · split_ifs <;> simp [step_total]
  · exact h

theorem step_value_total (inp : List Nat) (dma : Bool) (st : ReadState) (c : Nat) :
    step_total (step_value inp dma st c) := by
  unfold step_value
  split_ifs
  · exact read_scalar_total _ _ _ _ (fun i => read_string_total i dma)
  · exact read_scalar_total _ _ _ _ (fun i => read_number_total i dma)
  · exact read_scalar_total _ _ _ _ (fun i => read_boolean_total i dma)
  · exact read_scalar_total _ _ _ _ (fun i => read_nil_total i dma)
  · exact check_fp_total _ _ (push_value_total _ _ _)
  · exact check_fp_total _ _ (push_value_total _ _ _)
  · exact check_fp_total _ _ (parse_end_total _ _)
  · simp [step_total]
  · exact check_fp_total _ _ trivial
  · simp [step_total]

theorem step_total_step (inp : List Nat) (dma : Bool) (st : ReadState) (c : Nat) :
    step_total (step inp dma st c) := by
  unfold step
  split
  case h_4 =>
    split_ifs
    · split
      · simp [step_total]
      · split
        · rename_i e he
          intro h
          subst h
          exact decode_total _ _ he
        · exact push_key_total _ _ _ _
    · exact push_key_total _ _ _ _
    · trivial
  all_goals first
    | exact step_value_total inp dma st c
    | (split_ifs
       all_goals first
         | trivial
         | exact parse_end_total _ _
         | simp [step_total])

theorem read_run_snoc (inp : List Nat) (dma : Bool) (n : Nat) :
    ∀ (st0 st1 st2 : ReadState) (c : Nat) (tl : List Nat),
      read_run inp dma n st0 = some st1 → inp.drop st1.pos = c :: tl →
      step inp dma st1 c = .next st2 → read_run inp dma (n + 1) st0 = some st2 := by
  induction n with
  | zero =>
    intro st0 st1 st2 c tl h hd hs
    simp only [read_run, Option.some.injEq] at h
    subst h
    simp only [read_run, hd, hs]
  | succ n ih =>
    intro st0 st1 st2 c tl h hd hs
    simp only [read_run] at h
    cases hd0 : inp.drop st0.pos with
    | nil => rw [hd0] at h; simp at h
    | cons c0 tl0 =>
      rw [hd0] at h
      simp only at h
      cases hstep : step inp dma st0 c0 with
      | next sta =>
        rw [hstep] at h
        simp only at h
        have := ih sta st1 st2 c tl h hd hs
        rw [read_run]
        simp only [hd0, hstep]
        exact this
      | ret q w => rw [hstep] at h; simp at h
      | throw e => rw [hstep] at h; simp at h

theorem read_run_unsnoc (inp : List Nat) (dma : Bool) (n : Nat) :
    ∀ (st0 st2 : ReadState), read_run inp dma (n + 1) st0 = some st2 → pv_sorted st0.pv →
      ∃ (st1 : ReadState) (c : Nat) (tl : List Nat), read_run inp dma n st0 = some st1
        ∧ pv_sorted st1.pv ∧ inp.drop st1.pos = c :: tl ∧ step inp dma st1 c = .next st2 := by
  induction n with
  | zero =>
    intro st0 st2 h hs
    simp only [read_run] at h
    cases hd0 : inp.drop st0.pos with
    | nil => rw [hd0] at h; simp at h
    | cons c0 tl0 =>
      rw [hd0] at h
      simp only at h
      cases hstep : step inp dma st0 c0 with
      | next sta =>
        rw [hstep] at h
        simp only [Option.some.injEq] at h
        subst h
        exact ⟨st0, c0, tl0, rfl, hs, hd0, hstep⟩
      | ret q w => rw [hstep] at h; simp at h
      | throw e => rw [hstep] at h; simp at h
  | succ n ih =>
    intro st0 st2 h hs
    rw [read_run] at h
    cases hd0 : inp.drop st0.pos with
    | nil => rw [hd0] at h; simp at h
    | cons c0 tl0 =>
      rw [hd0] at h
      simp only at h
      have hpost := step_post_step inp dma st0 c0 hs
      cases hstep : step inp dma st0 c0 with
      | next sta =>
        rw [hstep] at h hpost
        simp only at h
        obtain ⟨st1, c, tl, h1, h2, h3, h4⟩ := ih sta st2 h hpost.1
        refine ⟨st1, c, tl, ?_, h2, h3, h4⟩
        rw [read_run]
        simp only [hd0, hstep]
        exact h1
      | ret q w => rw [hstep] at h; simp at h
      | throw e => rw [hstep] at h; simp at h

/-- The position goes up at every iteration of `read`. -/
theorem read_run_pos_lt (inp : List Nat) (dma : Bool) (n : Nat) (st1 st2 : ReadState)
    (h1 : read_run inp dma n read_init = some st1)
    (h2 : read_run inp dma (n + 1) read_init = some st2) : st1.pos < st2.pos := by
  obtain ⟨sta, c, tl, ha, hs, hd, hstep⟩ := read_run_unsnoc inp dma n _ _ h2 pv_sorted_init
  rw [h1] at ha
  simp only [Option.some.injEq] at ha
  subst ha
  have hpost := step_post_step inp dma st1 c hs
  rw [hstep] at hpost
  exact hpost.2

/-- The loop of `read` ends before its budget does. -/
theorem read_loop_no_fuel (inp : List Nat) (dma : Bool) (fuel : Nat) :
    ∀ (st : ReadState), pv_sorted st.pv → 0 < fuel → inp.length < st.pos + fuel →
      read_loop inp dma fuel st ≠ .error .Fuel := by
  induction fuel with
  | zero => intro st _ h; omega
  | succ fuel ih =>
    intro st hs _ hlen
    simp only [read_loop]
    cases hd : inp.drop st.pos with
    | nil => simp
    | cons c tl =>
      simp only
      have hlt : st.pos < inp.length := by
        by_contra hh
        rw [List.drop_eq_nil_of_le (by omega)] at hd
        simp at hd
      have hpost := step_post_step inp dma st c hs
      cases hstep : step inp dma st c with
      | next st2 =>
        rw [hstep] at hpost
        simp only
        exact ih st2 hpost.1 (by omega) (by have := hpost.2; omega)
      | ret q w => simp
      | throw e =>
        simp only [ne_eq, Except.error.injEq]
        intro he
        subst he
        have := step_total_step inp dma st c
        rw [hstep] at this
        exact this rfl

theorem bracket_stack_length (m : Nat) : ∀ v, (bracket_stack m v).length = m + 1 := by
  induction m with
  | zero => intro v; rfl
  | succ m ih => intro v; simp [bracket_stack, ih]

theorem brackets_drop_open (n k : Nat) (h : k < n) :
    ∃ tl, (brackets n).drop k = 0x5b :: tl := by
  unfold brackets
  rw [List.drop_append_of_le_length (by simp; omega), List.drop_replicate]
  obtain ⟨m, hm⟩ : ∃ m, n - k = m + 1 := ⟨n - k - 1, by omega⟩
  rw [hm, List.replicate_succ]
  exact ⟨_, rfl⟩

theorem brackets_drop_close (n j : Nat) (h : j < n) :
    ∃ tl, (brackets n).drop (n + j) = 0x5d :: tl := by
  unfold brackets
  rw [List.drop_append_eq_append_drop, List.drop_replicate, List.drop_replicate]
  simp only [List.length_replicate]
  obtain ⟨m, hm⟩ : ∃ m, n - (n + j - n) = m + 1 := ⟨n - j - 1, by omega⟩
  rw [hm, List.replicate_succ, show n - (n + j) = 0 by omega]
  exact ⟨_, rfl⟩

/-- An opening bracket inside an empty array pushes the new empty array. -/
theorem step_open (inp : List Nat) (dma : Bool) (pos m : Nat) :
    step inp dma ⟨.ARRAY_LBRACKET, pos, 0, bracket_stack m (.ARRAY [])⟩ 0x5b
      = .next ⟨.ARRAY_LBRACKET, pos + 1, 0, bracket_stack (m + 1) (.ARRAY [])⟩ := by
  cases m <;> rfl

/-- A closing bracket pops the innermost array into the last element of the
array that holds it. -/
theorem step_close (inp : List Nat) (dma : Bool) (s : PState) (pos m : Nat) (a : List Value)
    (hs : s = .ARRAY_LBRACKET ∨ s = .ARRAY_ELEM) :
    step inp dma ⟨s, pos, 0, bracket_stack (m + 1) (.ARRAY a)⟩ 0x5d
      = .next ⟨.ARRAY_ELEM, pos + 1, 0, bracket_stack m (.ARRAY [.ARRAY a])⟩ := by
  rcases hs with rfl | rfl <;> cases m <;> rfl

/-- The closing bracket of the outermost array makes `read` return. -/
theorem step_close_root (inp : List Nat) (dma : Bool) (s : PState) (pos : Nat) (a : List Value)
    (hs : s = .ARRAY_LBRACKET ∨ s = .ARRAY_ELEM) :
    step inp dma ⟨s, pos, 0, bracket_stack 0 (.ARRAY a)⟩ 0x5d = .ret (pos + 1) (.ARRAY a) := by
  rcases hs with rfl | rfl <;> rfl

theorem nested_array_is_array (j : Nat) : ∃ a, nested_array j = .ARRAY a := by
  cases j with
  | zero => exact ⟨[], rfl⟩
  | succ j => exact ⟨[nested_array j], rfl⟩

/-- After `k + 1` opening brackets the stack of `read` has `k + 1` entries. -/
theorem read_run_opens (n : Nat) (dma : Bool) : ∀ k, k < n →
    read_run (brackets n) dma (k + 1) read_init
      = some ⟨.ARRAY_LBRACKET, k + 1, 0, bracket_stack k (.ARRAY [])⟩ := by
  intro k
  induction k with
  | zero =>
    intro h
    obtain ⟨tl, htl⟩ := brackets_drop_open n 0 h
    simp only [read_run, read_init, htl]
    rfl
  | succ k ih =>
    intro h
    obtain ⟨tl, htl⟩ := brackets_drop_open n (k + 1) h
    exact read_run_snoc _ _ _ _ _ _ _ _ (ih (by omega)) htl (step_open _ _ _ _)

/-- After the `n + 1` opening brackets and `j` closing ones the stack of `read`
has `n + 1 - j` entries. -/
theorem read_run_closes (n : Nat) (dma : Bool) : ∀ j, j ≤ n →
    read_run (brackets (n + 1)) dma (n + 1 + j) read_init
      = some ⟨if j = 0 then .ARRAY_LBRACKET else .ARRAY_ELEM, n + 1 + j, 0,
              bracket_stack (n - j) (nested_array j)⟩ := by
  intro j
  induction j with
  | zero =>
    intro _
    exact read_run_opens (n + 1) dma n (by omega)
  | succ j ih =>
    intro h
    obtain ⟨tl, htl⟩ := brackets_drop_close (n + 1) j (by omega)
    obtain ⟨a, ha⟩ := nested_array_is_array j
    obtain ⟨m, hm⟩ : ∃ m, n - j = m + 1 := ⟨n - j - 1, by omega⟩
    have hm2 : n - (j + 1) = m := by omega
    have hstep := step_close (brackets (n + 1)) dma
      (if j = 0 then .ARRAY_LBRACKET else .ARRAY_ELEM) (n + 1 + j) m a (by split_ifs <;> simp)
    have hrun := ih (by omega)
    rw [hm, ha] at hrun
    have := read_run_snoc _ _ _ _ _ _ _ _ hrun htl hstep
    rw [show n + 1 + (j + 1) = n + 1 + j + 1 by omega, this, hm2]
    simp only [nested_array, ha, if_neg (Nat.succ_ne_zero j)]

/-- The text of `n + 1` opening and `n + 1` closing brackets is read to the
array nested `n + 1` levels deep. -/
theorem read_brackets (n : Nat) (dma : Bool) :
    read (brackets (n + 1)) dma = .ok (2 * (n + 1), nested_array n) := by
  have hrun := read_run_closes n dma n (le_refl _)
  rw [Nat.sub_self] at hrun
  obtain ⟨_, _, hloop⟩ := read_run_facts _ _ _ _ _ hrun pv_sorted_init (fun _ => rfl)
  obtain ⟨tl, htl⟩ := brackets_drop_close (n + 1) n (by omega)
  obtain ⟨a, ha⟩ := nested_array_is_array n
  have hlen : (brackets (n + 1)).length = 2 * (n + 1) := by
    simp [brackets]
    omega
  unfold read
  rw [show (⟨.NONE, 0, 0, [⟨.root, .NIL⟩]⟩ : ReadState) = read_init from rfl,
    hloop _ (by rw [hlen]; omega), hlen,
    show 2 * (n + 1) + 1 - (n + 1 + n) = 1 + 1 by omega, read_loop]
  simp only [htl, ha]
  rw [step_close_root _ _ _ _ _ (by split_ifs <;> simp)]
  simp only [Except.ok.injEq, Prod.mk.injEq, and_true]
  omega

/-! ## White space and trailing commas in written text -/

theorem no_white_space_append (a b : tstring) :
    no_white_space (a ++ b) = (no_white_space a && no_white_space b) := by
  simp [no_white_space, List.all_append]

theorem no_white_space_dropLast (a : tstring) (h : no_white_space a = true) :
    no_white_space a.dropLast = true := by
  simp only [no_white_space, List.all_eq_true] at h ⊢
  intro c hc
  exact h c (List.mem_of_mem_dropLast hc)

theorem no_white_space_take (a : tstring) (n : Nat) (h : no_white_space a = true) :
    no_white_space (a.take n) = true := by
  simp only [no_white_space, List.all_eq_true] at h ⊢
  intro c hc
  exact h c (List.mem_of_mem_take hc)

theorem int_to_hex_no_white_space (n : Nat) (h : n < 16) :
    white_space (detail.int_to_hex n) = false := by
  interval_cases n <;> rfl

theorem encode_unit_no_white_space (c : Nat) (h : white_space c = false) :
    no_white_space (detail.encode_unit c []) = true := by
  unfold detail.encode_unit
  split_ifs with h1 h2 h3 h4 h5 h6 h7 h8 h9
  any_goals rfl
  · simp only [List.mem_cons, List.mem_singleton, List.not_mem_nil, or_false] at h9
    rcases h9 with rfl | rfl | rfl | rfl | rfl | rfl | rfl | rfl | rfl | rfl | rfl | rfl | rfl | rfl | rfl <;> rfl
  · simp [no_white_space, h]

theorem encode_no_white_space (s : List Nat) : ∀ (out : tstring), no_white_space s = true →
    no_white_space out = true → no_white_space (detail.encode s out) = true := by
  induction s with
  | nil => intro out _ h; exact h
  | cons c s ih =>
    intro out hs hout
    simp only [no_white_space, List.all_cons, Bool.and_eq_true, Bool.not_eq_true'] at hs
    simp only [detail.encode]
    refine ih _ hs.2 ?_
    rw [detail.encode_unit_append, no_white_space_append, hout,
      encode_unit_no_white_space c hs.1]
    rfl

theorem int_part_units (ip : List Nat) (h : is_int_part ip = true) :
    ip ≠ [] ∧ ∀ c ∈ ip, number_0_9 c = true := by
  cases ip with
  | nil => simp [is_int_part] at h
  | cons d ds =>
    refine ⟨by simp, ?_⟩
    simp only [is_int_part, Bool.or_eq_true, Bool.and_eq_true, beq_iff_eq, List.isEmpty_iff,
      List.all_eq_true] at h
    intro c hc
    rcases h with ⟨h1, h2⟩ | ⟨h1, h2⟩
    · subst h1 h2
      simp only [List.mem_singleton] at hc
      subst hc
      rfl
    · rcases List.mem_cons.mp hc with rfl | hc2
      · simp [number_0_9, h1]
      · exact h2 c hc2

theorem number_0_9_facts (c : Nat) (h : number_0_9 c = true) :
    white_space c = false ∧ c ≠ 0x2c := by
  simp only [number_0_9, number_1_9, Bool.or_eq_true, beq_iff_eq, Bool.and_eq_true,
    decide_eq_true_eq] at h
  have hc : 0x30 ≤ c ∧ c ≤ 0x39 := by omega
  refine ⟨?_, by omega⟩
  simp only [white_space, Bool.or_eq_false_iff, beq_eq_false_iff_ne, ne_eq]
  omega

/-- The text of an Integer: not empty, without white space, and not ending in a `,`. -/
theorem to_string_int64_units (i : Int) :
    to_string_int64 i [] ≠ [] ∧ no_white_space (to_string_int64 i []) = true
      ∧ (to_string_int64 i []).getLast? ≠ some 0x2c := by
  obtain ⟨sg, ip, ht, hsg, hip, _⟩ := to_string_int64_spec i
  obtain ⟨hne, hall⟩ := int_part_units ip hip
  rw [ht]
  refine ⟨by simp [hne], ?_, ?_⟩
  · rw [no_white_space_append]
    have h1 : no_white_space sg = true := by
      rw [hsg]
      split_ifs <;> rfl
    have h2 : no_white_space ip = true := by
      simp only [no_white_space, List.all_eq_true, Bool.not_eq_true']
      exact fun c hc => (number_0_9_facts c (hall c hc)).1
    rw [h1, h2]
    rfl
  · rw [List.getLast?_append_of_ne_nil _ hne]
    intro hl
    exact (number_0_9_facts _ (hall _ (List.mem_of_mem_getLast? hl))).2 rfl

theorem close_container_no_white_space (opn cls : Nat) (out : tstring)
    (hc : white_space cls = false) (h : no_white_space out = true) :
    no_white_space (close_container opn cls out) = true := by
  unfold close_container
  split_ifs
  · rw [no_white_space_append, no_white_space_dropLast out h]
    simp [no_white_space, hc]
  · rw [no_white_space_append, h]
    simp [no_white_space, hc]

mutual
/-- Writing a `packed` Value brings no white space to `out`. -/
theorem write_packed (fmt : Dbl → tstring) : ∀ (v : Value) (out r : tstring),
    v.write fmt out = .ok r → v.packed fmt = true → no_white_space out = true →
    no_white_space r = true
  | .NIL, out, r, h, _, ho => by
    simp only [Value.write, Except.ok.injEq] at h
    rw [← h, no_white_space_append, ho]
    rfl
  | .BOOLEAN b, out, r, h, _, ho => by
    simp only [Value.write, Except.ok.injEq] at h
    rw [← h, no_white_space_append, ho]
    cases b <;> rfl
  | .INTEGER i, out, r, h, _, ho => by
    simp only [Value.write, Except.ok.injEq] at h
    rw [← h, to_string_int64_append, no_white_space_append, ho, (to_string_int64_units i).2.1]
    rfl
  | .FLOAT f, out, r, h, hp, ho => by
    simp only [Value.write, Except.ok.injEq] at h
    simp only [Value.packed] at hp
    rw [← h, no_white_space_append, ho, hp]
    rfl
  | .STRING st e s, out, r, h, hp, ho => by
    simp only [Value.write] at h
    simp only [Value.packed] at hp
    have hq : no_white_space (out ++ [0x22]) = true := by
      rw [no_white_space_append, ho]
      rfl
    by_cases he : st = .owned ∧ e = true
    · simp only [if_pos he, Except.ok.injEq] at h
      rw [← h, no_white_space_append, encode_no_white_space s _ hp hq]
      rfl
    · simp only [if_neg he] at h
      cases hs : string_append (out ++ [0x22]) s (string_length st s) with
      | error err => rw [hs] at h; simp at h
      | ok out2 =>
        rw [hs] at h
        simp only [Except.ok.injEq] at h
        obtain ⟨_, h2, _⟩ := string_append_ok _ _ _ _ hs
        rw [← h, h2, no_white_space_append, no_white_space_append, hq,
          no_white_space_take s _ hp]
        rfl
  | .OBJECT o, out, r, h, hp, ho => by
    simp only [Value.write] at h
    simp only [Value.packed] at hp
    cases hm : write_members fmt o (out ++ [0x7b]) with
    | error err => rw [hm] at h; simp at h
    | ok out2 =>
      rw [hm] at h
      simp only [Except.ok.injEq] at h
      have := write_members_packed fmt o _ out2 hm hp (by rw [no_white_space_append, ho]; rfl)
      rw [← h]
      exact close_container_no_white_space _ _ _ rfl this
  | .ARRAY a, out, r, h, hp, ho => by
    simp only [Value.write] at h
    simp only [Value.packed] at hp
    cases hm : write_elems fmt a (out ++ [0x5b]) with
    | error err => rw [hm] at h; simp at h
    | ok out2 =>
      rw [hm] at h
      simp only [Except.ok.injEq] at h
      have := write_elems_packed fmt a _ out2 hm hp (by rw [no_white_space_append, ho]; rfl)
      rw [← h]
      exact close_container_no_white_space _ _ _ rfl this
/-- Writing `packed` members brings no white space to `out`. -/
theorem write_members_packed (fmt : Dbl → tstring) : ∀ (o : List (tstring × Value))
    (out r : tstring), write_members fmt o out = .ok r → members_packed fmt o = true →
    no_white_space out = true → no_white_space r = true
  | [], out, r, h, _, ho => by
    simp only [write_members, Except.ok.injEq] at h
    rw [← h]
    exact ho
  | (k, v) :: tl, out, r, h, hp, ho => by
    simp only [write_members] at h
    simp only [members_packed, Bool.and_eq_true] at hp
    cases hv : v.write fmt (detail.encode k (out ++ [0x22]) ++ [0x22, 0x3a]) with
    | error err => rw [hv] at h; simp at h
    | ok out2 =>
      rw [hv] at h
      simp only at h
      have h1 : no_white_space (detail.encode k (out ++ [0x22]) ++ [0x22, 0x3a]) = true := by
        rw [no_white_space_append, encode_no_white_space k _ hp.1.1
          (by rw [no_white_space_append, ho]; rfl)]
        rfl
      have h2 := write_packed fmt v _ out2 hv hp.1.2 h1
      exact write_members_packed fmt tl _ r h hp.2 (by rw [no_white_space_append, h2]; rfl)
/-- Writing `packed` elements brings no white space to `out`. -/
theorem write_elems_packed (fmt : Dbl → tstring) : ∀ (a : List Value)
    (out r : tstring), write_elems fmt a out = .ok r → elems_packed fmt a = true →
    no_white_space out = true → no_white_space r = true
  | [], out, r, h, _, ho => by
    simp only [write_elems, Except.ok.injEq] at h
    rw [← h]
    exact ho
  | v :: tl, out, r, h, hp, ho => by
    simp only [write_elems] at h
    simp only [elems_packed, Bool.and_eq_true] at hp
    cases hv : v.write fmt out with
    | error err => rw [hv] at h; simp at h
    | ok out2 =>
      rw [hv] at h
      simp only at h
      have h2 := write_packed fmt v _ out2 hv hp.1 ho
      exact write_elems_packed fmt tl _ r h hp.2 (by rw [no_white_space_append, h2]; rfl)
end

theorem getLast?_append_dropLast (a b : List Nat) (hb : 2 ≤ b.length) :
    (a ++ b).dropLast.getLast? = b.dropLast.getLast? := by
  have hne : b ≠ [] := by
    intro h
    subst h
    simp at hb
  have hne2 : b.dropLast ≠ [] := by
    intro h
    have := congrArg List.length h
    simp only [List.length_dropLast, List.length_nil] at this
    omega
  rw [List.dropLast_append_of_ne_nil _ hne, List.getLast?_append_of_ne_nil _ hne2]

mutual
/-- A written text is not empty and does not end in a `,`, and in the text of a
container no `,` stands before the closing bracket, when no Float text is
empty or ends in a `,`. -/
theorem write_tail (fmt : Dbl → tstring)
    (hf : ∀ f, fmt f ≠ [] ∧ (fmt f).getLast? ≠ some 0x2c) : ∀ (v : Value) (t : tstring),
    v.write fmt [] = .ok t →
    t ≠ [] ∧ t.getLast? ≠ some 0x2c
      ∧ (v.type = .OBJECT ∨ v.type = .ARRAY → t.dropLast.getLast? ≠ some 0x2c)
  | .NIL, t, h => by
    simp only [Value.write, Except.ok.injEq] at h
    subst h
    simp [Value.type]
  | .BOOLEAN b, t, h => by
    simp only [Value.write, Except.ok.injEq] at h
    subst h
    cases b <;> simp [Value.type]
  | .INTEGER i, t, h => by
    simp only [Value.write, Except.ok.injEq] at h
    subst h
    obtain ⟨h1, _, h3⟩ := to_string_int64_units i
    exact ⟨h1, h3, by simp [Value.type]⟩
  | .FLOAT f, t, h => by
    simp only [Value.write, Except.ok.injEq, List.nil_append] at h
    subst h
    exact ⟨(hf f).1, (hf f).2, by simp [Value.type]⟩
  | .STRING st e s, t, h => by
    obtain ⟨t2, ht, hall⟩ := write_local fmt _ _ _ h
    simp only [Value.write] at h
    have hq : ∃ x, t = x ++ [0x22] := by
      by_cases he : st = .owned ∧ e = true
      · simp only [if_pos he, Except.ok.injEq] at h
        exact ⟨_, h.symm⟩
      · simp only [if_neg he] at h
        cases hs : string_append ([] ++ [0x22]) s (string_length st s) with
        | error err => rw [hs] at h; simp at h
        | ok out2 =>
          rw [hs] at h
          simp only [Except.ok.injEq] at h
          exact ⟨_, h.symm⟩
    obtain ⟨x, rfl⟩ := hq
    refine ⟨by simp, ?_, by simp [Value.type]⟩
    rw [List.getLast?_concat]
    simp
  | .OBJECT o, t, h => by
    simp only [Value.write] at h
    cases hm : write_members fmt o ([] ++ [0x7b]) with
    | error err => rw [hm] at h; simp at h
    | ok out2 =>
      rw [hm] at h
      simp only [Except.ok.injEq] at h
      obtain ⟨body, hb, hlast, hall⟩ := write_members_local fmt o _ out2 hm
      have h0 := hall []
      rw [List.nil_append] at h0
      have htail := write_members_tail fmt hf o body h0
      subst hb
      rw [close_container_text 0x7b 0x7d [] body (by decide) hlast, List.nil_append] at h
      subst h
      refine ⟨by simp, by rw [List.getLast?_concat]; simp, fun _ => ?_⟩
      rw [List.dropLast_concat]
      by_cases hbe : body = []
      · subst hbe
        simp
      · obtain ⟨h2, h3⟩ := htail hbe
        have hne2 : body.dropLast ≠ [] := by
          intro hh
          have := congrArg List.length hh
          simp only [List.length_dropLast, List.length_nil] at this
          omega
        rw [List.getLast?_append_of_ne_nil _ hne2]
        exact h3
  | .ARRAY a, t, h => by
    simp only [Value.write] at h
    cases hm : write_elems fmt a ([] ++ [0x5b]) with
    | error err => rw [hm] at h; simp at h
    | ok out2 =>
      rw [hm] at h
      simp only [Except.ok.injEq] at h
      obtain ⟨body, hb, hlast, hall⟩ := write_elems_local fmt a _ out2 hm
      have h0 := hall []
      rw [List.nil_append] at h0
      have htail := write_elems_tail fmt hf a body h0
      subst hb
      rw [close_container_text 0x5b 0x5d [] body (by decide) hlast, List.nil_append] at h
      subst h
      refine ⟨by simp, by rw [List.getLast?_concat]; simp, fun _ => ?_⟩
      rw [List.dropLast_concat]
      by_cases hbe : body = []
      · subst hbe
        simp
      · obtain ⟨h2, h3⟩ := htail hbe
        have hne2 : body.dropLast ≠ [] := by
          intro hh
          have := congrArg List.length hh
          simp only [List.length_dropLast, List.length_nil] at this
          omega
        rw [List.getLast?_append_of_ne_nil _ hne2]
        exact h3
/-- What the loop over the members appends has no `,` before its last `,`. -/
theorem write_members_tail (fmt : Dbl → tstring)
    (hf : ∀ f, fmt f ≠ [] ∧ (fmt f).getLast? ≠ some 0x2c) : ∀ (o : List (tstring × Value))
    (body : tstring), write_members fmt o [] = .ok body → body ≠ [] →
    2 ≤ body.length ∧ body.dropLast.getLast? ≠ some 0x2c
  | [], body, h, hne => by
    simp only [write_members, Except.ok.injEq] at h
    exact absurd h.symm hne
  | (k, v) :: tl, body, h, _ => by
    simp only [write_members] at h
    cases hv : v.write fmt (detail.encode k ([] ++ [0x22]) ++ [0x22, 0x3a]) with
    | error err => rw [hv] at h; simp at h
    | ok out2 =>
      rw [hv] at h
      simp only at h
      obtain ⟨t, ht, hall⟩ := write_local fmt v _ out2 hv
      have h0 := hall []
      rw [List.nil_append] at h0
      obtain ⟨t1, t2, _⟩ := write_tail fmt hf v t h0
      obtain ⟨rest, hb, _, hall2⟩ := write_members_local fmt tl _ body h
      have h1 := hall2 []
      rw [List.nil_append] at h1
      have htl := write_members_tail fmt hf tl rest h1
      have hlen : 1 ≤ t.length := List.length_pos.mpr t1
      by_cases hre : rest = []
      · subst hre
        rw [hb, List.append_nil, List.dropLast_concat, ht, List.getLast?_append_of_ne_nil _ t1]
        exact ⟨by simp; omega, t2⟩
      · obtain ⟨h2, h3⟩ := htl hre
        rw [hb, getLast?_append_dropLast _ _ h2]
        exact ⟨by simp; omega, h3⟩
/-- What the loop over the elements appends has no `,` before its last `,`. -/
theorem write_elems_tail (fmt : Dbl → tstring)
    (hf : ∀ f, fmt f ≠ [] ∧ (fmt f).getLast? ≠ some 0x2c) : ∀ (a : List Value)
    (body : tstring), write_elems fmt a [] = .ok body → body ≠ [] →
    2 ≤ body.length ∧ body.dropLast.getLast? ≠ some 0x2c
  | [], body, h, hne => by
    simp only [write_elems, Except.ok.injEq] at h
    exact absurd h.symm hne
  | v :: tl, body, h, _ => by
    simp only [write_elems] at h
    cases hv : v.write fmt [] with
    | error err => rw [hv] at h; simp at h
    | ok t =>
      rw [hv] at h
      simp only at h
      obtain ⟨t1, t2, _⟩ := write_tail fmt hf v t hv
      obtain ⟨rest, hb, _, hall2⟩ := write_elems_local fmt tl _ body h
      have h1 := hall2 []
      rw [List.nil_append] at h1
      have htl := write_elems_tail fmt hf tl rest h1
      have hlen : 1 ≤ t.length := List.length_pos.mpr t1
      by_cases hre : rest = []
      · subst hre
        rw [hb, List.append_nil, List.dropLast_concat]
        exact ⟨by simp; omega, t2⟩
      · obtain ⟨h2, h3⟩ := htl hre
        rw [hb, getLast?_append_dropLast _ _ h2]
        exact ⟨by simp; omega, h3⟩
end

/-! ## UTF-8 -/

theorem shr_6 (x : Nat) : x >>> 6 = x / 64 := Nat.shiftRight_eq_div_pow x 6
theorem shr_12 (x : Nat) : x >>> 12 = x / 4096 := Nat.shiftRight_eq_div_pow x 12
theorem shr_18 (x : Nat) : x >>> 18 = x / 262144 := Nat.shiftRight_eq_div_pow x 18
theorem shr_24 (x : Nat) : x >>> 24 = x / 16777216 := Nat.shiftRight_eq_div_pow x 24
theorem shr_30 (x : Nat) : x >>> 30 = x / 1073741824 := Nat.shiftRight_eq_div_pow x 30
theorem and_7F (x : Nat) : x &&& 0x7F = x % 128 := Nat.and_pow_two_sub_one_eq_mod x 7
theorem and_3F (x : Nat) : x &&& 0x3F = x % 64 := Nat.and_pow_two_sub_one_eq_mod x 6
theorem and_1F (x : Nat) : x &&& 0x1F = x % 32 := Nat.and_pow_two_sub_one_eq_mod x 5
theorem and_0F (x : Nat) : x &&& 0x0F = x % 16 := Nat.and_pow_two_sub_one_eq_mod x 4
theorem and_07 (x : Nat) : x &&& 0x07 = x % 8 := Nat.and_pow_two_sub_one_eq_mod x 3
theorem and_03 (x : Nat) : x &&& 0x03 = x % 4 := Nat.and_pow_two_sub_one_eq_mod x 2
theorem and_01 (x : Nat) : x &&& 0x01 = x % 2 := Nat.and_pow_two_sub_one_eq_mod x 1

theorem or_marker (i m a : Nat) (h : a < 2 ^ i) : a ||| 2 ^ i * m = 2 ^ i * m + a := by
  rw [Nat.or_comm]
  exact (Nat.mul_add_lt_is_or h m).symm

theorem or_80 (x : Nat) : x % 64 ||| 0x80 = 0x80 + x % 64 :=
  or_marker 6 2 (x % 64) (Nat.mod_lt _ (by decide))
theorem or_C0 (x : Nat) : x % 32 ||| 0xC0 = 0xC0 + x % 32 :=
  or_marker 5 6 (x % 32) (Nat.mod_lt _ (by decide))
theorem or_E0 (x : Nat) : x % 16 ||| 0xE0 = 0xE0 + x % 16 :=
  or_marker 4 14 (x % 16) (Nat.mod_lt _ (by decide))
theorem or_F0 (x : Nat) : x % 8 ||| 0xF0 = 0xF0 + x % 8 :=
  or_marker 3 30 (x % 8) (Nat.mod_lt _ (by decide))
theorem or_F8 (x : Nat) : x % 4 ||| 0xF8 = 0xF8 + x % 4 :=
  or_marker 2 62 (x % 4) (Nat.mod_lt _ (by decide))
theorem or_FC (x : Nat) : x % 2 ||| 0xFC = 0xFC + x % 2 :=
  or_marker 1 126 (x % 2) (Nat.mod_lt _ (by decide))

/-- The bytes `decode_unicode_append<char>` appends, by division. -/
theorem decode_unicode_append_bytes (c : Nat) (out : tstring) (hc : c ≤ 0x7FFFFFFF) :
    detail.decode_unicode_append c out = out ++
      (if c ≤ 0x7F then [c]
       else if c ≤ 0x7FF then [0xC0 + c / 64, 0x80 + c % 64]
       else if c ≤ 0xFFFF then [0xE0 + c / 4096, 0x80 + c / 64 % 64, 0x80 + c % 64]
       else if c ≤ 0x1FFFFF then
         [0xF0 + c / 262144, 0x80 + c / 4096 % 64, 0x80 + c / 64 % 64, 0x80 + c % 64]
       else if c ≤ 0x3FFFFFF then
         [0xF8 + c / 16777216, 0x80 + c / 262144 % 64, 0x80 + c / 4096 % 64, 0x80 + c / 64 % 64,
          0x80 + c % 64]
       else
         [0xFC + c / 1073741824, 0x80 + c / 16777216 % 64, 0x80 + c / 262144 % 64,
          0x80 + c / 4096 % 64, 0x80 + c / 64 % 64, 0x80 + c % 64]) := by
  unfold detail.decode_unicode_append
  simp only [shr_6, shr_12, shr_18, shr_24, shr_30, and_7F, and_3F, and_1F, and_0F, and_07,
    and_03, and_01, or_80, or_C0, or_E0, or_F0, or_F8, or_FC]
  split_ifs <;> first
    | omega
    | (congr 2; omega)

/-! ## Escapes in the wide width -/

namespace detail

theorem int_to_hex_lower (d : Nat) (h : d < 16) : int_to_hex d = hex_digit_lower d := by
  interval_cases d <;> rfl

theorem hex_digit_lower_hex (d : Nat) (h : d < 16) :
    is_hex (hex_digit_lower d) = true ∧ hex_value (hex_digit_lower d) = d := by
  interval_cases d <;> exact ⟨rfl, rfl⟩

theorem and_FF (x : Nat) : x &&& 0xFF = x % 256 := Nat.and_pow_two_sub_one_eq_mod x 8
theorem and_F (x : Nat) : x &&& 0xF = x % 16 := Nat.and_pow_two_sub_one_eq_mod x 4
theorem and_3FF (x : Nat) : x &&& 0x3FF = x % 1024 := Nat.and_pow_two_sub_one_eq_mod x 10
theorem shr_4 (x : Nat) : x >>> 4 = x / 16 := Nat.shiftRight_eq_div_pow x 4
theorem shr_8 (x : Nat) : x >>> 8 = x / 256 := Nat.shiftRight_eq_div_pow x 8
theorem shr_10 (x : Nat) : x >>> 10 = x / 1024 := Nat.shiftRight_eq_div_pow x 10

/-- The six units `encode_unicode<2, wchar_t>` appends. -/
theorem encode_unicode2_w_text (x : Nat) (out : tstring) (hx : x < 65536) :
    encode_unicode2_w x out = out ++ 0x5c :: 0x75 :: hex4_lower x := by
  unfold encode_unicode2_w to_hex hex4_lower
  simp only [and_FF, and_F, shr_4, shr_8, List.append_assoc, List.cons_append, List.nil_append]
  rw [int_to_hex_lower _ (Nat.mod_lt _ (by decide)), int_to_hex_lower _ (Nat.mod_lt _ (by decide)),
    int_to_hex_lower _ (Nat.mod_lt _ (by decide)), int_to_hex_lower _ (Nat.mod_lt _ (by decide))]
  have e1 : x / 256 % 256 / 16 % 16 = x / 4096 % 16 := by omega
  have e2 : x / 256 % 256 % 16 = x / 256 % 16 := by omega
  have e3 : x % 256 / 16 % 16 = x / 16 % 16 := by omega
  have e4 : x % 256 % 16 = x % 16 := by omega
  rw [e1, e2, e3, e4]

theorem hex4_lower_value (x : Nat) (hx : x < 65536) (rest : List Nat) :
    hex_to_ushort (hex4_lower x ++ rest) = .ok x := by
  unfold hex4_lower
  have h1 := hex_digit_lower_hex (x / 4096 % 16) (Nat.mod_lt _ (by decide))
  have h2 := hex_digit_lower_hex (x / 256 % 16) (Nat.mod_lt _ (by decide))
  have h3 := hex_digit_lower_hex (x / 16 % 16) (Nat.mod_lt _ (by decide))
  have h4 := hex_digit_lower_hex (x % 16) (Nat.mod_lt _ (by decide))
  simp only [List.cons_append, List.nil_append]
  rw [hex_to_ushort_of_hex _ _ _ _ rest h1.1 h2.1 h3.1 h4.1]
  unfold hex4_value
  rw [h1.2, h2.2, h3.2, h4.2]
  congr 1
  omega

theorem high_surrogate (x : Nat) (hx : x < 1048576) :
    (0xD800 ||| (x >>> 10)) % 65536 = 0xD800 + (x >>> 10) ∧ x >>> 10 < 1024 := by
  rw [shr_10]
  have hlt : x / 1024 < 2 ^ 10 := by
    rw [show (2 : Nat) ^ 10 = 1024 from rfl]
    omega
  have e := Nat.mul_add_lt_is_or hlt 54
  rw [show (2 : Nat) ^ 10 * 54 = 0xD800 from rfl] at e
  rw [← e]
  rw [show (2 : Nat) ^ 10 = 1024 from rfl] at hlt
  omega

theorem low_surrogate (x : Nat) :
    (0xDC00 ||| (x &&& 0x03FF)) % 65536 = 0xDC00 + (x &&& 0x3FF) ∧ x &&& 0x3FF = x % 1024 := by
  rw [show (0x03FF : Nat) = 0x3FF from rfl, and_3FF]
  have hlt : x % 1024 < 2 ^ 10 := Nat.mod_lt _ (by decide)
  have e := Nat.mul_add_lt_is_or hlt 55
  rw [show (2 : Nat) ^ 10 * 55 = 0xDC00 from rfl] at e
  rw [← e]
  rw [show (2 : Nat) ^ 10 = 1024 from rfl] at hlt
  omega

theorem decodeLoop_w_nil (fuel pos : Nat) (out : tstring) :
    decodeLoop_w fuel pos [] out = .ok out := by
  cases fuel <;> rfl

theorem decodeLoop_w_u (fuel pos : Nat) (rest2 : List Nat) (out : tstring) :
    decodeLoop_w (fuel + 1) pos (0x5c :: 0x75 :: rest2) out
      = (match decode_unicode_w rest2 out with
         | .error e => .error e
         | .ok (n, out2) => decodeLoop_w fuel (pos + 1 + n + 1) (rest2.drop n) out2) := by
  rw [decodeLoop_w]
  simp

/-- The twelve units `encode` appends for a unit above `0xFFFF`. -/
theorem encode_w_pair (c : Nat) (out : tstring) (h1 : 0x10000 ≤ c) (h2 : c ≤ 0x10FFFF) :
    encode_w [c] out = out ++ (0x5c :: 0x75 :: hex4_lower (0xD800 + ((c - 0x10000) >>> 10))
      ++ 0x5c :: 0x75 :: hex4_lower (0xDC00 + ((c - 0x10000) &&& 0x3FF))) := by
  obtain ⟨eh, hh⟩ := high_surrogate (c - 0x10000) (by omega)
  obtain ⟨el, hl⟩ := low_surrogate (c - 0x10000)
  have hlm : (c - 0x10000) % 1024 < 1024 := Nat.mod_lt _ (by decide)
  have hH : 0xD800 + ((c - 0x10000) >>> 10) < 65536 := by omega
  have hL : 0xDC00 + ((c - 0x10000) &&& 0x3FF) < 65536 := by rw [hl]; omega
  have hc : 0x7F < c ∧ c < 2 ^ 31 := by
    rw [show (2 : Nat) ^ 31 = 2147483648 from rfl]
    omega
  have hc2 : c > 0xFFFF := by omega
  simp only [encode_w, encode_unit_w]
  rw [if_pos hc, encode_unicode4_w, if_pos hc2, eh, el,
    encode_unicode2_w_text _ _ hL, encode_unicode2_w_text _ _ hH]
  simp

/-- The six units `encode` appends for a unit from `0x80` to `0xFFFF`. -/
theorem encode_w_single (c : Nat) (out : tstring) (h1 : 0x80 ≤ c) (h2 : c ≤ 0xFFFF) :
    encode_w [c] out = out ++ 0x5c :: 0x75 :: hex4_lower c := by
  have hc : 0x7F < c ∧ c < 2 ^ 31 := by
    rw [show (2 : Nat) ^ 31 = 2147483648 from rfl]
    omega
  have hc2 : ¬ c > 0xFFFF := by omega
  have hc3 : c < 65536 := by omega
  simp only [encode_w, encode_unit_w]
  rw [if_pos hc, encode_unicode4_w, if_neg hc2, Nat.mod_eq_of_lt hc3,
    encode_unicode2_w_text _ _ hc3]

theorem decode_unicode_w_pair (H L c : Nat) (out : tstring) (hH : H < 65536) (hL : L < 65536)
    (hr : 0xD800 ≤ H ∧ H < 0xDC00)
    (hv : (H % 1024 * 1024 % 4294967296 + (L % 1024 + 65536)) % 4294967296 = c) :
    decode_unicode_w (hex4_lower H ++ 0x5c :: 0x75 :: hex4_lower L) out
      = .ok (10, out ++ [c]) := by
  have hd : (hex4_lower H ++ 0x5c :: 0x75 :: hex4_lower L).drop 6 = hex4_lower L ++ [] := by
    simp [hex4_lower]
  have hg : (hex4_lower H ++ 0x5c :: 0x75 :: hex4_lower L).length ≥ 6
      ∧ (hex4_lower H ++ 0x5c :: 0x75 :: hex4_lower L).getD 4 0 = 0x5c
      ∧ (hex4_lower H ++ 0x5c :: 0x75 :: hex4_lower L).getD 5 0 = 0x75 := by
    simp [hex4_lower]
  have p10 : (2 : Nat) ^ 10 = 1024 := by norm_num
  have p32 : (2 : Nat) ^ 32 = 4294967296 := by norm_num
  unfold decode_unicode_w
  rw [hex4_lower_value _ hH]
  simp only [ge_iff_le]
  rw [if_pos hr, if_pos hg, hd, hex4_lower_value _ hL]
  simp only [decode_unicode_append_w, Except.ok.injEq, Prod.mk.injEq, true_and,
    List.append_cancel_left_eq, List.cons.injEq, and_true]
  rw [and_3FF, and_3FF, Nat.shiftLeft_eq, p10, p32]
  exact hv

theorem decode_w_of_pair (H L c : Nat) (out : tstring)
    (hu : decode_unicode_w (hex4_lower H ++ 0x5c :: 0x75 :: hex4_lower L) out
      = .ok (10, out ++ [c])) :
    decode_w (0x5c :: 0x75 :: hex4_lower H ++ 0x5c :: 0x75 :: hex4_lower L) out
      = .ok (out ++ [c]) := by
  have hlen : (0x5c :: 0x75 :: hex4_lower H ++ 0x5c :: 0x75 :: hex4_lower L).length = 11 + 1 := by
    simp [hex4_lower]
  have hd : (hex4_lower H ++ 0x5c :: 0x75 :: hex4_lower L).drop 10 = [] := by
    simp [hex4_lower]
  unfold decode_w
  rw [hlen, List.cons_append, List.cons_append, decodeLoop_w_u, hu]
  simp only
  rw [hd, decodeLoop_w_nil]

/-- The escape of a pair of surrogates is decoded to the one unit they stand for. -/
theorem decode_w_pair (c : Nat) (out : tstring) (h1 : 0x10000 ≤ c) (h2 : c ≤ 0x10FFFF) :
    decode_w (0x5c :: 0x75 :: hex4_lower (0xD800 + ((c - 0x10000) >>> 10))
      ++ 0x5c :: 0x75 :: hex4_lower (0xDC00 + ((c - 0x10000) &&& 0x3FF))) out
      = .ok (out ++ [c]) := by
  obtain ⟨_, hh⟩ := high_surrogate (c - 0x10000) (by omega)
  obtain ⟨_, hl⟩ := low_surrogate (c - 0x10000)
  have hlm : (c - 0x10000) % 1024 < 1024 := Nat.mod_lt _ (by decide)
  have e10 := shr_10 (c - 0x10000)
  exact decode_w_of_pair _ _ c out (decode_unicode_w_pair _ _ c out (by omega)
    (by rw [hl]; omega) (by omega) (by rw [hl, e10]; omega))

/-- The escape of a unit that is not a high surrogate is decoded to the unit. -/
theorem decode_w_single (c : Nat) (out : tstring) (h2 : c ≤ 0xFFFF)
    (hs : ¬(0xD800 ≤ c ∧ c < 0xDC00)) :
    decode_w (0x5c :: 0x75 :: hex4_lower c) out = .ok (out ++ [c]) := by
  have hu : decode_unicode_w (hex4_lower c ++ []) out = .ok (4, out ++ [c]) := by
    unfold decode_unicode_w
    rw [hex4_lower_value _ (by omega)]
    simp only [ge_iff_le, if_neg hs, decode_unicode_append_w]
  rw [List.append_nil] at hu
  have hlen : (0x5c :: 0x75 :: hex4_lower c).length = 5 + 1 := by
    simp [hex4_lower]
  have hd : (hex4_lower c).drop 4 = [] := by
    simp [hex4_lower]
  unfold decode_w
  rw [hlen, decodeLoop_w_u, hu]
  simp only
  rw [hd, decodeLoop_w_nil]

end detail

/-! ## Lemmas for `get` -/

theorem map_find_none (o : List (tstring × Value)) (key : tstring) :
    map_find o key = none ↔ ∀ p ∈ o, p.1 ≠ key := by
  induction o with
  | nil => simp [map_find]
  | cons p tl ih =>
    obtain ⟨k, v⟩ := p
    by_cases h : k = key
    · simp [map_find, h]
    · simp [map_find, h, ih]

theorem map_find_mem (o : List (tstring × Value)) (key : tstring) (m : Value)
    (h : map_find o key = some m) : (key, m) ∈ o := by
  induction o with
  | nil => simp [map_find] at h
  | cons p tl ih =>
    obtain ⟨k, v⟩ := p
    by_cases hk : k = key
    · simp only [map_find, if_pos hk, Option.some.injEq] at h
      simp [hk, h]
    · simp only [map_find, if_neg hk] at h
      simp [ih h]

/-! ## Equality and written text -/

theorem memcmp_eq_true (a b : List Nat) (n : Nat) (h : memcmp_eq a b n = .ok true) :
    n ≤ a.length ∧ n ≤ b.length ∧ a.take n = b.take n := by
  unfold memcmp_eq at h
  split_ifs at h with h1
  · simp only [Except.ok.injEq, decide_eq_true_eq] at h
    exact ⟨h1.1, h1.2, h⟩

/-- Two Strings that are `==` and agree on `string_encoded` are written alike. -/
theorem string_eq_write (fmt : Dbl → tstring) (st1 : Storage) (e1 : Bool) (s1 : tstring)
    (st2 : Storage) (e2 : Bool) (s2 : tstring) (out : tstring)
    (h : string_eq st1 s1 st2 s2 = .ok true)
    (hm : string_encoded st1 e1 = string_encoded st2 e2) :
    ∃ r, (Value.STRING st1 e1 s1).write fmt out = .ok r
      ∧ (Value.STRING st2 e2 s2).write fmt out = .ok r := by
  unfold string_eq at h
  by_cases hl : string_length st1 s1 = string_length st2 s2
  swap
  · rw [if_neg hl] at h
    simp at h
  rw [if_pos hl] at h
  obtain ⟨m1, m2, m3⟩ := memcmp_eq_true _ _ _ h
  by_cases he : st1 = .owned ∧ e1 = true
  · have he2 : st2 = .owned ∧ e2 = true := by
      have : string_encoded st2 e2 = true := by
        rw [← hm]
        simp [string_encoded, he]
      simpa [string_encoded] using this
    obtain ⟨rfl, rfl⟩ := he
    obtain ⟨rfl, rfl⟩ := he2
    simp only [string_length] at hl m3
    rw [List.take_length, hl, List.take_length] at m3
    subst m3
    exact ⟨_, rfl, rfl⟩
  · have he2 : ¬(st2 = .owned ∧ e2 = true) := by
      intro hh
      have : string_encoded st1 e1 = true := by
        rw [hm]
        simp [string_encoded, hh]
      exact he (by simpa [string_encoded] using this)
    refine ⟨out ++ [0x22] ++ s1.take (string_length st1 s1) ++ [0x22], ?_, ?_⟩
    · simp only [Value.write, if_neg he, string_append, if_pos m1]
    · simp only [Value.write, if_neg he2, string_append, ← hl, if_pos m2, m3]

mutual
/-- Two Float-free Values that are `==` and agree on `same_mode` are written
alike, and without an exception. -/
theorem eq_write (fmt : Dbl → tstring) (close : Dbl → Dbl → Bool) :
    ∀ (v w : Value) (out : tstring), v.float_free = true → v.eq close w = .ok true →
      v.same_mode w = true → ∃ r, v.write fmt out = .ok r ∧ w.write fmt out = .ok r
  | .NIL, w, out, _, h, _ => by
    cases w <;> simp [Value.eq] at h
    exact ⟨_, rfl, rfl⟩
  | .BOOLEAN x, w, out, _, h, _ => by
    cases w <;> simp [Value.eq] at h
    subst h
    exact ⟨_, rfl, rfl⟩
  | .INTEGER x, w, out, _, h, _ => by
    cases w <;> simp [Value.eq] at h
    subst h
    exact ⟨_, rfl, rfl⟩
  | .FLOAT x, w, out, hf, _, _ => by
    simp [Value.float_free] at hf
  | .STRING st1 e1 s1, w, out, _, h, hm => by
    cases w <;> simp [Value.eq] at h
    simp only [Value.same_mode, beq_iff_eq] at hm
    exact string_eq_write fmt _ _ _ _ _ _ out h hm
  | .OBJECT x, w, out, hf, h, hm => by
    cases w <;> simp [Value.eq] at h
    rename_i y
    simp only [Value.float_free] at hf
    simp only [Value.same_mode] at hm
    by_cases hl : x.length = y.length
    swap
    · rw [if_neg hl] at h
      simp at h
    rw [if_pos hl] at h
    obtain ⟨r, h1, h2⟩ := members_eq_write fmt close x y (out ++ [0x7b]) hf hl h hm
    exact ⟨close_container 0x7b 0x7d r, by simp only [Value.write, h1],
      by simp only [Value.write, h2]⟩
  | .ARRAY x, w, out, hf, h, hm => by
    cases w <;> simp [Value.eq] at h
    rename_i y
    simp only [Value.float_free] at hf
    simp only [Value.same_mode] at hm
    by_cases hl : x.length = y.length
    swap
    · rw [if_neg hl] at h
      simp at h
    rw [if_pos hl] at h
    obtain ⟨r, h1, h2⟩ := elems_eq_write fmt close x y (out ++ [0x5b]) hf hl h hm
    exact ⟨close_container 0x5b 0x5d r, by simp only [Value.write, h1],
      by simp only [Value.write, h2]⟩
/-- The loop over the members of two Objects that are `==`. -/
theorem members_eq_write (fmt : Dbl → tstring) (close : Dbl → Dbl → Bool) :
    ∀ (x y : List (tstring × Value)) (out : tstring), members_float_free x = true →
      x.length = y.length → members_eq close x y = .ok true → members_same_mode x y = true →
      ∃ r, write_members fmt x out = .ok r ∧ write_members fmt y out = .ok r
  | [], y, out, _, hl, _, _ => by
    have : y = [] := List.length_eq_zero.mp hl.symm
    subst this
    exact ⟨_, rfl, rfl⟩
  | (k1, v1) :: t1, y, out, hf, hl, h, hm => by
    cases y with
    | nil => simp at hl
    | cons p t2 =>
      obtain ⟨k2, v2⟩ := p
      simp only [members_float_free, Bool.and_eq_true] at hf
      simp only [members_same_mode, Bool.and_eq_true] at hm
      simp only [List.length_cons, Nat.add_right_cancel_iff] at hl
      simp only [members_eq] at h
      by_cases hk : k1 = k2
      · subst hk
        simp only [ne_eq, not_true_eq_false, if_false] at h
        cases hv : v1.eq close v2 with
        | error err => rw [hv] at h; simp at h
        | ok b =>
          rw [hv] at h
          cases b with
          | false => simp at h
          | true =>
            simp only at h
            obtain ⟨r, h1, h2⟩ := eq_write fmt close v1 v2
              (detail.encode k1 (out ++ [0x22]) ++ [0x22, 0x3a]) hf.1 hv hm.1
            obtain ⟨r2, h3, h4⟩ := members_eq_write fmt close t1 t2 (r ++ [0x2c]) hf.2 hl h hm.2
            exact ⟨r2, by simp only [write_members, h1, h3], by simp only [write_members, h2, h4]⟩
      · simp [hk] at h
/-- The loop over the elements of two Arrays that are `==`. -/
theorem elems_eq_write (fmt : Dbl → tstring) (close : Dbl → Dbl → Bool) :
    ∀ (x y : List Value) (out : tstring), elems_float_free x = true →
      x.length = y.length → elems_eq close x y = .ok true → elems_same_mode x y = true →
      ∃ r, write_elems fmt x out = .ok r ∧ write_elems fmt y out = .ok r
  | [], y, out, _, hl, _, _ => by
    have : y = [] := List.length_eq_zero.mp hl.symm
    subst this
    exact ⟨_, rfl, rfl⟩
  | v1 :: t1, y, out, hf, hl, h, hm => by
    cases y with
    | nil => simp at hl
    | cons v2 t2 =>
      simp only [elems_float_free, Bool.and_eq_true] at hf
      simp only [elems_same_mode, Bool.and_eq_true] at hm
      simp only [List.length_cons, Nat.add_right_cancel_iff] at hl
      simp only [elems_eq] at h
      cases hv : v1.eq close v2 with
      | error err => rw [hv] at h; simp at h
      | ok b =>
        rw [hv] at h
        cases b with
        | false => simp at h
        | true =>
          simp only at h
          obtain ⟨r, h1, h2⟩ := eq_write fmt close v1 v2 out hf.1 hv hm.1
          obtain ⟨r2, h3, h4⟩ := elems_eq_write fmt close t1 t2 (r ++ [0x2c]) hf.2 hl h hm.2
          exact ⟨r2, by simp only [write_elems, h1, h3], by simp only [write_elems, h2, h4]⟩
end

/-! ## Strings with raw control characters -/

theorem closing_quote_plain (body tail : List Nat) (h : ∀ c ∈ body, c ≠ 0x22 ∧ c ≠ 0x5c) :
    closing_quote (body ++ 0x22 :: tail) = some body.length := by
  induction body with
  | nil => exact closing_quote_quote tail
  | cons c body ih =>
    have hc := h c (by simp)
    rw [List.cons_append, closing_quote_other c _ hc.1 hc.2,
      ih (fun x hx => h x (by simp [hx]))]
    rfl

/-- A body without quote and backslash between two quotes is read as the String
of that body, whatever the units of the body are. -/
theorem read_string_plain {held : Bool} (body tail : List Nat) (dma : Bool)
    (h : ∀ c ∈ body, c ≠ 0x22 ∧ c ≠ 0x5c) :
    ∃ st e, read_string held (0x22 :: body ++ 0x22 :: tail) dma
      = .ok (body.length + 2, .STRING st e body) := by
  have hq := closing_quote_plain body tail h
  have hd : detail.decode ([] ++ (body ++ 0x22 :: tail).take body.length) [] = .ok body := by
    rw [List.nil_append, List.take_left]
    exact detail.decode_plain body (fun c hc => (h c hc).2)
  obtain ⟨st, e, he⟩ := ((read_string_loop_normal (0x22 :: body ++ 0x22 :: tail) dma 1 _
    (body ++ 0x22 :: tail) (le_refl _) [] false 1 rfl rfl
    (fun _ c hc => absurd hc (List.not_mem_nil c))).2 body.length hq).1 body hd
  refine ⟨st, e, ?_⟩
  rw [List.cons_append] at he ⊢
  unfold read_string
  simp only [read_string_loop, if_true, Nat.zero_add]
  rw [he]
  congr 2
  omega

theorem read_run_append (inp : List Nat) (dma : Bool) (a : Nat) :
    ∀ (b : Nat) (st0 st1 st2 : ReadState), read_run inp dma a st0 = some st1 →
      read_run inp dma b st1 = some st2 → read_run inp dma (a + b) st0 = some st2 := by
  induction a with
  | zero =>
    intro b st0 st1 st2 h1 h2
    simp only [read_run, Option.some.injEq] at h1
    subst h1
    rw [Nat.zero_add]
    exact h2
  | succ a ih =>
    intro b st0 st1 st2 h1 h2
    rw [show a + 1 + b = (a + b) + 1 by omega]
    simp only [read_run] at h1 ⊢
    cases hd : inp.drop st0.pos with
    | nil => rw [hd] at h1; simp at h1
    | cons c tl =>
      rw [hd] at h1
      simp only at h1 ⊢
      cases hs : step inp dma st0 c with
      | next sta =>
        rw [hs] at h1
        simp only at h1 ⊢
        exact ih b sta st1 st2 h1 h2
      | ret q w => rw [hs] at h1; simp at h1
      | throw e => rw [hs] at h1; simp at h1

/-- Inside a key, `read` passes over every unit that is neither a quote nor a
backslash. -/
theorem read_run_key_units (inp : List Nat) (dma : Bool) (u : Nat) (pv : List Frame)
    (rest : List Nat) : ∀ (key : List Nat) (pos : Nat), (∀ c ∈ key, c ≠ 0x22 ∧ c ≠ 0x5c) →
      inp.drop pos = key ++ rest →
      read_run inp dma key.length ⟨.OBJECT_PAIR_KEY_QUOTE, pos, u, pv⟩
        = some ⟨.OBJECT_PAIR_KEY_QUOTE, pos + key.length, u, pv⟩ := by
  intro key
  induction key with
  | nil => intro pos _ _; rfl
  | cons c key ih =>
    intro pos h hd
    have hc := h c (by simp)
    rw [List.cons_append] at hd
    have hd2 := (drop_cons_facts inp pos c _ hd).1
    simp only [List.length_cons, read_run, hd, step, if_neg hc.2, if_neg hc.1]
    rw [ih (pos + 1) (fun x hx => h x (by simp [hx])) hd2]
    congr 2
    omega

/-- The text `{"key":"body"}` is read as the Object of the one member `key`
that holds the String `body`, when neither holds a quote or a backslash. -/
theorem read_object_plain (key body : List Nat) (dma : Bool)
    (hk : ∀ c ∈ key, c ≠ 0x22 ∧ c ≠ 0x5c) (hb : ∀ c ∈ body, c ≠ 0x22 ∧ c ≠ 0x5c) :
    ∃ st e, read (0x7b :: 0x22 :: key ++ 0x22 :: 0x3a :: 0x22 :: body ++ [0x22, 0x7d]) dma
      = .ok (key.length + body.length + 7, .OBJECT [(key, .STRING st e body)]) := by
  obtain ⟨st, e, hs⟩ := @read_string_plain false body [0x7d] dma hb
  refine ⟨st, e, ?_⟩
  generalize hinp : (0x7b :: 0x22 :: key ++ 0x22 :: 0x3a :: 0x22 :: body ++ [0x22, 0x7d]) = inp
  have hi : inp = [0x7b, 0x22] ++ (key ++ 0x22 :: 0x3a :: (0x22 :: body ++ 0x22 :: [0x7d])) := by
    rw [← hinp]
    simp
  have hlen : inp.length = key.length + body.length + 7 := by
    rw [hi]
    simp
    omega
  have d0 : inp.drop 0 = 0x7b :: 0x22 :: (key ++ 0x22 :: 0x3a :: (0x22 :: body ++ 0x22 :: [0x7d])) := by
    rw [hi]
    rfl
  have d1 := (drop_cons_facts inp 0 _ _ d0).1
  have d2 : inp.drop 2 = key ++ 0x22 :: 0x3a :: (0x22 :: body ++ 0x22 :: [0x7d]) :=
    (drop_cons_facts inp 1 _ _ d1).1
  have dk : inp.drop (2 + key.length) = 0x22 :: 0x3a :: (0x22 :: body ++ 0x22 :: [0x7d]) := by
    rw [← List.drop_drop, d2, List.drop_left]
  have dc := (drop_cons_facts inp _ _ _ dk).1
  have dv := (drop_cons_facts inp _ _ _ dc).1
  have de : inp.drop (2 + key.length + 1 + 1 + (body.length + 2)) = [0x7d] := by
    rw [← List.drop_drop, dv]
    have : (0x22 :: body ++ 0x22 :: [0x7d]) = (0x22 :: body ++ [0x22]) ++ [0x7d] := by simp
    rw [this, show body.length + 2 = (0x22 :: body ++ [0x22]).length by simp, List.drop_left]
  -- the two opening units
  have r2a : read_run inp dma 1 read_init
      = some ⟨.OBJECT_LBRACE, 1, 0, [⟨.root, .OBJECT []⟩]⟩ := by
    simp only [read_run, read_init, d0, step, if_true, Nat.zero_add]
  have r2b : read_run inp dma 1 ⟨.OBJECT_LBRACE, 1, 0, [⟨.root, .OBJECT []⟩]⟩
      = some ⟨.OBJECT_PAIR_KEY_QUOTE, 2, 2, [⟨.root, .OBJECT []⟩]⟩ := by
    rw [Nat.zero_add] at d1
    simp only [read_run, d1, step, if_true]
  have r2 := read_run_append _ _ _ _ _ _ _ r2a r2b
  -- the units of the key
  have rk := read_run_key_units inp dma 2 [⟨.root, .OBJECT []⟩] _ key 2 hk d2
  -- the closing quote of the key
  have r1 : read_run inp dma 1 ⟨.OBJECT_PAIR_KEY_QUOTE, 2 + key.length, 2, [⟨.root, .OBJECT []⟩]⟩
      = some ⟨.OBJECT_PAIR_KEY, 2 + key.length + 1, 0,
          [⟨.member key, .NIL⟩, ⟨.root, .OBJECT [(key, .NIL)]⟩]⟩ := by
    have hkey : (inp.drop 2).take (2 + key.length - 2) = key := by
      rw [d2, show 2 + key.length - 2 = key.length by omega, List.take_left]
    simp only [read_run, dk, step]
    simp only [show ¬((0x22 : Nat) = 0x5c) by decide, if_false, if_true, hkey, push_key, map_find,
      map_set, Option.getD]
  -- the colon
  have r3 : read_run inp dma 1 ⟨.OBJECT_PAIR_KEY, 2 + key.length + 1, 0,
          [⟨.member key, .NIL⟩, ⟨.root, .OBJECT [(key, .NIL)]⟩]⟩
      = some ⟨.OBJECT_PAIR_COLON, 2 + key.length + 1 + 1, 0,
          [⟨.member key, .NIL⟩, ⟨.root, .OBJECT [(key, .NIL)]⟩]⟩ := by
    simp only [read_run, dc, step, if_true]
  -- the value
  have r4 : read_run inp dma 1 ⟨.OBJECT_PAIR_COLON, 2 + key.length + 1 + 1, 0,
          [⟨.member key, .NIL⟩, ⟨.root, .OBJECT [(key, .NIL)]⟩]⟩
      = some ⟨.OBJECT_PAIR_VALUE, 2 + key.length + 1 + 1 + (body.length + 2), 0,
          [⟨.root, .OBJECT [(key, .STRING st e body)]⟩]⟩ := by
    have hh : slot_holds_string
        [⟨.member key, .NIL⟩, ⟨.root, .OBJECT [(key, .NIL)]⟩] = false := rfl
    simp only [read_run, dv, step, step_value, if_true, read_scalar, hh, hs, push_scalar_slot,
      plug, map_set, Value.type]
    simp only [reduceCtorEq, if_false, if_true]
    congr 2
  have hrun := read_run_append _ _ _ _ _ _ _
    (read_run_append _ _ _ _ _ _ _ (read_run_append _ _ _ _ _ _ _
      (read_run_append _ _ _ _ _ _ _ r2 rk) r1) r3) r4
  obtain ⟨_, _, hloop⟩ := read_run_facts _ _ _ _ _ hrun pv_sorted_init (fun _ => rfl)
  unfold read
  rw [show (⟨.NONE, 0, 0, [⟨.root, .NIL⟩]⟩ : ReadState) = read_init from rfl,
    hloop _ (by rw [hlen]; omega), hlen,
    show key.length + body.length + 7 + 1 - (2 + key.length + 1 + 1 + 1) = (body.length + 2) + 1
      by omega, read_loop]
  simp only [de, step, parse_end, Value.type, if_true]
  simp only [ne_eq, not_true_eq_false, if_false, Except.ok.injEq, Prod.mk.injEq, and_true]
  omega

/-! ## The code points of `decode_unicode` -/

namespace detail

theorem hex_to_ushort_lt (inp : List Nat) (v : Nat) (h : hex_to_ushort inp = .ok v) :
    v < 65536 := by
  unfold hex_to_ushort at h
  split at h
  · split at h
    · simp only [Except.ok.injEq] at h
      rw [← h]
      exact Nat.mod_lt _ (by decide)
    · simp at h
  · simp at h

/-- What `decode_unicode` hands to `decode_unicode_append`: a value up to
`0xFFFF` for one escape, from `0x10000` to `0x10FFFF` for a pair. -/
theorem decode_unicode_value (inp : List Nat) (out : tstring) (n : Nat) (out2 : tstring)
    (h : decode_unicode inp out = .ok (n, out2)) :
    ∃ c, out2 = decode_unicode_append c out
      ∧ ((n = 4 ∧ c ≤ 0xFFFF) ∨ (n = 10 ∧ 0x10000 ≤ c ∧ c ≤ 0x10FFFF)) := by
  unfold decode_unicode at h
  split at h
  · simp at h
  · rename_i ui hu
    have hlt := hex_to_ushort_lt _ _ hu
    split_ifs at h with h1 h2
    · split at h
      · simp at h
      · rename_i lo hlo
        simp only [Except.ok.injEq, Prod.mk.injEq] at h
        refine ⟨_, h.2.symm, Or.inr ⟨h.1.symm, ?_⟩⟩
        have p32 : (2 : Nat) ^ 32 = 4294967296 := by norm_num
        have p10 : (2 : Nat) ^ 10 = 1024 := by norm_num
        rw [and_3FF, and_3FF, Nat.shiftLeft_eq, p10, p32]
        omega
    · simp only [Except.ok.injEq, Prod.mk.injEq] at h
      exact ⟨ui, h.2.symm, Or.inl ⟨h.1.symm, by omega⟩⟩

end detail

/-! ## The claims -/

/-- C1, evaluated at a failing input: the Array holding the one-unit String `"`,
built with the default `AUTO_DETECT` escape mode, is written as `["""]`, and
`read` of that text fails with a parse error at offset 3 instead of giving back
the Array. -/
theorem read_write_quote_string_fails :
    (Value.ARRAY [assign [0x22] AUTO_DETECT false]).write Dbl.text []
        = .ok [0x5b, 0x22, 0x22, 0x22, 0x5d]
    ∧ read [0x5b, 0x22, 0x22, 0x22, 0x5d] true = .error (.ParseError 3) :=
  ⟨rfl, rfl⟩

/-- C2: whenever `read` succeeds on `inp` it returns `r` with `2 ≤ r ≤ |inp|`, the
unit at `r - 1` is the `}` or `]` at which the stack became empty, and the units
from `r` on play no part: with any other text `t` in their place `read` returns
the same `r` and the same Value. -/
theorem read_stable_under_tail (inp : List Nat) (dma : Bool) (r : Nat) (v : Value)
    (h : read inp dma = .ok (r, v)) :
    2 ≤ r ∧ r ≤ inp.length ∧ (inp.getD (r - 1) 0 = 0x7d ∨ inp.getD (r - 1) 0 = 0x5d) ∧
      ∀ t : List Nat, read (inp.take r ++ t) dma = .ok (r, v) := by
  unfold read at h
  obtain ⟨_, h2, h3, h4⟩ := read_loop_post _ _ _ _ _ _ pv_sorted_init h
  simp only [] at h2
  refine ⟨?_, h3, h4, ?_⟩
  · by_contra hlt
    have hr : r = 1 := by omega
    subst hr
    simp only [Nat.sub_self] at h4
    simp only [read_loop, List.drop_zero] at h
    cases inp with
    | nil => simp at h3
    | cons c tl =>
      simp only [List.getD_cons_zero] at h4
      simp only [step] at h
      rcases h4 with rfl | rfl <;> simp [white_space] at h
  · intro t
    unfold read
    have hsplit : inp = inp.take r ++ inp.drop r := (List.take_append_drop r inp).symm
    rw [hsplit] at h
    have hlen : (inp.take r).length = r := by simp only [List.length_take]; omega
    exact read_loop_local (inp.take r) (inp.drop r) t dma _ _ r v _ pv_sorted_init h
      (by omega) (by simp only [List.length_append]; omega)

/-- Witness of C2 on the text `[1] t`: `read` returns 3, and does so again when
`,[` stands in place of the tail. -/
theorem read_stable_under_tail_witness :
    read [0x5b, 0x31, 0x5d, 0x20, 0x74] true = .ok (3, .ARRAY [.INTEGER 1])
    ∧ 2 ≤ 3 ∧ 3 ≤ [0x5b, 0x31, 0x5d, 0x20, 0x74].length
    ∧ ([0x5b, 0x31, 0x5d, 0x20, 0x74].getD (3 - 1) 0 = 0x7d
        ∨ [0x5b, 0x31, 0x5d, 0x20, 0x74].getD (3 - 1) 0 = 0x5d)
    ∧ read ([0x5b, 0x31, 0x5d, 0x20, 0x74].take 3 ++ [0x2c, 0x5b]) true
        = .ok (3, .ARRAY [.INTEGER 1]) :=
  have h := read_stable_under_tail [0x5b, 0x31, 0x5d, 0x20, 0x74] true 3 (.ARRAY [.INTEGER 1]) rfl
  ⟨rfl, h.1, h.2.1, h.2.2.1, h.2.2.2 [0x2c, 0x5b]⟩

/-- C3: in the Value that `read` builds from any text it accepts, every object
holds its members in strictly ascending byte-wise key order, which is the order
in which `write` emits them (`write_members` follows the member list), whatever
their order in the text; reading `{"b":1,"a":2}` and writing the result gives
exactly `{"a":2,"b":1}`. -/
theorem read_keys_ascending :
    (∀ (inp : List Nat) (dma : Bool) (r : Nat) (v : Value),
        read inp dma = .ok (r, v) → v.sorted = true)
    ∧ ∀ (fmt : Dbl → tstring) (dma : Bool), ∃ r v,
        read [0x7b, 0x22, 0x62, 0x22, 0x3a, 0x31, 0x2c, 0x22, 0x61, 0x22, 0x3a, 0x32, 0x7d] dma
          = .ok (r, v)
        ∧ v.write fmt []
          = .ok [0x7b, 0x22, 0x61, 0x22, 0x3a, 0x32, 0x2c, 0x22, 0x62, 0x22, 0x3a, 0x31, 0x7d] := by
  constructor
  · intro inp dma r v h
    unfold read at h
    exact (read_loop_post _ _ _ _ _ _ pv_sorted_init h).1
  · intro fmt dma
    exact ⟨13, .OBJECT [([0x61], .INTEGER 2), ([0x62], .INTEGER 1)], rfl, rfl⟩

set_option maxRecDepth 100000 in
/-- Witness of C3 on the text `{"b":{"d":1,"c":2},"a":[]}`. -/
theorem read_keys_ascending_witness :
    read [0x7b, 0x22, 0x62, 0x22, 0x3a, 0x7b, 0x22, 0x64, 0x22, 0x3a, 0x31, 0x2c, 0x22, 0x63,
          0x22, 0x3a, 0x32, 0x7d, 0x2c, 0x22, 0x61, 0x22, 0x3a, 0x5b, 0x5d, 0x7d] true
      = .ok (26, .OBJECT [([0x61], .ARRAY []),
                          ([0x62], .OBJECT [([0x63], .INTEGER 2), ([0x64], .INTEGER 1)])])
    ∧ (Value.OBJECT [([0x61], .ARRAY []),
                     ([0x62], .OBJECT [([0x63], .INTEGER 2), ([0x64], .INTEGER 1)])]).sorted
        = true :=
  ⟨rfl, read_keys_ascending.1
    [0x7b, 0x22, 0x62, 0x22, 0x3a, 0x7b, 0x22, 0x64, 0x22, 0x3a, 0x31, 0x2c, 0x22, 0x63,
     0x22, 0x3a, 0x32, 0x7d, 0x2c, 0x22, 0x61, 0x22, 0x3a, 0x5b, 0x5d, 0x7d] true 26
    (.OBJECT [([0x61], .ARRAY []),
              ([0x62], .OBJECT [([0x63], .INTEGER 2), ([0x64], .INTEGER 1)])]) rfl⟩

/-- C4, evaluated at a failing input: `read` accepts `{"a":[],"a":1]}`, whose
second `]` closes nothing that a `[` opened, and returns the object
`{"a":[1]}`. -/
theorem read_accepts_unmatched_bracket :
    read [0x7b, 0x22, 0x61, 0x22, 0x3a, 0x5b, 0x5d, 0x2c, 0x22, 0x61, 0x22, 0x3a, 0x31, 0x5d,
          0x7d] true
      = .ok (15, .OBJECT [([0x61], .ARRAY [.INTEGER 1])]) :=
  rfl

/-- C5, evaluated at a failing input: `read_number` rejects `1e5,`, a number of
the strict grammar (exponent without fraction) followed by a terminator, with a
parse error at the `e`. -/
theorem read_number_rejects_bare_exponent :
    read_number [0x31, 0x65, 0x35, 0x2c] true = .error (.ParseError 1) :=
  rfl

/-- C6, evaluated at failing inputs: `read_nil` accepts `nnull` and
`read_boolean` accepts `ttrue` and `tfalse`, none of which starts with the
literal. -/
theorem read_literal_accepts_mismatch :
    read_nil [0x6e, 0x6e, 0x75, 0x6c, 0x6c] true = .ok (5, .NIL)
    ∧ read_boolean [0x74, 0x74, 0x72, 0x75, 0x65] true = .ok (5, .BOOLEAN true)
    ∧ read_boolean [0x74, 0x66, 0x61, 0x6c, 0x73, 0x65] true = .ok (6, .BOOLEAN false) :=
  ⟨rfl, rfl, rfl⟩

/-- C7, evaluated at a failing input: for the key made of one backslash the
text is `{"\\":null}`, which `read` rejects with a parse error at its end, while
`read_string`, run on a Value that holds no String, decodes the same `"\\"` to
that key. -/
theorem read_rejects_key_ending_in_backslash :
    [0x7b, 0x22] ++ detail.encode [0x5c] [] ++ [0x22, 0x3a, 0x6e, 0x75, 0x6c, 0x6c, 0x7d]
        = [0x7b, 0x22, 0x5c, 0x5c, 0x22, 0x3a, 0x6e, 0x75, 0x6c, 0x6c, 0x7d]
    ∧ read [0x7b, 0x22, 0x5c, 0x5c, 0x22, 0x3a, 0x6e, 0x75, 0x6c, 0x6c, 0x7d] true
        = .error (.ParseError 11)
    ∧ read_string false [0x22, 0x5c, 0x5c, 0x22] true
        = .ok (4, .STRING .owned false [0x5c]) :=
  ⟨rfl, rfl, rfl⟩

/-- C8, refuted as stated: the String `a/b` assigned with `DONT_ESCAPE` is
written as `"a/b"`, with its `/` bare. -/
theorem write_dont_escape_keeps_slash :
    (assign [0x61, 0x2f, 0x62] DONT_ESCAPE false).write Dbl.text []
      = .ok [0x22, 0x61, 0x2f, 0x62, 0x22]
    ∧ bare_slash_free 0 [0x22, 0x61, 0x2f, 0x62, 0x22] = false :=
  ⟨rfl, rfl⟩

/-- C8 as amended: a String that holds owned storage and is flagged as needing
escaping, as after `assign` with `NEED_ESCAPE`, is written as a quote, `encode` of
its content and a quote, so that no `/` of the text is without a backslash
before it; every other String whose `length()` is the length of its content, as
after `assign` with `DONT_ESCAPE` of at most 7 units, is written verbatim
between the quotes. -/
theorem write_string_slash (fmt : Dbl → tstring) (st : Storage) (e : Bool) (s : tstring)
    (dma : Bool) :
    (st = .owned ∧ e = true →
      (Value.STRING st e s).write fmt [] = .ok ([0x22] ++ detail.encode s [] ++ [0x22])
      ∧ bare_slash_free 0 ([0x22] ++ detail.encode s [] ++ [0x22]) = true)
    ∧ (¬(st = .owned ∧ e = true) → string_length st s = s.length →
        (Value.STRING st e s).write fmt [] = .ok ([0x22] ++ s ++ [0x22]))
    ∧ assign s NEED_ESCAPE dma = .STRING .owned true s
    ∧ (∃ st2, assign s DONT_ESCAPE dma = .STRING st2 false s
        ∧ (s.length ≤ 7 → string_length st2 s = s.length)) := by
  refine ⟨?_, ?_, rfl, ?_⟩
  · intro h
    refine ⟨?_, ?_⟩
    · simp only [Value.write, if_pos h, List.nil_append]
      rw [detail.encode_append]
    · simp only [List.singleton_append, bare_slash_free]
      simp only [show ((34 : Nat) != 47 || (0 : Nat) == 92) = true from rfl, Bool.true_and]
      exact detail.bare_slash_free_encode s _ _ (fun q => by simp [bare_slash_free])
  · intro h hl
    simp only [Value.write, if_neg h, List.nil_append, string_append, hl, le_refl, if_true,
      List.take_length]
  · have h0 : (if DONT_ESCAPE = AUTO_DETECT then auto_detect s else DONT_ESCAPE) = 0 := rfl
    unfold assign
    simp only [h0, ne_eq, not_true_eq_false, if_false]
    split_ifs with h1 h2
    · refine ⟨_, rfl, fun h7 => ?_⟩
      simp only [string_length]
      exact Nat.mod_eq_of_lt (by omega)
    · refine ⟨_, rfl, fun h7 => ?_⟩
      simp only [string_length, sso_len, to_uint64]
      have e1 : (s.length + 8) % 16 = s.length + 8 := Nat.mod_eq_of_lt (by omega)
      rw [e1]
      have e2 : (((s.length + 8 : Nat) : Int) - 8) = (s.length : Int) := by omega
      rw [e2]
      have e3 : (s.length : Int) % 2 ^ 64 = (s.length : Int) := by
        apply Int.emod_eq_of_lt <;> omega
      rw [e3]
      rfl
    · exact ⟨_, rfl, fun h7 => by omega⟩

/-- Witness of C8 as amended on the owned, flagged String `a/b`. -/
theorem write_string_slash_witness :
    (Value.STRING .owned true [0x61, 0x2f, 0x62]).write Dbl.text []
      = .ok ([0x22] ++ detail.encode [0x61, 0x2f, 0x62] [] ++ [0x22])
    ∧ bare_slash_free 0 ([0x22] ++ detail.encode [0x61, 0x2f, 0x62] [] ++ [0x22]) = true :=
  (write_string_slash Dbl.text .owned true [0x61, 0x2f, 0x62] false).1 ⟨rfl, rfl⟩

/-- C9, evaluated at a failing input: `encode` copies the unit 0x14 unchanged,
and so does it with every unit from 0x14 to 0x1F. -/
theorem encode_keeps_control_unit :
    detail.encode [0x14] [] = [0x14]
    ∧ detail.encode [0x14, 0x15, 0x16, 0x17, 0x18, 0x19, 0x1a, 0x1b, 0x1c, 0x1d, 0x1e, 0x1f] []
      = [0x14, 0x15, 0x16, 0x17, 0x18, 0x19, 0x1a, 0x1b, 0x1c, 0x1d, 0x1e, 0x1f] :=
  ⟨rfl, rfl⟩

/-- C10: for every narrow string `s`, `decode` applied to `encode(s)` succeeds
and returns exactly `s`. -/
theorem decode_encode (s : List Nat) : detail.decode (detail.encode s []) [] = .ok s := by
  unfold detail.decode
  rw [detail.decodeLoop_encode s _ 0 [] (le_refl _)]
  simp

/-- C12: after any text that `decode` accepts, `decode` fails with a parse error
when a backslash is the last unit or is followed by a unit other than `"`, `\`,
`/`, `b`, `f`, `n`, `r`, `t`, `u`, and with a decode error when `\u` is followed
by fewer than four units or by four units one of which is not a hexadecimal
digit; on four hexadecimal digits whose value is outside the high-surrogate range
it appends the code point of that value (upper and lower case digits alike) and
goes on with the unit after the fourth digit. -/
theorem decode_escape_errors (pre : List Nat) (s : tstring)
    (h : detail.decode pre [] = .ok s) :
    detail.decode (pre ++ [0x5c]) [] = .error (.ParseError pre.length)
    ∧ (∀ (d : Nat) (rest : List Nat),
        d ∉ [0x22, 0x5c, 0x2f, 0x62, 0x66, 0x6e, 0x72, 0x74, 0x75] →
        detail.decode (pre ++ 0x5c :: d :: rest) [] = .error (.ParseError (pre.length + 1)))
    ∧ (∀ rest : List Nat, rest.length < 4 →
        detail.decode (pre ++ 0x5c :: 0x75 :: rest) [] = .error .DecodeError)
    ∧ (∀ (a b c d : Nat) (rest : List Nat),
        (is_hex a && is_hex b && is_hex c && is_hex d) = false →
        detail.decode (pre ++ 0x5c :: 0x75 :: a :: b :: c :: d :: rest) [] = .error .DecodeError)
    ∧ (∀ (a b c d : Nat) (rest : List Nat) (r : tstring),
        (is_hex a && is_hex b && is_hex c && is_hex d) = true →
        ¬(0xD800 ≤ hex4_value a b c d ∧ hex4_value a b c d < 0xDC00) →
        detail.decode rest (detail.decode_unicode_append (hex4_value a b c d) s) = .ok r →
        detail.decode (pre ++ 0x5c :: 0x75 :: a :: b :: c :: d :: rest) [] = .ok r) := by
  refine ⟨?_, ?_, ?_, ?_, ?_⟩
  · obtain ⟨f, hf, e⟩ := detail.decode_after pre s h [0x5c]
    obtain ⟨g, rfl⟩ : ∃ g, f = g + 1 := ⟨f - 1, by simp at hf; omega⟩
    rw [e]
    simp [detail.decodeLoop]
  · intro d rest hd
    obtain ⟨f, hf, e⟩ := detail.decode_after pre s h (0x5c :: d :: rest)
    obtain ⟨g, rfl⟩ : ∃ g, f = g + 1 := ⟨f - 1, by simp at hf; omega⟩
    rw [e]
    simp only [List.mem_cons, List.mem_singleton, List.not_mem_nil, or_false, not_or] at hd
    simp [detail.decodeLoop, hd]
  · intro rest hr
    obtain ⟨f, hf, e⟩ := detail.decode_after pre s h (0x5c :: 0x75 :: rest)
    obtain ⟨g, rfl⟩ : ∃ g, f = g + 1 := ⟨f - 1, by simp at hf; omega⟩
    have : detail.decode_unicode rest s = .error .DecodeError := by
      unfold detail.decode_unicode
      rw [detail.hex_to_ushort_short rest hr]
    rw [e, detail.decodeLoop_u_error _ _ _ _ _ this]
  · intro a b c d rest hx
    obtain ⟨f, hf, e⟩ := detail.decode_after pre s h (0x5c :: 0x75 :: a :: b :: c :: d :: rest)
    obtain ⟨g, rfl⟩ : ∃ g, f = g + 1 := ⟨f - 1, by simp at hf; omega⟩
    have : detail.decode_unicode (a :: b :: c :: d :: rest) s = .error .DecodeError := by
      unfold detail.decode_unicode
      rw [detail.hex_to_ushort_of_not_hex a b c d rest hx]
    rw [e, detail.decodeLoop_u_error _ _ _ _ _ this]
  · intro a b c d rest r hx hs hr
    obtain ⟨f, hf, e⟩ := detail.decode_after pre s h (0x5c :: 0x75 :: a :: b :: c :: d :: rest)
    obtain ⟨g, rfl⟩ : ∃ g, f = g + 1 := ⟨f - 1, by simp at hf; omega⟩
    rw [e, detail.decodeLoop_u_ok _ _ _ _ _ _ (detail.decode_unicode_of_hex a b c d rest s hx hs)]
    simp only [List.drop_succ_cons, List.drop_zero]
    exact detail.decodeLoop_of_decode rest _ r hr _ _ (by simp only [List.length_cons] at hf; omega)

/-- Witness of C12 after the text `a`: a lone backslash, `\x`, `\u12`, `\u12G4`, and
`\u00e9` followed by `b`. -/
theorem decode_escape_errors_witness :
    detail.decode ([0x61] ++ [0x5c]) [] = .error (.ParseError 1)
    ∧ detail.decode ([0x61] ++ 0x5c :: 0x78 :: []) [] = .error (.ParseError 2)
    ∧ detail.decode ([0x61] ++ 0x5c :: 0x75 :: [0x31, 0x32]) [] = .error .DecodeError
    ∧ detail.decode ([0x61] ++ 0x5c :: 0x75 :: 0x31 :: 0x32 :: 0x47 :: 0x34 :: []) []
        = .error .DecodeError
    ∧ detail.decode ([0x61] ++ 0x5c :: 0x75 :: 0x30 :: 0x30 :: 0x45 :: 0x39 :: [0x62]) []
        = .ok [0x61, 0xc3, 0xa9, 0x62] :=
  have h := decode_escape_errors [0x61] [0x61] rfl
  ⟨h.1, h.2.1 0x78 [] (by decide), h.2.2.1 [0x31, 0x32] (by decide),
    h.2.2.2.1 0x31 0x32 0x47 0x34 [] rfl,
    h.2.2.2.2 0x30 0x30 0x45 0x39 [0x62] [0x61, 0xc3, 0xa9, 0x62] rfl (by decide) rfl⟩

/-- C11, refuted as stated: `decode` accepts `\uD800A`, a high surrogate
followed by an escape that is no low surrogate, and `\uDC00`, a low surrogate on
its own. -/
theorem decode_accepts_unpaired_surrogate :
    detail.decode [0x5c, 0x75, 0x44, 0x38, 0x30, 0x30, 0x5c, 0x75, 0x30, 0x30, 0x34, 0x31] []
      = .ok [0xf0, 0x90, 0x81, 0x81]
    ∧ detail.decode [0x5c, 0x75, 0x44, 0x43, 0x30, 0x30] [] = .ok [0xed, 0xb0, 0x80] :=
  ⟨rfl, rfl⟩

/-- C11 as amended: after any text that `decode` accepts, a `\uXXXX` escape whose
value is a high surrogate (0xD800 to 0xDBFF) makes `decode` fail with a decode
error unless `\u` and four hexadecimal digits follow it at once; the value of
that second escape is not checked, its low ten bits are combined with those of
the first into one code point; an escape whose value is a low surrogate (0xDC00
to 0xDFFF) and that follows no high surrogate is decoded as the code point of
that value. -/
theorem decode_surrogates (pre : List Nat) (s : tstring) (a b c d : Nat)
    (h : detail.decode pre [] = .ok s)
    (hx : (is_hex a && is_hex b && is_hex c && is_hex d) = true) :
    (0xD800 ≤ hex4_value a b c d ∧ hex4_value a b c d < 0xDC00 →
      (∀ rest : List Nat, is_u_escape rest = false →
        detail.decode (pre ++ 0x5c :: 0x75 :: a :: b :: c :: d :: rest) [] = .error .DecodeError)
      ∧ (∀ (a2 b2 c2 d2 : Nat) (rest : List Nat) (r : tstring),
        (is_hex a2 && is_hex b2 && is_hex c2 && is_hex d2) = true →
        detail.decode rest (detail.decode_unicode_append
          (((hex4_value a b c d &&& 0x3FF) <<< 10) + (hex4_value a2 b2 c2 d2 &&& 0x3FF)
            + 0x10000) s) = .ok r →
        detail.decode (pre ++ 0x5c :: 0x75 :: a :: b :: c :: d
            :: 0x5c :: 0x75 :: a2 :: b2 :: c2 :: d2 :: rest) [] = .ok r))
    ∧ (0xDC00 ≤ hex4_value a b c d ∧ hex4_value a b c d < 0xE000 →
      ∀ (rest : List Nat) (r : tstring),
        detail.decode rest (detail.decode_unicode_append (hex4_value a b c d) s) = .ok r →
        detail.decode (pre ++ 0x5c :: 0x75 :: a :: b :: c :: d :: rest) [] = .ok r) := by
  refine ⟨fun hs => ⟨?_, ?_⟩, fun hs => ?_⟩
  · intro rest hr
    obtain ⟨f, hf, e⟩ := detail.decode_after pre s h (0x5c :: 0x75 :: a :: b :: c :: d :: rest)
    obtain ⟨g, rfl⟩ : ∃ g, f = g + 1 := ⟨f - 1, by simp at hf; omega⟩
    rw [e, detail.decodeLoop_u_error _ _ _ _ _ (detail.decode_unicode_high_alone a b c d rest s hx hs hr)]
  · intro a2 b2 c2 d2 rest r hx2 hr
    obtain ⟨f, hf, e⟩ := detail.decode_after pre s h
      (0x5c :: 0x75 :: a :: b :: c :: d :: 0x5c :: 0x75 :: a2 :: b2 :: c2 :: d2 :: rest)
    obtain ⟨g, rfl⟩ : ∃ g, f = g + 1 := ⟨f - 1, by simp at hf; omega⟩
    rw [e, detail.decodeLoop_u_ok _ _ _ _ _ _
      (detail.decode_unicode_pair a b c d a2 b2 c2 d2 rest s hx hs hx2)]
    simp only [List.drop_succ_cons, List.drop_zero]
    exact detail.decodeLoop_of_decode rest _ r hr _ _ (by simp only [List.length_cons] at hf; omega)
  · intro rest r hr
    obtain ⟨f, hf, e⟩ := detail.decode_after pre s h (0x5c :: 0x75 :: a :: b :: c :: d :: rest)
    obtain ⟨g, rfl⟩ : ∃ g, f = g + 1 := ⟨f - 1, by simp at hf; omega⟩
    rw [e, detail.decodeLoop_u_ok _ _ _ _ _ _
      (detail.decode_unicode_of_hex a b c d rest s hx (by omega))]
    simp only [List.drop_succ_cons, List.drop_zero]
    exact detail.decodeLoop_of_decode rest _ r hr _ _ (by simp only [List.length_cons] at hf; omega)

/-- Witness of C11 as amended after the text `a`: `\uD83D` alone, `\uD83D\uDE00`,
and `\uDC00`. -/
theorem decode_surrogates_witness :
    detail.decode ([0x61] ++ 0x5c :: 0x75 :: 0x44 :: 0x38 :: 0x33 :: 0x44 :: []) []
      = .error .DecodeError
    ∧ detail.decode ([0x61] ++ 0x5c :: 0x75 :: 0x44 :: 0x38 :: 0x33 :: 0x44
        :: 0x5c :: 0x75 :: 0x44 :: 0x45 :: 0x30 :: 0x30 :: []) []
      = .ok [0x61, 0xf0, 0x9f, 0x98, 0x80]
    ∧ detail.decode ([0x61] ++ 0x5c :: 0x75 :: 0x44 :: 0x43 :: 0x30 :: 0x30 :: []) []
      = .ok [0x61, 0xed, 0xb0, 0x80] :=
  have h1 := decode_surrogates [0x61] [0x61] 0x44 0x38 0x33 0x44 rfl rfl
  have h2 := decode_surrogates [0x61] [0x61] 0x44 0x43 0x30 0x30 rfl rfl
  ⟨(h1.1 (by decide)).1 [] rfl,
   (h1.1 (by decide)).2 0x44 0x45 0x30 0x30 [] [0x61, 0xf0, 0x9f, 0x98, 0x80] rfl rfl,
   h2.2 (by decide) [] [0x61, 0xed, 0xb0, 0x80] rfl⟩

/-- C13, evaluated at a failing input: for the Array holding the one-unit
String `"` built with the default `AUTO_DETECT` escape mode, `read` of the
written text `["""]` fails with a parse error at offset 3, so that there is no
Value to write again, where the claim has the text `["""]` once more. -/
theorem rewrite_quote_string_fails :
    (Value.ARRAY [assign [0x22] AUTO_DETECT false]).write Dbl.text []
      = .ok [0x5b, 0x22, 0x22, 0x22, 0x5d]
    ∧ (read [0x5b, 0x22, 0x22, 0x22, 0x5d] true).map (fun rv => rv.2.write Dbl.text [])
      = .error (.ParseError 3) :=
  ⟨rfl, rfl⟩

/-- C14: `read` fails with a parse error when the first unit of the input that
is not space, tab, CR or LF is neither `{` nor `[`, and when there is no such
unit (the empty input, an input of white space only); when `read` succeeds,
`*this` is an Object if that unit is `{` and an Array if it is `[`. -/
theorem read_top_level (inp : List Nat) (dma : Bool) :
    ((inp.dropWhile white_space).head? ≠ some 0x7b →
      (inp.dropWhile white_space).head? ≠ some 0x5b →
      ∃ p, read inp dma = .error (.ParseError p))
    ∧ (∀ r v, read inp dma = .ok (r, v) →
        ((inp.dropWhile white_space).head? = some 0x7b → v.type = .OBJECT)
        ∧ ((inp.dropWhile white_space).head? = some 0x5b → v.type = .ARRAY)) := by
  constructor
  · intro h1 h2
    exact read_loop_none_error inp dma (inp.length + 1) ⟨.NONE, 0, 0, [⟨.root, .NIL⟩]⟩ rfl
      (by simp only; omega) h1 h2
  · intro r v h
    exact read_loop_none_type inp dma (inp.length + 1) ⟨.NONE, 0, 0, [⟨.root, .NIL⟩]⟩ r v rfl h

/-- C14 at the texts `42`, the empty text, a space alone, and a space before
`{}`. -/
theorem read_top_level_witness :
    (∃ p, read [0x34, 0x32] true = .error (.ParseError p))
    ∧ (∃ p, read [] true = .error (.ParseError p))
    ∧ (∃ p, read [0x20] true = .error (.ParseError p))
    ∧ (Value.OBJECT []).type = .OBJECT :=
  ⟨(read_top_level [0x34, 0x32] true).1 (by decide) (by decide),
   (read_top_level [] true).1 (by decide) (by decide),
   (read_top_level [0x20] true).1 (by decide) (by decide),
   ((read_top_level [0x20, 0x7b, 0x7d] true).2 3 (.OBJECT []) rfl).1 rfl⟩

/-- C15: when `read` has come, after `n` iterations, to the state after an
element of an array (a member of an object) and the input goes on with `,`,
white space and the `]` (the `}`) that would close that container, `read` fails
with a parse error at this bracket.  `[1,2,]` and `{"a":1,}` fail so, while
`[1,2]` and `{"a":1}` are read. -/
theorem read_rejects_trailing_comma (inp : List Nat) (dma : Bool) :
    (∀ (n : Nat) (st : ReadState) (ws rest : List Nat) (cl : Nat),
      read_run inp dma n ⟨.NONE, 0, 0, [⟨.root, .NIL⟩]⟩ = some st →
      (st.state = .ARRAY_ELEM ∧ cl = 0x5d ∨ st.state = .OBJECT_PAIR_VALUE ∧ cl = 0x7d) →
      (∀ c ∈ ws, white_space c = true) →
      inp.drop st.pos = 0x2c :: ws ++ cl :: rest →
      read inp dma = .error (.ParseError (st.pos + 1 + ws.length)))
    ∧ read [0x5b, 0x31, 0x2c, 0x32, 0x2c, 0x5d] dma = .error (.ParseError 5)
    ∧ read [0x7b, 0x22, 0x61, 0x22, 0x3a, 0x31, 0x2c, 0x7d] dma = .error (.ParseError 7)
    ∧ read [0x5b, 0x31, 0x2c, 0x32, 0x5d] dma = .ok (5, .ARRAY [.INTEGER 1, .INTEGER 2])
    ∧ read [0x7b, 0x22, 0x61, 0x22, 0x3a, 0x31, 0x7d] dma
        = .ok (7, .OBJECT [([0x61], .INTEGER 1)]) := by
  refine ⟨?_, rfl, rfl, rfl, rfl⟩
  intro n st ws rest cl hrun hst hws hd
  obtain ⟨hpos, hu, hloop⟩ := read_run_facts inp dma n _ st hrun pv_sorted_init (fun _ => rfl)
  have hu0 : st.u = 0 := by
    rcases hst with ⟨hs, _⟩ | ⟨hs, _⟩ <;> exact hu (by rw [hs]; rfl)
  rw [List.cons_append] at hd
  obtain ⟨hdrop, _, hlt⟩ := drop_cons_facts inp st.pos _ _ hd
  have hlen : st.pos + 1 + ws.length < inp.length := by
    have := congrArg List.length hdrop
    simp only [List.length_drop, List.length_append, List.length_cons] at this
    omega
  simp only at hpos
  unfold read
  rw [hloop (inp.length + 1) (by omega)]
  obtain ⟨g, hg⟩ : ∃ g, inp.length + 1 - n = g + 1 := ⟨inp.length - n, by omega⟩
  rw [hg]
  have hstep : ∃ s2, (s2 = .ARRAY_COMMA ∧ cl = 0x5d ∨ s2 = .OBJECT_COMMA ∧ cl = 0x7d)
      ∧ step inp dma st 0x2c = .next { st with state := s2, pos := st.pos + 1 } := by
    rcases hst with ⟨hs, hc⟩ | ⟨hs, hc⟩
    · exact ⟨.ARRAY_COMMA, Or.inl ⟨rfl, hc⟩, by simp [step, hs]⟩
    · exact ⟨.OBJECT_COMMA, Or.inr ⟨rfl, hc⟩, by simp [step, hs]⟩
  obtain ⟨s2, hs2, hstep⟩ := hstep
  simp only [read_loop, hd, hstep]
  exact read_loop_comma_close inp dma cl rest ws hws _ g hs2 hu0 hdrop (by omega)

/-- C15 at `[1,2,]`: after four iterations `read` is behind the element `2`, and
the input goes on with `,]`. -/
theorem read_rejects_trailing_comma_witness :
    read [0x5b, 0x31, 0x2c, 0x32, 0x2c, 0x5d] true = .error (.ParseError (4 + 1 + 0)) :=
  (read_rejects_trailing_comma [0x5b, 0x31, 0x2c, 0x32, 0x2c, 0x5d] true).1 4
    ⟨.ARRAY_ELEM, 4, 0, [⟨.root, .ARRAY [.INTEGER 1, .INTEGER 2]⟩]⟩ [] [] 0x5d rfl
    (Or.inl ⟨rfl, rfl⟩) (by simp) rfl

/-- C16, evaluated at a failing input: `read` takes `{"\n":1}`, whose key holds
an escape sequence, and gives the Object with the key LF; with one space put
after the `:` the word `u` still holds the start of the key when the space is
met in the value position, and the non-zero word is called as a member
pointer, which is undefined. -/
theorem read_space_after_escaped_key :
    read [0x7b, 0x22, 0x5c, 0x6e, 0x22, 0x3a, 0x31, 0x7d] true
        = .ok (8, .OBJECT [([0x0a], .INTEGER 1)])
    ∧ read [0x7b, 0x22, 0x5c, 0x6e, 0x22, 0x3a, 0x20, 0x31, 0x7d] true = .error .Undefined
    ∧ read [0x7b, 0x22, 0x6e, 0x22, 0x3a, 0x20, 0x31, 0x7d] true
        = .ok (8, .OBJECT [([0x6e], .INTEGER 1)]) :=
  ⟨rfl, rfl, rfl⟩

/-- C17: `read_number` reads `0` and `-0`, at the end of the input or before a
terminator, as the Integer 0.  It fails with a parse error on an optional `-`
followed by `0` and another digit, on a `-` that no digit follows, on an
integer part followed by a `.` that no digit follows, on an exponent marker
after the fraction digits that no digit follows (a sign may stand between), and
on an exponent marker right after the integer part. -/
theorem read_number_zero_and_errors (dma : Bool) :
    (∀ tail : List Nat, (∀ c ∈ tail.head?, number_ending c = true) →
      read_number (0x30 :: tail) dma = .ok (1, .INTEGER 0)
      ∧ read_number (0x2d :: 0x30 :: tail) dma = .ok (2, .INTEGER 0))
    ∧ (∀ sg d rest, is_sign sg = true → number_0_9 d = true →
        ∃ p, read_number (sg ++ 0x30 :: d :: rest) dma = .error (.ParseError p))
    ∧ (∀ rest : List Nat, (∀ d ∈ rest.head?, number_0_9 d = false) →
        ∃ p, read_number (0x2d :: rest) dma = .error (.ParseError p))
    ∧ (∀ sg ip rest, is_sign sg = true → is_int_part ip = true →
        (∀ d ∈ rest.head?, number_0_9 d = false) →
        ∃ p, read_number (sg ++ ip ++ 0x2e :: rest) dma = .error (.ParseError p))
    ∧ (∀ sg ip fr e rest, is_sign sg = true → is_int_part ip = true →
        fr ≠ [] → (∀ d ∈ fr, number_0_9 d = true) → (e = 0x65 ∨ e = 0x45) →
        exponent_digits_missing rest = true →
        ∃ p, read_number (sg ++ ip ++ 0x2e :: fr ++ e :: rest) dma = .error (.ParseError p))
    ∧ (∀ sg ip e rest, is_sign sg = true → is_int_part ip = true → (e = 0x65 ∨ e = 0x45) →
        ∃ p, read_number (sg ++ ip ++ e :: rest) dma = .error (.ParseError p)) := by
  refine ⟨?_, ?_, ?_, ?_, ?_, ?_⟩
  · intro tail ht
    have h1 := read_number_integer [] [0x30] tail dma rfl rfl ht
    have h2 := read_number_integer [0x2d] [0x30] tail dma rfl rfl ht
    exact ⟨h1, h2⟩
  · intro sg d rest hsg hd
    have h := read_number_loop_sign_int (sg ++ 0x30 :: d :: rest) sg [0x30] hsg rfl 0 0 (d :: rest)
    have e1 : sg ++ [0x30] ++ d :: rest = sg ++ 0x30 :: d :: rest := by simp
    rw [e1] at h
    unfold read_number
    rw [h]
    have hr := number_0_9_range d hd
    have hne : number_ending d = false := by
      simp only [number_ending, white_space, Bool.or_eq_false_iff, beq_eq_false_iff_ne, ne_eq]
      omega
    refine ⟨0 + sg.length + [0x30].length, ?_⟩
    have hs : int_part_state [0x30] = .ZERO := rfl
    rw [hs]
    simp only [read_number_loop]
    split_ifs <;> first | rfl | omega | simp_all
  · intro rest hr
    unfold read_number
    cases rest with
    | nil => exact ⟨1, rfl⟩
    | cons d rest =>
      have hd := hr d (by simp)
      have h0 : d ≠ 0x30 := by
        intro e; subst e; simp [number_0_9] at hd
      have h1 : number_1_9 d = false := by
        simp only [number_0_9, Bool.or_eq_false_iff] at hd
        exact hd.2
      exact ⟨1, by simp [read_number_loop, h0, h1]⟩
  · intro sg ip rest hsg hip hr
    have h := read_number_loop_sign_int (sg ++ ip ++ 0x2e :: rest) sg ip hsg hip 0 0 (0x2e :: rest)
    unfold read_number
    rw [h, read_number_loop_point, read_number_loop_point_error _ _ _ _ hr]
    exact ⟨_, rfl⟩
  · intro sg ip fr e rest hsg hip hfr hfd he hmiss
    have e1 : sg ++ ip ++ 0x2e :: fr ++ e :: rest = sg ++ ip ++ (0x2e :: fr ++ e :: rest) := by
      simp
    have h := read_number_loop_sign_int (sg ++ ip ++ 0x2e :: fr ++ e :: rest) sg ip hsg hip 0 0
      (0x2e :: fr ++ e :: rest)
    unfold read_number
    rw [← e1] at h
    rw [h]
    obtain ⟨f, fs, rfl⟩ := List.exists_cons_of_ne_nil hfr
    have hf := hfd f (by simp)
    have hfs : ∀ x ∈ fs, number_0_9 x = true := fun x hx => hfd x (by simp [hx])
    rw [List.cons_append, read_number_loop_point, List.cons_append]
    have hfrac : ∀ inp p, read_number_loop inp .POINT 0 p (f :: (fs ++ e :: rest))
        = read_number_loop inp .DIGIT_FRAC 0 (p + 1) (fs ++ e :: rest) := by
      intro inp p
      simp only [read_number_loop, hf, if_true]
    rw [hfrac, read_number_loop_frac _ fs hfs]
    have hne : number_0_9 e = false := by
      rcases he with rfl | rfl <;> decide
    have hexp : ∀ inp p, read_number_loop inp .DIGIT_FRAC 0 p (e :: rest)
        = read_number_loop inp .EXP 0 (p + 1) rest := by
      intro inp p
      simp only [read_number_loop, hne, Bool.false_eq_true, if_false, if_pos he]
    rw [hexp]
    exact read_number_loop_exp_error _ _ _ _ hmiss
  · intro sg ip e rest hsg hip he
    have h := read_number_loop_sign_int (sg ++ ip ++ e :: rest) sg ip hsg hip 0 0 (e :: rest)
    unfold read_number
    rw [h, read_number_loop_int_exp _ _ _ _ _ _ he]
    exact ⟨_, rfl⟩

/-- C17 at the texts `007`, `1.`, `1.5e+` and `1e`. -/
theorem read_number_zero_and_errors_witness :
    (∃ p, read_number [0x30, 0x30, 0x37] true = .error (.ParseError p))
    ∧ (∃ p, read_number [0x31, 0x2e] true = .error (.ParseError p))
    ∧ (∃ p, read_number [0x31, 0x2e, 0x35, 0x65, 0x2b] true = .error (.ParseError p))
    ∧ (∃ p, read_number [0x31, 0x65] true = .error (.ParseError p)) :=
  ⟨(read_number_zero_and_errors true).2.1 [] 0x30 [0x37] rfl rfl,
   (read_number_zero_and_errors true).2.2.2.1 [] [0x31] [] rfl rfl (by simp),
   (read_number_zero_and_errors true).2.2.2.2.1 [] [0x31] [0x35] 0x65 [0x2b] rfl rfl (by simp)
     (by decide) (Or.inl rfl) rfl,
   (read_number_zero_and_errors true).2.2.2.2.2 [] [0x31] 0x65 [] rfl rfl (Or.inl rfl)⟩

/-- C18: when `read_number` succeeds with the offset `n`, then `n` is the
length of the input or the index of a terminator (white space, `,`, `]`, `}`),
and the Value is an Integer and none of the `n` units before that offset is
`.`, `e` or `E`, or it is a Float and one of those units is a `.`; no other tag
is produced. -/
theorem read_number_tag (inp : List Nat) (dma : Bool) (n : Nat) (v : Value)
    (h : read_number inp dma = .ok (n, v)) :
    n ≤ inp.length ∧ (n < inp.length → number_ending (inp.getD n 0) = true)
    ∧ (((∃ i, v = .INTEGER i) ∧ ∀ x ∈ inp.take n, no_mark x = true)
        ∨ ((∃ f, v = .FLOAT f) ∧ 0x2e ∈ inp.take n)) :=
  read_number_loop_tag inp inp .NONE 0 [] n v rfl (fun _ x hx => by simp at hx)
    (fun e => by simp [seen_fraction] at e) h

/-- C18 at the texts `1.5e10,` and `15]`: the first is read as a Float, the
second as an Integer, both up to the terminator. -/
theorem read_number_tag_witness :
    (read_number [0x31, 0x2e, 0x35, 0x65, 0x31, 0x30, 0x2c] true
        = .ok (6, .FLOAT ⟨[0x31, 0x2e, 0x35, 0x65, 0x31, 0x30]⟩)
      ∧ read_number [0x31, 0x35, 0x5d] true = .ok (2, .INTEGER 15))
    ∧ (2 ≤ [0x31, 0x35, 0x5d].length
      ∧ (2 < [0x31, 0x35, 0x5d].length → number_ending ([0x31, 0x35, 0x5d].getD 2 0) = true)
      ∧ (((∃ i, Value.INTEGER 15 = .INTEGER i)
            ∧ ∀ x ∈ [0x31, 0x35, 0x5d].take 2, no_mark x = true)
          ∨ ((∃ f, Value.INTEGER 15 = .FLOAT f) ∧ 0x2e ∈ [0x31, 0x35, 0x5d].take 2))) :=
  ⟨⟨rfl, rfl⟩, read_number_tag [0x31, 0x35, 0x5d] true 2 (.INTEGER 15) rfl⟩

/-- C19: for Integers of the 64-bit signed range, `to_string_int64` gives the
canonical decimal text (a `-` exactly for a negative number, then `0` alone or
digits that do not start with `0`, whose value is the absolute value), of 1 to
20 units, so that the format check does not fire; `read_number` on that text, at
the end of the input or before a terminator, gives the Integer back; and an
Array of such Integers that is written is read back as the same Array, up to the
end of the text. -/
theorem integers_round_trip (fmt : Dbl → tstring) (dma : Bool) (is : List Int)
    (hr : ∀ i ∈ is, -(2 : Int) ^ 63 ≤ i ∧ i < (2 : Int) ^ 63) :
    (∀ i ∈ is,
      (∃ sg ip, to_string_int64 i [] = sg ++ ip ∧ sg = (if i < 0 then [0x2d] else [])
        ∧ is_int_part ip = true ∧ digits_value ip = i.natAbs)
      ∧ 1 ≤ (to_string_int64 i []).length ∧ (to_string_int64 i []).length ≤ 20
      ∧ format_error ((to_string_int64 i []).length : Nat) = false
      ∧ (∀ tail : List Nat, (∀ c ∈ tail.head?, number_ending c = true) →
          read_number (to_string_int64 i [] ++ tail) dma
            = .ok ((to_string_int64 i []).length, .INTEGER i)))
    ∧ (∃ text, (Value.ARRAY (is.map .INTEGER)).write fmt [] = .ok text
        ∧ read text dma = .ok (text.length, .ARRAY (is.map .INTEGER))) := by
  refine ⟨?_, read_write_ints fmt dma is hr⟩
  intro i hi
  obtain ⟨hlo, hhi⟩ := hr i hi
  have hlen := to_string_int64_length i hlo hhi
  refine ⟨to_string_int64_spec i, hlen.1, hlen.2, ?_,
    fun tail ht => read_number_to_string i hlo hhi tail ht dma⟩
  simp only [format_error, bufSize, Bool.or_eq_false_iff, beq_eq_false_iff_ne, ne_eq,
    decide_eq_false_iff_not]
  omega

/-- C19 at the Array of the least and the greatest 64-bit Integer and 0. -/
theorem integers_round_trip_witness :
    ∃ text, (Value.ARRAY ([-9223372036854775808, 9223372036854775807, 0].map .INTEGER)).write
        (fun f => f.text) [] = .ok text
      ∧ read text true
        = .ok (text.length,
            .ARRAY ([-9223372036854775808, 9223372036854775807, 0].map .INTEGER)) :=
  (integers_round_trip (fun f => f.text) true [-9223372036854775808, 9223372036854775807, 0]
    (by decide)).2

/-- C20: on an input that is white space, a quote and a body, `read_string`
fails with a parse error when the body has no quote that is not escaped by a
backslash (there is none when the body has no quote at all, and none in the
body of a, backslash, quote); otherwise, `q` being the offset
of the first such quote in the body, it returns the offset just after that quote
with a String whose content is `decode` of the `q` units before it, and fails
as `decode` does when that fails; `decode` gives those units verbatim when none
of them is a backslash.  When the first unit that is not white space is not a
quote, or there is none, `read_string` fails with a parse error. -/
theorem read_string_closing_quote (ws body : List Nat) (dma held : Bool)
    (hws : ∀ c ∈ ws, white_space c = true) :
    (closing_quote body = none →
      ∃ p, read_string held (ws ++ 0x22 :: body) dma = .error (.ParseError p))
    ∧ (∀ b : List Nat, (∀ c ∈ b, c ≠ 0x22) → closing_quote b = none)
    ∧ closing_quote [0x61, 0x5c, 0x22] = none
    ∧ (∀ q, closing_quote body = some q →
        body.getD q 0 = 0x22
        ∧ (∀ s, detail.decode (body.take q) [] = .ok s →
            ∃ st e, read_string held (ws ++ 0x22 :: body) dma
              = .ok (ws.length + 1 + q + 1, .STRING st e s))
        ∧ (∀ er, detail.decode (body.take q) [] = .error er →
            read_string held (ws ++ 0x22 :: body) dma = .error er)
        ∧ ((∀ c ∈ body.take q, c ≠ 0x5c) → detail.decode (body.take q) [] = .ok (body.take q)))
    ∧ (∀ c rest, white_space c = false → c ≠ 0x22 →
        ∃ p, read_string held (ws ++ c :: rest) dma = .error (.ParseError p))
    ∧ (∃ p, read_string held ws dma = .error (.ParseError p)) := by
  have hstart : read_string held (ws ++ 0x22 :: body) dma
      = read_string_loop held (ws ++ 0x22 :: body) dma true (ws.length + 1) false (ws.length + 1) body := by
    unfold read_string
    rw [read_string_loop_ws _ _ ws hws]
    simp [read_string_loop]
  have hdrop : (ws ++ 0x22 :: body).drop (ws.length + 1) = [] ++ body := by
    have : ws ++ 0x22 :: body = (ws ++ [0x22]) ++ body := by simp
    rw [this, List.drop_left']
    · rfl
    · simp
  have hN := @read_string_loop_normal held (ws ++ 0x22 :: body) dma (ws.length + 1) body.length body
    (le_refl _) [] false (ws.length + 1) hdrop rfl (by simp)
  refine ⟨?_, ?_, rfl, ?_, ?_, ?_⟩
  · intro hq
    rw [hstart]
    exact hN.1 hq
  · intro b hb
    exact closing_quote_no_quote b.length b (le_refl _) hb
  · intro q hq
    refine ⟨closing_quote_at body.length body q (le_refl _) hq, ?_, ?_, ?_⟩
    · intro s hs
      rw [hstart]
      exact (hN.2 q hq).1 s (by simpa using hs)
    · intro er her
      rw [hstart]
      exact (hN.2 q hq).2 er (by simpa using her)
    · intro h
      exact detail.decode_plain _ h
  · intro c rest hc hcq
    refine ⟨ws.length, ?_⟩
    unfold read_string
    rw [read_string_loop_ws _ _ ws hws]
    simp [read_string_loop, hc, hcq]
  · refine ⟨ws.length, ?_⟩
    unfold read_string
    have := @read_string_loop_ws held ws dma ws hws 0 []
    rw [List.append_nil] at this
    rw [this]
    simp [read_string_loop]

/-- C20 at work: in the text of a space and `"a\"b"c` the first quote that is
not escaped is at offset 4 of the body, and the content is `a"b`. -/
theorem read_string_closing_quote_witness :
    ∃ st e, read_string false [0x20, 0x22, 0x61, 0x5c, 0x22, 0x62, 0x22, 0x63] true
      = .ok (7, .STRING st e [0x61, 0x22, 0x62]) :=
  ((read_string_closing_quote [0x20] [0x61, 0x5c, 0x22, 0x62, 0x22, 0x63] true false
    (by decide)).2.2.2.1 4 rfl).2.1 _ rfl

/-- C21, evaluated at a failing input: the String `abc`, built by `assign` with
the default `AUTO_DETECT` and no zero-copy as the constructor from a C string
does, is held inline; the cast operator to `tstring` returns `*_s` although `_s`
is not the member of the union in use, which is undefined, where the claim has
the content `abc`, which the accessor `s() const` does give; the Value is then
in owned storage, with `_e` read from bit 1 of the length 3. -/
theorem cast_tstring_inline_undefined :
    assign [0x61, 0x62, 0x63] AUTO_DETECT false = .STRING .sso false [0x61, 0x62, 0x63]
    ∧ (assign [0x61, 0x62, 0x63] AUTO_DETECT false).cast_tstring = .error .Undefined
    ∧ (assign [0x61, 0x62, 0x63] AUTO_DETECT true).cast_tstring = .error .Undefined
    ∧ (assign [0x61, 0x62, 0x63] AUTO_DETECT false).s_const
        = .ok ([0x61, 0x62, 0x63], .STRING .owned true [0x61, 0x62, 0x63])
    ∧ (assign [0x61, 0x62, 0x63] NEED_ESCAPE false).cast_tstring = .ok [0x61, 0x62, 0x63] :=
  ⟨rfl, rfl, rfl, rfl, rfl⟩

/-- C23: `get<T>(key, default)`, for `T = int64_t` and `T = tstring`, fails with
a type error on every Value that is not an Object, Nil included; on an Object
with no member named `key` it gives `default`; on an Object with such a member
it gives what `get<T>(default)` gives on that member, so `default` when the
member is Nil.  The method is `const` and looks the key up with `find`; the
model has it as a function of the Value, which it does not change. -/
theorem get_key_default (fmt : Dbl → tstring) (key : tstring) (value : Int)
    (tvalue : tstring) :
    (∀ v : Value, v.type ≠ .OBJECT →
      v.get_key_int64 key value = .error .TypeError
      ∧ v.get_key_tstring fmt key tvalue = .error .TypeError)
    ∧ (∀ o : List (tstring × Value), (∀ p ∈ o, p.1 ≠ key) →
      (Value.OBJECT o).get_key_int64 key value = .ok value
      ∧ (Value.OBJECT o).get_key_tstring fmt key tvalue = .ok tvalue)
    ∧ (∀ (o : List (tstring × Value)) (m : Value), map_find o key = some m →
      (key, m) ∈ o
      ∧ (Value.OBJECT o).get_key_int64 key value = m.get_int64 value
      ∧ (Value.OBJECT o).get_key_tstring fmt key tvalue = m.get_tstring fmt tvalue)
    ∧ (∀ o : List (tstring × Value), map_find o key = some .NIL →
      (Value.OBJECT o).get_key_int64 key value = .ok value
      ∧ (Value.OBJECT o).get_key_tstring fmt key tvalue = .ok tvalue)
    ∧ (∀ o : List (tstring × Value), (∃ m, map_find o key = some m) ∨ ∀ p ∈ o, p.1 ≠ key) := by
  refine ⟨?_, ?_, ?_, ?_, ?_⟩
  · intro v hv
    cases v <;> first | exact ⟨rfl, rfl⟩ | exact absurd rfl hv
  · intro o ho
    have h := (map_find_none o key).mpr ho
    simp only [Value.get_key_int64, Value.get_key_tstring, h, and_self]
  · intro o m h
    refine ⟨map_find_mem o key m h, ?_, ?_⟩
    · simp only [Value.get_key_int64, h, Value.get_int64]
    · simp only [Value.get_key_tstring, h, Value.get_tstring]
  · intro o h
    simp only [Value.get_key_int64, Value.get_key_tstring, h, internal_type_casting_int64,
      internal_type_casting_tstring, and_self]
  · intro o
    cases h : map_find o key with
    | none => exact Or.inr ((map_find_none o key).mp h)
    | some m => exact Or.inl ⟨m, rfl⟩

/-- C23 at the Object `{"a":null,"b":"7"}`: the key `c` is absent, the member
`a` is Nil, the member `b` is cast. -/
theorem get_key_default_witness :
    (Value.OBJECT [([0x61], .NIL), ([0x62], .STRING .owned false [0x37])]).get_key_int64
        [0x63] 5 = .ok 5
    ∧ (Value.OBJECT [([0x61], .NIL), ([0x62], .STRING .owned false [0x37])]).get_key_int64
        [0x61] 5 = .ok 5
    ∧ (Value.OBJECT [([0x61], .NIL), ([0x62], .STRING .owned false [0x37])]).get_key_int64
        [0x62] 5 = .ok 7
    ∧ Value.NIL.get_key_int64 [0x61] 5 = .error .TypeError :=
  ⟨((get_key_default Dbl.text [0x63] 5 []).2.1
     [([0x61], .NIL), ([0x62], .STRING .owned false [0x37])] (by simp)).1,
   ((get_key_default Dbl.text [0x61] 5 []).2.2.2.1
     [([0x61], .NIL), ([0x62], .STRING .owned false [0x37])] rfl).1,
   rfl,
   ((get_key_default Dbl.text [0x61] 5 []).1 .NIL (by decide)).1⟩

/-- C24, evaluated at a failing input: the String `abcdefgh` held inline (after
`assign` with `DONT_ESCAPE` and no zero-copy) and the same content in owned
storage (after `assign` with `NEED_ESCAPE`) are not `==`, because `length()` of
the inline one is not 8; and the inline one compared with itself has `memcmp`
read `2 ^ 64 - 8` bytes, which is undefined. -/
theorem eq_inline_string_fails :
    (assign [0x61, 0x62, 0x63, 0x64, 0x65, 0x66, 0x67, 0x68] DONT_ESCAPE false).eq
        (fun _ _ => false) (assign [0x61, 0x62, 0x63, 0x64, 0x65, 0x66, 0x67, 0x68] NEED_ESCAPE false)
      = .ok false
    ∧ (assign [0x61, 0x62, 0x63, 0x64, 0x65, 0x66, 0x67, 0x68] DONT_ESCAPE false).eq
        (fun _ _ => false) (assign [0x61, 0x62, 0x63, 0x64, 0x65, 0x66, 0x67, 0x68] DONT_ESCAPE false)
      = .error .Undefined
    ∧ (assign [0x61, 0x62, 0x63, 0x64, 0x65, 0x66, 0x67] DONT_ESCAPE false).eq
        (fun _ _ => false) (assign [0x61, 0x62, 0x63, 0x64, 0x65, 0x66, 0x67] NEED_ESCAPE false)
      = .ok true :=
  ⟨rfl, rfl, rfl⟩

/-- C25, evaluated at a failing input: in the wide width, with units of 4 bytes
as with units of 2 bytes, the strings `ab` and `ac`, which differ in their last
unit, are `==`: `memcmp` is given the 2 of `length()` as its count of bytes and
looks at no more than the first unit. -/
theorem wide_strings_differing_are_eq :
    wstring_eq 4 [0x61, 0x62] [0x61, 0x63] = .ok true
    ∧ wstring_eq 2 [0x61, 0x62] [0x61, 0x63] = .ok true
    ∧ wstring_eq 4 [0x61, 0x62, 0x63, 0x64] [0x61, 0x78, 0x79, 0x7a] = .ok true
    ∧ wstring_eq 4 [0x61, 0x62] [0x62, 0x62] = .ok false :=
  ⟨rfl, rfl, rfl, rfl⟩

/-- C26, evaluated where the height is not the depth plus one: while `read` is
inside the text `[[]]`, after the first `[` one array is open and the stack
holds one entry (the pointer to `*this`, which is that array), and after the
second `[` two arrays are open and the stack holds two entries. -/
theorem read_stack_height_is_depth :
    brackets 2 = [0x5b, 0x5b, 0x5d, 0x5d]
    ∧ (read_run (brackets 2) true 1 read_init).map (fun st => (st.pos, st.pv.length)) = some (1, 1)
    ∧ (read_run (brackets 2) true 2 read_init).map (fun st => (st.pos, st.pv.length)) = some (2, 2)
    ∧ (read_run (brackets 2) true 3 read_init).map (fun st => (st.pos, st.pv.length)) = some (3, 1)
    ∧ read (brackets 2) true = .ok (4, .ARRAY [.ARRAY []]) :=
  ⟨rfl, rfl, rfl, rfl, rfl⟩

/-- C26 (amended): the text of `n + 1` opening brackets followed by `n + 1`
closing brackets is read with success, `read` returns `2 * (n + 1)`, and the
Value is the Array nested `n + 1` levels deep whose innermost Array is empty.
`read` is the loop `read_loop` from the state `read_init`, whose stack holds
one entry; on these texts the stack holds `k + 1` entries after `k + 1` opening
brackets and `n - j` entries after `j + 1` closing brackets, which is the number
of arrays then open.  On every input the position goes up at every iteration,
at most as many iterations are run as the input has units, and the loop ends
within its budget of `len + 1` tests. -/
theorem read_nested_arrays (n : Nat) (dma : Bool) :
    read (brackets (n + 1)) dma = .ok (2 * (n + 1), nested_array n)
    ∧ nested_array 0 = .ARRAY []
    ∧ nested_array (n + 1) = .ARRAY [nested_array n]
    ∧ (∀ (inp : List Nat), read inp dma = read_loop inp dma (inp.length + 1) read_init)
    ∧ read_init.pv.length = 1
    ∧ (∀ k, k ≤ n → (read_run (brackets (n + 1)) dma (k + 1) read_init).map
          (fun st => (st.pos, st.pv.length)) = some (k + 1, k + 1))
    ∧ (∀ j, j < n → (read_run (brackets (n + 1)) dma (n + 1 + (j + 1)) read_init).map
          (fun st => (st.pos, st.pv.length)) = some (n + 1 + (j + 1), n - j))
    ∧ (∀ (inp : List Nat) (i : Nat) (st1 st2 : ReadState),
          read_run inp dma i read_init = some st1 →
          read_run inp dma (i + 1) read_init = some st2 → st1.pos < st2.pos)
    ∧ (∀ (inp : List Nat) (i : Nat) (st : ReadState),
          read_run inp dma i read_init = some st → i ≤ st.pos ∧ i ≤ inp.length)
    ∧ (∀ (inp : List Nat), read inp dma ≠ .error .Fuel) := by
  refine ⟨read_brackets n dma, rfl, rfl, fun _ => rfl, rfl, ?_, ?_, ?_, ?_, ?_⟩
  · intro k hk
    rw [read_run_opens (n + 1) dma k (by omega)]
    simp [bracket_stack_length]
  · intro j hj
    rw [read_run_closes n dma (j + 1) (by omega)]
    simp only [Option.map_some', bracket_stack_length, Option.some.injEq, Prod.mk.injEq, true_and]
    omega
  · intro inp i st1 st2 h1 h2
    exact read_run_pos_lt inp dma i st1 st2 h1 h2
  · intro inp i st h
    have hpos := (read_run_facts inp dma i _ st h pv_sorted_init (fun _ => rfl)).1
    have h0 : read_init.pos = 0 := rfl
    refine ⟨by omega, ?_⟩
    cases i with
    | zero => exact Nat.zero_le _
    | succ i =>
      obtain ⟨st1, c, tl, h1, _, hd, _⟩ := read_run_unsnoc inp dma i _ _ h pv_sorted_init
      have hp1 := (read_run_facts inp dma i _ st1 h1 pv_sorted_init (fun _ => rfl)).1
      have hlt : st1.pos < inp.length := by
        by_contra hh
        rw [List.drop_eq_nil_of_le (by omega)] at hd
        simp at hd
      omega
  · intro inp
    exact read_loop_no_fuel inp dma _ _ pv_sorted_init (by omega) (by simp)

/-- C26 at the text `[[[]]]`: after the third `[` the stack holds three entries. -/
theorem read_nested_arrays_witness :
    (2 : Nat) ≤ 2
    ∧ (read_run (brackets 3) true 3 read_init).map (fun st => (st.pos, st.pv.length))
        = some (3, 3) :=
  ⟨by decide, (read_nested_arrays 2 true).2.2.2.2.2.1 2 (by decide)⟩

/-- C27: `write` appends `null` for Nil, `true` or `false` for a Boolean, `{}`
for an empty Object and `[]` for an empty Array; for an Object whose member
values are written as `texts` it appends `{`, the entries `"` encode(key) `":`
text with one `,` between two of them, and `}`; for an Array whose elements are
written as `texts` it appends `[`, the texts with one `,` between two of them,
and `]`.  What is appended does not depend on what `out` holds.  When no Float
text is empty or ends in a `,`, a written text is not empty and does not end
in a `,`, and in the text of a container no `,` stands before the closing
bracket.  When no key, no String content and no Float text of the Value holds
white space, its text holds none. -/
theorem write_shape (fmt : Dbl → tstring) (out : tstring) :
    Value.NIL.write fmt out = .ok (out ++ [0x6e, 0x75, 0x6c, 0x6c])
    ∧ (Value.BOOLEAN true).write fmt out = .ok (out ++ [0x74, 0x72, 0x75, 0x65])
    ∧ (Value.BOOLEAN false).write fmt out = .ok (out ++ [0x66, 0x61, 0x6c, 0x73, 0x65])
    ∧ (Value.OBJECT []).write fmt out = .ok (out ++ [0x7b, 0x7d])
    ∧ (Value.ARRAY []).write fmt out = .ok (out ++ [0x5b, 0x5d])
    ∧ (∀ (o : List (tstring × Value)) (texts : List tstring),
        List.Forall₂ (fun kv t => kv.2.write fmt [] = .ok t) o texts →
        (Value.OBJECT o).write fmt out = .ok (out ++ ([0x7b] ++ List.intercalate [0x2c]
          (List.zipWith (fun kv t => [0x22] ++ detail.encode kv.1 [] ++ [0x22, 0x3a] ++ t)
            o texts) ++ [0x7d])))
    ∧ (∀ (a : List Value) (texts : List tstring),
        List.Forall₂ (fun v t => v.write fmt [] = .ok t) a texts →
        (Value.ARRAY a).write fmt out
          = .ok (out ++ ([0x5b] ++ List.intercalate [0x2c] texts ++ [0x5d])))
    ∧ (∀ (v : Value) (t : tstring), v.write fmt [] = .ok t → v.write fmt out = .ok (out ++ t))
    ∧ ((∀ f, fmt f ≠ [] ∧ (fmt f).getLast? ≠ some 0x2c) →
        ∀ (v : Value) (t : tstring), v.write fmt [] = .ok t →
          t ≠ [] ∧ t.getLast? ≠ some 0x2c
            ∧ (v.type = .OBJECT ∨ v.type = .ARRAY → t.dropLast.getLast? ≠ some 0x2c))
    ∧ (∀ (v : Value) (t : tstring), v.write fmt [] = .ok t → v.packed fmt = true →
        no_white_space t = true) := by
  have hsep : ∀ (opn cls : Nat) (es : List (List Nat)), opn ≠ 0x2c →
      close_container opn cls (out ++ [opn] ++ (es.map (fun x => x ++ [0x2c])).flatten)
        = out ++ ([opn] ++ List.intercalate [0x2c] es ++ [cls]) := by
    intro opn cls es hne
    by_cases hes : es = []
    · subst hes
      simp [close_container, List.intercalate]
    · rw [close_container_text opn cls out _ hne (fun _ => getLast?_join_sep 0x2c es hes),
        dropLast_join_sep 0x2c es hes]
  refine ⟨rfl, rfl, rfl, ?_, ?_, ?_, ?_, ?_, ?_, ?_⟩
  · simp [Value.write, write_members, close_container]
  · simp [Value.write, write_elems, close_container]
  · intro o texts h
    simp only [Value.write, write_members_texts fmt o texts _ h]
    rw [hsep 0x7b 0x7d _ (by decide)]
  · intro a texts h
    simp only [Value.write, write_elems_texts fmt a texts _ h]
    rw [hsep 0x5b 0x5d _ (by decide)]
  · intro v t h
    exact write_append fmt v t h out
  · intro hf v t h
    exact write_tail fmt hf v t h
  · intro v t h hp
    exact write_packed fmt v [] t h hp rfl

/-- C27 at the Object of the members `a`, which holds 1, and `b`, which holds an
empty Array: the text is `{"a":1,"b":[]}`. -/
theorem write_shape_witness :
    List.Forall₂ (fun (kv : tstring × Value) t => kv.2.write Dbl.text [] = .ok t)
        [([0x61], .INTEGER 1), ([0x62], .ARRAY [])] [[0x31], [0x5b, 0x5d]]
    ∧ (Value.OBJECT [([0x61], .INTEGER 1), ([0x62], .ARRAY [])]).write Dbl.text []
        = .ok [0x7b, 0x22, 0x61, 0x22, 0x3a, 0x31, 0x2c, 0x22, 0x62, 0x22, 0x3a, 0x5b, 0x5d, 0x7d] :=
  ⟨List.Forall₂.cons rfl (List.Forall₂.cons rfl List.Forall₂.nil),
   (write_shape Dbl.text []).2.2.2.2.2.1 [([0x61], .INTEGER 1), ([0x62], .ARRAY [])]
     [[0x31], [0x5b, 0x5d]] (List.Forall₂.cons rfl (List.Forall₂.cons rfl List.Forall₂.nil))⟩

/-- C28, evaluated at a failing input: after `assign` of the 8 units `abcdefgh`
with `DONT_ESCAPE` and no zero-copy the String is held inline and its content is
those units, but `length()` is `2 ^ 64 - 8`: the signed 4-bit field `_sso_len`
holds -8 after `_sso_len = 8`.  With 7 units `length()` is 7; with 15 units it
is `2 ^ 64 - 1`; in borrowed or owned storage it is the length of the content. -/
theorem assign_inline_length_wraps :
    assign [0x61, 0x62, 0x63, 0x64, 0x65, 0x66, 0x67, 0x68] DONT_ESCAPE false
      = .STRING .sso false [0x61, 0x62, 0x63, 0x64, 0x65, 0x66, 0x67, 0x68]
    ∧ (assign [0x61, 0x62, 0x63, 0x64, 0x65, 0x66, 0x67, 0x68] DONT_ESCAPE false).c_str
      = .ok [0x61, 0x62, 0x63, 0x64, 0x65, 0x66, 0x67, 0x68]
    ∧ (assign [0x61, 0x62, 0x63, 0x64, 0x65, 0x66, 0x67, 0x68] DONT_ESCAPE false).length
      = .ok 18446744073709551608
    ∧ (assign [0x61, 0x62, 0x63, 0x64, 0x65, 0x66, 0x67] DONT_ESCAPE false).length = .ok 7
    ∧ (assign (List.replicate 15 0x61) DONT_ESCAPE false).length = .ok 18446744073709551615
    ∧ (assign (List.replicate 16 0x61) DONT_ESCAPE false).length = .ok 16
    ∧ (assign [0x61, 0x62, 0x63, 0x64, 0x65, 0x66, 0x67, 0x68] DONT_ESCAPE true).length = .ok 8
    ∧ (assign [0x61, 0x62, 0x63, 0x64, 0x65, 0x66, 0x67, 0x68] NEED_ESCAPE false).length = .ok 8 :=
  ⟨rfl, rfl, rfl, rfl, rfl, rfl, rfl, rfl⟩

/-- C29: in the wide width with 32-bit units, for a unit `c` from `0x10000` to
`0x10FFFF` `encode` appends the 12 units `\uHHHH\uLLLL`, where `HHHH` are the
four lowercase hexadecimal digits of `0xD800 + ((c - 0x10000) >> 10)` and `LLLL`
those of `0xDC00 + ((c - 0x10000) & 0x3FF)`, and `decode` of these 12 units
appends the one unit `c`; for a unit `c` from `0x80` to `0xFFFF` outside
`[0xD800, 0xDC00)` `encode` appends the 6 units `\uXXXX` and `decode` of them
appends `c`.  `decode` of `a\nb\u00e9` gives the 4 units `a`, newline, `b`,
U+00E9, and `encode` of these gives `a\nb\u00e9` again. -/
theorem wide_escape_round_trip (c : Nat) (out : tstring) :
    (0x10000 ≤ c → c ≤ 0x10FFFF →
      detail.encode_w [c] out = out ++ (0x5c :: 0x75 :: hex4_lower (0xD800 + ((c - 0x10000) >>> 10))
          ++ 0x5c :: 0x75 :: hex4_lower (0xDC00 + ((c - 0x10000) &&& 0x3FF)))
      ∧ (detail.encode_w [c] []).length = 12
      ∧ detail.decode_w (detail.encode_w [c] []) out = .ok (out ++ [c]))
    ∧ (0x80 ≤ c → c ≤ 0xFFFF → ¬(0xD800 ≤ c ∧ c < 0xDC00) →
      detail.encode_w [c] out = out ++ 0x5c :: 0x75 :: hex4_lower c
      ∧ (detail.encode_w [c] []).length = 6
      ∧ detail.decode_w (detail.encode_w [c] []) out = .ok (out ++ [c]))
    ∧ hex4_lower 0xD83D = [0x64, 0x38, 0x33, 0x64]
    ∧ detail.decode_w [0x61, 0x5c, 0x6e, 0x62, 0x5c, 0x75, 0x30, 0x30, 0x65, 0x39] []
        = .ok [0x61, 0x0a, 0x62, 0xe9]
    ∧ detail.encode_w [0x61, 0x0a, 0x62, 0xe9] []
        = [0x61, 0x5c, 0x6e, 0x62, 0x5c, 0x75, 0x30, 0x30, 0x65, 0x39] := by
  refine ⟨?_, ?_, rfl, rfl, rfl⟩
  · intro h1 h2
    refine ⟨detail.encode_w_pair c out h1 h2, ?_, ?_⟩
    · rw [detail.encode_w_pair c [] h1 h2]
      simp [hex4_lower]
    · rw [detail.encode_w_pair c [] h1 h2, List.nil_append]
      exact detail.decode_w_pair c out h1 h2
  · intro h1 h2 hs
    refine ⟨detail.encode_w_single c out h1 h2, ?_, ?_⟩
    · rw [detail.encode_w_single c [] h1 h2]
      simp [hex4_lower]
    · rw [detail.encode_w_single c [] h1 h2, List.nil_append]
      exact detail.decode_w_single c out h2 hs

/-- C29 at U+1F600: the 12 units `\ud83d\ude00`, which `decode` turns back into
the one unit. -/
theorem wide_escape_round_trip_witness :
    (0x10000 : Nat) ≤ 0x1F600 ∧ (0x1F600 : Nat) ≤ 0x10FFFF
    ∧ detail.encode_w [0x1F600] []
        = [0x5c, 0x75, 0x64, 0x38, 0x33, 0x64, 0x5c, 0x75, 0x64, 0x65, 0x30, 0x30]
    ∧ detail.decode_w (detail.encode_w [0x1F600] []) [] = .ok [0x1F600] :=
  ⟨by decide, by decide,
   ((wide_escape_round_trip 0x1F600 []).1 (by decide) (by decide)).1,
   ((wide_escape_round_trip 0x1F600 []).1 (by decide) (by decide)).2.2⟩

/-- C30: for a code point `c` up to `0x7FFFFFFF`, `decode_unicode_append<char>`
leaves `out` as it is and appends the bytes `bs`: 1 byte if `c <= 0x7F`, 2 if
`c <= 0x7FF`, 3 if `c <= 0xFFFF`, 4 if `c <= 0x1FFFFF`, 5 if `c <= 0x3FFFFFF`
and 6 otherwise; the first byte carries the length marker of that count, every
further byte has the form `10xxxxxx`, the payload bits put one after the other
give `c`, and for `c <= 0x10FFFF` the bytes are the standard UTF-8 encoding of
`c`.  U+00E9 gives `0xC3 0xA9`. -/
theorem decode_unicode_append_utf8 (c : Nat) (out : tstring) (hc : c ≤ 0x7FFFFFFF) :
    ∃ b0 rest, detail.decode_unicode_append c out = out ++ b0 :: rest
      ∧ (b0 :: rest).length =
          (if c ≤ 0x7F then 1 else if c ≤ 0x7FF then 2 else if c ≤ 0xFFFF then 3
           else if c ≤ 0x1FFFFF then 4 else if c ≤ 0x3FFFFFF then 5 else 6)
      ∧ is_utf8_lead (b0 :: rest).length b0 = true
      ∧ (∀ b ∈ rest, is_utf8_trail b = true)
      ∧ utf8_value (b0 :: rest) = c
      ∧ (c ≤ 0x10FFFF → b0 :: rest = utf8 c)
      ∧ detail.decode_unicode_append 0xE9 out = out ++ [0xC3, 0xA9] := by
  have hb := decode_unicode_append_bytes c out hc
  have he : detail.decode_unicode_append 0xE9 out = out ++ [0xC3, 0xA9] :=
    decode_unicode_append_bytes 0xE9 out (by decide)
  by_cases h1 : c ≤ 0x7F
  · rw [if_pos h1] at hb
    refine ⟨_, _, hb, by simp [h1], ?_, by simp, ?_, ?_, he⟩
    · simp only [is_utf8_lead, List.length_singleton, decide_eq_true_eq]
      omega
    · simp [utf8_value, utf8_marker]
    · intro _
      rw [utf8, if_pos (by omega)]
  by_cases h2 : c ≤ 0x7FF
  · rw [if_neg h1, if_pos h2] at hb
    refine ⟨_, _, hb, by simp [h1, h2], ?_, ?_, ?_, ?_, he⟩
    · simp only [is_utf8_lead, List.length_cons, List.length_nil, Bool.and_eq_true,
        decide_eq_true_eq]
      omega
    · intro b hb2
      simp only [List.mem_singleton] at hb2
      subst hb2
      simp only [is_utf8_trail, Bool.and_eq_true, decide_eq_true_eq]
      omega
    · simp only [utf8_value, utf8_marker, List.foldl, List.length_cons, List.length_nil,
        List.getD_eq_getElem?_getD]
      simp
      omega
    · intro _
      rw [utf8, if_neg (by omega), if_pos (by omega)]
  by_cases h3 : c ≤ 0xFFFF
  · rw [if_neg h1, if_neg h2, if_pos h3] at hb
    refine ⟨_, _, hb, by simp [h1, h2, h3], ?_, ?_, ?_, ?_, he⟩
    · simp only [is_utf8_lead, List.length_cons, List.length_nil, Bool.and_eq_true,
        decide_eq_true_eq]
      omega
    · intro b hb2
      simp only [List.mem_cons, List.mem_singleton, List.not_mem_nil, or_false] at hb2
      rcases hb2 with rfl | rfl <;>
        (simp only [is_utf8_trail, Bool.and_eq_true, decide_eq_true_eq]; omega)
    · simp only [utf8_value, utf8_marker, List.foldl, List.length_cons, List.length_nil,
        List.getD_eq_getElem?_getD]
      simp
      omega
    · intro _
      rw [utf8, if_neg (by omega), if_neg (by omega), if_pos (by omega)]
  by_cases h4 : c ≤ 0x1FFFFF
  · rw [if_neg h1, if_neg h2, if_neg h3, if_pos h4] at hb
    refine ⟨_, _, hb, by simp [h1, h2, h3, h4], ?_, ?_, ?_, ?_, he⟩
    · simp only [is_utf8_lead, List.length_cons, List.length_nil, Bool.and_eq_true,
        decide_eq_true_eq]
      omega
    · intro b hb2
      simp only [List.mem_cons, List.mem_singleton, List.not_mem_nil, or_false] at hb2
      rcases hb2 with rfl | rfl | rfl <;>
        (simp only [is_utf8_trail, Bool.and_eq_true, decide_eq_true_eq]; omega)
    · simp only [utf8_value, utf8_marker, List.foldl, List.length_cons, List.length_nil,
        List.getD_eq_getElem?_getD]
      simp
      omega
    · intro _
      rw [utf8, if_neg (by omega), if_neg (by omega), if_neg (by omega)]
  by_cases h5 : c ≤ 0x3FFFFFF
  · rw [if_neg h1, if_neg h2, if_neg h3, if_neg h4, if_pos h5] at hb
    refine ⟨_, _, hb, by simp [h1, h2, h3, h4, h5], ?_, ?_, ?_, ?_, he⟩
    · simp only [is_utf8_lead, List.length_cons, List.length_nil, Bool.and_eq_true,
        decide_eq_true_eq]
      omega
    · intro b hb2
      simp only [List.mem_cons, List.mem_singleton, List.not_mem_nil, or_false] at hb2
      rcases hb2 with rfl | rfl | rfl | rfl <;>
        (simp only [is_utf8_trail, Bool.and_eq_true, decide_eq_true_eq]; omega)
    · simp only [utf8_value, utf8_marker, List.foldl, List.length_cons, List.length_nil,
        List.getD_eq_getElem?_getD]
      simp
      omega
    · intro h
      omega
  · rw [if_neg h1, if_neg h2, if_neg h3, if_neg h4, if_neg h5] at hb
    refine ⟨_, _, hb, by simp [h1, h2, h3, h4, h5], ?_, ?_, ?_, ?_, he⟩
    · simp only [is_utf8_lead, List.length_cons, List.length_nil, Bool.and_eq_true,
        decide_eq_true_eq]
      omega
    · intro b hb2
      simp only [List.mem_cons, List.mem_singleton, List.not_mem_nil, or_false] at hb2
      rcases hb2 with rfl | rfl | rfl | rfl | rfl <;>
        (simp only [is_utf8_trail, Bool.and_eq_true, decide_eq_true_eq]; omega)
    · simp only [utf8_value, utf8_marker, List.foldl, List.length_cons, List.length_nil,
        List.getD_eq_getElem?_getD]
      simp
      omega
    · intro h
      omega

/-- C30 at U+20AC, the euro sign: the three bytes `0xE2 0x82 0xAC`. -/
theorem decode_unicode_append_utf8_witness :
    (0x20AC : Nat) ≤ 0x7FFFFFFF
    ∧ ∃ b0 rest, detail.decode_unicode_append 0x20AC [0x61] = [0x61] ++ b0 :: rest
      ∧ (b0 :: rest).length =
          (if (0x20AC : Nat) ≤ 0x7F then 1 else if (0x20AC : Nat) ≤ 0x7FF then 2
           else if (0x20AC : Nat) ≤ 0xFFFF then 3
           else if (0x20AC : Nat) ≤ 0x1FFFFF then 4 else if (0x20AC : Nat) ≤ 0x3FFFFFF then 5
           else 6)
      ∧ is_utf8_lead (b0 :: rest).length b0 = true
      ∧ (∀ b ∈ rest, is_utf8_trail b = true)
      ∧ utf8_value (b0 :: rest) = 0x20AC
      ∧ ((0x20AC : Nat) ≤ 0x10FFFF → b0 :: rest = utf8 0x20AC)
      ∧ detail.decode_unicode_append 0xE9 [0x61] = [0x61] ++ [0xC3, 0xA9] :=
  ⟨by decide, decode_unicode_append_utf8 0x20AC [0x61] (by decide)⟩

/-- C31, evaluated at a failing input: on the String `abcdefgh` held inline
(after `assign` with `DONT_ESCAPE` and no zero-copy) the accessor `s()`, and
the const accessor `s()` too, ends in the `std::length_error` of
`new tstring(c_str(), length())`, because `length()` is `2 ^ 64 - 8`; the
String is not replaced by an owned copy.  On the inline String of 7 units and
on the borrowed String of 8 units the owned copy is made, with the flag set by
`s()` and kept by the const `s()`. -/
theorem s_accessor_inline_fails :
    (assign [0x61, 0x62, 0x63, 0x64, 0x65, 0x66, 0x67, 0x68] DONT_ESCAPE false).s
      = .error .LengthError
    ∧ (assign [0x61, 0x62, 0x63, 0x64, 0x65, 0x66, 0x67, 0x68] DONT_ESCAPE false).s_const
      = .error .LengthError
    ∧ (assign [0x61, 0x62, 0x63, 0x64, 0x65, 0x66, 0x67] DONT_ESCAPE false).s
      = .ok ([0x61, 0x62, 0x63, 0x64, 0x65, 0x66, 0x67],
          .STRING .owned true [0x61, 0x62, 0x63, 0x64, 0x65, 0x66, 0x67])
    ∧ (assign [0x61, 0x62, 0x63, 0x64, 0x65, 0x66, 0x67, 0x68] DONT_ESCAPE true).s
      = .ok ([0x61, 0x62, 0x63, 0x64, 0x65, 0x66, 0x67, 0x68],
          .STRING .owned true [0x61, 0x62, 0x63, 0x64, 0x65, 0x66, 0x67, 0x68])
    ∧ (assign [0x61, 0x62, 0x63, 0x64, 0x65, 0x66, 0x67, 0x68] DONT_ESCAPE true).s_const
      = .ok ([0x61, 0x62, 0x63, 0x64, 0x65, 0x66, 0x67, 0x68],
          .STRING .owned false [0x61, 0x62, 0x63, 0x64, 0x65, 0x66, 0x67, 0x68]) :=
  ⟨rfl, rfl, rfl, rfl, rfl⟩

/-- C32, refuted as stated: the String `a/b` assigned with `DONT_ESCAPE` and the
String `a/b` assigned with `NEED_ESCAPE` are `==`, and so are the String `a/b`
and what it is after a call of `s()`, but the first of each pair is written as
`"a/b"` and the second as `"a\/b"`. -/
theorem write_differs_on_equal_strings :
    (assign [0x61, 0x2f, 0x62] DONT_ESCAPE false).eq (fun _ _ => false)
        (assign [0x61, 0x2f, 0x62] NEED_ESCAPE false) = .ok true
    ∧ (assign [0x61, 0x2f, 0x62] DONT_ESCAPE false).write Dbl.text []
        = .ok [0x22, 0x61, 0x2f, 0x62, 0x22]
    ∧ (assign [0x61, 0x2f, 0x62] NEED_ESCAPE false).write Dbl.text []
        = .ok [0x22, 0x61, 0x5c, 0x2f, 0x62, 0x22]
    ∧ (assign [0x61, 0x2f, 0x62] AUTO_DETECT false).s
        = .ok ([0x61, 0x2f, 0x62], .STRING .owned true [0x61, 0x2f, 0x62])
    ∧ (assign [0x61, 0x2f, 0x62] AUTO_DETECT false).eq (fun _ _ => false)
        (.STRING .owned true [0x61, 0x2f, 0x62]) = .ok true
    ∧ (assign [0x61, 0x2f, 0x62] AUTO_DETECT false).write Dbl.text []
        = .ok [0x22, 0x61, 0x2f, 0x62, 0x22]
    ∧ (Value.STRING .owned true [0x61, 0x2f, 0x62]).write Dbl.text []
        = .ok [0x22, 0x61, 0x5c, 0x2f, 0x62, 0x22] :=
  ⟨rfl, rfl, rfl, rfl, rfl, rfl, rfl⟩

/-- C32 as amended: two Float-free Values that are `==` and whose Strings at the
same places agree on whether `write` passes them through `encode` (owned storage
with the flag set, as after `NEED_ESCAPE` or a call of `s()`) are written as the
same text, to every `out`; the storage of the Strings that are not passed
through `encode` does not matter. -/
theorem eq_implies_same_text (fmt : Dbl → tstring) (close : Dbl → Dbl → Bool) (v w : Value)
    (out : tstring) (hf : v.float_free = true) (h : v.eq close w = .ok true)
    (hm : v.same_mode w = true) :
    ∃ r, v.write fmt out = .ok r ∧ w.write fmt out = .ok r :=
  eq_write fmt close v w out hf h hm

/-- C32 as amended, at the Array of the inline String `a/b` and the Array of the
borrowed String `a/b`: both are written as `["a/b"]`. -/
theorem eq_implies_same_text_witness :
    (Value.ARRAY [assign [0x61, 0x2f, 0x62] DONT_ESCAPE false]).float_free = true
    ∧ (Value.ARRAY [assign [0x61, 0x2f, 0x62] DONT_ESCAPE false]).eq (fun _ _ => false)
        (Value.ARRAY [assign [0x61, 0x2f, 0x62] DONT_ESCAPE true]) = .ok true
    ∧ (Value.ARRAY [assign [0x61, 0x2f, 0x62] DONT_ESCAPE false]).same_mode
        (Value.ARRAY [assign [0x61, 0x2f, 0x62] DONT_ESCAPE true]) = true
    ∧ ∃ r, (Value.ARRAY [assign [0x61, 0x2f, 0x62] DONT_ESCAPE false]).write Dbl.text [] = .ok r
      ∧ (Value.ARRAY [assign [0x61, 0x2f, 0x62] DONT_ESCAPE true]).write Dbl.text [] = .ok r :=
  ⟨rfl, rfl, rfl, eq_implies_same_text Dbl.text (fun _ _ => false)
    (Value.ARRAY [assign [0x61, 0x2f, 0x62] DONT_ESCAPE false])
    (Value.ARRAY [assign [0x61, 0x2f, 0x62] DONT_ESCAPE true]) [] rfl rfl rfl⟩

/-- C33, evaluated at a failing input: in `{"a":1,"a":[]}` the second key `a`
finds the member that holds the Integer 1, so when the `[` is met the slot on
top of the stack holds an Integer; `PUSH_VALUE_TO_STACK` then calls `push_back`
through `_a` of that slot, which is undefined.  The same happens with `{` in
`{"a":1,"a":{}}`.  With a scalar after the repeated key the slot is overwritten,
and without a repeated key the slot is Nil. -/
theorem read_repeated_key_container_undefined :
    (read_run [0x7b, 0x22, 0x61, 0x22, 0x3a, 0x31, 0x2c, 0x22, 0x61, 0x22, 0x3a, 0x5b, 0x5d, 0x7d]
        true 11 read_init).map (fun st => (st.pos, st.pv.head?.map (fun f => f.val)))
      = some (11, some (.INTEGER 1))
    ∧ read [0x7b, 0x22, 0x61, 0x22, 0x3a, 0x31, 0x2c, 0x22, 0x61, 0x22, 0x3a, 0x5b, 0x5d, 0x7d] true
      = .error .Undefined
    ∧ read [0x7b, 0x22, 0x61, 0x22, 0x3a, 0x31, 0x2c, 0x22, 0x61, 0x22, 0x3a, 0x7b, 0x7d, 0x7d] true
      = .error .Undefined
    ∧ read [0x7b, 0x22, 0x61, 0x22, 0x3a, 0x31, 0x2c, 0x22, 0x61, 0x22, 0x3a, 0x32, 0x7d] true
      = .ok (13, .OBJECT [([0x61], .INTEGER 2)])
    ∧ read [0x7b, 0x22, 0x61, 0x22, 0x3a, 0x31, 0x2c, 0x22, 0x62, 0x22, 0x3a, 0x5b, 0x5d, 0x7d] true
      = .ok (14, .OBJECT [([0x61], .INTEGER 1), ([0x62], .ARRAY [])]) :=
  ⟨rfl, rfl, rfl, rfl, rfl⟩

/-- C34: `write` only appends.  If `write` of `v` to the empty buffer gives the
text `t`, then `write` of `v` to a buffer that holds `p` leaves `p` followed by
`t`; and whenever `write` of `v` to a buffer that holds `p` returns, what it
leaves is `p` followed by the text that `write` of `v` gives on the empty
buffer.  So it is when `p` ends in `{`, `[` or `,`: an empty Object written
after `{` leaves `{{}`, an empty Array written after `[` leaves `[[]`. -/
theorem write_only_appends (fmt : Dbl → tstring) (v : Value) (p : tstring) :
    (∀ t, v.write fmt [] = .ok t → v.write fmt p = .ok (p ++ t))
    ∧ (∀ r, v.write fmt p = .ok r → ∃ t, v.write fmt [] = .ok t ∧ r = p ++ t)
    ∧ (Value.OBJECT []).write fmt (p ++ [0x7b]) = .ok (p ++ [0x7b] ++ [0x7b, 0x7d])
    ∧ (Value.ARRAY []).write fmt (p ++ [0x5b]) = .ok (p ++ [0x5b] ++ [0x5b, 0x5d])
    ∧ (Value.ARRAY [.NIL]).write fmt (p ++ [0x2c])
        = .ok (p ++ [0x2c] ++ [0x5b, 0x6e, 0x75, 0x6c, 0x6c, 0x5d]) := by
  refine ⟨fun t h => write_append fmt v t h p, ?_, ?_, ?_, ?_⟩
  · intro r h
    obtain ⟨t, ht, hall⟩ := write_local fmt v p r h
    exact ⟨t, by rw [hall [], List.nil_append], ht⟩
  · exact write_append fmt (.OBJECT []) [0x7b, 0x7d] rfl _
  · exact write_append fmt (.ARRAY []) [0x5b, 0x5d] rfl _
  · exact write_append fmt (.ARRAY [.NIL]) [0x5b, 0x6e, 0x75, 0x6c, 0x6c, 0x5d] rfl _

/-- C34 at the Array `[1]` written to a buffer that holds `[`. -/
theorem write_only_appends_witness :
    (Value.ARRAY [.INTEGER 1]).write Dbl.text [] = .ok [0x5b, 0x31, 0x5d]
    ∧ (Value.ARRAY [.INTEGER 1]).write Dbl.text [0x5b] = .ok ([0x5b] ++ [0x5b, 0x31, 0x5d]) :=
  ⟨rfl, (write_only_appends Dbl.text (.ARRAY [.INTEGER 1]) [0x5b]).1 [0x5b, 0x31, 0x5d] rfl⟩

/-- C35: an optional `-` and an integer part, at the end of the input or before
a terminator, is accepted by `read_number` whatever its value is: the Integer
is the value when that lies in the signed 64-bit range, `2 ^ 63 - 1` when the
value is above the range and `-2 ^ 63` when it is below. -/
theorem read_number_clamps (ip tail : List Nat) (dma : Bool) (hip : is_int_part ip = true)
    (ht : ∀ c ∈ tail.head?, number_ending c = true) :
    (digits_value ip < 2 ^ 63 →
      read_number (ip ++ tail) dma = .ok (ip.length, .INTEGER (digits_value ip)))
    ∧ (2 ^ 63 ≤ digits_value ip →
      read_number (ip ++ tail) dma = .ok (ip.length, .INTEGER (2 ^ 63 - 1)))
    ∧ (digits_value ip ≤ 2 ^ 63 →
      read_number (0x2d :: ip ++ tail) dma
        = .ok (ip.length + 1, .INTEGER (-(digits_value ip : Int))))
    ∧ (2 ^ 63 < digits_value ip →
      read_number (0x2d :: ip ++ tail) dma = .ok (ip.length + 1, .INTEGER (-2 ^ 63))) := by
  have hpos := read_number_integer [] ip tail dma rfl hip ht
  have hneg := read_number_integer [0x2d] ip tail dma rfl hip ht
  simp only [List.nil_append, List.length_nil, Nat.zero_add, List.nil_eq, reduceCtorEq,
    if_false] at hpos
  simp only [List.singleton_append, List.length_singleton, if_true] at hneg
  rw [Nat.add_comm 1 ip.length] at hneg
  have e63 : ((2 : Nat) ^ 63 : Int) = (2 : Int) ^ 63 := by norm_num
  refine ⟨?_, ?_, ?_, ?_⟩
  · intro h
    have h2 : (digits_value ip : Int) < (2 : Int) ^ 63 := by
      rw [← e63]
      exact_mod_cast h
    rw [hpos, min_eq_left (by omega), max_eq_right (by omega)]
  · intro h
    have h2 : (2 : Int) ^ 63 ≤ (digits_value ip : Int) := by
      rw [← e63]
      exact_mod_cast h
    rw [hpos, min_eq_right (by omega), max_eq_right (by omega)]
  · intro h
    have h2 : (digits_value ip : Int) ≤ (2 : Int) ^ 63 := by
      rw [← e63]
      exact_mod_cast h
    rw [hneg, min_eq_left (by omega), max_eq_right (by omega)]
  · intro h
    have h2 : (2 : Int) ^ 63 < (digits_value ip : Int) := by
      rw [← e63]
      exact_mod_cast h
    rw [hneg, min_eq_left (by omega), max_eq_left (by omega)]

/-- C35 at `9223372036854775808` (`2 ^ 63`) before a `]`, which gives
`2 ^ 63 - 1`, and at `-9223372036854775809` at the end of the input, which
gives `-2 ^ 63`. -/
theorem read_number_clamps_witness :
    read_number ([0x39, 0x32, 0x32, 0x33, 0x33, 0x37, 0x32, 0x30, 0x33, 0x36, 0x38, 0x35, 0x34,
        0x37, 0x37, 0x35, 0x38, 0x30, 0x38] ++ [0x5d]) true
      = .ok (19, .INTEGER (2 ^ 63 - 1))
    ∧ read_number (0x2d :: [0x39, 0x32, 0x32, 0x33, 0x33, 0x37, 0x32, 0x30, 0x33, 0x36, 0x38,
        0x35, 0x34, 0x37, 0x37, 0x35, 0x38, 0x30, 0x39] ++ []) true
      = .ok (20, .INTEGER (-2 ^ 63)) :=
  ⟨(read_number_clamps [0x39, 0x32, 0x32, 0x33, 0x33, 0x37, 0x32, 0x30, 0x33, 0x36, 0x38, 0x35,
      0x34, 0x37, 0x37, 0x35, 0x38, 0x30, 0x38] [0x5d] true rfl
      (by simp [number_ending])).2.1 (by decide),
   (read_number_clamps [0x39, 0x32, 0x32, 0x33, 0x33, 0x37, 0x32, 0x30, 0x33, 0x36, 0x38, 0x35,
      0x34, 0x37, 0x37, 0x35, 0x38, 0x30, 0x39] [] true rfl
      (by simp)).2.2.2 (by decide)⟩

/-- C36, refuted as stated: on a Nil Value the index operator with the index -1
fails with the underflow error after it has turned the Value into an empty
Array, so the Value is not left unchanged. -/
theorem index_negative_changes_nil :
    Value.NIL.index (-1) = (.error .UnderflowError, .ARRAY [])
    ∧ (Value.ARRAY [.INTEGER 1]).index (-1) = (.error .UnderflowError, .ARRAY [.INTEGER 1])
    ∧ (Value.INTEGER 5).index (-1) = (.error .UnderflowError, .INTEGER 5) :=
  ⟨rfl, rfl, rfl⟩

/-- C36 as amended, for an index of type `int`: with `0 <= pos < 2 ^ 31 - 1` on
an Array of `n` elements, a Nil Value counting as the empty Array, the operator
returns the element `pos` and leaves an Array of `max(n, pos + 1)` elements of
which the first `n` are unchanged and the others are Nil; with `0 <= pos` on a
Value of another type it fails with a type error and leaves the Value as it
is; with a negative `pos` it fails with the underflow error and leaves the
Value as it is, except that a Nil Value is left as the empty Array. -/
theorem index_spec (v : Value) (pos : Int) :
    (0 ≤ pos → pos < 2 ^ 31 - 1 → ∀ a : List Value, (v = .ARRAY a ∨ (v = .NIL ∧ a = [])) →
      ∃ (a2 : List Value) (x : Value), v.index pos = (.ok x, .ARRAY a2)
        ∧ a2.length = max a.length (pos.toNat + 1)
        ∧ a2.take a.length = a
        ∧ (∀ j, a.length ≤ j → j < a2.length → a2[j]? = some .NIL)
        ∧ a2[pos.toNat]? = some x)
    ∧ (0 ≤ pos → v.type ≠ .NIL → v.type ≠ .ARRAY → v.index pos = (.error .TypeError, v))
    ∧ (pos < 0 → v.type ≠ .NIL → v.index pos = (.error .UnderflowError, v))
    ∧ (pos < 0 → v = .NIL → v.index pos = (.error .UnderflowError, .ARRAY [])) := by
  have key : ∀ a : List Value, 0 ≤ pos → pos < 2 ^ 31 - 1 →
      ∃ (a2 : List Value) (x : Value), (Value.ARRAY a).index pos = (.ok x, .ARRAY a2)
        ∧ a2.length = max a.length (pos.toNat + 1)
        ∧ a2.take a.length = a
        ∧ (∀ j, a.length ≤ j → j < a2.length → a2[j]? = some .NIL)
        ∧ a2[pos.toNat]? = some x := by
    intro a h0 h1
    have hn : ¬ pos < 0 := by omega
    by_cases hl : a.length ≤ pos.toNat
    · have hp : pos + 1 < 2 ^ 31 := by omega
      have hlen : (a ++ List.replicate (pos.toNat + 1 - a.length) Value.NIL).length
          = pos.toNat + 1 := by
        simp only [List.length_append, List.length_replicate]
        omega
      refine ⟨a ++ List.replicate (pos.toNat + 1 - a.length) Value.NIL,
        (a ++ List.replicate (pos.toNat + 1 - a.length) Value.NIL).getD pos.toNat Value.NIL,
        ?_, ?_, ?_, ?_, ?_⟩
      · simp only [Value.index, if_neg hn, if_pos hl, if_pos hp]
      · rw [hlen]
        omega
      · exact List.take_left _ _
      · intro j hj hj2
        rw [hlen] at hj2
        rw [List.getElem?_append_right hj, List.getElem?_replicate, if_pos (by omega)]
      · rw [List.getD_eq_getElem?_getD, List.getElem?_append_right hl, List.getElem?_replicate,
          if_pos (by omega)]
        rfl
    · have hlt : pos.toNat < a.length := by omega
      refine ⟨a, a.getD pos.toNat .NIL, ?_, ?_, ?_, ?_, ?_⟩
      · simp only [Value.index, if_neg hn, if_neg hl]
      · omega
      · exact List.take_length a
      · intro j hj hj2
        omega
      · rw [List.getD_eq_getElem?_getD, List.getElem?_eq_getElem hlt]
        rfl
  refine ⟨?_, ?_, ?_, ?_⟩
  · intro h0 h1 a ha
    rcases ha with rfl | ⟨rfl, rfl⟩
    · exact key a h0 h1
    · exact key [] h0 h1
  · intro h0 h1 h2
    have hn : ¬ pos < 0 := by omega
    cases v <;> first
      | exact absurd rfl h1
      | exact absurd rfl h2
      | simp only [Value.index, if_neg hn]
  · intro h0 h1
    cases v <;> first
      | exact absurd rfl h1
      | simp only [Value.index, if_pos h0]
  · intro h0 h1
    subst h1
    simp only [Value.index, if_pos h0]

/-- C36 as amended, at the Array `[1]` and the index 2: the Array becomes
`[1,null,null]`. -/
theorem index_spec_witness :
    (0 : Int) ≤ 2 ∧ (2 : Int) < 2 ^ 31 - 1
    ∧ ∃ (a2 : List Value) (x : Value), (Value.ARRAY [.INTEGER 1]).index 2 = (.ok x, .ARRAY a2)
        ∧ a2.length = max [Value.INTEGER 1].length ((2 : Int).toNat + 1)
        ∧ a2.take [Value.INTEGER 1].length = [.INTEGER 1]
        ∧ (∀ j, [Value.INTEGER 1].length ≤ j → j < a2.length → a2[j]? = some .NIL)
        ∧ a2[(2 : Int).toNat]? = some x :=
  ⟨by decide, by decide,
   (index_spec (.ARRAY [.INTEGER 1]) 2).1 (by decide) (by decide) [.INTEGER 1] (Or.inl rfl)⟩

/-- C37: a body without quote and backslash between two quotes, whatever its
units are (units below 0x20 such as a raw newline or tab included), is read by
`read_string` as the String whose content is the body; `read` accepts the text
`{"key":"body"}` for every such key and body and gives the Object whose member
`key` holds that String.  A raw newline and a raw tab are read so as a key, as a
member value and as an element; read into a Value that held no String, such a
String is in owned storage with `_e` cleared. -/
theorem read_string_raw_control (body tail key : List Nat) (dma held : Bool)
    (hb : ∀ c ∈ body, c ≠ 0x22 ∧ c ≠ 0x5c) :
    (∃ st e, read_string held (0x22 :: body ++ 0x22 :: tail) dma
      = .ok (body.length + 2, .STRING st e body))
    ∧ ((∀ c ∈ key, c ≠ 0x22 ∧ c ≠ 0x5c) →
      ∃ st e, read (0x7b :: 0x22 :: key ++ 0x22 :: 0x3a :: 0x22 :: body ++ [0x22, 0x7d]) dma
        = .ok (key.length + body.length + 7, .OBJECT [(key, .STRING st e body)]))
    ∧ read_string false [0x22, 0x0a, 0x09, 0x22] dma
      = .ok (4, .STRING .owned false [0x0a, 0x09])
    ∧ read [0x7b, 0x22, 0x0a, 0x22, 0x3a, 0x22, 0x09, 0x22, 0x7d] dma
      = .ok (9, .OBJECT [([0x0a], .STRING .owned false [0x09])])
    ∧ read [0x5b, 0x22, 0x0a, 0x22, 0x5d] dma = .ok (5, .ARRAY [.STRING .owned false [0x0a]]) :=
  ⟨read_string_plain body tail dma hb, fun hk => read_object_plain key body dma hk hb,
    rfl, rfl, rfl⟩

/-- C37 at the body of a raw newline followed by `a`, before a `,`. -/
theorem read_string_raw_control_witness :
    (∀ c ∈ [0x0a, 0x61], c ≠ 0x22 ∧ c ≠ 0x5c)
    ∧ ∃ st e, read_string false (0x22 :: [0x0a, 0x61] ++ 0x22 :: [0x2c]) true
      = .ok ([0x0a, 0x61].length + 2, .STRING st e [0x0a, 0x61]) :=
  ⟨by decide, (read_string_raw_control [0x0a, 0x61] [0x2c] [] true false (by decide)).1⟩

/-- C38: whenever `decode_unicode` returns, what it has passed to
`decode_unicode_append` is a code point `c` of at most `0x10FFFF`: at most
`0xFFFF` when one escape was taken (the count returned is 4), from `0x10000` to
`0x10FFFF` when a pair was taken (the count is 10); what was appended to `out`
is between 1 and 4 bytes.  `decode` reaches `decode_unicode_append` through
`decode_unicode` alone, at a `\u`. -/
theorem decode_unicode_code_point (inp : List Nat) (out : tstring) (n : Nat) (out2 : tstring)
    (h : detail.decode_unicode inp out = .ok (n, out2)) :
    (∃ c, out2 = detail.decode_unicode_append c out
      ∧ ((n = 4 ∧ c ≤ 0xFFFF) ∨ (n = 10 ∧ 0x10000 ≤ c ∧ c ≤ 0x10FFFF))
      ∧ c ≤ 0x10FFFF
      ∧ ∃ bs, out2 = out ++ bs ∧ 1 ≤ bs.length ∧ bs.length ≤ 4)
    ∧ (∀ f pos, detail.decodeLoop (f + 1) pos (0x5c :: 0x75 :: inp) out
        = detail.decodeLoop f (pos + 1 + n + 1) (inp.drop n) out2) := by
  refine ⟨?_, fun f pos => detail.decodeLoop_u_ok f pos inp out n out2 h⟩
  obtain ⟨c, hc, hr⟩ := detail.decode_unicode_value inp out n out2 h
  have hle : c ≤ 0x10FFFF := by
    rcases hr with ⟨_, h1⟩ | ⟨_, _, h1⟩ <;> omega
  refine ⟨c, hc, hr, hle, ?_⟩
  have hb := decode_unicode_append_bytes c out (by omega)
  rw [← hc] at hb
  refine ⟨_, hb, ?_, ?_⟩
  · split_ifs <;> simp
  · split_ifs <;> first | omega | simp

/-- C38 at the escape of U+00E9: the count is 4 and two bytes are appended. -/
theorem decode_unicode_code_point_witness :
    detail.decode_unicode [0x30, 0x30, 0x65, 0x39] [] = .ok (4, [0xC3, 0xA9])
    ∧ ∃ c, [0xC3, 0xA9] = detail.decode_unicode_append c []
      ∧ ((4 = 4 ∧ c ≤ 0xFFFF) ∨ (4 = 10 ∧ 0x10000 ≤ c ∧ c ≤ 0x10FFFF))
      ∧ c ≤ 0x10FFFF
      ∧ ∃ bs, [0xC3, 0xA9] = [] ++ bs ∧ 1 ≤ bs.length ∧ bs.length ≤ 4 :=
  ⟨rfl, (decode_unicode_code_point [0x30, 0x30, 0x65, 0x39] [] 4 [0xC3, 0xA9] rfl).1⟩

end JSON
